import Mathlib

/-!
# UnorderedMap: a separate-chaining hash map (`src/UnorderedMap/UnorderedMap.h`)

with the two string hash functions of `src/UnorderedMap/hash_functions.cpp`.

The C++ class keeps an array `_buckets` of singly linked chains of `HashNode`s, a
pointer `_head` to the first node of the global iteration order, a counter `_size`
and the two strategy objects `_hash` and `_equal`.

Embedding.
* A chain is the list of its nodes in link order; the `next` pointer of a node is the
  node that follows it in the list (`nullptr` after the last one).
* A pointer is `Option Nat`: `none` is `nullptr`, `some a` the address of a node.
  Every node carries its address, so that pointer comparisons (`temp == _head`,
  `node == temp`) are comparisons of addresses.
* Dereferencing a pointer that is null or that addresses no node of the map is
  undefined behaviour in C++; the operations return `none` there.
* `size_type` values are natural numbers.  `_size++` is not reduced modulo `2^64`
  (the counter counts live heap nodes); `_size--` wraps like the unsigned decrement.

The binary heap (`PQ`), the sorting routines (`Sorting`) and the binary search tree
(`BST`) of the repository follow the map, each with the notes on its embedding.
-/

set_option autoImplicit false

namespace UMap

/-! ## Prime sizing utility -/

/-- Trial-division primality test used by `next_greater_prime`. -/
def is_prime (n : Nat) : Bool :=
  decide (2 ≤ n) && (List.range n).all fun d => decide (d < 2) || n % d != 0

/-- Upward search for a prime, starting at the candidate `c`. -/
def next_prime_from : Nat → Nat → Nat
  | 0, c => c
  | fuel + 1, c => if is_prime c then c else next_prime_from fuel (c + 1)

/-- Modelled from the spec: `primes.h`, which declares `next_greater_prime`, is not among
the sources.  The spec (4.1) gives its contract: for a requested capacity `n ≥ 0` the
smallest prime `p ≥ n`, with `2` the result for `n ≤ 2`.  The search starts at
`max n 2` and walks upwards; by Bertrand's postulate a prime is met before the
candidate reaches `2 * max n 2`. -/
def next_greater_prime (n : Nat) : Nat :=
  next_prime_from (max n 2 + 1) (max n 2)

/-! ## Data model -/

/-- `struct HashNode`: the stored pair `val`; `addr` is the address of the node.  The
`next` link is the position of the node in its chain. -/
structure HashNode (K V : Type) where
  addr : Nat
  val : K × V
deriving DecidableEq, Repr

/-- The data members of `class UnorderedMap`. -/
structure UnorderedMap (K V : Type) where
  _bucket_count : Nat
  _buckets : List (List (HashNode K V))
  _head : Option Nat
  _size : Nat
  _hash : K → Nat
  _equal : K → K → Bool

variable {K V : Type}

/-- `_range_hash(hash_code, bucket_count)`. -/
def _range_hash (hash_code bucket_count : Nat) : Nat :=
  hash_code % bucket_count

/-- Conversion of an `int` to the 64-bit `size_t` / `unsigned long`: reduction modulo
`2^64`. -/
def to_size_t (x : Int) : Nat := (x % 2 ^ 64).toNat

/-- Dereference address `a` inside one chain: the node and its `next` pointer. -/
def chain_deref (a : Nat) : List (HashNode K V) → Option (HashNode K V × Option Nat)
  | [] => none
  | n :: rest =>
    if n.addr = a then some (n, rest.head?.map HashNode.addr) else chain_deref a rest

/-- Dereference address `a` in the heap formed by all chains of a bucket array. -/
def heap_deref (a : Nat) : List (List (HashNode K V)) → Option (HashNode K V × Option Nat)
  | [] => none
  | c :: cs =>
    match chain_deref a c with
    | some r => some r
    | none => heap_deref a cs

/-- The address handed out by `new HashNode`: one that no live node of the map has. -/
def fresh_addr (bs : List (List (HashNode K V))) : Nat :=
  (bs.flatten.map HashNode.addr).foldr max 0 + 1

/-- The `while` loop of `_find`: walk a chain until a node whose key is `_equal` to
`key`; the result is the pointer found (null at the end of the chain). -/
def find_walk (equal : K → K → Bool) (key : K) : List (HashNode K V) → Option Nat
  | [] => none
  | n :: rest => if equal n.val.1 key then some n.addr else find_walk equal key rest

/-- The `while` loop of `erase(iterator)`: `node` is the current node and the list its
successors; the node at address `temp` is unlinked when it is met as `node->next`. -/
def erase_walk (temp : Nat) : HashNode K V → List (HashNode K V) → List (HashNode K V)
  | node, [] => [node]
  | node, nx :: rest =>
    if nx.addr = temp then node :: rest else node :: erase_walk temp nx rest

/-- The loop of `bucket_size`, `for (it = begin(n); it != end(n); it++) { count++; }`, on
the nodes the local iterator still has to visit.  `count` is an `int`: `count++` at
`INT_MAX` is a signed overflow, which is undefined (`none`). -/
def count_walk : List (HashNode K V) → Int → Option Int
  | [], count => some count
  | _ :: rest, count =>
    if count + 1 ≤ 2147483647 then count_walk rest (count + 1) else none

namespace UnorderedMap

/-- `explicit UnorderedMap(size_type bucket_count, const Hash & hash, const key_equal & equal)`.
The constructor has no member initialisers for `_hash` and `_equal`: they are
default-constructed.  `Hash0` and `Pred0` are the functions computed by `Hash{}` and
`key_equal{}`. -/
def construct (Hash0 : K → Nat) (Pred0 : K → K → Bool) (bucket_count : Nat)
    (_hash_arg : K → Nat) (_equal_arg : K → K → Bool) : UnorderedMap K V :=
  { _size := 0
    _head := none
    _bucket_count := next_greater_prime bucket_count
    _buckets := List.replicate (next_greater_prime bucket_count) []
    _hash := Hash0
    _equal := Pred0 }

/-- `_bucket(const Key & key)`. -/
def _bucket (m : UnorderedMap K V) (key : K) : Nat :=
  _range_hash (m._hash key) m._bucket_count

/-- Dereference a node pointer of the map: the node and its `next` pointer. -/
def deref (m : UnorderedMap K V) (a : Nat) : Option (HashNode K V × Option Nat) :=
  heap_deref a m._buckets

/-- `_find(const Key & key)`: the pointer stored in the slot the walk stops at. -/
def _find (m : UnorderedMap K V) (key : K) : Option Nat :=
  find_walk m._equal key (m._buckets[m._bucket key]?.getD [])

/-- `find(const Key & key)`: the iterator `iterator(this, _find(key))`, given by its `_ptr`. -/
def find (m : UnorderedMap K V) (key : K) : Option Nat :=
  m._find key

/-- `begin()`. -/
def begin (m : UnorderedMap K V) : Option Nat := m._head

/-- `size()`. -/
def size (m : UnorderedMap K V) : Nat := m._size

/-- `bucket_count()`. -/
def bucket_count (m : UnorderedMap K V) : Nat := m._bucket_count

/-- `bucket_size(n)`: `int count = 0`, the loop, and `return count`, which converts the
`int` to `size_type`. -/
def bucket_size (m : UnorderedMap K V) (n : Nat) : Option Nat :=
  (count_walk (m._buckets[n]?.getD []) 0).map to_size_t

/-- The bucket scan of `basic_iterator::operator++`:
`while (index < _bucket_count - 1) { index++; if (array[index] != nullptr) ... }`.
The first argument is the loop variant `_bucket_count - 1 - index`, so the recursion
covers every iteration of the loop.  A constructed map has `_bucket_count >= 2`, so
`_bucket_count - 1` does not wrap. -/
def scan (m : UnorderedMap K V) : Nat → Nat → Option Nat
  | 0, _ => none
  | variant + 1, index =>
    if index < m._bucket_count - 1 then
      match m._buckets[index + 1]?.getD [] with
      | n :: _ => some n.addr
      | [] => scan m variant (index + 1)
    else none

/-- `basic_iterator::operator++` on the iterator `(this, _ptr)`: the new `_ptr`. -/
def incr (m : UnorderedMap K V) (_ptr : Option Nat) : Option (Option Nat) :=
  match _ptr with
  | none => none
  | some a =>
    match m.deref a with
    | none => none
    | some (n, next) =>
      if next ≠ none then some next
      else
        let index := m._bucket n.val.1
        some (m.scan (m._bucket_count - 1 - index) index)

/-- `_insert_into_bucket(bucket, value)`: the map afterwards and the new node.
`buckets1` is the array after `_buckets[bucket] = node`, `head1` and `head2` are
`_head` after the first and the second `if`; `_head->val` is read in the heap that
already holds the new node. -/
def _insert_into_bucket (m : UnorderedMap K V) (bucket : Nat) (value : K × V) :
    Option (UnorderedMap K V × Nat) :=
  let next := m._buckets[bucket]?.getD []
  let node : HashNode K V := ⟨fresh_addr m._buckets, value⟩
  let buckets1 := m._buckets.set bucket (node :: next)
  let head1 := if m._head = none then some node.addr else m._head
  match head1.bind fun a => heap_deref a buckets1 with
  | none => none
  | some (h, _) =>
    let head2 := if bucket ≤ m._bucket h.val.1 then some node.addr else head1
    some ({ m with _buckets := buckets1, _head := head2, _size := m._size + 1 }, node.addr)

/-- `insert(const value_type & value)` (the rvalue overload has the same body): the map
afterwards, the iterator and the flag. -/
def insert (m : UnorderedMap K V) (value : K × V) :
    Option (UnorderedMap K V × Option Nat × Bool) :=
  match m._find value.1 with
  | none =>
    match m._insert_into_bucket (m._bucket value.1) value with
    | none => none
    | some (m1, node) => some (m1, some node, true)
  | some temp => some (m, some temp, false)

/-- `operator[](const Key & key)`: the map afterwards and the node whose `val.second`
the returned reference denotes. -/
def index [Inhabited V] (m : UnorderedMap K V) (key : K) : Option (UnorderedMap K V × Nat) :=
  match m._find key with
  | none => m._insert_into_bucket (m._bucket key) (key, default)
  | some temp => some (m, temp)

/-- Assignment through the reference returned by `operator[]`: `node->val.second = v`. -/
def store (m : UnorderedMap K V) (node : Nat) (v : V) : UnorderedMap K V :=
  { m with _buckets := m._buckets.map fun c =>
      c.map fun n => if n.addr = node then { n with val := (n.val.1, v) } else n }

/-- `erase(iterator pos)`: the map afterwards and the returned iterator.  `size1` is
`_size` after `_size--`, `pos1` the iterator after `pos++` (taken before the node is
unlinked), `head1` is `_head` after the `if`, and `chain1` the chain of the bucket
after the unlinking. -/
def erase_it (m : UnorderedMap K V) (pos : Option Nat) :
    Option (UnorderedMap K V × Option Nat) :=
  match pos with
  | none => none
  | some temp =>
    let size1 := if m._size = 0 then 2 ^ 64 - 1 else m._size - 1
    match m.incr (some temp) with
    | none => none
    | some pos1 =>
      let head1 := if some temp = m._head then pos1 else m._head
      match m.deref temp with
      | none => none
      | some (t, _) =>
        let bucket_index := m._bucket t.val.1
        match m._buckets[bucket_index]?.getD [] with
        | [] => none
        | node :: rest =>
          let chain1 := if node.addr = temp then rest else erase_walk temp node rest
          some ({ m with _buckets := m._buckets.set bucket_index chain1,
                         _head := head1, _size := size1 }, pos1)

/-- `erase(const Key & key)`: the map afterwards and the number of removals. -/
def erase (m : UnorderedMap K V) (key : K) : Option (UnorderedMap K V × Nat) :=
  match m._find key with
  | none => some (m, 0)
  | some temp =>
    match m.erase_it (some temp) with
    | none => none
    | some (m1, _) => some (m1, 1)

/-- `clear()`: `while (_head != nullptr) erase(iterator(this, _head));`.  The first
argument bounds the number of iterations; `none` also stands for a run that needs more. -/
def clear : Nat → UnorderedMap K V → Option (UnorderedMap K V)
  | 0, m =>
    match m._head with
    | none => some m
    | some _ => none
  | fuel + 1, m =>
    match m._head with
    | none => some m
    | some h =>
      match m.erase_it (some h) with
      | none => none
      | some (m1, _) => clear fuel m1

/-- Global iteration `for (it = begin(); it != end(); ++it)`, started at `_ptr`: the
nodes visited.  The first argument bounds the number of steps. -/
def iterate (m : UnorderedMap K V) : Nat → Option Nat → Option (List (HashNode K V))
  | 0, _ => none
  | _ + 1, none => some []
  | fuel + 1, some a =>
    match m.deref a, m.incr (some a) with
    | some (n, _), some next =>
      match iterate m fuel next with
      | some rest => some (n :: rest)
      | none => none
    | _, _ => none

end UnorderedMap

/-! ## Well-formed maps -/

/-- The representation invariant of the map. -/
structure WF (m : UnorderedMap K V) : Prop where
  len : m._buckets.length = m._bucket_count
  pos : 0 < m._bucket_count
  resid : ∀ i n, n ∈ m._buckets[i]?.getD [] → m._bucket n.val.1 = i
  nodup : (m._buckets.flatten.map HashNode.addr).Nodup
  size_eq : m._size = m._buckets.flatten.length
  head_eq : m._head = m._buckets.flatten.head?.map HashNode.addr

/-- The state after `_insert_into_bucket` has added `value` to a well-formed map. -/
def with_node (m : UnorderedMap K V) (value : K × V) : UnorderedMap K V :=
  { m with
      _buckets := m._buckets.set (m._bucket value.1)
        (⟨fresh_addr m._buckets, value⟩ :: m._buckets[m._bucket value.1]?.getD [])
      _head := ((m._buckets.set (m._bucket value.1)
        (⟨fresh_addr m._buckets, value⟩ ::
          m._buckets[m._bucket value.1]?.getD [])).flatten.head?).map HashNode.addr
      _size := m._size + 1 }

/-- The state after `erase(iterator)` has unlinked the node at position `pre ++ t :: post`
of the iteration order, the node being `c1 ++ t :: c2` in chain `b`. -/
def without_node (m : UnorderedMap K V) (b : Nat) (c1 c2 pre post : List (HashNode K V)) :
    UnorderedMap K V :=
  { m with
      _buckets := m._buckets.set b (c1 ++ c2)
      _head := ((pre ++ post).head?).map HashNode.addr
      _size := m._size - 1 }

/-- The maps obtained from a freshly constructed one by `insert`, `operator[]` (with or
without an assignment through the returned reference), `erase` and `clear`. -/
inductive Reachable [Inhabited V] : UnorderedMap K V → Prop
  | construct (Hash0 : K → Nat) (Pred0 : K → K → Bool) (n : Nat) (hash : K → Nat)
      (equal : K → K → Bool) : Reachable (UnorderedMap.construct Hash0 Pred0 n hash equal)
  | insert (m : UnorderedMap K V) (value : K × V) (r : UnorderedMap K V × Option Nat × Bool) :
      Reachable m → m.insert value = some r → Reachable r.1
  | index (m : UnorderedMap K V) (key : K) (r : UnorderedMap K V × Nat) :
      Reachable m → m.index key = some r → Reachable r.1
  | assign (m : UnorderedMap K V) (key : K) (r : UnorderedMap K V × Nat) (v : V) :
      Reachable m → m.index key = some r → Reachable (r.1.store r.2 v)
  | erase (m : UnorderedMap K V) (key : K) (r : UnorderedMap K V × Nat) :
      Reachable m → m.erase key = some r → Reachable r.1
  | erase_it (m : UnorderedMap K V) (pos : Option Nat) (r : UnorderedMap K V × Option Nat) :
      Reachable m → m.erase_it pos = some r → Reachable r.1
  | clear (m : UnorderedMap K V) (fuel : Nat) (m1 : UnorderedMap K V) :
      Reachable m → m.clear fuel = some m1 → Reachable m1

/-- `it->second` for the iterator whose pointer is `it`. -/
def UnorderedMap.value_at (m : UnorderedMap K V) (it : Option Nat) : Option V :=
  match it with
  | none => none
  | some a => (m.deref a).map fun r => r.1.val.2

/-- `*it` for the iterator whose pointer is `it`. -/
def UnorderedMap.entry_at (m : UnorderedMap K V) (it : Option Nat) : Option (K × V) :=
  match it with
  | none => none
  | some a => (m.deref a).map fun r => r.1.val

/-- The requirement on the strategies: `equal` is an equivalence relation and keys that
are `equal` have the same `hash`. -/
structure Lawful (hash : K → Nat) (equal : K → K → Bool) : Prop where
  refl : ∀ a, equal a a = true
  symm : ∀ a b, equal a b = true → equal b a = true
  trans : ∀ a b c, equal a b = true → equal b c = true → equal a c = true
  hash_eq : ∀ a b, equal a b = true → hash a = hash b

/-- No two distinct nodes of the map hold `_equal` keys. -/
def KeysDistinct (m : UnorderedMap K V) : Prop :=
  ∀ x ∈ m._buckets.flatten, ∀ y ∈ m._buckets.flatten,
    m._equal x.val.1 y.val.1 = true → x.addr = y.addr

/-- Within every chain a node has a larger address than the nodes behind it.  As
`new HashNode` hands out an address above those of all live nodes, a larger address
means a later insertion: every chain has its most recently inserted node first. -/
def RecentFirst (m : UnorderedMap K V) : Prop :=
  ∀ i : Nat, (m._buckets[i]?.getD []).Pairwise fun a b => b.addr < a.addr

/-- `find(key)->second` when `find(key) != end()`. -/
def UnorderedMap.lookup (m : UnorderedMap K V) (key : K) : Option V :=
  m.value_at (m.find key)

/-- The calls a client can make on a map: `insert(value)`, `operator[](key)`,
`operator[](key) = v`, `erase(key)` and `clear()`. -/
inductive Op (K V : Type) where
  | insert (value : K × V)
  | index (key : K)
  | assign (key : K) (v : V)
  | erase (key : K)
  | clear

/-- The map after one call. -/
def UnorderedMap.apply [Inhabited V] (m : UnorderedMap K V) : Op K V → Option (UnorderedMap K V)
  | .insert value => (m.insert value).map fun r => r.1
  | .index key => (m.index key).map fun r => r.1
  | .assign key v => (m.index key).map fun r => r.1.store r.2 v
  | .erase key => (m.erase key).map fun r => r.1
  | .clear => m.clear m._size

/-- The map after a sequence of calls, the first call first. -/
def UnorderedMap.run [Inhabited V] (m : UnorderedMap K V) : List (Op K V) → Option (UnorderedMap K V)
  | [] => some m
  | op :: ops =>
    match m.apply op with
    | none => none
    | some m1 => m1.run ops

/-- The abstract view of one call: the map as a partial function from keys to values.
Given the bindings `f` before the call, the value bound to the key `j` after it:
`insert` and `operator[]` bind a key only when it is unbound, an assignment through
`operator[]` always binds it, `erase` and `clear` unbind. -/
def bind_step [Inhabited V] (equal : K → K → Bool) (f : K → Option V) : Op K V → K → Option V
  | .insert value, j =>
    if (f value.1).isSome then f j else if equal value.1 j then some value.2 else f j
  | .index key, j =>
    if (f key).isSome then f j else if equal key j then some default else f j
  | .assign key v, j => if equal key j then some v else f j
  | .erase key, j => if equal key j then none else f j
  | .clear, _ => none

/-- The bindings after a sequence of calls on an empty map, the first call first. -/
def bindings [Inhabited V] (equal : K → K → Bool) (ops : List (Op K V)) : K → Option V :=
  ops.foldl (bind_step equal) fun _ => none

/-! ## A concrete map

Natural-number keys hashed by the identity and compared by `==`; `scenario` is the
reference scenario of the spec: bucket count 5 and keys with hashes 0, 0, 1, 3 modulo
5 (the keys 0, 5, 1, 3) inserted in that order. -/

/-- The hash strategy of the example. -/
def ex_hash (k : Nat) : Nat := k

/-- The equality strategy of the example. -/
def ex_equal (a b : Nat) : Bool := a == b

/-- `UnorderedMap<Nat, Nat> m(5)`. -/
def ex_empty : UnorderedMap Nat Nat :=
  UnorderedMap.construct ex_hash ex_equal 5 ex_hash ex_equal

/-- The example after `insert({0, 100})`. -/
def ex_one : UnorderedMap Nat Nat :=
  { _bucket_count := 5, _buckets := [[⟨1, (0, 100)⟩], [], [], [], []], _head := some 1,
    _size := 1, _hash := ex_hash, _equal := ex_equal }

/-- The example after `insert({5, 105})`. -/
def ex_two : UnorderedMap Nat Nat :=
  { _bucket_count := 5, _buckets := [[⟨2, (5, 105)⟩, ⟨1, (0, 100)⟩], [], [], [], []],
    _head := some 2, _size := 2, _hash := ex_hash, _equal := ex_equal }

/-- The example after `insert({1, 101})`. -/
def ex_three : UnorderedMap Nat Nat :=
  { _bucket_count := 5,
    _buckets := [[⟨2, (5, 105)⟩, ⟨1, (0, 100)⟩], [⟨3, (1, 101)⟩], [], [], []],
    _head := some 2, _size := 3, _hash := ex_hash, _equal := ex_equal }

/-- The example after `insert({3, 103})`. -/
def scenario : UnorderedMap Nat Nat :=
  { _bucket_count := 5,
    _buckets := [[⟨2, (5, 105)⟩, ⟨1, (0, 100)⟩], [⟨3, (1, 101)⟩], [], [⟨4, (3, 103)⟩], []],
    _head := some 2, _size := 4, _hash := ex_hash, _equal := ex_equal }

/-- The maps obtained from the map `m0` by `insert`, `operator[]` (with or without an
assignment through the returned reference), `erase(key)`, `erase(iterator)` and `clear`. -/
inductive ReachableFrom [Inhabited V] (m0 : UnorderedMap K V) : UnorderedMap K V → Prop
  | start : ReachableFrom m0 m0
  | insert (m : UnorderedMap K V) (value : K × V) (r : UnorderedMap K V × Option Nat × Bool) :
      ReachableFrom m0 m → m.insert value = some r → ReachableFrom m0 r.1
  | index (m : UnorderedMap K V) (key : K) (r : UnorderedMap K V × Nat) :
      ReachableFrom m0 m → m.index key = some r → ReachableFrom m0 r.1
  | assign (m : UnorderedMap K V) (key : K) (r : UnorderedMap K V × Nat) (v : V) :
      ReachableFrom m0 m → m.index key = some r → ReachableFrom m0 (r.1.store r.2 v)
  | erase (m : UnorderedMap K V) (key : K) (r : UnorderedMap K V × Nat) :
      ReachableFrom m0 m → m.erase key = some r → ReachableFrom m0 r.1
  | erase_it (m : UnorderedMap K V) (pos : Option Nat) (r : UnorderedMap K V × Option Nat) :
      ReachableFrom m0 m → m.erase_it pos = some r → ReachableFrom m0 r.1
  | clear (m : UnorderedMap K V) (fuel : Nat) (m1 : UnorderedMap K V) :
      ReachableFrom m0 m → m.clear fuel = some m1 → ReachableFrom m0 m1

namespace UnorderedMap

/-- `bucket(const Key & key)`: `return _bucket(key);`. -/
def bucket (m : UnorderedMap K V) (key : K) : Nat := m._bucket key

/-- The members written by the copy and move constructors before any node is linked:
`_size = 0; _bucket_count = bucket_count; _head = nullptr;
_buckets = new HashNode *[_bucket_count] {};` with the given strategy members. -/
def blank (hash : K → Nat) (equal : K → K → Bool) (bucket_count : Nat) : UnorderedMap K V :=
  { _size := 0
    _bucket_count := bucket_count
    _head := none
    _buckets := List.replicate bucket_count []
    _hash := hash
    _equal := equal }

/-- The nodes met by the loop nest of the copy operations,
`for (index = 0; index < other._bucket_count; index++)` over
`for (node = other._buckets[index]; node != nullptr; node = node->next)`. -/
def nodes_in_order (other : UnorderedMap K V) : List (HashNode K V) :=
  (List.range other._bucket_count).flatMap fun index => other._buckets[index]?.getD []

/-- The body of that loop nest, `insert(node->val)`, run over the nodes in turn. -/
def insert_all (m : UnorderedMap K V) : List (HashNode K V) → Option (UnorderedMap K V)
  | [] => some m
  | node :: rest =>
    match m.insert node.val with
    | none => none
    | some r => insert_all r.1 rest

/-- Copy constructor `UnorderedMap(const UnorderedMap & other)`: the new map. -/
def copy_construct (other : UnorderedMap K V) : Option (UnorderedMap K V) :=
  insert_all (blank other._hash other._equal other._bucket_count) other.nodes_in_order

/-- Copy assignment `operator=(const UnorderedMap & other)` for `this != &other` (for
`this == &other` nothing is done): `dst` is `*this`, the result is `*this` afterwards.
`Hash0` and `Pred0` are the functions computed by `Hash{}` and `key_equal{}`; `fuel`
bounds the iterations of `clear()`.  After `clear()` every bucket slot is null, so the
`delete _buckets[i]` loop frees nothing. -/
def copy_assign (Hash0 : K → Nat) (Pred0 : K → K → Bool) (fuel : Nat)
    (dst other : UnorderedMap K V) : Option (UnorderedMap K V) :=
  match clear fuel { dst with _hash := Hash0, _equal := Pred0 } with
  | none => none
  | some m1 =>
    insert_all
      { m1 with _bucket_count := other._bucket_count,
                _buckets := List.replicate other._bucket_count [] }
      other.nodes_in_order

/-- `_move_content(src, dst)`: six `std::swap`s, one per member; the result is
`(src, dst)` afterwards. -/
def _move_content (src dst : UnorderedMap K V) : UnorderedMap K V × UnorderedMap K V :=
  ({ _hash := dst._hash, _equal := dst._equal, _size := dst._size,
     _bucket_count := dst._bucket_count, _head := dst._head, _buckets := dst._buckets },
   { _hash := src._hash, _equal := src._equal, _size := src._size,
     _bucket_count := src._bucket_count, _head := src._head, _buckets := src._buckets })

/-- Move constructor `UnorderedMap(UnorderedMap && other)`: the new map and `other`
afterwards. -/
def move_construct (Hash0 : K → Nat) (Pred0 : K → K → Bool) (other : UnorderedMap K V) :
    UnorderedMap K V × UnorderedMap K V :=
  _move_content (blank Hash0 Pred0 other._bucket_count) other

/-- Move assignment `operator=(UnorderedMap && other)` for `this != &other` (for
`this == &other` nothing is done): `*this` and `other` afterwards.  `fuel` bounds the
iterations of `clear()`. -/
def move_assign (fuel : Nat) (dst other : UnorderedMap K V) :
    Option (UnorderedMap K V × UnorderedMap K V) :=
  match clear fuel dst with
  | none => none
  | some m1 =>
    some (_move_content
      { m1 with _bucket_count := other._bucket_count,
                _buckets := List.replicate other._bucket_count [] }
      other)

end UnorderedMap

namespace UnorderedMap

end UnorderedMap

/-! ## Hash functions (`src/UnorderedMap/hash_functions.cpp`)

A `std::string` is the list of its bytes, each taken modulo 256.  Whether plain `char` is
a signed type is implementation-defined; the flag `char_is_signed` says which. -/

/-- The value of the `char` that holds the byte `byte`. -/
def char_value (char_is_signed : Bool) (byte : Nat) : Int :=
  if char_is_signed && decide (128 ≤ byte % 256) then (byte % 256 : Int) - 256
  else (byte % 256 : Int)

/-- The loop of `polynomial_rolling_hash::operator()`, from the state `(p, hash)`:
`hash += c * p; p = (p * b) % m;` with `b = 19` and `m = 3298534883309`, in 64-bit
unsigned arithmetic.  The result is `(p, hash)` after the loop. -/
def polynomial_rolling_loop (char_is_signed : Bool) : List Nat → Nat → Nat → Nat × Nat
  | [], p, hash => (p, hash)
  | byte :: rest, p, hash =>
    polynomial_rolling_loop char_is_signed rest
      ((p * 19) % 2 ^ 64 % 3298534883309)
      ((hash + (to_size_t (char_value char_is_signed byte) * p) % 2 ^ 64) % 2 ^ 64)

/-- `polynomial_rolling_hash::operator()`. -/
def polynomial_rolling_hash (char_is_signed : Bool) (str : List Nat) : Nat :=
  (polynomial_rolling_loop char_is_signed str 1 0).2

/-- The loop of `fnv1a_hash::operator()`: `hash = hash ^ c; hash = hash * prime;` with
`prime = 0x00000100000001B3`, in 64-bit unsigned arithmetic. -/
def fnv1a_loop (char_is_signed : Bool) : List Nat → Nat → Nat
  | [], hash => hash
  | byte :: rest, hash =>
    fnv1a_loop char_is_signed rest
      (((hash ^^^ to_size_t (char_value char_is_signed byte)) * 0x00000100000001B3) % 2 ^ 64)

/-- `fnv1a_hash::operator()`, with `basis = 0xCBF29CE484222325`. -/
def fnv1a_hash (char_is_signed : Bool) (str : List Nat) : Nat :=
  fnv1a_loop char_is_signed str 0xCBF29CE484222325

/-- The 64-bit FNV-1a digest of a byte string as the specification words it: start from
the basis and, for each byte in order, XOR the byte (a value 0..255) into the hash and
multiply by the prime modulo `2^64`. -/
def fnv1a_digest (str : List Nat) : Nat :=
  str.foldl (fun hash byte => ((hash ^^^ (byte % 256)) * 0x100000001B3) % 2 ^ 64)
    0xCBF29CE484222325

/-- The sum `c_i * (19^i mod 3298534883309)` over the character codes `c_i`, the first
of them having index `i`. -/
def polynomial_sum : Nat → List Int → Int
  | _, [] => 0
  | i, c :: rest => c * ((19 ^ i % 3298534883309 : Nat) : Int) + polynomial_sum (i + 1) rest

/-- The example map with entries only in the buckets 0 and 3: `UnorderedMap<Nat, Nat> m(5)`
after `insert({0, 100})` and `insert({3, 103})`. -/
def ex_sparse : UnorderedMap Nat Nat :=
  { _bucket_count := 5, _buckets := [[⟨1, (0, 100)⟩], [], [], [⟨2, (3, 103)⟩], []],
    _head := some 1, _size := 2, _hash := ex_hash, _equal := ex_equal }

/-- The polynomial digest of a string as the specification words it: the sum of
`c_i * (19^i mod 3298534883309)` over the character codes `c_i` of the string (each a value
0..255), reduced modulo `2^64`. -/
def polynomial_digest (str : List Nat) : Nat :=
  (polynomial_sum 0 (str.map fun byte => ((byte % 256 : Nat) : Int)) % 2 ^ 64).toNat

/-! ## `print_map` -/

/-- The `while (node)` loop of `print_map`: for each node of the chain
`os << "(" << node->val.first << ", " << node->val.second << ") "`.  `showK` and `showV`
are the texts that `operator<<` writes for a key and for a value; `os` is the text written
so far. -/
def print_chain (showK : K → String) (showV : V → String) :
    List (HashNode K V) → String → String
  | [], os => os
  | node :: rest, os =>
    print_chain showK showV rest
      (os ++ "(" ++ showK node.val.1 ++ ", " ++ showV node.val.2 ++ ") ")

/-- The `for` loop of `print_map` from the index `bucket` on; the first argument is the
loop variant `bucket_count() - bucket`.  A `size_t` is written in decimal, `std::endl`
writes a newline. -/
def print_buckets (showK : K → String) (showV : V → String) (m : UnorderedMap K V) :
    Nat → Nat → String → String
  | 0, _, os => os
  | variant + 1, bucket, os =>
    if bucket < m.bucket_count then
      print_buckets showK showV m variant (bucket + 1)
        (print_chain showK showV (m._buckets[bucket]?.getD []) (os ++ toString bucket ++ ": ")
          ++ "\n")
    else os

/-- `print_map(map, os)`: the text of the stream afterwards. -/
def print_map (showK : K → String) (showV : V → String) (m : UnorderedMap K V)
    (os : String) : String :=
  print_buckets showK showV m m.bucket_count 0 os

/-- The texts of a list one after the other. -/
def concat_all : List String → String
  | [] => ""
  | s :: rest => s ++ concat_all rest

/-- Line `i` of the dump as the specification words it: the decimal index, `": "`, then
`"(key, value) "` for each entry of the chain, then a newline. -/
def dump_line (showK : K → String) (showV : V → String) (m : UnorderedMap K V) (i : Nat) :
    String :=
  toString i ++ ": " ++
    concat_all ((m._buckets[i]?.getD []).map fun node =>
      "(" ++ showK node.val.1 ++ ", " ++ showV node.val.2 ++ ") ") ++ "\n"

end UMap

/-!
# PriorityQueue: a binary heap in a vector (`src/PriorityQueue/PriorityQueue.h`)

The container `c` is the list of its elements, `comp` the comparison object.  Reading
`c[i]` outside the container is undefined behaviour in C++; the operations return `none`
there (see `subscript_ok` for a reference that is formed but not read).  Indices are
natural numbers: a vector has fewer than `2^63` elements, so `2 * index + 2` does not
wrap; `index - 1` does at `index == 0`, see `parent`.
-/

namespace PQ

/-- The data members of `class PriorityQueue`. -/
structure PriorityQueue (T : Type) where
  c : List T
  comp : T → T → Bool

variable {T : Type}

/-- `parent(index)`: `(index - 1) / 2` on `size_t`.  For `index == 0` the subtraction
wraps to `2^64 - 1`. -/
def parent (index : Nat) : Nat := if index = 0 then (2 ^ 64 - 1) / 2 else (index - 1) / 2

/-- `left_child(index)`. -/
def left_child (index : Nat) : Nat := 2 * index + 1

/-- `right_child(index)`. -/
def right_child (index : Nat) : Nat := 2 * (index + 1)

/-- Forming the reference `c[i]` without reading it (`reference r = c[i];`).  An index
outside the container is undefined behaviour; a bounds-checked `operator[]` (`checked`:
a hardened or debug standard library) stops the program there, an unchecked one forms an
invalid reference and goes on. -/
def subscript_ok (checked : Bool) (cont : List T) (i : Nat) : Bool :=
  !checked || decide (i < cont.length)

/-- `upheap(index)` on the container `c`.  The references `parent_val` and `val` are
formed first and read only in `comp(parent_val, val)`, behind the test `index > 0`.  The
first argument bounds the depth of the recursion; `index` itself is enough, as
`parent(index) < index`. -/
def upheap (checked : Bool) (comp : T → T → Bool) : Nat → List T → Nat → Option (List T)
  | 0, cont, index =>
    if subscript_ok checked cont (parent index) && subscript_ok checked cont index then
      if index > 0 then
        match cont[parent index]?, cont[index]? with
        | some parent_val, some val => if comp parent_val val then none else some cont
        | _, _ => none
      else some cont
    else none
  | fuel + 1, cont, index =>
    if subscript_ok checked cont (parent index) && subscript_ok checked cont index then
      if index > 0 then
        match cont[parent index]?, cont[index]? with
        | some parent_val, some val =>
          if comp parent_val val then
            upheap checked comp fuel ((cont.set (parent index) val).set index parent_val)
              (parent index)
          else some cont
        | _, _ => none
      else some cont
    else none

/-- The choice of `max_child_index` in `downheap(index)`, for an `index` that is not a
leaf: the left child if there is no right child or `comp(c[right], c[left])`, the right
child otherwise. -/
def max_child_index (comp : T → T → Bool) (cont : List T) (index : Nat) : Option Nat :=
  if right_child index < cont.length then
    match cont[right_child index]?, cont[left_child index]? with
    | some r, some l => if comp r l then some (left_child index) else some (right_child index)
    | _, _ => none
  else some (left_child index)

/-- `downheap(index)` on the container `c`.  The first argument bounds the depth of the
recursion; `c.size()` is enough, as the child index is larger than `index`. -/
def downheap (comp : T → T → Bool) : Nat → List T → Nat → Option (List T)
  | 0, cont, index => if left_child index ≥ cont.length then some cont else none
  | fuel + 1, cont, index =>
    if left_child index ≥ cont.length then some cont
    else
      match max_child_index comp cont index with
      | none => none
      | some child =>
        match cont[index]?, cont[child]? with
        | some val, some child_val =>
          if comp val child_val then
            downheap comp fuel ((cont.set index child_val).set child val) child
          else some cont
        | _, _ => none

namespace PriorityQueue

/-- `PriorityQueue()`, with `comp` the comparison object `Compare{}`. -/
def mk_empty (comp : T → T → Bool) : PriorityQueue T := { c := [], comp := comp }

/-- `is_internal(index)`. -/
def is_internal (q : PriorityQueue T) (index : Nat) : Bool := left_child index < q.c.length

/-- `is_leaf(index)`. -/
def is_leaf (q : PriorityQueue T) (index : Nat) : Bool := left_child index ≥ q.c.length

/-- `top()`: `c.front()`, undefined on an empty container. -/
def top (q : PriorityQueue T) : Option T := q.c.head?

/-- `empty()`. -/
def empty (q : PriorityQueue T) : Bool := q.c.isEmpty

/-- `size()`. -/
def size (q : PriorityQueue T) : Nat := q.c.length

/-- `push(value)`: `c.push_back(value); upheap(c.size() - 1);`. -/
def push (checked : Bool) (q : PriorityQueue T) (value : T) : Option (PriorityQueue T) :=
  match upheap checked q.comp ((q.c ++ [value]).length - 1) (q.c ++ [value])
      ((q.c ++ [value]).length - 1) with
  | none => none
  | some c1 => some { q with c := c1 }

/-- `pop()`: `c.front() = std::move(c.back()); c.pop_back(); downheap(0);`, undefined on
an empty container. -/
def pop (q : PriorityQueue T) : Option (PriorityQueue T) :=
  match q.c.getLast? with
  | none => none
  | some back =>
    match downheap q.comp ((q.c.set 0 back).dropLast).length ((q.c.set 0 back).dropLast) 0 with
    | none => none
    | some c1 => some { q with c := c1 }

end PriorityQueue

/-- The requirement on `comp`: a strict weak ordering (irreflexive, transitive, and with
a transitive incomparability relation). -/
structure StrictWeak (comp : T → T → Bool) : Prop where
  irrefl : ∀ x, comp x x = false
  trans : ∀ x y z, comp x y = true → comp y z = true → comp x z = true
  incomp : ∀ x y z, comp x y = false → comp y x = false → comp y z = false →
    comp z y = false → comp x z = false

/-- The heap order: the element at `parent(i)` is not
`comp`-smaller than the element at `i`, for every index `i >= 1`. -/
def Heap (comp : T → T → Bool) (cont : List T) : Prop :=
  ∀ (i : Nat) (pv v : T), 0 < i → cont[parent i]? = some pv → cont[i]? = some v → comp pv v = false

/-- The heap order with the pair `(parent(k), k)` left out, as `upheap(k)` finds it: the
children of `k` are in order with the parent of `k`. -/
def UpInv (comp : T → T → Bool) (cont : List T) (k : Nat) : Prop :=
  (∀ (j : Nat) (pv v : T), 0 < j → j ≠ k → cont[parent j]? = some pv → cont[j]? = some v →
    comp pv v = false) ∧
  (∀ (j : Nat) (gv v : T), 0 < k → 0 < j → parent j = k → cont[parent k]? = some gv →
    cont[j]? = some v → comp gv v = false)

/-- The heap order with the pairs `(k, child of k)` left out, as `downheap(k)` finds it:
the children of `k` are in order with the parent of `k`. -/
def DownInv (comp : T → T → Bool) (cont : List T) (k : Nat) : Prop :=
  (∀ (j : Nat) (pv v : T), 0 < j → parent j ≠ k → cont[parent j]? = some pv → cont[j]? = some v →
    comp pv v = false) ∧
  (∀ (j : Nat) (gv v : T), 0 < k → 0 < j → parent j = k → cont[parent k]? = some gv →
    cont[j]? = some v → comp gv v = false)

/-- The queues obtained from an empty one by `push` and by `pop` on a non-empty queue,
every operation having defined behaviour. -/
inductive Reachable (checked : Bool) : PriorityQueue T → Prop
  | empty (comp : T → T → Bool) : Reachable checked (PriorityQueue.mk_empty comp)
  | push (q : PriorityQueue T) (value : T) (q1 : PriorityQueue T) :
      Reachable checked q → q.push checked value = some q1 → Reachable checked q1
  | pop (q q1 : PriorityQueue T) : Reachable checked q → q.pop = some q1 → Reachable checked q1

/-- `std::less<int>` on integers. -/
def less (a b : Int) : Bool := decide (a < b)

/-- The queue after pushing 3, 9, 5, 7 onto an empty `PriorityQueue<int>`. -/
def ex_queue : PriorityQueue Int := { c := [9, 7, 5, 3], comp := less }

end PQ

/-!
# Sorting (`src/Sorting/sorting.cpp`)

`partition` and `quick_sort` come first, then `insertion_sort`, `bubble_sort`, `merge` and
`merge_sort`.  The array is the list of its elements; the indices `left`, `right`, `i`,
`j`, `p` of `quick_sort` are `int`, modelled as integers with the 32-bit range made
explicit: an `int` expression whose value leaves the range, and an access outside the
array, are undefined behaviour, for which the functions return `none`.
-/

namespace Sorting

/-- The value of an `int` expression: signed overflow is undefined behaviour. -/
def int_val (x : Int) : Option Int :=
  if -2147483648 ≤ x ∧ x ≤ 2147483647 then some x else none

/-- Reading `array[i]`: undefined outside the array. -/
def read (array : List Int) (i : Int) : Option Int :=
  if 0 ≤ i then array[i.toNat]? else none

/-- `swap(array[i], array[j])`: `temp = array[i]; array[i] = array[j]; array[j] = temp`. -/
def swap (array : List Int) (i j : Int) : Option (List Int) :=
  match read array i, read array j with
  | some a, some b => some ((array.set i.toNat b).set j.toNat a)
  | _, _ => none

/-- The `for` loop of `partition`, from the state `(array, i, j)`; `*pivot` is
`array[right]`.  The first argument bounds the number of iterations: `right - j` is
enough. -/
def partition_loop (right : Int) : Nat → List Int → Int → Int → Option (List Int × Int)
  | 0, array, i, j => if j ≤ right - 1 then none else some (array, i)
  | variant + 1, array, i, j =>
    if j ≤ right - 1 then
      match read array j, read array right with
      | some aj, some pivot =>
        if aj < pivot then
          match int_val (i + 1) with
          | none => none
          | some i1 =>
            match (if i1 ≠ j then swap array i1 j else some array), int_val (j + 1) with
            | some array1, some j1 => partition_loop right variant array1 i1 j1
            | _, _ => none
        else
          match int_val (j + 1) with
          | some j1 => partition_loop right variant array i j1
          | none => none
      | _, _ => none
    else some (array, i)

/-- `partition(array, left, right)`: the array afterwards and the returned index. -/
def partition (array : List Int) (left right : Int) : Option (List Int × Int) :=
  match int_val (left - 1), int_val (right - 1) with
  | some i, some _ =>
    match partition_loop right (right - left).toNat array i left with
    | none => none
    | some (array1, i1) =>
      match int_val (i1 + 1) with
      | none => none
      | some p =>
        match swap array1 p right with
        | none => none
        | some array2 => some (array2, p)
  | _, _ => none

/-- `quick_sort(array, left, right)`.  The first argument bounds the depth of the
recursion: `right - left` is enough. -/
def quick_sort : Nat → List Int → Int → Int → Option (List Int)
  | 0, array, left, right => if left ≥ right then some array else none
  | fuel + 1, array, left, right =>
    if left ≥ right then some array
    else
      match partition array left right with
      | none => none
      | some (array1, p) =>
        match int_val (p - 1) with
        | none => none
        | some right1 =>
          match quick_sort fuel array1 left right1 with
          | none => none
          | some array2 =>
            match int_val (p + 1) with
            | none => none
            | some left2 => quick_sort fuel array2 left2 right

/-- The loop invariant of `partition` at the state `(cur, i, j)`, for the array `a0` at
entry and the pivot value `pv`: the elements at `left..i` are below the pivot, those at
`i+1..j-1` are not, and nothing outside `left..right-1` has changed. -/
structure PartInv (a0 : List Int) (left right pv : Int) (cur : List Int) (i j : Int) : Prop where
  len : cur.length = a0.length
  perm : cur.Perm a0
  hi : left - 1 ≤ i
  hij : i < j
  hj : j ≤ right
  out : ∀ k : Int, k < left ∨ right ≤ k → read cur k = read a0 k
  lo : ∀ k x : Int, left ≤ k → k ≤ i → read cur k = some x → x < pv
  up : ∀ k x : Int, i < k → k < j → read cur k = some x → pv ≤ x

/-- The array of `main`. -/
def main_array : List Int := [8, 4, 5, 3, 1, 2, 6, 7, 0, 9]

/-- An array of `2^31` elements, all `0` but the last, which is `1`. -/
def huge_array : List Int := List.replicate 2147483647 0 ++ [1]

/-!
## `insertion_sort` and `bubble_sort`

The indices `i`, `j` and `size` are `size_t`: natural numbers below `2^64`, with the
subtractions reduced modulo `2^64`.  An increment behind a test `j < bound` cannot wrap
and is a plain successor.
-/

/-- `compare(a, b)`: `a > b`. -/
def compare (a b : Int) : Bool := decide (a > b)

/-- `a - b` on `size_t`, for `a` and `b` below `2^64`: the difference modulo `2^64`, which
wraps when `b` exceeds `a`. -/
def size_sub (a b : Nat) : Nat := if b ≤ a then a - b else a + 18446744073709551616 - b

/-- `a + b` on `size_t`, for `a` and `b` below `2^64`: the sum modulo `2^64`. -/
def size_add (a b : Nat) : Nat :=
  if a + b < 18446744073709551616 then a + b else a + b - 18446744073709551616

/-- The `while` loop of `insertion_sort` from the state `(array, j)`.  The test `j >= 0`
holds for every `size_t`.  The first argument bounds the number of iterations: `j + 1` is
enough, since `j` decreases until it wraps to `2^64 - 1`, where `array[j]` is outside the
array. -/
def insertion_loop : Nat → List Int → Nat → Option (List Int)
  | 0, array, j =>
    if 0 ≤ j then
      match read array j, read array (size_add j 1) with
      | some a, some b => if compare a b then none else some array
      | _, _ => none
    else some array
  | variant + 1, array, j =>
    if 0 ≤ j then
      match read array j, read array (size_add j 1) with
      | some a, some b =>
        if compare a b then
          match swap array j (size_add j 1) with
          | some array1 => insertion_loop variant array1 (size_sub j 1)
          | none => none
        else some array
      | _, _ => none
    else some array

/-- The `for` loop of `insertion_sort` from the state `(array, i)`; the first argument
bounds the number of iterations. -/
def insertion_outer (size : Nat) : Nat → List Int → Nat → Option (List Int)
  | 0, array, i => if i < size_sub size 1 then none else some array
  | variant + 1, array, i =>
    if i < size_sub size 1 then
      match insertion_loop (i + 1) array i with
      | some array1 => insertion_outer size variant array1 (i + 1)
      | none => none
    else some array

/-- `insertion_sort(array, size)`. -/
def insertion_sort (array : List Int) (size : Nat) : Option (List Int) :=
  insertion_outer size size array 0

/-- The inner `for` loop of `bubble_sort`, in pass `i`, from the state
`(array, j, swapped)`; the first argument bounds the number of iterations. -/
def bubble_inner (size i : Nat) : Nat → List Int → Nat → Bool → Option (List Int × Bool)
  | 0, array, j, swapped =>
    if j < size_sub (size_sub size i) 1 then none else some (array, swapped)
  | variant + 1, array, j, swapped =>
    if j < size_sub (size_sub size i) 1 then
      match read array j, read array (j + 1 : Nat) with
      | some a, some b =>
        if compare a b then
          match swap array j (j + 1 : Nat) with
          | some array1 => bubble_inner size i variant array1 (j + 1) true
          | none => none
        else bubble_inner size i variant array (j + 1) swapped
      | _, _ => none
    else some (array, swapped)

/-- The outer `for` loop of `bubble_sort` from the state `(array, i, swapped)`; the first
argument bounds the number of passes. -/
def bubble_outer (size : Nat) : Nat → List Int → Nat → Bool → Option (List Int)
  | 0, array, i, swapped => if i < size_sub size 1 && swapped then none else some array
  | variant + 1, array, i, swapped =>
    if i < size_sub size 1 && swapped then
      match bubble_inner size i (size + 1) array 0 false with
      | some (array1, swapped1) => bubble_outer size variant array1 (i + 1) swapped1
      | none => none
    else some array

/-- `bubble_sort(array, size)`.  The bounds `size + 1` exceed the number of passes and of
iterations of a pass when `size - 1` does not wrap. -/
def bubble_sort (array : List Int) (size : Nat) : Option (List Int) :=
  bubble_outer size (size + 1) array 0 true

/-!
## `merge` and `merge_sort`

The elements have any type `T`, compared with `le` (`operator<=`).  The indices are `int`
(`int_val`).  A temporary array made by `new T[n]` is the list of its cells, a cell being
`none` until it is written; reading such a cell is undefined behaviour.
-/

section Merge

variable {T : Type}

/-- Reading `array[i]`: undefined outside the array. -/
def load (array : List T) (i : Int) : Option T :=
  if 0 ≤ i then array[i.toNat]? else none

/-- The assignment `array[i] = x`: undefined outside the array. -/
def store (array : List T) (i : Int) (x : T) : Option (List T) :=
  if 0 ≤ i ∧ i < array.length then some (array.set i.toNat x) else none

/-- `new T[n]`: `n` cells not yet written; a negative length throws. -/
def new_array (n : Int) : Option (List (Option T)) :=
  if 0 ≤ n then some (List.replicate n.toNat none) else none

/-- Reading the cell `temp[i]` of a temporary array. -/
def cell (temp : List (Option T)) (i : Int) : Option T :=
  if 0 ≤ i then (temp[i.toNat]?).bind id else none

/-- A copy loop of `merge`,
`for (size_t i = 0; i < count; i++) temp[i] = std::move(array[start + i]);`, from the
state `(i, temp)`; the first argument bounds the number of iterations.  `start` is the
value of the `int` part of the index expression, `left` or `mid + 1`, which is evaluated
in the loop body: `none` if it overflows. -/
def copy_loop (array : List T) (start : Option Int) (count : Int) :
    Nat → Nat → List (Option T) → Option (List (Option T))
  | 0, i, temp => if (i : Int) < count then none else some temp
  | variant + 1, i, temp =>
    if (i : Int) < count then
      match start.bind (fun s => load array (s + i)) with
      | some x =>
        if i < temp.length then copy_loop array start count variant (i + 1) (temp.set i (some x))
        else none
      | none => none
    else some temp

/-- The first `while` loop of `merge`, from the state `(array, l, r, index)`; the first
argument bounds the number of iterations. -/
def merge_both (le : T → T → Bool) (left_array right_array : List (Option T))
    (left_size right_size : Int) :
    Nat → List T → Int → Int → Int → Option (List T × Int × Int × Int)
  | 0, array, l, r, index =>
    if l < left_size ∧ r < right_size then none else some (array, l, r, index)
  | variant + 1, array, l, r, index =>
    if l < left_size ∧ r < right_size then
      match cell left_array l, cell right_array r with
      | some x, some y =>
        if le x y then
          match store array index x, int_val (l + 1), int_val (index + 1) with
          | some array1, some l1, some index1 =>
            merge_both le left_array right_array left_size right_size variant array1 l1 r index1
          | _, _, _ => none
        else
          match store array index y, int_val (r + 1), int_val (index + 1) with
          | some array1, some r1, some index1 =>
            merge_both le left_array right_array left_size right_size variant array1 l r1 index1
          | _, _, _ => none
      | _, _ => none
    else some (array, l, r, index)

/-- The second and the third `while` loop of `merge`,
`while (l < size) { array[index] = std::move(temp[l]); l++, index++; }`, from the state
`(array, l, index)`; the first argument bounds the number of iterations. -/
def merge_rest (temp : List (Option T)) (size : Int) :
    Nat → List T → Int → Int → Option (List T × Int)
  | 0, array, l, index => if l < size then none else some (array, index)
  | variant + 1, array, l, index =>
    if l < size then
      match cell temp l with
      | some x =>
        match store array index x, int_val (l + 1), int_val (index + 1) with
        | some array1, some l1, some index1 => merge_rest temp size variant array1 l1 index1
        | _, _, _ => none
      | none => none
    else some (array, index)

/-- `merge(array, left, mid, right)`. -/
def merge (le : T → T → Bool) (array : List T) (left mid right : Int) : Option (List T) :=
  match (int_val (mid - left)).bind (fun d => int_val (d + 1)), int_val (right - mid) with
  | some left_size, some right_size =>
    match new_array left_size, new_array right_size with
    | some left_new, some right_new =>
      match copy_loop array (some left) left_size left_size.toNat 0 left_new,
          copy_loop array (int_val (mid + 1)) right_size right_size.toNat 0 right_new with
      | some left_array, some right_array =>
        match merge_both le left_array right_array left_size right_size
            (left_size + right_size).toNat array 0 0 left with
        | some (array1, l, r, index) =>
          match merge_rest left_array left_size left_size.toNat array1 l index with
          | some (array2, index2) =>
            (merge_rest right_array right_size right_size.toNat array2 r index2).map Prod.fst
          | none => none
        | none => none
      | _, _ => none
    | _, _ => none
  | _, _ => none

/-- `merge_sort(array, left, right)`.  `size_t mid = (left + right) / 2` is the `int`
quotient, truncated towards zero; converting it to `size_t` and back to `int`, and
`mid + 1` to `int`, changes no value.  The first argument bounds the depth of the
recursion: `right - left` is enough. -/
def merge_sort (le : T → T → Bool) : Nat → List T → Int → Int → Option (List T)
  | 0, array, left, right => if left ≥ right then some array else none
  | fuel + 1, array, left, right =>
    if left ≥ right then some array
    else
      match int_val (left + right) with
      | none => none
      | some sum =>
        match merge_sort le fuel array left (Int.tdiv sum 2) with
        | none => none
        | some array1 =>
          match merge_sort le fuel array1 (Int.tdiv sum 2 + 1) right with
          | none => none
          | some array2 => merge le array2 left (Int.tdiv sum 2) right

/-- The requirement on `operator<=`: a total preorder. -/
structure TotalPreorder (le : T → T → Bool) : Prop where
  trans : ∀ x y z, le x y = true → le y z = true → le x z = true
  total : ∀ x y, (le x y || le y x) = true

end Merge

/-- `operator<=` on integers. -/
def int_le (a b : Int) : Bool := decide (a ≤ b)

/-- Records compared by their key only: `a.key <= b.key`. -/
def key_le (a b : Int × Nat) : Bool := decide (a.1 ≤ b.1)

/-- An array of records with repeated keys; the second component numbers the records. -/
def tagged_array : List (Int × Nat) := [(2, 0), (1, 1), (2, 2), (1, 3), (0, 4), (2, 5)]

/-- An array of `2^30 + 2` zeros. -/
def long_array : List Int := List.replicate 1073741826 0

/-- The invariant of the inner loop of `bubble_sort`, in pass `i` at the state
`(cur, j, swapped)`, for the array `a0` of `n` elements given to the function: the
elements from index `n - i` on are in their final places, `cur[j]` is a greatest element
of `cur[0..j]`, and `cur[0..j]` is in order while no swap was made. -/
structure BubbleInv (a0 : List Int) (n i : Nat) (cur : List Int) (j : Nat) (swapped : Bool) :
    Prop where
  len : cur.length = n
  perm : cur.Perm a0
  tail : ∀ p q x y : Int, p < q → (n : Int) - i ≤ q → read cur p = some x →
    read cur q = some y → x ≤ y
  top : ∀ p x y : Int, p ≤ j → read cur p = some x → read cur j = some y → x ≤ y
  sorted : swapped = false → ∀ p q x y : Int, p < q → q ≤ j → read cur p = some x →
    read cur q = some y → x ≤ y

/-- The invariant of the outer loop of `bubble_sort` at the state `(cur, i, swapped)`: the
elements from index `n - i` on are in their final places, and the array is in order if
the last pass made no swap. -/
structure BubbleOuterInv (a0 : List Int) (n : Nat) (cur : List Int) (i : Nat) (swapped : Bool) :
    Prop where
  len : cur.length = n
  perm : cur.Perm a0
  tail : ∀ p q x y : Int, p < q → (n : Int) - i ≤ q → read cur p = some x →
    read cur q = some y → x ≤ y
  full : swapped = false → ∀ p q x y : Int, p < q → read cur p = some x →
    read cur q = some y → x ≤ y

/-- The invariant of the outer loop of `insertion_sort` at the state `(cur, i)`, for the
array `a0` of `n` elements given to the function: `cur[0..i]` is in order, the first
element has not moved and the elements after index `i` are untouched. -/
structure InsertionOuterInv (a0 : List Int) (n : Nat) (cur : List Int) (i : Nat) : Prop where
  len : cur.length = n
  perm : cur.Perm a0
  first : read cur 0 = read a0 0
  rest : ∀ k : Int, (i : Int) < k → read cur k = read a0 k
  sorted : ∀ p q x y : Int, p < q → q ≤ i → read cur p = some x → read cur q = some y → x ≤ y

/-- The invariant of the `while` loop of `insertion_sort` in the iteration `i` of the outer
loop, at the state `(cur, j)`: `cur[0..j]` and `cur[j+1..i+1]` are in order, the elements
of `cur[0..j]` are at most those of `cur[j+2..i+1]`, and `cur[0]`, which has not moved, is
a least element of `cur[0..i+1]`. -/
structure InsertionInv (a0 : List Int) (n i : Nat) (cur : List Int) (j : Nat) : Prop where
  len : cur.length = n
  perm : cur.Perm a0
  first : read cur 0 = read a0 0
  rest : ∀ k : Int, (i : Int) + 1 < k → read cur k = read a0 k
  least : ∀ k x y : Int, k ≤ (i : Int) + 1 → read cur 0 = some x → read cur k = some y → x ≤ y
  lo : ∀ p q x y : Int, p < q → q ≤ j → read cur p = some x → read cur q = some y → x ≤ y
  hi : ∀ p q x y : Int, (j : Int) + 1 ≤ p → p < q → q ≤ (i : Int) + 1 → read cur p = some x →
    read cur q = some y → x ≤ y
  cross : ∀ p q x y : Int, p ≤ j → (j : Int) + 2 ≤ q → q ≤ (i : Int) + 1 →
    read cur p = some x → read cur q = some y → x ≤ y

/-- The invariant of the three `while` loops of `merge` after `k` assignments, for the
array `a0` at entry and the merged sequence `M`: the `k` elements from index `left` on are
the first `k` elements of `M`, and nothing outside the merged range has changed. -/
structure MergeInv {T : Type} (a0 : List T) (left : Nat) (M : List T) (cur : List T) (k : Nat) :
    Prop where
  len : cur.length = a0.length
  done : ∀ t : Nat, t < k → cur[left + t]? = M[t]?
  out : ∀ t : Nat, t < left ∨ left + M.length ≤ t → cur[t]? = a0[t]?

end Sorting

/-!
# BinarySearchTree (`src/BST/BinarySearchTree.h`)

A `Node*` is a tree: `null`, or a node with its element and its two subtrees.  The private
recursive members, which take the `Node*&` and update `_size`, take and return the subtree
and the size.  Dereferencing a null pointer is undefined behaviour, for which the functions
return `none`.  `_size++` is a plain successor: a tree has fewer than `2^64` nodes.
-/

namespace BST

/-- A `Node*`: null, or a `BinaryNode` with `element`, `left` and `right`. -/
inductive Node (K V : Type) where
  | null : Node K V
  | mk (element : K × V) (left right : Node K V) : Node K V

/-- The data members of `class BinarySearchTree`. -/
structure BinarySearchTree (K V : Type) where
  _root : Node K V
  _size : Nat
  comp : K → K → Bool

variable {K V : Type}

/-- `_size--` on `size_t`: wraps at zero. -/
def decrement (size : Nat) : Nat := if size = 0 then 2 ^ 64 - 1 else size - 1

namespace Node

/-- `node == nullptr`. -/
def is_null : Node K V → Bool
  | null => true
  | mk _ _ _ => false

/-- `min(node)`: the element of the leftmost node; undefined on a null pointer. -/
def min : Node K V → Option (K × V)
  | null => none
  | mk element left _ => if left.is_null then some element else min left

/-- `max(node)`: the element of the rightmost node; undefined on a null pointer. -/
def max : Node K V → Option (K × V)
  | null => none
  | mk element _ right => if right.is_null then some element else max right

/-- `insert(x, node)`: the subtree and `_size` afterwards. -/
def insert (comp : K → K → Bool) (x : K × V) : Node K V → Nat → Node K V × Nat
  | null, size => (mk x null null, size + 1)
  | mk element left right, size =>
    if comp x.1 element.1 then
      (mk element (insert comp x left size).1 right, (insert comp x left size).2)
    else if comp element.1 x.1 then
      (mk element left (insert comp x right size).1, (insert comp x right size).2)
    else (mk (element.1, x.2) left right, size)

/-- `erase(key, node)`: the subtree and `_size` afterwards. -/
def erase (comp : K → K → Bool) (key : K) : Node K V → Nat → Option (Node K V × Nat)
  | null, size => some (null, size)
  | mk element left right, size =>
    if comp key element.1 then
      (erase comp key left size).map (fun r => (mk element r.1 right, r.2))
    else if comp element.1 key then
      (erase comp key right size).map (fun r => (mk element left r.1, r.2))
    else if left.is_null && right.is_null then some (null, decrement size)
    else if left.is_null && !right.is_null then some (right, decrement size)
    else if !left.is_null && right.is_null then some (left, decrement size)
    else
      match min right with
      | none => none
      | some successor =>
        (erase comp successor.1 right size).map (fun r => (mk successor left r.1, r.2))

/-- `contains(key, node)`. -/
def contains (comp : K → K → Bool) (key : K) : Node K V → Bool
  | null => false
  | mk element left right =>
    if comp key element.1 then contains comp key left
    else if comp element.1 key then contains comp key right
    else true

/-- `find(key, node)`: the element of the node found, `none` for the null pointer. -/
def find (comp : K → K → Bool) (key : K) : Node K V → Option (K × V)
  | null => none
  | mk element left right =>
    if comp key element.1 then find comp key left
    else if comp element.1 key then find comp key right
    else some element

/-- The elements of the nodes, in order (left subtree, node, right subtree). -/
def elements : Node K V → List (K × V)
  | null => []
  | mk element left right => elements left ++ element :: elements right

/-- The number of nodes. -/
def count : Node K V → Nat
  | null => 0
  | mk _ left right => count left + 1 + count right

/-- The search-tree order: every key in the left subtree of a node is `comp`-below the
node's key and every key in its right subtree `comp`-above. -/
def Ordered (comp : K → K → Bool) : Node K V → Prop
  | null => True
  | mk element left right =>
    Ordered comp left ∧ Ordered comp right ∧
      (∀ e ∈ elements left, comp e.1 element.1 = true) ∧
      (∀ e ∈ elements right, comp element.1 e.1 = true)

end Node

namespace BinarySearchTree

/-- `BinarySearchTree()`, with `comp` the comparison object `Comparator{}`. -/
def mk_empty (comp : K → K → Bool) : BinarySearchTree K V :=
  { _root := Node.null, _size := 0, comp := comp }

/-- `contains(key)`. -/
def contains (t : BinarySearchTree K V) (key : K) : Bool := t._root.contains t.comp key

/-- `find(key)`: `find(key, _root)->element.second`, undefined when the key is absent. -/
def find (t : BinarySearchTree K V) (key : K) : Option V :=
  (t._root.find t.comp key).map Prod.snd

/-- `empty()`. -/
def empty (t : BinarySearchTree K V) : Bool := t._size == 0

/-- `size()`. -/
def size (t : BinarySearchTree K V) : Nat := t._size

/-- `insert(x)`. -/
def insert (t : BinarySearchTree K V) (x : K × V) : BinarySearchTree K V :=
  { t with _root := (t._root.insert t.comp x t._size).1,
           _size := (t._root.insert t.comp x t._size).2 }

/-- `erase(key)`. -/
def erase (t : BinarySearchTree K V) (key : K) : Option (BinarySearchTree K V) :=
  (t._root.erase t.comp key t._size).map fun r => { t with _root := r.1, _size := r.2 }

end BinarySearchTree

/-- The requirement on the comparator: a strict total order on the keys. -/
structure StrictTotal (comp : K → K → Bool) : Prop where
  irrefl : ∀ x, comp x x = false
  trans : ∀ x y z, comp x y = true → comp y z = true → comp x z = true
  total : ∀ x y, comp x y = false → comp y x = false → x = y

/-- The trees obtained from an empty one by `insert` and `erase`. -/
inductive Reachable : BinarySearchTree K V → Prop
  | empty (comp : K → K → Bool) : Reachable (BinarySearchTree.mk_empty comp)
  | insert (t : BinarySearchTree K V) (x : K × V) : Reachable t → Reachable (t.insert x)
  | erase (t t1 : BinarySearchTree K V) (key : K) :
      Reachable t → t.erase key = some t1 → Reachable t1

/-- `std::less<int>` on integers. -/
def less (a b : Int) : Bool := decide (a < b)

/-- The tree after inserting the keys 5, 3, 8, 7, 9 (with values 50, 30, 80, 70, 90) into
an empty `BinarySearchTree<int, int>`: the root 5 and the node 8 have two children. -/
def ex_tree : BinarySearchTree Int Int :=
  { _root := Node.mk (5, 50) (Node.mk (3, 30) Node.null Node.null)
      (Node.mk (8, 80) (Node.mk (7, 70) Node.null Node.null) (Node.mk (9, 90) Node.null Node.null)),
    _size := 5, comp := less }

namespace BinarySearchTree

/-- `swap(src, dst)`: `std::swap(src._size, dst._size); std::swap(src._root, dst._root);`,
giving `src` and `dst` afterwards. -/
def swap (src dst : BinarySearchTree K V) : BinarySearchTree K V × BinarySearchTree K V :=
  ({ src with _size := dst._size, _root := dst._root },
   { dst with _size := src._size, _root := src._root })

/-- The move constructor `BinarySearchTree(BinarySearchTree && rhs)`: the members are
initialised with `_root(nullptr), _size(rhs._size), comp(Comparator{})`, then the body
is `swap(*this, rhs)`.  The result is the new tree and `rhs` afterwards;
`default_comp` is the comparison object `Comparator{}`. -/
def move_construct (default_comp : K → K → Bool) (rhs : BinarySearchTree K V) :
    BinarySearchTree K V × BinarySearchTree K V :=
  swap { _root := Node.null, _size := rhs._size, comp := default_comp } rhs

end BinarySearchTree

end BST

/-! # Theorems -/

namespace UMap

variable {K V : Type}

/-! ## Lists of chains -/

section Chains

variable {α : Type}

theorem flatten_split (bs : List (List α)) (b : Nat) (hb : b < bs.length) :
    bs.flatten = (bs.take b).flatten ++ (bs[b]?.getD [] ++ (bs.drop (b + 1)).flatten) := by
  induction bs generalizing b with
  | nil => simp at hb
  | cons c cs ih =>
    cases b with
    | zero => simp
    | succ b =>
      have hb1 : b < cs.length := by simpa using hb
      have h := ih b hb1
      simp only [List.getD_eq_getElem?_getD] at h
      simp only [List.flatten_cons, List.take_succ_cons, List.drop_succ_cons,
        List.getD_eq_getElem?_getD, List.getElem?_cons_succ, List.append_assoc]
      rw [h]

theorem flatten_set (bs : List (List α)) (b : Nat) (hb : b < bs.length) (c : List α) :
    (bs.set b c).flatten = (bs.take b).flatten ++ (c ++ (bs.drop (b + 1)).flatten) := by
  induction bs generalizing b with
  | nil => simp at hb
  | cons d ds ih =>
    cases b with
    | zero => simp
    | succ b =>
      have hb1 : b < ds.length := by simpa using hb
      simp only [List.set_cons_succ, List.flatten_cons, List.take_succ_cons,
        List.drop_succ_cons, List.append_assoc]
      rw [ih b hb1]

theorem getD_set_self (bs : List (List α)) (b : Nat) (hb : b < bs.length) (c : List α) :
    (bs.set b c)[b]?.getD [] = c := by
  simp [List.getD_eq_getElem?_getD, List.getElem?_set, hb]

theorem getD_set_other (bs : List (List α)) (b i : Nat) (hi : i ≠ b) (c : List α) :
    (bs.set b c)[i]?.getD [] = bs[i]?.getD [] := by
  have : b ≠ i := fun h => hi h.symm
  simp [List.getD_eq_getElem?_getD, List.getElem?_set, this]

theorem getD_subset_flatten (bs : List (List α)) (i : Nat) (x : α)
    (hx : x ∈ bs[i]?.getD []) : x ∈ bs.flatten := by
  by_cases hi : i < bs.length
  · rw [flatten_split bs i hi]
    exact List.mem_append_right _ (List.mem_append_left _ hx)
  · have : bs[i]?.getD [] = [] := by
      simp [List.getD_eq_getElem?_getD, List.getElem?_eq_none (Nat.le_of_not_lt hi)]
    rw [this] at hx
    cases hx

theorem mem_flatten_getD (bs : List (List α)) (x : α) (hx : x ∈ bs.flatten) :
    ∃ i, i < bs.length ∧ x ∈ bs[i]?.getD [] := by
  rcases List.mem_flatten.mp hx with ⟨c, hc, hxc⟩
  rcases List.getElem_of_mem hc with ⟨i, hi, rfl⟩
  exact ⟨i, hi, by simpa [List.getD_eq_getElem?_getD, List.getElem?_eq_getElem hi] using hxc⟩

/-- A position of the concatenation of all chains lies in exactly one chain. -/
theorem locate (bs : List (List α)) (pre post : List α) (n : α)
    (h : bs.flatten = pre ++ n :: post) :
    ∃ b c1 c2, b < bs.length ∧ bs[b]?.getD [] = c1 ++ n :: c2 ∧
      pre = (bs.take b).flatten ++ c1 ∧ post = c2 ++ (bs.drop (b + 1)).flatten := by
  induction bs generalizing pre with
  | nil => simp at h
  | cons c cs ih =>
    rw [List.flatten_cons] at h
    rcases List.append_eq_append_iff.mp h with ⟨a, rfl, ha⟩ | ⟨a, rfl, ha⟩
    · rcases ih a ha with ⟨b, c1, c2, hb, hc, hpre, hpost⟩
      refine ⟨b + 1, c1, c2, by simpa using hb, ?_, ?_, ?_⟩
      · simpa [List.getD_eq_getElem?_getD] using hc
      · simp [hpre]
      · simpa using hpost
    · cases a with
      | nil =>
        simp only [List.nil_append] at ha
        rcases ih [] ha.symm with ⟨b, c1, c2, hb, hc, hpre, hpost⟩
        refine ⟨b + 1, c1, c2, by simpa using hb, ?_, ?_, ?_⟩
        · simpa [List.getD_eq_getElem?_getD] using hc
        · have h1 := List.append_eq_nil.mp hpre.symm
          simp [h1.1, h1.2]
        · simpa using hpost
      | cons x a =>
        simp only [List.cons_append, List.cons.injEq] at ha
        refine ⟨0, pre, a, by simp, ?_, by simp, ?_⟩
        · simp [ha.1]
        · simpa using ha.2

end Chains

theorem next_prime_from_ge (fuel c : Nat) : c ≤ next_prime_from fuel c := by
  induction fuel generalizing c with
  | zero => simp [next_prime_from]
  | succ f ih =>
    simp only [next_prime_from]
    split
    · exact Nat.le_refl c
    · exact Nat.le_trans (Nat.le_succ c) (ih (c + 1))

theorem next_greater_prime_ge_two (n : Nat) : 2 ≤ next_greater_prime n :=
  Nat.le_trans (Nat.le_max_right n 2) (next_prime_from_ge _ _)

/-! ## The heap of nodes -/

section Heap

variable {K V : Type}

theorem le_foldr_max (l : List Nat) (x : Nat) (hx : x ∈ l) : x ≤ l.foldr max 0 := by
  induction l with
  | nil => cases hx
  | cons y ys ih =>
    simp only [List.foldr_cons]
    rcases List.mem_cons.mp hx with rfl | h
    · exact Nat.le_max_left _ _
    · exact Nat.le_trans (ih h) (Nat.le_max_right _ _)

theorem lt_fresh_addr (bs : List (List (HashNode K V))) (n : HashNode K V)
    (hn : n ∈ bs.flatten) : n.addr < fresh_addr bs := by
  have h : n.addr ∈ bs.flatten.map HashNode.addr := List.mem_map_of_mem _ hn
  exact Nat.lt_succ_of_le (le_foldr_max _ _ h)

theorem fresh_addr_not_mem (bs : List (List (HashNode K V))) :
    fresh_addr bs ∉ bs.flatten.map HashNode.addr := by
  intro h
  rcases List.mem_map.mp h with ⟨n, hn, he⟩
  have := lt_fresh_addr bs n hn
  omega

theorem chain_deref_none (a : Nat) (c : List (HashNode K V))
    (h : a ∉ c.map HashNode.addr) : chain_deref a c = none := by
  induction c with
  | nil => rfl
  | cons n rest ih =>
    simp only [List.map_cons, List.mem_cons, not_or] at h
    simp only [chain_deref]
    rw [if_neg (fun e => h.1 e.symm)]
    exact ih h.2

theorem chain_deref_split (c1 c2 : List (HashNode K V)) (n : HashNode K V)
    (h : n.addr ∉ c1.map HashNode.addr) :
    chain_deref n.addr (c1 ++ n :: c2) = some (n, c2.head?.map HashNode.addr) := by
  induction c1 with
  | nil => simp [chain_deref]
  | cons x xs ih =>
    simp only [List.map_cons, List.mem_cons, not_or] at h
    simp only [List.cons_append, chain_deref]
    rw [if_neg (fun e => h.1 e.symm)]
    exact ih h.2

theorem chain_deref_some (a : Nat) (c : List (HashNode K V)) (n : HashNode K V)
    (nx : Option Nat) (h : chain_deref a c = some (n, nx)) : n ∈ c ∧ n.addr = a := by
  induction c with
  | nil => simp [chain_deref] at h
  | cons x xs ih =>
    simp only [chain_deref] at h
    by_cases hx : x.addr = a
    · rw [if_pos hx] at h
      simp only [Option.some.injEq, Prod.mk.injEq] at h
      rw [← h.1]
      exact ⟨List.mem_cons_self _ _, hx⟩
    · rw [if_neg hx] at h
      exact ⟨List.mem_cons_of_mem _ (ih h).1, (ih h).2⟩

theorem heap_deref_some (a : Nat) (bs : List (List (HashNode K V))) (n : HashNode K V)
    (nx : Option Nat) (h : heap_deref a bs = some (n, nx)) : n ∈ bs.flatten ∧ n.addr = a := by
  induction bs with
  | nil => simp [heap_deref] at h
  | cons c cs ih =>
    simp only [heap_deref] at h
    cases hc : chain_deref a c with
    | none =>
      rw [hc] at h
      exact ⟨by simp [(ih h).1], (ih h).2⟩
    | some r =>
      rw [hc] at h
      simp only [Option.some.injEq] at h
      subst h
      have := chain_deref_some a c n nx hc
      exact ⟨by simp [this.1], this.2⟩

theorem heap_deref_split (bs : List (List (HashNode K V)))
    (hnd : (bs.flatten.map HashNode.addr).Nodup) (b : Nat) (c1 c2 : List (HashNode K V))
    (n : HashNode K V) (hc : bs[b]?.getD [] = c1 ++ n :: c2) :
    heap_deref n.addr bs = some (n, c2.head?.map HashNode.addr) := by
  induction bs generalizing b with
  | nil => simp at hc
  | cons c cs ih =>
    simp only [List.flatten_cons, List.map_append] at hnd
    cases b with
    | zero =>
      simp only [List.getD_eq_getElem?_getD, List.getElem?_cons_zero, Option.getD_some] at hc
      subst hc
      have h1 : n.addr ∉ c1.map HashNode.addr := by
        have h2 := (List.nodup_append.mp hnd).1
        simp only [List.map_append, List.map_cons] at h2
        have h3 := (List.nodup_append.mp h2).2.2
        intro hmem
        exact h3 hmem (List.mem_cons_self _ _)
      simp only [heap_deref]
      rw [chain_deref_split c1 c2 n h1]
    | succ b =>
      have hc1 : cs[b]?.getD [] = c1 ++ n :: c2 := by
        simpa [List.getD_eq_getElem?_getD] using hc
      have hn : n ∈ cs.flatten :=
        getD_subset_flatten cs b n (by rw [hc1]; simp)
      have h1 : n.addr ∉ c.map HashNode.addr := by
        intro hmem
        exact (List.nodup_append.mp hnd).2.2 hmem (List.mem_map_of_mem _ hn)
      simp only [heap_deref]
      rw [chain_deref_none _ _ h1]
      exact ih (List.nodup_append.mp hnd).2.1 b hc1

end Heap

theorem bucket_lt (m : UnorderedMap K V) (hwf : WF m) (k : K) :
    m._bucket k < m._buckets.length := by
  rw [hwf.len]
  exact Nat.mod_lt _ hwf.pos

theorem scan_eq (m : UnorderedMap K V) (hlen : m._buckets.length = m._bucket_count)
    (v i : Nat) (hv : v = m._bucket_count - 1 - i) :
    m.scan v i = ((m._buckets.drop (i + 1)).flatten.head?).map HashNode.addr := by
  induction v generalizing i with
  | zero =>
    have : m._buckets.length ≤ i + 1 := by omega
    simp [UnorderedMap.scan, List.drop_eq_nil_of_le this]
  | succ v ih =>
    have hi : i < m._bucket_count - 1 := by omega
    have hi1 : i + 1 < m._buckets.length := by omega
    simp only [UnorderedMap.scan, if_pos hi]
    have hd : m._buckets.drop (i + 1) = m._buckets[i + 1]?.getD [] :: m._buckets.drop (i + 1 + 1) := by
      rw [List.drop_eq_getElem_cons hi1]
      simp [List.getD_eq_getElem?_getD, List.getElem?_eq_getElem hi1]
    rw [hd]
    cases hg : m._buckets[i + 1]?.getD [] with
    | nil =>
      simp only [List.flatten_cons, List.nil_append]
      exact ih (i + 1) (by omega)
    | cons n rest => simp

theorem incr_located (m : UnorderedMap K V) (hwf : WF m) (pre post : List (HashNode K V))
    (n : HashNode K V) (h : m._buckets.flatten = pre ++ n :: post) :
    m.deref n.addr ≠ none ∧ (∀ r, m.deref n.addr = some r → r.1 = n) ∧
      m.incr (some n.addr) = some (post.head?.map HashNode.addr) := by
  rcases locate m._buckets pre post n h with ⟨b, c1, c2, hb, hc, -, hpost⟩
  have hd := heap_deref_split m._buckets hwf.nodup b c1 c2 n hc
  have hres : m._bucket n.val.1 = b := hwf.resid b n (by rw [hc]; simp)
  refine ⟨by simp [UnorderedMap.deref, hd], ?_, ?_⟩
  · intro r hr
    simp only [UnorderedMap.deref, hd, Option.some.injEq] at hr
    rw [← hr]
  · simp only [UnorderedMap.incr, UnorderedMap.deref, hd]
    cases c2 with
    | nil =>
      simp only [List.head?_nil, Option.map_none', ne_eq, not_true_eq_false, if_false, hres]
      rw [scan_eq m hwf.len _ b rfl, hpost]
      simp
    | cons x xs =>
      simp [hpost]

theorem take_flatten_nil_iff {α : Type} (bs : List (List α)) (b : Nat) :
    (bs.take b).flatten = [] ↔ ∀ i, i < b → bs[i]?.getD [] = [] := by
  induction bs generalizing b with
  | nil => simp
  | cons c cs ih =>
    cases b with
    | zero => simp
    | succ b =>
      simp only [List.take_succ_cons, List.flatten_cons, List.append_eq_nil, ih]
      constructor
      · rintro ⟨hc, h⟩ i hi
        cases i with
        | zero => simpa using hc
        | succ i =>
          have := h i (by omega)
          simpa [List.getD_eq_getElem?_getD] using this
      · intro h
        refine ⟨by simpa using h 0 (by omega), fun i hi => ?_⟩
        have := h (i + 1) (by omega)
        simpa [List.getD_eq_getElem?_getD] using this

theorem iterate_suffix (m : UnorderedMap K V) (hwf : WF m) (post pre : List (HashNode K V))
    (h : m._buckets.flatten = pre ++ post) (fuel : Nat) (hf : post.length < fuel) :
    m.iterate fuel (post.head?.map HashNode.addr) = some post := by
  induction post generalizing pre fuel with
  | nil =>
    cases fuel with
    | zero => simp at hf
    | succ f => simp [UnorderedMap.iterate]
  | cons n post ih =>
    cases fuel with
    | zero => simp at hf
    | succ f =>
      rcases incr_located m hwf pre post n h with ⟨hne, hval, hinc⟩
      cases hd : m.deref n.addr with
      | none => exact absurd hd hne
      | some r =>
        have hr := hval r hd
        have hrec := ih (pre ++ [n]) (by simp [h]) f (by simpa using hf)
        simp only [List.head?_cons, Option.map_some', UnorderedMap.iterate, hd, hinc, hrec]
        rw [hr]

/-- Global iteration of a well-formed map visits the concatenation of the chains. -/
theorem iterate_begin (m : UnorderedMap K V) (hwf : WF m) (fuel : Nat)
    (hf : m._size < fuel) : m.iterate fuel m.begin = some m._buckets.flatten := by
  have h := iterate_suffix m hwf m._buckets.flatten [] (by simp) fuel (by rw [← hwf.size_eq]; exact hf)
  rw [← hwf.head_eq] at h
  exact h

theorem head_none_flatten (m : UnorderedMap K V) (hwf : WF m) (h : m._head = none) :
    m._buckets.flatten = [] := by
  have := hwf.head_eq
  rw [h] at this
  cases hf : m._buckets.flatten with
  | nil => rfl
  | cons x xs => rw [hf] at this; simp at this

theorem insert_into_bucket_eq (m : UnorderedMap K V) (hwf : WF m) (value : K × V) :
    m._insert_into_bucket (m._bucket value.1) value =
      some ({ m with
                _buckets := m._buckets.set (m._bucket value.1)
                  (⟨fresh_addr m._buckets, value⟩ :: m._buckets[m._bucket value.1]?.getD [])
                _head := ((m._buckets.set (m._bucket value.1)
                  (⟨fresh_addr m._buckets, value⟩ ::
                    m._buckets[m._bucket value.1]?.getD [])).flatten.head?).map HashNode.addr
                _size := m._size + 1 }, fresh_addr m._buckets) := by
  have hb := bucket_lt m hwf value.1
  simp only [UnorderedMap._insert_into_bucket]
  generalize hbdef : m._bucket value.1 = b at hb ⊢
  generalize hnode : (⟨fresh_addr m._buckets, value⟩ : HashNode K V) = node
  have hna : fresh_addr m._buckets = node.addr := by rw [← hnode]
  have hnk : node.val.1 = value.1 := by rw [← hnode]
  rw [hna]
  have hfl1 := flatten_set m._buckets b hb (node :: m._buckets[b]?.getD [])
  have hfl := flatten_split m._buckets b hb
  have hperm : List.Perm (m._buckets.set b (node :: m._buckets[b]?.getD [])).flatten
      (node :: m._buckets.flatten) := by
    rw [hfl1, hfl]
    exact List.perm_middle
  have hnd1 : ((m._buckets.set b (node :: m._buckets[b]?.getD [])).flatten.map
      HashNode.addr).Nodup := by
    refine ((hperm.map HashNode.addr).nodup_iff).mpr ?_
    rw [List.map_cons, ← hna]
    exact List.nodup_cons.mpr ⟨fresh_addr_not_mem _, hwf.nodup⟩
  have hdn : heap_deref node.addr (m._buckets.set b (node :: m._buckets[b]?.getD [])) =
      some (node, (m._buckets[b]?.getD []).head?.map HashNode.addr) :=
    heap_deref_split _ hnd1 b [] _ node (by rw [getD_set_self _ _ hb]; rfl)
  cases hh : m._head with
  | none =>
    have hnil := head_none_flatten m hwf hh
    have hT : (m._buckets.take b).flatten = [] := by
      rw [hfl] at hnil
      exact (List.append_eq_nil.mp hnil).1
    simp only [if_true, Option.some_bind, hdn, hnk, hbdef, Nat.le_refl, hfl1, hT]
    simp
  | some a =>
    have hhe := hwf.head_eq
    rw [hh] at hhe
    cases hf : m._buckets.flatten with
    | nil => rw [hf] at hhe; simp at hhe
    | cons h rest =>
      rw [hf] at hhe
      simp only [List.head?_cons, Option.map_some', Option.some.injEq] at hhe
      subst hhe
      rcases locate m._buckets [] rest h (by simpa using hf) with ⟨b0, c1, c2, hb0, hc0, hpre, -⟩
      have hpre1 := List.append_eq_nil.mp hpre.symm
      rw [hpre1.2] at hc0
      have hres : m._bucket h.val.1 = b0 := hwf.resid b0 h (by rw [hc0]; simp)
      have hdh : ∃ nx, heap_deref h.addr (m._buckets.set b (node :: m._buckets[b]?.getD [])) =
          some (h, nx) := by
        by_cases hbb : b0 = b
        · subst hbb
          exact ⟨_, heap_deref_split _ hnd1 b0 [node] c2 h
            (by rw [getD_set_self _ _ hb, hc0]; rfl)⟩
        · exact ⟨_, heap_deref_split _ hnd1 b0 [] c2 h
            (by rw [getD_set_other _ _ _ hbb, hc0])⟩
      rcases hdh with ⟨nx, hdh⟩
      simp only [reduceCtorEq, if_false, Option.some_bind, hdh, hres, hfl1]
      by_cases hle : b ≤ b0
      · have hT : (m._buckets.take b).flatten = [] :=
          (take_flatten_nil_iff _ _).mpr fun i hi =>
            (take_flatten_nil_iff _ _).mp hpre1.1 i (by omega)
        simp [hle, hT]
      · have hT : (m._buckets.take b).flatten ≠ [] := by
          intro hT
          have := (take_flatten_nil_iff _ _).mp hT b0 (by omega)
          rw [hc0] at this
          cases this
        rw [if_neg hle, List.head?_append_of_ne_nil _ hT]
        have : (m._buckets.take b).flatten.head? = some h := by
          have h2 := hf
          rw [hfl] at h2
          have h3 := congrArg List.head? h2
          rw [List.head?_append_of_ne_nil _ hT] at h3
          simpa using h3
        rw [this]
        rfl

theorem prepend_perm {α : Type} (bs : List (List α)) (b : Nat) (hb : b < bs.length) (x : α) :
    List.Perm (bs.set b (x :: bs[b]?.getD [])).flatten (x :: bs.flatten) := by
  rw [flatten_set bs b hb, flatten_split bs b hb]
  exact List.perm_middle

theorem insert_into_bucket_with_node (m : UnorderedMap K V) (hwf : WF m) (value : K × V) :
    m._insert_into_bucket (m._bucket value.1) value =
      some (with_node m value, fresh_addr m._buckets) :=
  insert_into_bucket_eq m hwf value

theorem with_node_perm (m : UnorderedMap K V) (hwf : WF m) (value : K × V) :
    List.Perm (with_node m value)._buckets.flatten
      (⟨fresh_addr m._buckets, value⟩ :: m._buckets.flatten) :=
  prepend_perm m._buckets _ (bucket_lt m hwf value.1) _

theorem with_node_chain_self (m : UnorderedMap K V) (hwf : WF m) (value : K × V) :
    (with_node m value)._buckets[m._bucket value.1]?.getD [] =
      ⟨fresh_addr m._buckets, value⟩ :: m._buckets[m._bucket value.1]?.getD [] :=
  getD_set_self _ _ (bucket_lt m hwf value.1) _

theorem with_node_chain_other (m : UnorderedMap K V) (value : K × V) (i : Nat)
    (hi : i ≠ m._bucket value.1) :
    (with_node m value)._buckets[i]?.getD [] = m._buckets[i]?.getD [] :=
  getD_set_other _ _ _ hi _

theorem with_node_wf (m : UnorderedMap K V) (hwf : WF m) (value : K × V) :
    WF (with_node m value) := by
  have hperm := with_node_perm m hwf value
  refine ⟨?_, hwf.pos, ?_, ?_, ?_, rfl⟩
  · show (m._buckets.set _ _).length = m._bucket_count
    rw [List.length_set]
    exact hwf.len
  · intro i n hn
    show m._bucket n.val.1 = i
    by_cases hi : i = m._bucket value.1
    · subst hi
      rw [with_node_chain_self m hwf value] at hn
      rcases List.mem_cons.mp hn with rfl | h
      · rfl
      · exact hwf.resid _ n h
    · rw [with_node_chain_other m value i hi] at hn
      exact hwf.resid i n hn
  · refine ((hperm.map HashNode.addr).nodup_iff).mpr ?_
    rw [List.map_cons]
    exact List.nodup_cons.mpr ⟨fresh_addr_not_mem _, hwf.nodup⟩
  · show m._size + 1 = _
    rw [hperm.length_eq, List.length_cons, hwf.size_eq]

theorem erase_walk_split (temp : Nat) (n : HashNode K V) (c1 c2 : List (HashNode K V))
    (t : HashNode K V) (ht : t.addr = temp) (h1 : temp ∉ c1.map HashNode.addr) :
    erase_walk temp n (c1 ++ t :: c2) = n :: (c1 ++ c2) := by
  induction c1 generalizing n with
  | nil => simp [erase_walk, ht]
  | cons x xs ih =>
    simp only [List.map_cons, List.mem_cons, not_or] at h1
    rw [List.cons_append, erase_walk, if_neg (fun e => h1.1 e.symm), ih x h1.2]
    rfl

theorem unlink_split (c1 c2 : List (HashNode K V)) (t : HashNode K V)
    (h1 : t.addr ∉ c1.map HashNode.addr) :
    (match c1 ++ t :: c2 with
      | [] => none
      | node :: rest =>
        some (if node.addr = t.addr then rest else erase_walk t.addr node rest)) =
      some (c1 ++ c2) := by
  cases c1 with
  | nil => simp
  | cons x xs =>
    simp only [List.map_cons, List.mem_cons, not_or] at h1
    simp only [List.cons_append]
    rw [if_neg (fun e => h1.1 e.symm), erase_walk_split t.addr x xs c2 t rfl h1.2]

theorem erase_it_eq (m : UnorderedMap K V) (hwf : WF m) (pre post : List (HashNode K V))
    (t : HashNode K V) (h : m._buckets.flatten = pre ++ t :: post) :
    ∃ c1 c2, m._buckets[m._bucket t.val.1]?.getD [] = c1 ++ t :: c2 ∧
      pre = (m._buckets.take (m._bucket t.val.1)).flatten ++ c1 ∧
      post = c2 ++ (m._buckets.drop (m._bucket t.val.1 + 1)).flatten ∧
      m.erase_it (some t.addr) =
        some (without_node m (m._bucket t.val.1) c1 c2 pre post,
          post.head?.map HashNode.addr) := by
  rcases locate m._buckets pre post t h with ⟨b, c1, c2, hb, hc, hpre, hpost⟩
  have hres : m._bucket t.val.1 = b := hwf.resid b t (by rw [hc]; simp)
  rw [hres]
  refine ⟨c1, c2, hc, hpre, hpost, ?_⟩
  rcases incr_located m hwf pre post t h with ⟨hne, hval, hinc⟩
  have hd := heap_deref_split m._buckets hwf.nodup b c1 c2 t hc
  have hnd : t.addr ∉ c1.map HashNode.addr := by
    have h2 := hwf.nodup
    rw [h, hpre] at h2
    simp only [List.map_append, List.map_cons] at h2
    have h4 := (List.nodup_append.mp h2).2.2
    intro hmem
    exact h4 (List.mem_append_right _ hmem) (List.mem_cons_self _ _)
  have hsz : 0 < m._size := by
    rw [hwf.size_eq, h]
    simp
  have hhead : (if some t.addr = m._head then post.head?.map HashNode.addr else m._head) =
      ((pre ++ post).head?).map HashNode.addr := by
    rw [hwf.head_eq, h]
    cases pre with
    | nil => simp
    | cons x xs =>
      have hx : t.addr ≠ x.addr := by
        have h2 := hwf.nodup
        rw [h] at h2
        simp only [List.cons_append, List.map_cons, List.map_append, List.nodup_cons,
          List.mem_append, List.mem_cons, List.mem_map, not_or] at h2
        intro e
        exact h2.1.2.1 e.symm
      simp [hx]
  simp only [UnorderedMap.erase_it, hinc, UnorderedMap.deref, hd, hres, hc, hhead]
  have hu := unlink_split c1 c2 t hnd
  cases hcc : c1 ++ t :: c2 with
  | nil => simp at hcc
  | cons node rest =>
    rw [hcc] at hu
    simp only [Option.some.injEq] at hu
    simp only [hu, without_node]
    have : (if m._size = 0 then 2 ^ 64 - 1 else m._size - 1) = m._size - 1 := by
      rw [if_neg (by omega)]
    rw [this]

theorem addr_inj (m : UnorderedMap K V) (hwf : WF m) (x y : HashNode K V)
    (hx : x ∈ m._buckets.flatten) (hy : y ∈ m._buckets.flatten) (h : x.addr = y.addr) :
    x = y :=
  List.inj_on_of_nodup_map hwf.nodup hx hy h

theorem erase_it_spec (m : UnorderedMap K V) (hwf : WF m) (pre post : List (HashNode K V))
    (t : HashNode K V) (h : m._buckets.flatten = pre ++ t :: post) :
    ∃ m1, m.erase_it (some t.addr) = some (m1, post.head?.map HashNode.addr) ∧ WF m1 ∧
      m1._buckets.flatten = pre ++ post ∧ m1._bucket_count = m._bucket_count ∧
      m1._hash = m._hash ∧ m1._equal = m._equal ∧ m1._size + 1 = m._size ∧
      ∀ i : Nat, m1._buckets[i]?.getD [] =
        (m._buckets[i]?.getD []).filter fun (n : HashNode K V) => n.addr != t.addr := by
  rcases erase_it_eq m hwf pre post t h with ⟨c1, c2, hc, hpre, hpost, he⟩
  have hb := bucket_lt m hwf t.val.1
  have hfl : (without_node m (m._bucket t.val.1) c1 c2 pre post)._buckets.flatten =
      pre ++ post := by
    show (m._buckets.set _ _).flatten = _
    rw [flatten_set _ _ hb, hpre, hpost]
    simp
  have hsz : 0 < m._size := by
    rw [hwf.size_eq, h]
    simp
  have hchain : ∀ i : Nat, (without_node m (m._bucket t.val.1) c1 c2 pre post)._buckets[i]?.getD [] =
      (m._buckets[i]?.getD []).filter fun (n : HashNode K V) => n.addr != t.addr := by
    intro i
    show (m._buckets.set _ _)[i]?.getD [] = _
    by_cases hi : i = m._bucket t.val.1
    · subst hi
      rw [getD_set_self _ _ hb, hc]
      have hnd : ((c1 ++ t :: c2).map HashNode.addr).Nodup := by
        have h2 := hwf.nodup
        rw [flatten_split _ _ hb, hc] at h2
        simp only [List.map_append] at h2
        have h3 := (List.nodup_append.mp (List.nodup_append.mp h2).2.1).1
        simpa using h3
      simp only [List.map_append, List.map_cons] at hnd
      have hn1 := List.nodup_append.mp hnd
      have hn2 := List.nodup_cons.mp hn1.2.1
      rw [List.filter_append, List.filter_cons]
      simp only [bne_self_eq_false, Bool.false_eq_true, if_false]
      rw [List.filter_eq_self.mpr, List.filter_eq_self.mpr]
      · intro a ha
        have : a.addr ≠ t.addr := fun e => hn2.1 (e ▸ List.mem_map_of_mem _ ha)
        simpa using this
      · intro a ha
        have : a.addr ≠ t.addr := fun e =>
          hn1.2.2 (List.mem_map_of_mem _ ha) (by rw [e]; exact List.mem_cons_self _ _)
        simpa using this
    · rw [getD_set_other _ _ _ hi]
      symm
      apply List.filter_eq_self.mpr
      intro a ha
      have : a.addr ≠ t.addr := by
        intro e
        have ha1 := getD_subset_flatten _ _ _ ha
        have ht1 : t ∈ m._buckets.flatten := by rw [h]; simp
        have := addr_inj m hwf a t ha1 ht1 e
        subst this
        exact hi (hwf.resid i a ha).symm
      simpa using this
  refine ⟨_, he, ⟨?_, hwf.pos, ?_, ?_, ?_, ?_⟩, hfl, rfl, rfl, rfl, ?_, hchain⟩
  · show (m._buckets.set _ _).length = m._bucket_count
    rw [List.length_set]
    exact hwf.len
  · intro i n hn
    rw [hchain i] at hn
    exact hwf.resid i n (List.mem_filter.mp hn).1
  · rw [hfl]
    have h2 := hwf.nodup
    rw [h] at h2
    refine h2.sublist ?_
    exact (List.Sublist.append_left (List.sublist_cons_self t post) pre).map _
  · show m._size - 1 = _
    rw [hfl, hwf.size_eq, h]
    simp
  · rw [hfl]
    rfl
  · show m._size - 1 + 1 = m._size
    omega

theorem store_wf (m : UnorderedMap K V) (hwf : WF m) (node : Nat) (v : V) :
    WF (m.store node v) := by
  have hfl : (m.store node v)._buckets.flatten =
      m._buckets.flatten.map fun n => if n.addr = node then { n with val := (n.val.1, v) } else n := by
    show (m._buckets.map _).flatten = _
    rw [List.map_flatten]
  have haddr : (m.store node v)._buckets.flatten.map HashNode.addr =
      m._buckets.flatten.map HashNode.addr := by
    rw [hfl, List.map_map]
    apply List.map_congr_left
    intro n _
    simp only [Function.comp]
    split <;> rfl
  refine ⟨?_, hwf.pos, ?_, ?_, ?_, ?_⟩
  · show (m._buckets.map _).length = m._bucket_count
    rw [List.length_map]
    exact hwf.len
  · intro i n hn
    show m._bucket n.val.1 = i
    have hn1 : n ∈ (m._buckets[i]?.getD []).map
        fun n => if n.addr = node then { n with val := (n.val.1, v) } else n := by
      have : (m.store node v)._buckets[i]?.getD [] = (m._buckets[i]?.getD []).map
          fun n => if n.addr = node then { n with val := (n.val.1, v) } else n := by
        show (m._buckets.map _)[i]?.getD [] = _
        rw [List.getElem?_map]
        cases m._buckets[i]? <;> rfl
      rw [this] at hn
      exact hn
    rcases List.mem_map.mp hn1 with ⟨n0, hn0, he⟩
    have := hwf.resid i n0 hn0
    rw [← he]
    split <;> exact this
  · rw [haddr]
    exact hwf.nodup
  · show m._size = _
    rw [hfl, List.length_map]
    exact hwf.size_eq
  · show m._head = _
    rw [← List.head?_map, haddr, List.head?_map]
    exact hwf.head_eq

theorem find_walk_none (equal : K → K → Bool) (key : K) (c : List (HashNode K V)) :
    find_walk equal key c = none ↔ ∀ n ∈ c, equal n.val.1 key = false := by
  induction c with
  | nil => simp [find_walk]
  | cons x xs ih =>
    simp only [find_walk, List.mem_cons, forall_eq_or_imp]
    cases hx : equal x.val.1 key with
    | true => simp
    | false => simpa using ih

theorem find_walk_some (equal : K → K → Bool) (key : K) (c : List (HashNode K V)) (a : Nat)
    (h : find_walk equal key c = some a) :
    ∃ c1 t c2, c = c1 ++ t :: c2 ∧ t.addr = a ∧ equal t.val.1 key = true ∧
      ∀ n ∈ c1, equal n.val.1 key = false := by
  induction c with
  | nil => simp [find_walk] at h
  | cons x xs ih =>
    simp only [find_walk] at h
    cases hx : equal x.val.1 key with
    | true =>
      rw [hx] at h
      simp only [if_true, Option.some.injEq] at h
      exact ⟨[], x, xs, rfl, h, hx, by simp⟩
    | false =>
      rw [hx] at h
      simp only [Bool.false_eq_true, if_false] at h
      rcases ih h with ⟨c1, t, c2, hc, ha, he, hall⟩
      refine ⟨x :: c1, t, c2, by rw [hc]; rfl, ha, he, ?_⟩
      intro n hn
      rcases List.mem_cons.mp hn with rfl | hn1
      · exact hx
      · exact hall n hn1

theorem find_some_mem (m : UnorderedMap K V) (key : K) (a : Nat) (h : m._find key = some a) :
    ∃ t, t ∈ m._buckets[m._bucket key]?.getD [] ∧ t.addr = a ∧ m._equal t.val.1 key = true := by
  rcases find_walk_some m._equal key _ a h with ⟨c1, t, c2, hc, ha, he, -⟩
  exact ⟨t, by rw [hc]; simp, ha, he⟩

theorem erase_it_some (m : UnorderedMap K V) (pos : Option Nat)
    (r : UnorderedMap K V × Option Nat) (h : m.erase_it pos = some r) :
    ∃ t, pos = some t.addr ∧ t ∈ m._buckets.flatten := by
  cases pos with
  | none => simp [UnorderedMap.erase_it] at h
  | some temp =>
    simp only [UnorderedMap.erase_it] at h
    cases hi : m.incr (some temp) with
    | none => rw [hi] at h; simp at h
    | some pos1 =>
      cases hd : m.deref temp with
      | none => rw [hi, hd] at h; simp at h
      | some p =>
        rcases p with ⟨t, nx⟩
        have := heap_deref_some temp m._buckets t nx hd
        exact ⟨t, by rw [this.2], this.1⟩

theorem erase_it_wf (m : UnorderedMap K V) (hwf : WF m) (pos : Option Nat)
    (r : UnorderedMap K V × Option Nat) (h : m.erase_it pos = some r) :
    WF r.1 ∧ r.1._bucket_count = m._bucket_count ∧ r.1._hash = m._hash ∧
      r.1._equal = m._equal := by
  rcases erase_it_some m pos r h with ⟨t, rfl, ht⟩
  rcases List.append_of_mem ht with ⟨pre, post, hsplit⟩
  rcases erase_it_spec m hwf pre post t hsplit with ⟨m1, he, hwf1, -, hbc, hh, heq, -, -⟩
  rw [he] at h
  simp only [Option.some.injEq] at h
  rw [← h]
  exact ⟨hwf1, hbc, hh, heq⟩

theorem clear_sound (fuel : Nat) (m m1 : UnorderedMap K V) (hwf : WF m)
    (h : m.clear fuel = some m1) :
    WF m1 ∧ m1._buckets.flatten = [] ∧ m1._bucket_count = m._bucket_count ∧
      m1._hash = m._hash ∧ m1._equal = m._equal := by
  induction fuel generalizing m with
  | zero =>
    simp only [UnorderedMap.clear] at h
    cases hh : m._head with
    | none =>
      rw [hh] at h
      simp only [Option.some.injEq] at h
      subst h
      exact ⟨hwf, head_none_flatten m hwf hh, rfl, rfl, rfl⟩
    | some a => rw [hh] at h; simp at h
  | succ f ih =>
    simp only [UnorderedMap.clear] at h
    cases hh : m._head with
    | none =>
      rw [hh] at h
      simp only [Option.some.injEq] at h
      subst h
      exact ⟨hwf, head_none_flatten m hwf hh, rfl, rfl, rfl⟩
    | some a =>
      rw [hh] at h
      simp only at h
      cases he : m.erase_it (some a) with
      | none => rw [he] at h; simp at h
      | some r =>
        rw [he] at h
        have h1 := erase_it_wf m hwf (some a) r he
        have h2 := ih r.1 h1.1 h
        exact ⟨h2.1, h2.2.1, h2.2.2.1.trans h1.2.1, h2.2.2.2.1.trans h1.2.2.1,
          h2.2.2.2.2.trans h1.2.2.2⟩

theorem clear_total (fuel : Nat) (m : UnorderedMap K V) (hwf : WF m) (hf : m._size ≤ fuel) :
    ∃ m1, m.clear fuel = some m1 := by
  induction fuel generalizing m with
  | zero =>
    have h0 : m._buckets.flatten = [] := by
      have := hwf.size_eq
      exact List.length_eq_zero.mp (by omega)
    have hh : m._head = none := by rw [hwf.head_eq, h0]; rfl
    exact ⟨m, by simp [UnorderedMap.clear, hh]⟩
  | succ f ih =>
    cases hh : m._head with
    | none => exact ⟨m, by simp [UnorderedMap.clear, hh]⟩
    | some a =>
      have hhe := hwf.head_eq
      rw [hh] at hhe
      cases hfl : m._buckets.flatten with
      | nil => rw [hfl] at hhe; simp at hhe
      | cons t post =>
        rw [hfl] at hhe
        simp only [List.head?_cons, Option.map_some', Option.some.injEq] at hhe
        subst hhe
        rcases erase_it_spec m hwf [] post t (by simpa using hfl) with
          ⟨m1, he, hwf1, -, -, -, -, hsz, -⟩
        rcases ih m1 hwf1 (by omega) with ⟨m2, h2⟩
        exact ⟨m2, by simp [UnorderedMap.clear, hh, he, h2]⟩

theorem construct_wf (Hash0 : K → Nat) (Pred0 : K → K → Bool) (n : Nat) (hash : K → Nat)
    (equal : K → K → Bool) :
    WF (UnorderedMap.construct Hash0 Pred0 n hash equal : UnorderedMap K V) := by
  have hfl : (List.replicate (next_greater_prime n) ([] : List (HashNode K V))).flatten = [] := by
    rw [List.flatten_eq_nil_iff]
    intro l hl
    exact (List.mem_replicate.mp hl).2
  refine ⟨by simp [UnorderedMap.construct], ?_, ?_, ?_, ?_, ?_⟩
  · have := next_greater_prime_ge_two n
    show 0 < next_greater_prime n
    omega
  · intro i x hx
    have := getD_subset_flatten _ i x hx
    simp only [UnorderedMap.construct] at this
    rw [hfl] at this
    cases this
  · simp only [UnorderedMap.construct]
    rw [hfl]
    exact List.nodup_nil
  · simp only [UnorderedMap.construct]
    rw [hfl]
    rfl
  · simp only [UnorderedMap.construct]
    rw [hfl]
    rfl

theorem insert_cases (m : UnorderedMap K V) (hwf : WF m) (value : K × V) :
    (m._find value.1 = none ∧
      m.insert value = some (with_node m value, some (fresh_addr m._buckets), true)) ∨
    (∃ a, m._find value.1 = some a ∧ m.insert value = some (m, some a, false)) := by
  cases hf : m._find value.1 with
  | none =>
    left
    refine ⟨rfl, ?_⟩
    simp only [UnorderedMap.insert, hf, insert_into_bucket_with_node m hwf value]
  | some a =>
    right
    exact ⟨a, rfl, by simp only [UnorderedMap.insert, hf]⟩

theorem index_cases [Inhabited V] (m : UnorderedMap K V) (hwf : WF m) (key : K) :
    (m._find key = none ∧
      m.index key = some (with_node m (key, default), fresh_addr m._buckets)) ∨
    (∃ a, m._find key = some a ∧ m.index key = some (m, a)) := by
  cases hf : m._find key with
  | none =>
    left
    refine ⟨rfl, ?_⟩
    simp only [UnorderedMap.index, hf]
    exact insert_into_bucket_with_node m hwf (key, default)
  | some a =>
    right
    exact ⟨a, rfl, by simp only [UnorderedMap.index, hf]⟩

theorem insert_wf (m : UnorderedMap K V) (hwf : WF m) (value : K × V)
    (r : UnorderedMap K V × Option Nat × Bool) (h : m.insert value = some r) : WF r.1 := by
  rcases insert_cases m hwf value with ⟨-, he⟩ | ⟨a, -, he⟩
  · rw [he] at h
    simp only [Option.some.injEq] at h
    rw [← h]
    exact with_node_wf m hwf value
  · rw [he] at h
    simp only [Option.some.injEq] at h
    rw [← h]
    exact hwf

theorem index_wf [Inhabited V] (m : UnorderedMap K V) (hwf : WF m) (key : K)
    (r : UnorderedMap K V × Nat) (h : m.index key = some r) : WF r.1 := by
  rcases index_cases m hwf key with ⟨-, he⟩ | ⟨a, -, he⟩
  · rw [he] at h
    simp only [Option.some.injEq] at h
    rw [← h]
    exact with_node_wf m hwf _
  · rw [he] at h
    simp only [Option.some.injEq] at h
    rw [← h]
    exact hwf

theorem erase_wf (m : UnorderedMap K V) (hwf : WF m) (key : K)
    (r : UnorderedMap K V × Nat) (h : m.erase key = some r) : WF r.1 := by
  simp only [UnorderedMap.erase] at h
  cases hf : m._find key with
  | none =>
    rw [hf] at h
    simp only [Option.some.injEq] at h
    rw [← h]
    exact hwf
  | some a =>
    rw [hf] at h
    simp only at h
    cases he : m.erase_it (some a) with
    | none => rw [he] at h; simp at h
    | some r1 =>
      rw [he] at h
      simp only [Option.some.injEq] at h
      rw [← h]
      exact (erase_it_wf m hwf (some a) r1 he).1

theorem reachable_wf [Inhabited V] (m : UnorderedMap K V) (h : Reachable m) : WF m := by
  induction h with
  | construct Hash0 Pred0 n hash equal => exact construct_wf Hash0 Pred0 n hash equal
  | insert m value r _ he ih => exact insert_wf m ih value r he
  | index m key r _ he ih => exact index_wf m ih key r he
  | assign m key r v _ he ih => exact store_wf _ (index_wf m ih key r he) _ _
  | erase m key r _ he ih => exact erase_wf m ih key r he
  | erase_it m pos r _ he ih => exact (erase_it_wf m ih pos r he).1
  | clear m fuel m1 _ he ih => exact (clear_sound fuel m m1 ih he).1

theorem find_none_iff (m : UnorderedMap K V) (hwf : WF m)
    (hcons : ∀ a b, m._equal a b = true → m._hash a = m._hash b) (k : K) :
    m._find k = none ↔ ∀ n ∈ m._buckets.flatten, m._equal n.val.1 k = false := by
  constructor
  · intro h n hn
    rcases mem_flatten_getD _ n hn with ⟨i, -, hi⟩
    cases he : m._equal n.val.1 k with
    | false => rfl
    | true =>
      have hb : m._bucket n.val.1 = m._bucket k := by
        simp only [UnorderedMap._bucket, hcons _ _ he]
      have hres := hwf.resid i n hi
      rw [← hres, hb] at hi
      have := (find_walk_none m._equal k _).mp h n hi
      rw [he] at this
      cases this
  · intro h
    exact (find_walk_none m._equal k _).mpr fun n hn => h n (getD_subset_flatten _ _ n hn)

theorem erase_it_sub (m : UnorderedMap K V) (hwf : WF m) (pos : Option Nat)
    (r : UnorderedMap K V × Option Nat) (h : m.erase_it pos = some r) :
    ∀ x ∈ r.1._buckets.flatten, x ∈ m._buckets.flatten := by
  rcases erase_it_some m pos r h with ⟨t, rfl, ht⟩
  rcases List.append_of_mem ht with ⟨pre, post, hsplit⟩
  rcases erase_it_spec m hwf pre post t hsplit with ⟨m1, he, -, hfl, -⟩
  rw [he] at h
  simp only [Option.some.injEq] at h
  rw [← h]
  intro x hx
  rw [hfl] at hx
  rw [hsplit]
  rcases List.mem_append.mp hx with h1 | h1
  · exact List.mem_append_left _ h1
  · exact List.mem_append_right _ (List.mem_cons_of_mem _ h1)

theorem with_node_kd (m : UnorderedMap K V) (hwf : WF m) (hL : Lawful m._hash m._equal)
    (hkd : KeysDistinct m) (value : K × V) (hf : m._find value.1 = none) :
    KeysDistinct (with_node m value) := by
  have hall := (find_none_iff m hwf hL.hash_eq value.1).mp hf
  have hperm := with_node_perm m hwf value
  intro x hx y hy he
  have hx1 := List.mem_cons.mp (hperm.mem_iff.mp hx)
  have hy1 := List.mem_cons.mp (hperm.mem_iff.mp hy)
  have he1 : m._equal x.val.1 y.val.1 = true := he
  rcases hx1 with rfl | hx1 <;> rcases hy1 with rfl | hy1
  · rfl
  · have := hall y hy1
    rw [hL.symm _ _ he1] at this
    cases this
  · have := hall x hx1
    rw [he1] at this
    cases this
  · exact hkd x hx1 y hy1 he1

theorem store_flatten (m : UnorderedMap K V) (node : Nat) (v : V) :
    (m.store node v)._buckets.flatten = m._buckets.flatten.map
      fun n => if n.addr = node then { n with val := (n.val.1, v) } else n := by
  show (m._buckets.map _).flatten = _
  rw [List.map_flatten]

theorem store_kd (m : UnorderedMap K V) (hkd : KeysDistinct m) (node : Nat) (v : V) :
    KeysDistinct (m.store node v) := by
  intro x hx y hy he
  rw [store_flatten] at hx hy
  rcases List.mem_map.mp hx with ⟨x0, hx0, rfl⟩
  rcases List.mem_map.mp hy with ⟨y0, hy0, rfl⟩
  have hkx : ∀ n : HashNode K V,
      (if n.addr = node then { n with val := (n.val.1, v) } else n).val.1 = n.val.1 := by
    intro n; split <;> rfl
  have hax : ∀ n : HashNode K V,
      (if n.addr = node then { n with val := (n.val.1, v) } else n).addr = n.addr := by
    intro n; split <;> rfl
  have he1 : m._equal _ _ = true := he
  rw [hkx, hkx] at he1
  rw [hax, hax]
  exact hkd x0 hx0 y0 hy0 he1

theorem sub_kd (m m1 : UnorderedMap K V) (hkd : KeysDistinct m) (heq : m1._equal = m._equal)
    (hsub : ∀ x ∈ m1._buckets.flatten, x ∈ m._buckets.flatten) : KeysDistinct m1 := by
  intro x hx y hy he
  rw [heq] at he
  exact hkd x (hsub x hx) y (hsub y hy) he

theorem insert_strategies (m : UnorderedMap K V) (hwf : WF m) (value : K × V)
    (r : UnorderedMap K V × Option Nat × Bool) (h : m.insert value = some r) :
    r.1._hash = m._hash ∧ r.1._equal = m._equal ∧ r.1._bucket_count = m._bucket_count := by
  rcases insert_cases m hwf value with ⟨-, he⟩ | ⟨a, -, he⟩ <;>
  · rw [he] at h
    simp only [Option.some.injEq] at h
    rw [← h]
    exact ⟨rfl, rfl, rfl⟩

theorem index_strategies [Inhabited V] (m : UnorderedMap K V) (hwf : WF m) (key : K)
    (r : UnorderedMap K V × Nat) (h : m.index key = some r) :
    r.1._hash = m._hash ∧ r.1._equal = m._equal ∧ r.1._bucket_count = m._bucket_count := by
  rcases index_cases m hwf key with ⟨-, he⟩ | ⟨a, -, he⟩ <;>
  · rw [he] at h
    simp only [Option.some.injEq] at h
    rw [← h]
    exact ⟨rfl, rfl, rfl⟩

theorem insert_kd (m : UnorderedMap K V) (hwf : WF m) (hL : Lawful m._hash m._equal)
    (hkd : KeysDistinct m) (value : K × V) (r : UnorderedMap K V × Option Nat × Bool)
    (h : m.insert value = some r) : KeysDistinct r.1 := by
  rcases insert_cases m hwf value with ⟨hf, he⟩ | ⟨a, -, he⟩
  · rw [he] at h
    simp only [Option.some.injEq] at h
    rw [← h]
    exact with_node_kd m hwf hL hkd value hf
  · rw [he] at h
    simp only [Option.some.injEq] at h
    rw [← h]
    exact hkd

theorem index_kd [Inhabited V] (m : UnorderedMap K V) (hwf : WF m)
    (hL : Lawful m._hash m._equal) (hkd : KeysDistinct m) (key : K)
    (r : UnorderedMap K V × Nat) (h : m.index key = some r) : KeysDistinct r.1 := by
  rcases index_cases m hwf key with ⟨hf, he⟩ | ⟨a, -, he⟩
  · rw [he] at h
    simp only [Option.some.injEq] at h
    rw [← h]
    exact with_node_kd m hwf hL hkd (key, default) hf
  · rw [he] at h
    simp only [Option.some.injEq] at h
    rw [← h]
    exact hkd

theorem erase_cases (m : UnorderedMap K V) (key : K) (r : UnorderedMap K V × Nat)
    (h : m.erase key = some r) :
    (m._find key = none ∧ r = (m, 0)) ∨
    (∃ a r1, m._find key = some a ∧ m.erase_it (some a) = some r1 ∧ r = (r1.1, 1)) := by
  simp only [UnorderedMap.erase] at h
  cases hf : m._find key with
  | none =>
    rw [hf] at h
    simp only [Option.some.injEq] at h
    exact Or.inl ⟨rfl, h.symm⟩
  | some a =>
    rw [hf] at h
    simp only at h
    cases he : m.erase_it (some a) with
    | none => rw [he] at h; simp at h
    | some r1 =>
      rw [he] at h
      simp only [Option.some.injEq] at h
      exact Or.inr ⟨a, r1, rfl, he, h.symm⟩

theorem erase_strategies (m : UnorderedMap K V) (hwf : WF m) (key : K)
    (r : UnorderedMap K V × Nat) (h : m.erase key = some r) :
    r.1._hash = m._hash ∧ r.1._equal = m._equal ∧ r.1._bucket_count = m._bucket_count ∧
      ∀ x ∈ r.1._buckets.flatten, x ∈ m._buckets.flatten := by
  rcases erase_cases m key r h with ⟨-, rfl⟩ | ⟨a, r1, -, he, rfl⟩
  · exact ⟨rfl, rfl, rfl, fun x hx => hx⟩
  · have h1 := erase_it_wf m hwf (some a) r1 he
    exact ⟨h1.2.2.1, h1.2.2.2, h1.2.1, erase_it_sub m hwf (some a) r1 he⟩

theorem reachable_inv [Inhabited V] (m : UnorderedMap K V) (h : Reachable m) :
    Lawful m._hash m._equal → KeysDistinct m := by
  induction h with
  | construct Hash0 Pred0 n hash equal =>
    intro _ x hx
    have hfl : (List.replicate (next_greater_prime n) ([] : List (HashNode K V))).flatten = [] := by
      rw [List.flatten_eq_nil_iff]
      intro l hl
      exact (List.mem_replicate.mp hl).2
    simp only [UnorderedMap.construct] at hx
    rw [hfl] at hx
    cases hx
  | insert m value r hr he ih =>
    intro hL
    have hwf := reachable_wf m hr
    have hs := insert_strategies m hwf value r he
    rw [hs.1, hs.2.1] at hL
    exact insert_kd m hwf hL (ih hL) value r he
  | index m key r hr he ih =>
    intro hL
    have hwf := reachable_wf m hr
    have hs := index_strategies m hwf key r he
    rw [hs.1, hs.2.1] at hL
    exact index_kd m hwf hL (ih hL) key r he
  | assign m key r v hr he ih =>
    intro hL
    have hwf := reachable_wf m hr
    have hs := index_strategies m hwf key r he
    have hL1 : Lawful m._hash m._equal := by
      rw [← hs.1, ← hs.2.1]
      exact hL
    exact store_kd _ (index_kd m hwf hL1 (ih hL1) key r he) _ _
  | erase m key r hr he ih =>
    intro hL
    have hwf := reachable_wf m hr
    have hs := erase_strategies m hwf key r he
    rw [hs.1, hs.2.1] at hL
    exact sub_kd m r.1 (ih hL) hs.2.1 hs.2.2.2
  | erase_it m pos r hr he ih =>
    intro hL
    have hwf := reachable_wf m hr
    have hs := erase_it_wf m hwf pos r he
    rw [hs.2.2.1, hs.2.2.2] at hL
    exact sub_kd m r.1 (ih hL) hs.2.2.2 (erase_it_sub m hwf pos r he)
  | clear m fuel m1 hr he ih =>
    intro _ x hx
    have hs := clear_sound fuel m m1 (reachable_wf m hr) he
    rw [hs.2.1] at hx
    cases hx

theorem deref_mem (m : UnorderedMap K V) (hwf : WF m) (n : HashNode K V)
    (hn : n ∈ m._buckets.flatten) : ∃ nx, m.deref n.addr = some (n, nx) := by
  rcases mem_flatten_getD _ n hn with ⟨i, -, hi⟩
  rcases List.append_of_mem hi with ⟨c1, c2, hc⟩
  exact ⟨_, heap_deref_split m._buckets hwf.nodup i c1 c2 n hc⟩

theorem find_some_spec (m : UnorderedMap K V) (hwf : WF m) (k : K) (a : Nat)
    (h : m._find k = some a) :
    ∃ n nx, m.deref a = some (n, nx) ∧ n ∈ m._buckets.flatten ∧ n.addr = a ∧
      m._equal n.val.1 k = true := by
  rcases find_some_mem m k a h with ⟨t, ht, rfl, he⟩
  have htf := getD_subset_flatten _ _ t ht
  rcases deref_mem m hwf t htf with ⟨nx, hd⟩
  exact ⟨t, nx, hd, htf, rfl, he⟩

theorem equal_key_unique (m : UnorderedMap K V) (hwf : WF m) (hL : Lawful m._hash m._equal)
    (hkd : KeysDistinct m) (k : K) (x y : HashNode K V) (hx : x ∈ m._buckets.flatten)
    (hy : y ∈ m._buckets.flatten) (hxk : m._equal x.val.1 k = true)
    (hyk : m._equal y.val.1 k = true) : x = y :=
  addr_inj m hwf x y hx hy
    (hkd x hx y hy (hL.trans _ _ _ hxk (hL.symm _ _ hyk)))

/-- C1. In a reachable map whose `_equal` is an equivalence relation respected by `_hash`,
`find(k)` is `end()` exactly when no stored entry has a key equal to `k`; otherwise the
iterator points at a stored entry whose key is equal to `k`, and that entry is the only
stored entry with such a key. -/
theorem find_correct [Inhabited V] (m : UnorderedMap K V) (hR : Reachable m)
    (hL : Lawful m._hash m._equal) (k : K) :
    (m.find k = none ↔ ∀ n ∈ m._buckets.flatten, m._equal n.val.1 k = false) ∧
    (∀ a, m.find k = some a →
      ∃ n nx, m.deref a = some (n, nx) ∧ n ∈ m._buckets.flatten ∧ n.addr = a ∧
        m._equal n.val.1 k = true ∧
        ∀ n1 ∈ m._buckets.flatten, m._equal n1.val.1 k = true → n1 = n) := by
  have hwf := reachable_wf m hR
  have hkd := reachable_inv m hR hL
  refine ⟨find_none_iff m hwf hL.hash_eq k, ?_⟩
  intro a ha
  rcases find_some_spec m hwf k a ha with ⟨n, nx, hd, hn, hna, hnk⟩
  exact ⟨n, nx, hd, hn, hna, hnk, fun n1 hn1 hk1 =>
    equal_key_unique m hwf hL hkd k n1 n hn1 hn hk1 hnk⟩

/-- C2. Inserting a pair whose key is not present returns the flag `true` and an iterator
to a new node holding the pair, adds one to `size()`, puts the node first in the chain of
bucket `hash(k) mod bucket_count`, leaves the rest of that chain and all other chains as
they were, and `find(k)` then reaches the new node and its value `v`. -/
theorem insert_absent [Inhabited V] (m : UnorderedMap K V) (hR : Reachable m)
    (hL : Lawful m._hash m._equal) (k : K) (v : V)
    (habs : ∀ n ∈ m._buckets.flatten, m._equal n.val.1 k = false) :
    ∃ m1 a, m.insert (k, v) = some (m1, some a, true) ∧
      (∀ n ∈ m._buckets.flatten, n.addr ≠ a) ∧
      m1.entry_at (some a) = some (k, v) ∧
      m1.size = m.size + 1 ∧
      m1.bucket_count = m.bucket_count ∧
      m1._buckets[_range_hash (m._hash k) m.bucket_count]?.getD [] =
        ⟨a, (k, v)⟩ :: m._buckets[_range_hash (m._hash k) m.bucket_count]?.getD [] ∧
      (∀ i : Nat, i ≠ _range_hash (m._hash k) m.bucket_count →
        m1._buckets[i]?.getD [] = m._buckets[i]?.getD []) ∧
      m1.find k = some a ∧
      m1.value_at (m1.find k) = some v := by
  have hwf := reachable_wf m hR
  have hf : m._find k = none := (find_none_iff m hwf hL.hash_eq k).mpr habs
  rcases insert_cases m hwf (k, v) with ⟨-, he⟩ | ⟨a, hfa, -⟩
  · have hwf1 := with_node_wf m hwf (k, v)
    have hself := with_node_chain_self m hwf (k, v)
    have hd : (with_node m (k, v)).deref (fresh_addr m._buckets) =
        some (⟨fresh_addr m._buckets, (k, v)⟩, _) :=
      heap_deref_split _ hwf1.nodup (m._bucket k) [] _ ⟨fresh_addr m._buckets, (k, v)⟩ hself
    have hfind : (with_node m (k, v)).find k = some (fresh_addr m._buckets) := by
      show find_walk m._equal k ((with_node m (k, v))._buckets[m._bucket k]?.getD []) = _
      rw [hself]
      simp [find_walk, hL.refl k]
    refine ⟨with_node m (k, v), fresh_addr m._buckets, he, ?_, ?_, rfl, rfl, hself,
      fun i hi => with_node_chain_other m (k, v) i hi, hfind, ?_⟩
    · intro n hn
      exact Nat.ne_of_lt (lt_fresh_addr _ n hn)
    · simp only [UnorderedMap.entry_at, hd, Option.map_some']
    · rw [hfind]
      simp only [UnorderedMap.value_at, hd, Option.map_some']
  · rw [show m._find (k, v).1 = m._find k from rfl, hf] at hfa
    cases hfa

/-- C4. Inserting a pair whose key is present creates nothing: the flag is `false`, the
iterator points at the stored entry whose key is equal to `k`, and the map afterwards is
the map before (so `size()`, `_head` and every chain are as they were). -/
theorem insert_present_frame [Inhabited V] (m : UnorderedMap K V) (hR : Reachable m)
    (hL : Lawful m._hash m._equal) (k : K) (v : V)
    (hpres : ∃ n ∈ m._buckets.flatten, m._equal n.val.1 k = true) :
    ∃ m1 a n nx, m.insert (k, v) = some (m1, some a, false) ∧ m1 = m ∧
      m.deref a = some (n, nx) ∧ n ∈ m._buckets.flatten ∧ m._equal n.val.1 k = true ∧
      m1.size = m.size ∧ m1._head = m._head ∧
      (∀ i : Nat, m1.bucket_size i = m.bucket_size i) ∧
      (∀ i : Nat, m1._buckets[i]?.getD [] = m._buckets[i]?.getD []) := by
  have hwf := reachable_wf m hR
  rcases insert_cases m hwf (k, v) with ⟨hf, -⟩ | ⟨a, hfa, he⟩
  · rcases hpres with ⟨n, hn, hnk⟩
    have := (find_none_iff m hwf hL.hash_eq k).mp hf n hn
    rw [hnk] at this
    cases this
  · rcases find_some_spec m hwf k a hfa with ⟨n, nx, hd, hn, -, hnk⟩
    exact ⟨m, a, n, nx, he, rfl, hd, hn, hnk, rfl, rfl, fun _ => rfl, fun _ => rfl⟩

/-- C5. Erasing a present key returns 1, takes one off `size()`, unlinks exactly one node,
whose key is equal to `k`, keeps every other node with its value and in its place in its
chain, and `find(k)` afterwards is `end()`. -/
theorem erase_present [Inhabited V] (m : UnorderedMap K V) (hR : Reachable m)
    (hL : Lawful m._hash m._equal) (k : K)
    (hpres : ∃ n ∈ m._buckets.flatten, m._equal n.val.1 k = true) :
    ∃ m1 t, m.erase k = some (m1, 1) ∧ t ∈ m._buckets.flatten ∧
      m._equal t.val.1 k = true ∧ m1.size + 1 = m.size ∧
      m1.bucket_count = m.bucket_count ∧
      (∀ i : Nat, m1._buckets[i]?.getD [] =
        (m._buckets[i]?.getD []).filter fun (n : HashNode K V) => n.addr != t.addr) ∧
      m1.find k = none := by
  have hwf := reachable_wf m hR
  have hkd := reachable_inv m hR hL
  cases hf : m._find k with
  | none =>
    rcases hpres with ⟨n, hn, hnk⟩
    have := (find_none_iff m hwf hL.hash_eq k).mp hf n hn
    rw [hnk] at this
    cases this
  | some a =>
    rcases find_some_spec m hwf k a hf with ⟨t, nx, -, ht, rfl, htk⟩
    rcases List.append_of_mem ht with ⟨pre, post, hsplit⟩
    rcases erase_it_spec m hwf pre post t hsplit with
      ⟨m1, he, hwf1, hfl, hbc, hh, heq, hsz, hchain⟩
    refine ⟨m1, t, ?_, ht, htk, hsz, hbc, hchain, ?_⟩
    · simp only [UnorderedMap.erase, hf, he]
    · have hcons : ∀ a b, m1._equal a b = true → m1._hash a = m1._hash b := by
        rw [hh, heq]
        exact hL.hash_eq
      refine (find_none_iff m1 hwf1 hcons k).mpr ?_
      intro n hn
      rw [heq]
      cases hnk : m._equal n.val.1 k with
      | false => rfl
      | true =>
        have hnm : n ∈ m._buckets.flatten := by
          rw [hsplit]
          rw [hfl] at hn
          rcases List.mem_append.mp hn with h1 | h1
          · exact List.mem_append_left _ h1
          · exact List.mem_append_right _ (List.mem_cons_of_mem _ h1)
        have hnt := equal_key_unique m hwf hL hkd k n t hnm ht hnk htk
        subst hnt
        have hnd := hwf.nodup
        rw [hsplit] at hnd
        rw [hfl] at hn
        have hnd1 : (pre ++ n :: post).Nodup := List.Nodup.of_map _ hnd
        have h3 := List.nodup_append.mp hnd1
        rcases List.mem_append.mp hn with h1 | h1
        · exact absurd (List.mem_cons_self n post) (fun h4 => h3.2.2 h1 h4)
        · exact absurd h1 (List.nodup_cons.mp h3.2.1).1

/-- C6. Erasing a key that no stored entry holds returns 0 and leaves the map exactly as
it was; the call has a result like any other.  This holds in every state. -/
theorem erase_absent (m : UnorderedMap K V) (k : K)
    (habs : ∀ n ∈ m._buckets.flatten, m._equal n.val.1 k = false) :
    m.erase k = some (m, 0) := by
  have hf : m._find k = none :=
    (find_walk_none m._equal k _).mpr fun n hn => habs n (getD_subset_flatten _ _ n hn)
  simp only [UnorderedMap.erase, hf]

/-! ## The concrete map -/

theorem ex_lawful : Lawful ex_hash ex_equal :=
  ⟨fun a => by simp [ex_equal], fun a b h => by simp only [ex_equal, beq_iff_eq] at *; omega,
    fun a b c h1 h2 => by simp only [ex_equal, beq_iff_eq] at *; omega,
    fun a b h => by simpa [ex_equal, ex_hash] using h⟩

theorem ex_one_reachable : Reachable ex_one :=
  Reachable.insert ex_empty (0, 100) (ex_one, some 1, true)
    (Reachable.construct ex_hash ex_equal 5 ex_hash ex_equal) rfl

theorem ex_two_reachable : Reachable ex_two :=
  Reachable.insert ex_one (5, 105) (ex_two, some 2, true) ex_one_reachable rfl

theorem ex_three_reachable : Reachable ex_three :=
  Reachable.insert ex_two (1, 101) (ex_three, some 3, true) ex_two_reachable rfl

theorem scenario_reachable : Reachable scenario :=
  Reachable.insert ex_three (3, 103) (scenario, some 4, true) ex_three_reachable rfl

theorem find_correct_witness :
    Reachable scenario ∧ Lawful scenario._hash scenario._equal ∧
    ((scenario.find 5 = none ↔
        ∀ n ∈ scenario._buckets.flatten, scenario._equal n.val.1 5 = false) ∧
      (∀ a, scenario.find 5 = some a →
        ∃ n nx, scenario.deref a = some (n, nx) ∧ n ∈ scenario._buckets.flatten ∧
          n.addr = a ∧ scenario._equal n.val.1 5 = true ∧
          ∀ n1 ∈ scenario._buckets.flatten, scenario._equal n1.val.1 5 = true → n1 = n)) :=
  ⟨scenario_reachable, ex_lawful, find_correct scenario scenario_reachable ex_lawful 5⟩

theorem insert_absent_witness :
    Reachable scenario ∧ Lawful scenario._hash scenario._equal ∧
    (∀ n ∈ scenario._buckets.flatten, scenario._equal n.val.1 7 = false) ∧
    ∃ m1 a, scenario.insert (7, 107) = some (m1, some a, true) ∧
      (∀ n ∈ scenario._buckets.flatten, n.addr ≠ a) ∧
      m1.entry_at (some a) = some (7, 107) ∧
      m1.size = scenario.size + 1 ∧
      m1.bucket_count = scenario.bucket_count ∧
      m1._buckets[_range_hash (scenario._hash 7) scenario.bucket_count]?.getD [] =
        ⟨a, (7, 107)⟩ ::
          scenario._buckets[_range_hash (scenario._hash 7) scenario.bucket_count]?.getD [] ∧
      (∀ i : Nat, i ≠ _range_hash (scenario._hash 7) scenario.bucket_count →
        m1._buckets[i]?.getD [] = scenario._buckets[i]?.getD []) ∧
      m1.find 7 = some a ∧
      m1.value_at (m1.find 7) = some 107 :=
  ⟨scenario_reachable, ex_lawful, by decide,
    insert_absent scenario scenario_reachable ex_lawful 7 107 (by decide)⟩

theorem insert_present_frame_witness :
    Reachable scenario ∧ Lawful scenario._hash scenario._equal ∧
    (∃ n ∈ scenario._buckets.flatten, scenario._equal n.val.1 5 = true) ∧
    ∃ m1 a n nx, scenario.insert (5, 999) = some (m1, some a, false) ∧ m1 = scenario ∧
      scenario.deref a = some (n, nx) ∧ n ∈ scenario._buckets.flatten ∧
      scenario._equal n.val.1 5 = true ∧
      m1.size = scenario.size ∧ m1._head = scenario._head ∧
      (∀ i : Nat, m1.bucket_size i = scenario.bucket_size i) ∧
      (∀ i : Nat, m1._buckets[i]?.getD [] = scenario._buckets[i]?.getD []) :=
  ⟨scenario_reachable, ex_lawful, ⟨⟨2, (5, 105)⟩, by decide, by decide⟩,
    insert_present_frame scenario scenario_reachable ex_lawful 5 999
      ⟨⟨2, (5, 105)⟩, by decide, by decide⟩⟩

theorem erase_present_witness :
    Reachable scenario ∧ Lawful scenario._hash scenario._equal ∧
    (∃ n ∈ scenario._buckets.flatten, scenario._equal n.val.1 0 = true) ∧
    ∃ m1 t, scenario.erase 0 = some (m1, 1) ∧ t ∈ scenario._buckets.flatten ∧
      scenario._equal t.val.1 0 = true ∧ m1.size + 1 = scenario.size ∧
      m1.bucket_count = scenario.bucket_count ∧
      (∀ i : Nat, m1._buckets[i]?.getD [] =
        (scenario._buckets[i]?.getD []).filter fun (n : HashNode Nat Nat) => n.addr != t.addr) ∧
      m1.find 0 = none :=
  ⟨scenario_reachable, ex_lawful, ⟨⟨1, (0, 100)⟩, by decide, by decide⟩,
    erase_present scenario scenario_reachable ex_lawful 0 ⟨⟨1, (0, 100)⟩, by decide, by decide⟩⟩

theorem erase_absent_witness :
    (∀ n ∈ scenario._buckets.flatten, scenario._equal n.val.1 7 = false) ∧
    scenario.erase 7 = some (scenario, 0) :=
  ⟨by decide, erase_absent scenario 7 (by decide)⟩

/-! ## The bindings of a map -/

theorem lookup_none_iff (m : UnorderedMap K V) (hwf : WF m) (hL : Lawful m._hash m._equal)
    (j : K) : m.lookup j = none ↔ ∀ n ∈ m._buckets.flatten, m._equal n.val.1 j = false := by
  rw [← find_none_iff m hwf hL.hash_eq j]
  constructor
  · intro h
    cases hf : m._find j with
    | none => rfl
    | some a =>
      rcases find_some_spec m hwf j a hf with ⟨n, nx, hd, -⟩
      simp [UnorderedMap.lookup, UnorderedMap.find, hf, UnorderedMap.value_at, hd] at h
  · intro h
    simp [UnorderedMap.lookup, UnorderedMap.find, h, UnorderedMap.value_at]

theorem lookup_some_iff (m : UnorderedMap K V) (hwf : WF m) (hL : Lawful m._hash m._equal)
    (hkd : KeysDistinct m) (j : K) (w : V) :
    m.lookup j = some w ↔
      ∃ n ∈ m._buckets.flatten, m._equal n.val.1 j = true ∧ n.val.2 = w := by
  constructor
  · intro h
    cases hf : m._find j with
    | none => simp [UnorderedMap.lookup, UnorderedMap.find, hf, UnorderedMap.value_at] at h
    | some a =>
      rcases find_some_spec m hwf j a hf with ⟨n, nx, hd, hn, -, hnk⟩
      simp only [UnorderedMap.lookup, UnorderedMap.find, hf, UnorderedMap.value_at, hd,
        Option.map_some', Option.some.injEq] at h
      exact ⟨n, hn, hnk, h⟩
  · rintro ⟨n, hn, hnk, rfl⟩
    cases hf : m._find j with
    | none =>
      have := (find_none_iff m hwf hL.hash_eq j).mp hf n hn
      rw [hnk] at this
      cases this
    | some a =>
      rcases find_some_spec m hwf j a hf with ⟨n1, nx, hd, hn1, -, hnk1⟩
      have := equal_key_unique m hwf hL hkd j n1 n hn1 hn hnk1 hnk
      subst this
      simp only [UnorderedMap.lookup, UnorderedMap.find, hf, UnorderedMap.value_at, hd,
        Option.map_some']

theorem option_eq_of_some_iff {α : Type} (a b : Option α)
    (h : ∀ w, a = some w ↔ b = some w) : a = b := by
  cases a with
  | none =>
    cases b with
    | none => rfl
    | some y => exact ((h y).mpr rfl)
  | some x => exact ((h x).mp rfl).symm

theorem lookup_isSome_iff (m : UnorderedMap K V) (hwf : WF m) (j : K) :
    (m.lookup j).isSome = (m._find j).isSome := by
  cases hf : m._find j with
  | none => simp [UnorderedMap.lookup, UnorderedMap.find, hf, UnorderedMap.value_at]
  | some a =>
    rcases find_some_spec m hwf j a hf with ⟨n, nx, hd, -⟩
    simp [UnorderedMap.lookup, UnorderedMap.find, hf, UnorderedMap.value_at, hd]

theorem with_node_lookup (m : UnorderedMap K V) (hwf : WF m) (hL : Lawful m._hash m._equal)
    (hkd : KeysDistinct m) (value : K × V) (hf : m._find value.1 = none) (j : K) :
    (with_node m value).lookup j =
      if m._equal value.1 j then some value.2 else m.lookup j := by
  have hwf1 := with_node_wf m hwf value
  have hkd1 := with_node_kd m hwf hL hkd value hf
  have hL1 : Lawful (with_node m value)._hash (with_node m value)._equal := hL
  have hperm := with_node_perm m hwf value
  cases he : m._equal value.1 j with
  | true =>
    simp only [if_true]
    refine (lookup_some_iff _ hwf1 hL1 hkd1 j value.2).mpr
      ⟨⟨fresh_addr m._buckets, value⟩, ?_, he, rfl⟩
    exact hperm.mem_iff.mpr (List.mem_cons_self _ _)
  | false =>
    simp only [Bool.false_eq_true, if_false]
    apply option_eq_of_some_iff
    intro w
    rw [lookup_some_iff _ hwf1 hL1 hkd1 j w, lookup_some_iff m hwf hL hkd j w]
    constructor
    · rintro ⟨n, hn, hnk, hv⟩
      rcases List.mem_cons.mp (hperm.mem_iff.mp hn) with rfl | hn1
      · have hnk1 : m._equal value.1 j = true := hnk
        rw [he] at hnk1
        cases hnk1
      · exact ⟨n, hn1, hnk, hv⟩
    · rintro ⟨n, hn, hnk, hv⟩
      exact ⟨n, hperm.mem_iff.mpr (List.mem_cons_of_mem _ hn), hnk, hv⟩

theorem store_lookup (m : UnorderedMap K V) (hwf : WF m) (hL : Lawful m._hash m._equal)
    (hkd : KeysDistinct m) (t : HashNode K V) (ht : t ∈ m._buckets.flatten) (k : K)
    (htk : m._equal t.val.1 k = true) (v : V) (j : K) :
    (m.store t.addr v).lookup j = if m._equal k j then some v else m.lookup j := by
  have hwf1 := store_wf m hwf t.addr v
  have hkd1 := store_kd m hkd t.addr v
  have hL1 : Lawful (m.store t.addr v)._hash (m.store t.addr v)._equal := hL
  have hkx : ∀ n : HashNode K V,
      (if n.addr = t.addr then { n with val := (n.val.1, v) } else n).val.1 = n.val.1 := by
    intro n; split <;> rfl
  cases he : m._equal k j with
  | true =>
    simp only [if_true]
    refine (lookup_some_iff _ hwf1 hL1 hkd1 j v).mpr ⟨{ t with val := (t.val.1, v) }, ?_, ?_, rfl⟩
    · rw [store_flatten]
      exact List.mem_map.mpr ⟨t, ht, by simp⟩
    · exact hL.trans _ _ _ htk he
  | false =>
    simp only [Bool.false_eq_true, if_false]
    apply option_eq_of_some_iff
    intro w
    rw [lookup_some_iff _ hwf1 hL1 hkd1 j w, lookup_some_iff m hwf hL hkd j w]
    have hne : ∀ n ∈ m._buckets.flatten, m._equal n.val.1 j = true → n.addr ≠ t.addr := by
      intro n hn hnj hna
      have := addr_inj m hwf n t hn ht hna
      subst this
      have := hL.trans _ _ _ (hL.symm _ _ htk) hnj
      rw [he] at this
      cases this
    constructor
    · rintro ⟨n, hn, hnk, hv⟩
      rw [store_flatten] at hn
      rcases List.mem_map.mp hn with ⟨n0, hn0, rfl⟩
      have hnk1 : m._equal _ j = true := hnk
      rw [hkx] at hnk1
      have := hne n0 hn0 hnk1
      rw [if_neg this] at hv
      exact ⟨n0, hn0, hnk1, hv⟩
    · rintro ⟨n, hn, hnk, hv⟩
      refine ⟨n, ?_, hnk, hv⟩
      rw [store_flatten]
      exact List.mem_map.mpr ⟨n, hn, by rw [if_neg (hne n hn hnk)]⟩

theorem erase_it_lookup (m : UnorderedMap K V) (hwf : WF m) (hL : Lawful m._hash m._equal)
    (hkd : KeysDistinct m) (pre post : List (HashNode K V)) (t : HashNode K V)
    (hsplit : m._buckets.flatten = pre ++ t :: post) (k : K)
    (htk : m._equal t.val.1 k = true) (m1 : UnorderedMap K V) (hwf1 : WF m1)
    (hfl : m1._buckets.flatten = pre ++ post) (hh : m1._hash = m._hash)
    (heq : m1._equal = m._equal) (j : K) :
    m1.lookup j = if m._equal k j then none else m.lookup j := by
  have hL1 : Lawful m1._hash m1._equal := by rw [hh, heq]; exact hL
  have hkd1 : KeysDistinct m1 := by
    refine sub_kd m m1 hkd heq ?_
    intro x hx
    rw [hfl] at hx
    rw [hsplit]
    rcases List.mem_append.mp hx with h1 | h1
    · exact List.mem_append_left _ h1
    · exact List.mem_append_right _ (List.mem_cons_of_mem _ h1)
  have ht : t ∈ m._buckets.flatten := by rw [hsplit]; simp
  have hmem : ∀ n, n ∈ pre ++ post ↔ n ∈ m._buckets.flatten ∧ n ≠ t := by
    intro n
    have hnd : (pre ++ t :: post).Nodup := by
      have := hwf.nodup
      rw [hsplit] at this
      exact List.Nodup.of_map _ this
    have h3 := List.nodup_append.mp hnd
    rw [hsplit]
    constructor
    · intro hn
      rcases List.mem_append.mp hn with h1 | h1
      · refine ⟨List.mem_append_left _ h1, ?_⟩
        rintro rfl
        exact h3.2.2 h1 (List.mem_cons_self _ _)
      · refine ⟨List.mem_append_right _ (List.mem_cons_of_mem _ h1), ?_⟩
        rintro rfl
        exact (List.nodup_cons.mp h3.2.1).1 h1
    · rintro ⟨hn, hne⟩
      rcases List.mem_append.mp hn with h1 | h1
      · exact List.mem_append_left _ h1
      · rcases List.mem_cons.mp h1 with rfl | h2
        · exact absurd rfl hne
        · exact List.mem_append_right _ h2
  cases he : m._equal k j with
  | true =>
    simp only [if_true]
    refine (lookup_none_iff m1 hwf1 hL1 j).mpr ?_
    intro n hn
    rw [hfl] at hn
    rw [heq]
    cases hnj : m._equal n.val.1 j with
    | false => rfl
    | true =>
      have h1 := (hmem n).mp hn
      have htj := hL.trans _ _ _ htk he
      exact absurd (equal_key_unique m hwf hL hkd j n t h1.1 ht hnj htj) h1.2
  | false =>
    simp only [Bool.false_eq_true, if_false]
    apply option_eq_of_some_iff
    intro w
    rw [lookup_some_iff _ hwf1 hL1 hkd1 j w, lookup_some_iff m hwf hL hkd j w, hfl, heq]
    constructor
    · rintro ⟨n, hn, hnk, hv⟩
      exact ⟨n, ((hmem n).mp hn).1, hnk, hv⟩
    · rintro ⟨n, hn, hnk, hv⟩
      refine ⟨n, (hmem n).mpr ⟨hn, ?_⟩, hnk, hv⟩
      rintro rfl
      have := hL.trans _ _ _ (hL.symm _ _ htk) hnk
      rw [he] at this
      cases this

theorem apply_lookup [Inhabited V] (m : UnorderedMap K V) (hR : Reachable m)
    (hL : Lawful m._hash m._equal) (op : Op K V) :
    ∃ m1, m.apply op = some m1 ∧ Reachable m1 ∧ m1._hash = m._hash ∧ m1._equal = m._equal ∧
      ∀ j, m1.lookup j = bind_step m._equal m.lookup op j := by
  have hwf := reachable_wf m hR
  have hkd := reachable_inv m hR hL
  cases op with
  | insert value =>
    rcases insert_cases m hwf value with ⟨hf, he⟩ | ⟨a, hf, he⟩
    · refine ⟨with_node m value, by simp [UnorderedMap.apply, he],
        Reachable.insert m value _ hR he, rfl, rfl, fun j => ?_⟩
      have h0 : (m.lookup value.1).isSome = false := by
        rw [lookup_isSome_iff m hwf, hf]; rfl
      simp only [bind_step, h0, Bool.false_eq_true, if_false]
      exact with_node_lookup m hwf hL hkd value hf j
    · refine ⟨m, by simp [UnorderedMap.apply, he], hR, rfl, rfl, fun j => ?_⟩
      have h0 : (m.lookup value.1).isSome = true := by
        rw [lookup_isSome_iff m hwf, hf]; rfl
      simp only [bind_step, h0, if_true]
  | index key =>
    rcases index_cases m hwf key with ⟨hf, he⟩ | ⟨a, hf, he⟩
    · refine ⟨with_node m (key, default), by simp [UnorderedMap.apply, he],
        Reachable.index m key _ hR he, rfl, rfl, fun j => ?_⟩
      have h0 : (m.lookup key).isSome = false := by
        rw [lookup_isSome_iff m hwf, hf]; rfl
      simp only [bind_step, h0, Bool.false_eq_true, if_false]
      exact with_node_lookup m hwf hL hkd (key, default) hf j
    · refine ⟨m, by simp [UnorderedMap.apply, he], hR, rfl, rfl, fun j => ?_⟩
      have h0 : (m.lookup key).isSome = true := by
        rw [lookup_isSome_iff m hwf, hf]; rfl
      simp only [bind_step, h0, if_true]
  | assign key v =>
    rcases index_cases m hwf key with ⟨hf, he⟩ | ⟨a, hf, he⟩
    · refine ⟨(with_node m (key, default)).store (fresh_addr m._buckets) v,
        by simp [UnorderedMap.apply, he], Reachable.assign m key _ v hR he, rfl, rfl,
        fun j => ?_⟩
      have hwf1 := with_node_wf m hwf (key, default)
      have hkd1 := with_node_kd m hwf hL hkd (key, default) hf
      have hmem : (⟨fresh_addr m._buckets, (key, default)⟩ : HashNode K V) ∈
          (with_node m (key, default))._buckets.flatten :=
        (with_node_perm m hwf (key, default)).mem_iff.mpr (List.mem_cons_self _ _)
      have h1 := store_lookup (with_node m (key, default)) hwf1 hL hkd1 _ hmem key
        (hL.refl key) v j
      have h2 := with_node_lookup m hwf hL hkd (key, default) hf j
      simp only [bind_step]
      rw [show (with_node m (key, default))._equal = m._equal from rfl] at h1
      rw [h1, h2]
      cases m._equal key j <;> simp
    · rcases find_some_spec m hwf key a hf with ⟨t, nx, -, ht, rfl, htk⟩
      refine ⟨m.store t.addr v, by simp [UnorderedMap.apply, he],
        Reachable.assign m key _ v hR he, rfl, rfl, fun j => ?_⟩
      simp only [bind_step]
      exact store_lookup m hwf hL hkd t ht key htk v j
  | erase key =>
    cases hf : m._find key with
    | none =>
      have he : m.erase key = some (m, 0) := by simp only [UnorderedMap.erase, hf]
      refine ⟨m, by simp [UnorderedMap.apply, he], hR, rfl, rfl, fun j => ?_⟩
      simp only [bind_step]
      cases hkj : m._equal key j with
      | false => simp
      | true =>
        simp only [if_true]
        refine (lookup_none_iff m hwf hL j).mpr fun n hn => ?_
        cases hnj : m._equal n.val.1 j with
        | false => rfl
        | true =>
          have h1 := (find_none_iff m hwf hL.hash_eq key).mp hf n hn
          rw [hL.trans _ _ _ hnj (hL.symm _ _ hkj)] at h1
          cases h1
    | some a =>
      rcases find_some_spec m hwf key a hf with ⟨t, nx, -, ht, rfl, htk⟩
      rcases List.append_of_mem ht with ⟨pre, post, hsplit⟩
      rcases erase_it_spec m hwf pre post t hsplit with
        ⟨m1, he, hwf1, hfl, hbc, hh, heq, hsz, hchain⟩
      have he1 : m.erase key = some (m1, 1) := by simp only [UnorderedMap.erase, hf, he]
      refine ⟨m1, by simp [UnorderedMap.apply, he1], Reachable.erase m key _ hR he1, hh, heq,
        fun j => ?_⟩
      simp only [bind_step]
      exact erase_it_lookup m hwf hL hkd pre post t hsplit key htk m1 hwf1 hfl hh heq j
  | clear =>
    rcases clear_total m._size m hwf (Nat.le_refl _) with ⟨m1, he⟩
    have hs := clear_sound m._size m m1 hwf he
    refine ⟨m1, he, Reachable.clear m _ m1 hR he, hs.2.2.2.1, hs.2.2.2.2, fun j => ?_⟩
    simp only [bind_step]
    have hL1 : Lawful m1._hash m1._equal := by rw [hs.2.2.2.1, hs.2.2.2.2]; exact hL
    refine (lookup_none_iff m1 hs.1 hL1 j).mpr fun n hn => ?_
    rw [hs.2.1] at hn
    cases hn

theorem run_lookup [Inhabited V] (ops : List (Op K V)) (m : UnorderedMap K V)
    (hR : Reachable m) (hL : Lawful m._hash m._equal) :
    ∃ m1, m.run ops = some m1 ∧ Reachable m1 ∧
      ∀ j, m1.lookup j = ops.foldl (bind_step m._equal) m.lookup j := by
  induction ops generalizing m with
  | nil => exact ⟨m, rfl, hR, fun _ => rfl⟩
  | cons op ops ih =>
    rcases apply_lookup m hR hL op with ⟨m1, ha, hR1, hh, heq, hl⟩
    have hL1 : Lawful m1._hash m1._equal := by rw [hh, heq]; exact hL
    rcases ih m1 hR1 hL1 with ⟨m2, hrun, hR2, hl2⟩
    refine ⟨m2, by simp only [UnorderedMap.run, ha, hrun], hR2, fun j => ?_⟩
    rw [hl2 j, heq, List.foldl_cons]
    have : m1.lookup = bind_step m._equal m.lookup op := funext hl
    rw [this]

theorem construct_lookup (Hash0 : K → Nat) (Pred0 : K → K → Bool) (n : Nat) (hash : K → Nat)
    (equal : K → K → Bool) (j : K) :
    (UnorderedMap.construct Hash0 Pred0 n hash equal : UnorderedMap K V).lookup j = none := by
  have hfl : (List.replicate (next_greater_prime n) ([] : List (HashNode K V))).flatten = [] := by
    rw [List.flatten_eq_nil_iff]
    intro l hl
    exact (List.mem_replicate.mp hl).2
  have hf : (UnorderedMap.construct Hash0 Pred0 n hash equal : UnorderedMap K V)._find j =
      none := by
    refine (find_walk_none _ j _).mpr fun x hx => ?_
    have := getD_subset_flatten _ _ x hx
    simp only [UnorderedMap.construct] at this
    rw [hfl] at this
    cases this
  simp [UnorderedMap.lookup, UnorderedMap.find, hf, UnorderedMap.value_at]

/-- On a freshly constructed map every sequence of calls runs to the end, and `find`
then yields the bindings computed by `bindings`. -/
theorem run_construct_lookup [Inhabited V] (Hash0 : K → Nat) (Pred0 : K → K → Bool) (n : Nat)
    (hash : K → Nat) (equal : K → K → Bool) (hL : Lawful Hash0 Pred0) (ops : List (Op K V)) :
    ∃ m1, (UnorderedMap.construct Hash0 Pred0 n hash equal : UnorderedMap K V).run ops =
        some m1 ∧ ∀ j, m1.lookup j = bindings Pred0 ops j := by
  rcases run_lookup ops _ (Reachable.construct Hash0 Pred0 n hash equal) hL with
    ⟨m1, hrun, -, hl⟩
  refine ⟨m1, hrun, fun j => ?_⟩
  rw [hl j]
  have : (UnorderedMap.construct Hash0 Pred0 n hash equal : UnorderedMap K V).lookup =
      fun _ => none := funext (construct_lookup Hash0 Pred0 n hash equal)
  rw [this]
  rfl

/-- C3, as the code has it.  `insert` of a pair whose key is present does not touch the
stored value: the call returns the flag `false`, the map is the map before, and `find(k)`
still yields the value `w` stored before.  More generally every sequence of `insert`,
`operator[]`, `operator[] = v`, `erase` and `clear` calls on a reachable map runs to the
end, and afterwards `find(j)` yields, for every key `j`, the binding that `bind_step`
computes call by call: the value of the latest assignment through `operator[]`, or else
the value given by the `insert` or `operator[]` call that created the entry. -/
theorem insert_keeps_stored_value [Inhabited V] (m : UnorderedMap K V) (hR : Reachable m)
    (hL : Lawful m._hash m._equal) :
    (∀ (k : K) (v w : V), m.lookup k = some w →
      ∃ m1 it, m.insert (k, v) = some (m1, it, false) ∧ m1 = m ∧ m1.lookup k = some w) ∧
    (∀ ops : List (Op K V), ∃ m1, m.run ops = some m1 ∧
      ∀ j, m1.lookup j = ops.foldl (bind_step m._equal) m.lookup j) := by
  have hwf := reachable_wf m hR
  refine ⟨fun k v w hw => ?_, fun ops => ?_⟩
  · rcases insert_cases m hwf (k, v) with ⟨hf, -⟩ | ⟨a, -, he⟩
    · have h0 := lookup_isSome_iff m hwf k
      rw [show m._find k = m._find (k, v).1 from rfl, hf, hw] at h0
      cases h0
    · exact ⟨m, some a, he, rfl, hw⟩
  · rcases run_lookup ops m hR hL with ⟨m1, hrun, -, hl⟩
    exact ⟨m1, hrun, hl⟩

theorem insert_keeps_stored_value_witness :
    Reachable scenario ∧ Lawful scenario._hash scenario._equal ∧
    scenario.lookup 5 = some 105 ∧
    (∃ m1 it, scenario.insert (5, 999) = some (m1, it, false) ∧ m1 = scenario ∧
      m1.lookup 5 = some 105) ∧
    (∃ m1, scenario.run [.insert (5, 999), .assign 1 7, .erase 0, .insert (0, 8)] = some m1 ∧
      ∀ j, m1.lookup j =
        [Op.insert (5, 999), .assign 1 7, .erase 0, .insert (0, 8)].foldl
          (bind_step scenario._equal) scenario.lookup j) :=
  ⟨scenario_reachable, ex_lawful, by decide,
    (insert_keeps_stored_value scenario scenario_reachable ex_lawful).1 5 999 105 (by decide),
    (insert_keeps_stored_value scenario scenario_reachable ex_lawful).2
      [.insert (5, 999), .assign 1 7, .erase 0, .insert (0, 8)]⟩

/-- C3 fails as stated: the reference map holds the pair `(5, 105)`; `insert({5, 999})`
returns the flag `false` and changes nothing, and `find(5)` still yields 105, not 999. -/
theorem insert_overwrite_counterexample :
    Reachable scenario ∧ Lawful scenario._hash scenario._equal ∧
    (∃ n ∈ scenario._buckets.flatten, scenario._equal n.val.1 5 = true) ∧
    (∃ m1, scenario.insert (5, 999) = some (m1, some 2, false) ∧
      m1.value_at (m1.find 5) = some 105 ∧ m1.value_at (m1.find 5) ≠ some 999) :=
  ⟨scenario_reachable, ex_lawful, ⟨⟨2, (5, 105)⟩, by decide, by decide⟩,
    ⟨scenario, rfl, by decide, by decide⟩⟩

/-! ## Iteration, size, key uniqueness and `clear` -/

theorem chains_eq_range {α : Type} (bs : List (List α)) :
    bs = (List.range bs.length).map fun i => bs[i]?.getD [] := by
  apply List.ext_getElem
  · simp
  · intro i h1 h2
    simp [List.getElem?_eq_getElem h1]

theorem count_walk_eq (c : List (HashNode K V)) (count : Int)
    (h : count + c.length ≤ 2147483647) :
    count_walk c count = some (count + c.length) := by
  induction c generalizing count with
  | nil => simp [count_walk]
  | cons x xs ih =>
    simp only [List.length_cons, Nat.cast_add, Nat.cast_one] at h
    have h1 : count + 1 ≤ 2147483647 := by omega
    rw [count_walk, if_pos h1, ih (count + 1) (by omega)]
    simp only [List.length_cons, Nat.cast_add, Nat.cast_one]
    congr 1
    omega

theorem to_size_t_natCast (n : Nat) (h : n < 2 ^ 64) : to_size_t (n : Int) = n := by
  unfold to_size_t
  rw [Int.emod_eq_of_lt (Int.ofNat_nonneg _) (by exact_mod_cast h)]
  exact Int.toNat_ofNat n

theorem bucket_size_eq (m : UnorderedMap K V) (n : Nat)
    (h : (m._buckets[n]?.getD []).length ≤ 2147483647) :
    m.bucket_size n = some (m._buckets[n]?.getD []).length := by
  rw [UnorderedMap.bucket_size, count_walk_eq _ 0 (by omega), Option.map_some', zero_add,
    to_size_t_natCast _ (by omega)]

theorem flatten_nil_chain {α : Type} (bs : List (List α)) (h : bs.flatten = []) (i : Nat) :
    bs[i]?.getD [] = [] := by
  cases hc : bs[i]?.getD [] with
  | nil => rfl
  | cons x xs =>
    have := getD_subset_flatten bs i x (by rw [hc]; simp)
    rw [h] at this
    cases this

/-! ## Chains keep the most recent node first -/

theorem store_chain (m : UnorderedMap K V) (node : Nat) (v : V) (i : Nat) :
    (m.store node v)._buckets[i]?.getD [] = (m._buckets[i]?.getD []).map
      fun n => if n.addr = node then { n with val := (n.val.1, v) } else n := by
  show (m._buckets.map _)[i]?.getD [] = _
  rw [List.getElem?_map]
  cases m._buckets[i]? <;> rfl

theorem with_node_recent (m : UnorderedMap K V) (hwf : WF m) (h : RecentFirst m)
    (value : K × V) : RecentFirst (with_node m value) := by
  intro i
  by_cases hi : i = m._bucket value.1
  · subst hi
    rw [with_node_chain_self m hwf value]
    refine List.pairwise_cons.mpr ⟨fun b hb => ?_, h _⟩
    exact lt_fresh_addr _ b (getD_subset_flatten _ _ b hb)
  · rw [with_node_chain_other m value i hi]
    exact h i

theorem store_recent (m : UnorderedMap K V) (h : RecentFirst m) (node : Nat) (v : V) :
    RecentFirst (m.store node v) := by
  intro i
  rw [store_chain, List.pairwise_map]
  refine (h i).imp ?_
  intro a b hab
  have hax : ∀ n : HashNode K V,
      (if n.addr = node then { n with val := (n.val.1, v) } else n).addr = n.addr := by
    intro n; split <;> rfl
  rw [hax, hax]
  exact hab

theorem erase_it_recent (m : UnorderedMap K V) (hwf : WF m) (h : RecentFirst m)
    (pos : Option Nat) (r : UnorderedMap K V × Option Nat) (he : m.erase_it pos = some r) :
    RecentFirst r.1 := by
  rcases erase_it_some m pos r he with ⟨t, rfl, ht⟩
  rcases List.append_of_mem ht with ⟨pre, post, hsplit⟩
  rcases erase_it_spec m hwf pre post t hsplit with ⟨m1, he1, -, -, -, -, -, -, hchain⟩
  rw [he1] at he
  simp only [Option.some.injEq] at he
  rw [← he]
  intro i
  rw [hchain i]
  exact (h i).sublist (List.filter_sublist _)

theorem nil_recent (m : UnorderedMap K V) (h : m._buckets.flatten = []) : RecentFirst m := by
  intro i
  rw [flatten_nil_chain m._buckets h i]
  exact List.Pairwise.nil

theorem reachable_recent [Inhabited V] (m : UnorderedMap K V) (h : Reachable m) :
    RecentFirst m := by
  induction h with
  | construct Hash0 Pred0 n hash equal =>
    apply nil_recent
    show (List.replicate (next_greater_prime n) ([] : List (HashNode K V))).flatten = []
    rw [List.flatten_eq_nil_iff]
    intro l hl
    exact (List.mem_replicate.mp hl).2
  | insert m value r hr he ih =>
    have hwf := reachable_wf m hr
    rcases insert_cases m hwf value with ⟨-, h1⟩ | ⟨a, -, h1⟩
    · rw [h1] at he
      simp only [Option.some.injEq] at he
      rw [← he]
      exact with_node_recent m hwf ih value
    · rw [h1] at he
      simp only [Option.some.injEq] at he
      rw [← he]
      exact ih
  | index m key r hr he ih =>
    have hwf := reachable_wf m hr
    rcases index_cases m hwf key with ⟨-, h1⟩ | ⟨a, -, h1⟩
    · rw [h1] at he
      simp only [Option.some.injEq] at he
      rw [← he]
      exact with_node_recent m hwf ih _
    · rw [h1] at he
      simp only [Option.some.injEq] at he
      rw [← he]
      exact ih
  | assign m key r v hr he ih =>
    have hwf := reachable_wf m hr
    apply store_recent
    rcases index_cases m hwf key with ⟨-, h1⟩ | ⟨a, -, h1⟩
    · rw [h1] at he
      simp only [Option.some.injEq] at he
      rw [← he]
      exact with_node_recent m hwf ih _
    · rw [h1] at he
      simp only [Option.some.injEq] at he
      rw [← he]
      exact ih
  | erase m key r hr he ih =>
    have hwf := reachable_wf m hr
    rcases erase_cases m key r he with ⟨-, rfl⟩ | ⟨a, r1, -, h1, rfl⟩
    · exact ih
    · exact erase_it_recent m hwf ih (some a) r1 h1
  | erase_it m pos r hr he ih => exact erase_it_recent m (reachable_wf m hr) ih pos r he
  | clear m fuel m1 hr he _ =>
    exact nil_recent m1 (clear_sound fuel m m1 (reachable_wf m hr) he).2.1

/-- C7. Global iteration from `begin()` to `end()` ends, and visits the chains of the
buckets 0, 1, ..., `bucket_count - 1` one after the other, each in chain order: all stored
nodes, none twice, with non-decreasing bucket index.  Every chain has its most recently
inserted node first (addresses decrease along a chain, and `new HashNode` hands out an
address above those of all live nodes).  In the reference scenario (bucket count 5, keys
with hashes 0, 0, 1, 3 modulo 5 inserted in that order) the order is second bucket-0 key,
first bucket-0 key, bucket-1 key, bucket-3 key, and buckets 2 and 4 are empty. -/
theorem iteration_order [Inhabited V] (m : UnorderedMap K V) (hR : Reachable m) :
    (∃ l, m.iterate (m.size + 1) m.begin = some l ∧
      l = (List.range m.bucket_count).flatMap (fun i => m._buckets[i]?.getD []) ∧
      (∀ (i : Nat) (n : HashNode K V), n ∈ m._buckets[i]?.getD [] → n ∈ l) ∧
      l.Nodup ∧ (l.map HashNode.addr).Nodup ∧
      (∀ (i : Nat) (n : HashNode K V), n ∈ m._buckets[i]?.getD [] → m._bucket n.val.1 = i) ∧
      List.Pairwise (fun a b => m._bucket a.val.1 ≤ m._bucket b.val.1) l ∧
      (∀ i : Nat, (m._buckets[i]?.getD []).Pairwise fun a b => b.addr < a.addr)) ∧
    (ex_empty.bucket_count = 5 ∧
      [ex_hash 0 % 5, ex_hash 5 % 5, ex_hash 1 % 5, ex_hash 3 % 5] = [0, 0, 1, 3] ∧
      ex_empty.run [.insert (0, 100), .insert (5, 105), .insert (1, 101), .insert (3, 103)] =
        some scenario ∧
      (scenario.iterate (scenario.size + 1) scenario.begin).map (List.map HashNode.val) =
        some [(5, 105), (0, 100), (1, 101), (3, 103)] ∧
      (List.range 5).map scenario.bucket_size = [some 2, some 1, some 0, some 1, some 0]) := by
  have hwf := reachable_wf m hR
  have hrange : m._buckets.flatten =
      (List.range m.bucket_count).flatMap (fun i => m._buckets[i]?.getD []) := by
    rw [List.flatMap_def]
    have := chains_eq_range m._buckets
    rw [hwf.len] at this
    exact congrArg List.flatten this
  refine ⟨⟨m._buckets.flatten, iterate_begin m hwf _ (Nat.lt_succ_self _), hrange,
    fun i n hn => getD_subset_flatten _ i n hn, List.Nodup.of_map _ hwf.nodup, hwf.nodup,
    hwf.resid, ?_, reachable_recent m hR⟩, rfl, rfl, rfl, rfl, rfl⟩
  rw [hrange, List.flatMap_def, List.pairwise_flatten]
  constructor
  · intro l hl
    rcases List.mem_map.mp hl with ⟨i, -, rfl⟩
    rw [List.pairwise_iff_forall_sublist]
    intro a b hab
    have ha := hwf.resid i a (hab.subset (List.mem_cons_self _ _))
    have hb := hwf.resid i b (hab.subset (List.mem_cons_of_mem _ (List.mem_cons_self _ _)))
    rw [ha, hb]
  · rw [List.pairwise_map]
    refine (List.pairwise_lt_range _).imp ?_
    intro i j hij a ha b hb
    rw [hwf.resid i a ha, hwf.resid j b hb]
    exact Nat.le_of_lt hij

theorem iteration_order_witness :
    Reachable ex_two ∧
    ((∃ l, ex_two.iterate (ex_two.size + 1) ex_two.begin = some l ∧
      l = (List.range ex_two.bucket_count).flatMap (fun i => ex_two._buckets[i]?.getD []) ∧
      (∀ (i : Nat) (n : HashNode Nat Nat), n ∈ ex_two._buckets[i]?.getD [] → n ∈ l) ∧
      l.Nodup ∧ (l.map HashNode.addr).Nodup ∧
      (∀ (i : Nat) (n : HashNode Nat Nat),
        n ∈ ex_two._buckets[i]?.getD [] → ex_two._bucket n.val.1 = i) ∧
      List.Pairwise (fun a b => ex_two._bucket a.val.1 ≤ ex_two._bucket b.val.1) l ∧
      (∀ i : Nat, (ex_two._buckets[i]?.getD []).Pairwise fun a b => b.addr < a.addr)) ∧
    (ex_empty.bucket_count = 5 ∧
      [ex_hash 0 % 5, ex_hash 5 % 5, ex_hash 1 % 5, ex_hash 3 % 5] = [0, 0, 1, 3] ∧
      ex_empty.run [.insert (0, 100), .insert (5, 105), .insert (1, 101), .insert (3, 103)] =
        some scenario ∧
      (scenario.iterate (scenario.size + 1) scenario.begin).map (List.map HashNode.val) =
        some [(5, 105), (0, 100), (1, 101), (3, 103)] ∧
      (List.range 5).map scenario.bucket_size = [some 2, some 1, some 0, some 1, some 0])) :=
  ⟨ex_two_reachable, iteration_order ex_two ex_two_reachable⟩

/-- C8. In every reachable map `size()` is the total number of nodes over all chains (the
chains of the bucket indices below `bucket_count()`; `bucket_size(n)` returns the length of
chain `n` when that is at most `INT_MAX`), and global iteration from `begin()` to `end()`
ends after visiting that many nodes. -/
theorem size_counts_entries [Inhabited V] (m : UnorderedMap K V) (hR : Reachable m) :
    m.size = (m._buckets.map List.length).sum ∧
    m.size = ((List.range m.bucket_count).map
      fun n => (m._buckets[n]?.getD []).length).sum ∧
    (∀ n : Nat, (m._buckets[n]?.getD []).length ≤ 2147483647 →
      m.bucket_size n = some (m._buckets[n]?.getD []).length) ∧
    ∃ l, m.iterate (m.size + 1) m.begin = some l ∧ l.length = m.size := by
  have hwf := reachable_wf m hR
  have h1 : m.size = (m._buckets.map List.length).sum := by
    show m._size = _
    rw [hwf.size_eq, List.length_flatten]
  refine ⟨h1, ?_, fun n hn => bucket_size_eq m n hn, m._buckets.flatten,
    iterate_begin m hwf _ (Nat.lt_succ_self _), hwf.size_eq.symm⟩
  rw [h1]
  have h2 := chains_eq_range m._buckets
  rw [hwf.len] at h2
  conv_lhs => rw [h2]
  rw [List.map_map]
  rfl

theorem size_counts_entries_witness :
    Reachable ex_three ∧
    (ex_three.size = (ex_three._buckets.map List.length).sum ∧
    ex_three.size = ((List.range ex_three.bucket_count).map
      fun n => (ex_three._buckets[n]?.getD []).length).sum ∧
    (∀ n : Nat, (ex_three._buckets[n]?.getD []).length ≤ 2147483647 →
      ex_three.bucket_size n = some (ex_three._buckets[n]?.getD []).length) ∧
    ∃ l, ex_three.iterate (ex_three.size + 1) ex_three.begin = some l ∧
      l.length = ex_three.size) :=
  ⟨ex_three_reachable, size_counts_entries ex_three ex_three_reachable⟩

/-- C9. In every reachable map whose `_equal` is an equivalence relation respected by
`_hash`, the stored nodes are pairwise distinct and no two of them hold keys that are
`_equal`. -/
theorem keys_unique [Inhabited V] (m : UnorderedMap K V) (hR : Reachable m)
    (hL : Lawful m._hash m._equal) :
    m._buckets.flatten.Nodup ∧
    m._buckets.flatten.Pairwise (fun x y => m._equal x.val.1 y.val.1 = false) ∧
    ∀ x ∈ m._buckets.flatten, ∀ y ∈ m._buckets.flatten, x ≠ y →
      m._equal x.val.1 y.val.1 = false := by
  have hwf := reachable_wf m hR
  have hkd := reachable_inv m hR hL
  have hnd : m._buckets.flatten.Nodup := List.Nodup.of_map _ hwf.nodup
  have hall : ∀ x ∈ m._buckets.flatten, ∀ y ∈ m._buckets.flatten, x ≠ y →
      m._equal x.val.1 y.val.1 = false := by
    intro x hx y hy hne
    cases he : m._equal x.val.1 y.val.1 with
    | false => rfl
    | true => exact absurd (addr_inj m hwf x y hx hy (hkd x hx y hy he)) hne
  exact ⟨hnd, hnd.pairwise_of_forall_ne hall, hall⟩

theorem keys_unique_witness :
    Reachable scenario ∧ Lawful scenario._hash scenario._equal ∧
    (scenario._buckets.flatten.Nodup ∧
    scenario._buckets.flatten.Pairwise
      (fun x y => scenario._equal x.val.1 y.val.1 = false) ∧
    ∀ x ∈ scenario._buckets.flatten, ∀ y ∈ scenario._buckets.flatten, x ≠ y →
      scenario._equal x.val.1 y.val.1 = false) :=
  ⟨scenario_reachable, ex_lawful, keys_unique scenario scenario_reachable ex_lawful⟩

/-- C10. `clear()` on a reachable map ends (any bound of at least `size()` iterations is
enough) and leaves `size() == 0`, `_head` null, so that `begin() == end()` and global
iteration visits nothing, every chain empty with `bucket_size(n) == 0`, and the same
`bucket_count()`. -/
theorem clear_empties [Inhabited V] (m : UnorderedMap K V) (hR : Reachable m) (fuel : Nat)
    (hf : m.size ≤ fuel) :
    ∃ m1, m.clear fuel = some m1 ∧ m1.size = 0 ∧ m1._head = none ∧ m1.begin = none ∧
      m1.iterate (m1.size + 1) m1.begin = some [] ∧
      (∀ n : Nat, n < m1.bucket_count →
        m1._buckets[n]?.getD [] = [] ∧ m1.bucket_size n = some 0) ∧
      m1._buckets = List.replicate m1.bucket_count [] ∧
      m1.bucket_count = m.bucket_count := by
  have hwf := reachable_wf m hR
  rcases clear_total fuel m hwf hf with ⟨m1, he⟩
  rcases clear_sound fuel m m1 hwf he with ⟨hwf1, hfl, hbc, -, -⟩
  have hsz : m1.size = 0 := by
    show m1._size = 0
    rw [hwf1.size_eq, hfl]
    rfl
  have hhead : m1._head = none := by rw [hwf1.head_eq, hfl]; rfl
  have hit := iterate_begin m1 hwf1 (m1.size + 1) (Nat.lt_succ_self _)
  rw [hfl] at hit
  refine ⟨m1, he, hsz, hhead, hhead, hit, fun n _ => ?_, ?_, hbc⟩
  · have hc := flatten_nil_chain m1._buckets hfl n
    exact ⟨hc, by rw [UnorderedMap.bucket_size, hc]; rfl⟩
  · have h2 := chains_eq_range m1._buckets
    rw [h2]
    apply List.ext_getElem
    · simp [UnorderedMap.bucket_count, hwf1.len]
    · intro i h3 h4
      simp [flatten_nil_chain m1._buckets hfl]

theorem clear_empties_witness :
    Reachable scenario ∧ scenario.size ≤ 4 ∧
    ∃ m1, scenario.clear 4 = some m1 ∧ m1.size = 0 ∧ m1._head = none ∧ m1.begin = none ∧
      m1.iterate (m1.size + 1) m1.begin = some [] ∧
      (∀ n : Nat, n < m1.bucket_count →
        m1._buckets[n]?.getD [] = [] ∧ m1.bucket_size n = some 0) ∧
      m1._buckets = List.replicate m1.bucket_count [] ∧
      m1.bucket_count = scenario.bucket_count :=
  ⟨scenario_reachable, by decide, clear_empties scenario scenario_reachable 4 (by decide)⟩
/-! ## `operator[]` -/

/-- C11. On a reachable map `operator[](k)` with `k` present leaves the map as it is and
returns a reference to the value stored for `k`; with `k` absent it returns a reference to
a default-constructed value in a new node, and the map afterwards is the map that
`insert((k, T()))` produces: the node first in its chain, `size()` one larger. -/
theorem index_spec [Inhabited V] (m : UnorderedMap K V) (hR : Reachable m)
    (hL : Lawful m._hash m._equal) (k : K) :
    ((∃ n ∈ m._buckets.flatten, m._equal n.val.1 k = true) →
      ∃ a n, m.index k = some (m, a) ∧ n ∈ m._buckets.flatten ∧ n.addr = a ∧
        m._equal n.val.1 k = true ∧ m.value_at (some a) = some n.val.2 ∧
        m.value_at (some a) = m.lookup k) ∧
    ((∀ n ∈ m._buckets.flatten, m._equal n.val.1 k = false) →
      ∃ m1 a, m.index k = some (m1, a) ∧ m1.value_at (some a) = some default ∧
        m.insert (k, default) = some (m1, some a, true) ∧
        m1.size = m.size + 1 ∧
        m1._buckets[_range_hash (m._hash k) m.bucket_count]?.getD [] =
          ⟨a, (k, default)⟩ :: m._buckets[_range_hash (m._hash k) m.bucket_count]?.getD [] ∧
        (∀ i : Nat, i ≠ _range_hash (m._hash k) m.bucket_count →
          m1._buckets[i]?.getD [] = m._buckets[i]?.getD []) ∧
        m1._head = (m1._buckets.flatten.head?).map HashNode.addr) := by
  have hwf := reachable_wf m hR
  constructor
  · rintro ⟨n0, hn0, hnk0⟩
    rcases index_cases m hwf k with ⟨hf, -⟩ | ⟨a, hf, he⟩
    · have := (find_none_iff m hwf hL.hash_eq k).mp hf n0 hn0
      rw [hnk0] at this
      cases this
    · rcases find_some_spec m hwf k a hf with ⟨n, nx, hd, hn, hna, hnk⟩
      refine ⟨a, n, he, hn, hna, hnk, ?_, ?_⟩
      · simp only [UnorderedMap.value_at, hd, Option.map_some']
      · simp only [UnorderedMap.lookup, UnorderedMap.find, hf]
  · intro habs
    have hf : m._find k = none := (find_none_iff m hwf hL.hash_eq k).mpr habs
    rcases index_cases m hwf k with ⟨-, he⟩ | ⟨a, hfa, -⟩
    · have hwf1 := with_node_wf m hwf (k, default)
      have hself := with_node_chain_self m hwf (k, default)
      have hd : (with_node m (k, default)).deref (fresh_addr m._buckets) =
          some (⟨fresh_addr m._buckets, (k, default)⟩, _) :=
        heap_deref_split _ hwf1.nodup (m._bucket k) [] _
          ⟨fresh_addr m._buckets, (k, default)⟩ hself
      refine ⟨with_node m (k, default), fresh_addr m._buckets, he, ?_, ?_, rfl, hself,
        fun i hi => with_node_chain_other m (k, default) i hi, rfl⟩
      · simp only [UnorderedMap.value_at, hd, Option.map_some']
      · rcases insert_cases m hwf (k, default) with ⟨-, hi⟩ | ⟨a, hfa, -⟩
        · exact hi
        · rw [show m._find (k, (default : V)).1 = m._find k from rfl, hf] at hfa
          cases hfa
    · rw [hf] at hfa
      cases hfa

theorem index_spec_witness :
    Reachable scenario ∧ Lawful scenario._hash scenario._equal ∧
    (∃ n ∈ scenario._buckets.flatten, scenario._equal n.val.1 5 = true) ∧
    (∀ n ∈ scenario._buckets.flatten, scenario._equal n.val.1 7 = false) ∧
    (∃ a n, scenario.index 5 = some (scenario, a) ∧ n ∈ scenario._buckets.flatten ∧
      n.addr = a ∧ scenario._equal n.val.1 5 = true ∧
      scenario.value_at (some a) = some n.val.2 ∧
      scenario.value_at (some a) = scenario.lookup 5) ∧
    (∃ m1 a, scenario.index 7 = some (m1, a) ∧ m1.value_at (some a) = some default ∧
      scenario.insert (7, default) = some (m1, some a, true) ∧
      m1.size = scenario.size + 1 ∧
      m1._buckets[_range_hash (scenario._hash 7) scenario.bucket_count]?.getD [] =
        ⟨a, (7, default)⟩ ::
          scenario._buckets[_range_hash (scenario._hash 7) scenario.bucket_count]?.getD [] ∧
      (∀ i : Nat, i ≠ _range_hash (scenario._hash 7) scenario.bucket_count →
        m1._buckets[i]?.getD [] = scenario._buckets[i]?.getD []) ∧
      m1._head = (m1._buckets.flatten.head?).map HashNode.addr) :=
  ⟨scenario_reachable, ex_lawful, ⟨⟨2, (5, 105)⟩, by decide, by decide⟩, by decide,
    (index_spec scenario scenario_reachable ex_lawful 5).1 ⟨⟨2, (5, 105)⟩, by decide, by decide⟩,
    (index_spec scenario scenario_reachable ex_lawful 7).2 (by decide)⟩

/-! ## The bucket count is fixed -/

theorem reachable_from_frame [Inhabited V] (m0 m : UnorderedMap K V) (h0 : Reachable m0)
    (h : ReachableFrom m0 m) :
    Reachable m ∧ m._bucket_count = m0._bucket_count ∧ m._hash = m0._hash ∧
      m._equal = m0._equal := by
  induction h with
  | start => exact ⟨h0, rfl, rfl, rfl⟩
  | insert m value r _ he ih =>
    have hs := insert_strategies m (reachable_wf m ih.1) value r he
    exact ⟨Reachable.insert m value r ih.1 he, hs.2.2.trans ih.2.1, hs.1.trans ih.2.2.1,
      hs.2.1.trans ih.2.2.2⟩
  | index m key r _ he ih =>
    have hs := index_strategies m (reachable_wf m ih.1) key r he
    exact ⟨Reachable.index m key r ih.1 he, hs.2.2.trans ih.2.1, hs.1.trans ih.2.2.1,
      hs.2.1.trans ih.2.2.2⟩
  | assign m key r v _ he ih =>
    have hs := index_strategies m (reachable_wf m ih.1) key r he
    exact ⟨Reachable.assign m key r v ih.1 he, hs.2.2.trans ih.2.1, hs.1.trans ih.2.2.1,
      hs.2.1.trans ih.2.2.2⟩
  | erase m key r _ he ih =>
    have hs := erase_strategies m (reachable_wf m ih.1) key r he
    exact ⟨Reachable.erase m key r ih.1 he, hs.2.2.1.trans ih.2.1, hs.1.trans ih.2.2.1,
      hs.2.1.trans ih.2.2.2⟩
  | erase_it m pos r _ he ih =>
    have hs := erase_it_wf m (reachable_wf m ih.1) pos r he
    exact ⟨Reachable.erase_it m pos r ih.1 he, hs.2.1.trans ih.2.1, hs.2.2.1.trans ih.2.2.1,
      hs.2.2.2.trans ih.2.2.2⟩
  | clear m fuel m1 _ he ih =>
    have hs := clear_sound fuel m m1 (reachable_wf m ih.1) he
    exact ⟨Reachable.clear m fuel m1 ih.1 he, hs.2.2.1.trans ih.2.1,
      hs.2.2.2.1.trans ih.2.2.1, hs.2.2.2.2.trans ih.2.2.2⟩

theorem apply_reachable_from [Inhabited V] (m0 m : UnorderedMap K V)
    (h : ReachableFrom m0 m) (op : Op K V) (m1 : UnorderedMap K V)
    (ha : m.apply op = some m1) : ReachableFrom m0 m1 := by
  cases op with
  | insert value =>
    rcases Option.map_eq_some'.mp ha with ⟨r, hr, rfl⟩
    exact ReachableFrom.insert m value r h hr
  | index key =>
    rcases Option.map_eq_some'.mp ha with ⟨r, hr, rfl⟩
    exact ReachableFrom.index m key r h hr
  | assign key v =>
    rcases Option.map_eq_some'.mp ha with ⟨r, hr, rfl⟩
    exact ReachableFrom.assign m key r v h hr
  | erase key =>
    rcases Option.map_eq_some'.mp ha with ⟨r, hr, rfl⟩
    exact ReachableFrom.erase m key r h hr
  | clear => exact ReachableFrom.clear m _ m1 h ha

theorem run_reachable_from [Inhabited V] (ops : List (Op K V)) (m0 m m1 : UnorderedMap K V)
    (h : ReachableFrom m0 m) (hr : m.run ops = some m1) : ReachableFrom m0 m1 := by
  induction ops generalizing m with
  | nil =>
    simp only [UnorderedMap.run, Option.some.injEq] at hr
    rw [← hr]
    exact h
  | cons op ops ih =>
    simp only [UnorderedMap.run] at hr
    cases ha : m.apply op with
    | none => rw [ha] at hr; simp at hr
    | some m2 =>
      rw [ha] at hr
      exact ih m2 (apply_reachable_from m0 m h op m2 ha) hr

/-- C17. Whatever sequence of `insert`, `operator[]`, `erase(key)`, `erase(iterator)` and
`clear` calls is made on a constructed map, `bucket_count()` keeps the value it had right
after construction, the prime chosen for the requested count. -/
theorem bucket_count_fixed [Inhabited V] (Hash0 : K → Nat) (Pred0 : K → K → Bool) (n : Nat)
    (hash : K → Nat) (equal : K → K → Bool) :
    (∀ m : UnorderedMap K V,
      ReachableFrom (UnorderedMap.construct Hash0 Pred0 n hash equal) m →
        m.bucket_count =
          (UnorderedMap.construct Hash0 Pred0 n hash equal : UnorderedMap K V).bucket_count ∧
        m.bucket_count = next_greater_prime n) ∧
    (∀ (ops : List (Op K V)) (m : UnorderedMap K V),
      (UnorderedMap.construct Hash0 Pred0 n hash equal).run ops = some m →
        m.bucket_count = next_greater_prime n) := by
  have key : ∀ m : UnorderedMap K V,
      ReachableFrom (UnorderedMap.construct Hash0 Pred0 n hash equal) m →
        m._bucket_count = next_greater_prime n := fun m h =>
    (reachable_from_frame _ m (Reachable.construct Hash0 Pred0 n hash equal) h).2.1
  exact ⟨fun m h => ⟨key m h, key m h⟩,
    fun ops m hr => key m (run_reachable_from ops _ _ m ReachableFrom.start hr)⟩

theorem scenario_reachable_from : ReachableFrom ex_empty scenario :=
  ReachableFrom.insert ex_three (3, 103) (scenario, some 4, true)
    (ReachableFrom.insert ex_two (1, 101) (ex_three, some 3, true)
      (ReachableFrom.insert ex_one (5, 105) (ex_two, some 2, true)
        (ReachableFrom.insert ex_empty (0, 100) (ex_one, some 1, true)
          ReachableFrom.start rfl) rfl) rfl) rfl

theorem scenario_run :
    ex_empty.run [.insert (0, 100), .insert (5, 105), .insert (1, 101), .insert (3, 103)] =
      some scenario := rfl

theorem bucket_count_fixed_witness :
    ReachableFrom ex_empty scenario ∧
    scenario.bucket_count = ex_empty.bucket_count ∧
    scenario.bucket_count = next_greater_prime 5 ∧
    (ex_empty.run [.insert (0, 100), .insert (5, 105), .insert (1, 101), .insert (3, 103)] =
        some scenario ∧
      scenario.bucket_count = next_greater_prime 5) :=
  ⟨scenario_reachable_from,
    ((bucket_count_fixed ex_hash ex_equal 5 ex_hash ex_equal).1 scenario
      scenario_reachable_from).1,
    ((bucket_count_fixed ex_hash ex_equal 5 ex_hash ex_equal).1 scenario
      scenario_reachable_from).2,
    scenario_run, (bucket_count_fixed ex_hash ex_equal 5 ex_hash ex_equal).2
      [.insert (0, 100), .insert (5, 105), .insert (1, 101), .insert (3, 103)] scenario
      scenario_run⟩

/-! ## Round trip -/

theorem buckets_eq_replicate (m : UnorderedMap K V) (hwf : WF m)
    (hfl : m._buckets.flatten = []) : m._buckets = List.replicate m._bucket_count [] := by
  have h2 := chains_eq_range m._buckets
  rw [h2]
  apply List.ext_getElem
  · simp [hwf.len]
  · intro i h3 h4
    simp [flatten_nil_chain m._buckets hfl]

theorem empty_eq (m : UnorderedMap K V) (hwf : WF m) (hfl : m._buckets.flatten = []) :
    m = { _bucket_count := m._bucket_count, _buckets := List.replicate m._bucket_count [],
          _head := none, _size := 0, _hash := m._hash, _equal := m._equal } := by
  have hb := buckets_eq_replicate m hwf hfl
  have hs : m._size = 0 := by rw [hwf.size_eq, hfl]; rfl
  have hh : m._head = none := by rw [hwf.head_eq, hfl]; rfl
  cases m
  simp only at hb hs hh
  simp only [UnorderedMap.mk.injEq]
  exact ⟨trivial, hb, hh, hs, trivial, trivial⟩

theorem erase_fold [Inhabited V] (equal : K → K → Bool) (order : List K) (f : K → Option V)
    (j : K) :
    (order.map Op.erase).foldl (bind_step equal) f j =
      if order.any (fun k => equal k j) then none else f j := by
  induction order generalizing f with
  | nil => simp
  | cons k ks ih =>
    simp only [List.map_cons, List.foldl_cons, List.any_cons]
    rw [ih]
    simp only [bind_step]
    by_cases h1 : (ks.any fun k => equal k j) = true <;>
      by_cases h2 : equal k j = true <;> simp [h1, h2]

theorem insert_run [Inhabited V] (kvs : List (K × V)) (m : UnorderedMap K V)
    (hR : Reachable m) (hL : Lawful m._hash m._equal)
    (hd : (kvs.map Prod.fst).Pairwise fun a b => m._equal a b = false)
    (habs : ∀ kv ∈ kvs, m.lookup kv.1 = none) :
    ∃ m1, m.run (kvs.map Op.insert) = some m1 ∧ m1._size = m._size + kvs.length ∧
      ∀ j w, m1.lookup j = some w →
        m.lookup j = some w ∨ ∃ kv ∈ kvs, m._equal kv.1 j = true := by
  induction kvs generalizing m with
  | nil => exact ⟨m, rfl, rfl, fun j w h => Or.inl h⟩
  | cons kv rest ih =>
    have hwf := reachable_wf m hR
    have hkd := reachable_inv m hR hL
    have hf : m._find kv.1 = none := by
      have h0 := lookup_isSome_iff m hwf kv.1
      rw [habs kv (List.mem_cons_self _ _)] at h0
      cases hf : m._find kv.1 with
      | none => rfl
      | some a => rw [hf] at h0; cases h0
    rcases insert_cases m hwf kv with ⟨-, he⟩ | ⟨a, hfa, -⟩
    · have hl := with_node_lookup m hwf hL hkd kv hf
      have hd1 := List.pairwise_cons.mp hd
      have habs1 : ∀ kv1 ∈ rest, (with_node m kv).lookup kv1.1 = none := by
        intro kv1 h1
        rw [hl, hd1.1 kv1.1 (List.mem_map_of_mem _ h1)]
        exact habs kv1 (List.mem_cons_of_mem _ h1)
      rcases ih (with_node m kv) (Reachable.insert m kv _ hR he) hL hd1.2 habs1 with
        ⟨m1, hrun, hsz, hdom⟩
      refine ⟨m1, ?_, ?_, ?_⟩
      · simp only [List.map_cons, UnorderedMap.run, UnorderedMap.apply, he, Option.map_some']
        exact hrun
      · rw [hsz]
        show m._size + 1 + rest.length = m._size + (rest.length + 1)
        omega
      · intro j w hj
        rcases hdom j w hj with h1 | ⟨kv1, hk1, he1⟩
        · rw [hl] at h1
          cases hkj : m._equal kv.1 j with
          | true => exact Or.inr ⟨kv, List.mem_cons_self _ _, hkj⟩
          | false =>
            rw [hkj] at h1
            exact Or.inl h1
        · exact Or.inr ⟨kv1, List.mem_cons_of_mem _ hk1, he1⟩
    · rw [hf] at hfa
      cases hfa

/-- C12. Inserting pairs with pairwise distinct keys into a freshly constructed map gives
a map of that many entries, and erasing all these keys afterwards, in any order, gives
back the freshly constructed map: the same bucket count and strategies, `size() == 0`,
`_head` null, every chain empty, global iteration empty. -/
theorem round_trip [Inhabited V] (Hash0 : K → Nat) (Pred0 : K → K → Bool) (n : Nat)
    (hash : K → Nat) (equal : K → K → Bool) (hL : Lawful Hash0 Pred0) (kvs : List (K × V))
    (hd : (kvs.map Prod.fst).Pairwise fun a b => Pred0 a b = false) (order : List K)
    (hp : order.Perm (kvs.map Prod.fst)) :
    ∃ m1 m2 : UnorderedMap K V,
      (UnorderedMap.construct Hash0 Pred0 n hash equal).run (kvs.map Op.insert) = some m1 ∧
      m1.size = kvs.length ∧
      m1.run (order.map Op.erase) = some m2 ∧
      m2 = UnorderedMap.construct Hash0 Pred0 n hash equal ∧
      m2.size = 0 ∧ m2._head = none ∧ m2.bucket_count = m1.bucket_count ∧
      (∀ i : Nat, m2._buckets[i]?.getD [] = []) ∧
      m2.iterate (m2.size + 1) m2.begin = some [] := by
  have hR0 := Reachable.construct (V := V) Hash0 Pred0 n hash equal
  have hl0 := construct_lookup (V := V) Hash0 Pred0 n hash equal
  rcases insert_run kvs _ hR0 hL hd (fun kv _ => hl0 kv.1) with ⟨m1, hrun1, hsz1, hdom⟩
  have hF1 := reachable_from_frame _ m1 hR0
    (run_reachable_from _ _ _ m1 ReachableFrom.start hrun1)
  have hL1 : Lawful m1._hash m1._equal := by rw [hF1.2.2.1, hF1.2.2.2]; exact hL
  rcases run_lookup (order.map Op.erase) m1 hF1.1 hL1 with ⟨m2, hrun2, hR2, hl2⟩
  have hF2 := reachable_from_frame _ m2 hF1.1
    (run_reachable_from _ _ _ m2 ReachableFrom.start hrun2)
  have hL2 : Lawful m2._hash m2._equal := by rw [hF2.2.2.1, hF2.2.2.2]; exact hL1
  have hwf2 := reachable_wf m2 hR2
  have hnone : ∀ j, m2.lookup j = none := by
    intro j
    rw [hl2 j, erase_fold]
    cases hj : m1.lookup j with
    | none => simp
    | some w =>
      rcases hdom j w hj with h1 | ⟨kv, hkv, he⟩
      · rw [hl0 j] at h1
        cases h1
      · have hmem : kv.1 ∈ order := hp.mem_iff.mpr (List.mem_map_of_mem _ hkv)
        have hany : order.any (fun k => m1._equal k j) = true := by
          rw [List.any_eq_true]
          exact ⟨kv.1, hmem, by rw [hF1.2.2.2]; exact he⟩
        rw [hany]
        rfl
  have hfl : m2._buckets.flatten = [] := by
    cases hc : m2._buckets.flatten with
    | nil => rfl
    | cons x xs =>
      have := (lookup_none_iff m2 hwf2 hL2 x.val.1).mp (hnone x.val.1) x (by rw [hc]; simp)
      rw [hL2.refl] at this
      cases this
  have heq : m2 = UnorderedMap.construct Hash0 Pred0 n hash equal := by
    rw [empty_eq m2 hwf2 hfl, hF2.2.1, hF2.2.2.1, hF2.2.2.2, hF1.2.1, hF1.2.2.1, hF1.2.2.2]
    rfl
  have hsz2 : m2.size = 0 := by rw [heq]; rfl
  refine ⟨m1, m2, hrun1, ?_, hrun2, heq, hsz2, by rw [heq]; rfl, hF2.2.1,
    fun i => flatten_nil_chain _ hfl i, ?_⟩
  · show m1._size = _
    rw [hsz1]
    show 0 + kvs.length = kvs.length
    omega
  · rw [heq]
    rfl

theorem round_trip_witness :
    Lawful ex_hash ex_equal ∧
    (([(0, 100), (5, 105), (1, 101), (3, 103)] : List (Nat × Nat)).map Prod.fst).Pairwise
      (fun a b => ex_equal a b = false) ∧
    List.Perm [1, 0, 3, 5] (([(0, 100), (5, 105), (1, 101), (3, 103)] : List (Nat × Nat)).map
      Prod.fst) ∧
    ∃ m1 m2 : UnorderedMap Nat Nat,
      (UnorderedMap.construct ex_hash ex_equal 5 ex_hash ex_equal).run
        (([(0, 100), (5, 105), (1, 101), (3, 103)] : List (Nat × Nat)).map Op.insert) =
          some m1 ∧
      m1.size = ([(0, 100), (5, 105), (1, 101), (3, 103)] : List (Nat × Nat)).length ∧
      m1.run (([1, 0, 3, 5] : List Nat).map Op.erase) = some m2 ∧
      m2 = UnorderedMap.construct ex_hash ex_equal 5 ex_hash ex_equal ∧
      m2.size = 0 ∧ m2._head = none ∧ m2.bucket_count = m1.bucket_count ∧
      (∀ i : Nat, m2._buckets[i]?.getD [] = []) ∧
      m2.iterate (m2.size + 1) m2.begin = some [] :=
  ⟨ex_lawful, by decide, by decide,
    round_trip ex_hash ex_equal 5 ex_hash ex_equal ex_lawful
      [(0, 100), (5, 105), (1, 101), (3, 103)] (by decide) [1, 0, 3, 5] (by decide)⟩

/-! ## Copying and moving -/

theorem blank_flatten (hash : K → Nat) (equal : K → K → Bool) (bc : Nat) :
    (UnorderedMap.blank hash equal bc : UnorderedMap K V)._buckets.flatten = [] := by
  show (List.replicate bc ([] : List (HashNode K V))).flatten = []
  rw [List.flatten_eq_nil_iff]
  intro l hl
  exact (List.mem_replicate.mp hl).2

theorem blank_wf (hash : K → Nat) (equal : K → K → Bool) (bc : Nat) (hbc : 0 < bc) :
    WF (UnorderedMap.blank hash equal bc : UnorderedMap K V) := by
  have hfl := blank_flatten (V := V) hash equal bc
  refine ⟨by simp [UnorderedMap.blank], hbc, ?_, ?_, ?_, ?_⟩
  · intro i x hx
    have := getD_subset_flatten _ i x hx
    rw [hfl] at this
    cases this
  · rw [hfl]
    exact List.nodup_nil
  · rw [hfl]
    rfl
  · rw [hfl]
    rfl

theorem nodes_in_order_eq (m : UnorderedMap K V) (hwf : WF m) :
    m.nodes_in_order = m._buckets.flatten := by
  simp only [UnorderedMap.nodes_in_order]
  rw [List.flatMap_def]
  have := chains_eq_range m._buckets
  rw [hwf.len] at this
  exact (congrArg List.flatten this).symm

theorem flatten_pairwise_keys (m : UnorderedMap K V) (hwf : WF m) (hkd : KeysDistinct m) :
    m._buckets.flatten.Pairwise fun x y => m._equal x.val.1 y.val.1 = false := by
  have hnd : m._buckets.flatten.Nodup := List.Nodup.of_map _ hwf.nodup
  refine hnd.pairwise_of_forall_ne ?_
  intro x hx y hy hne
  cases he : m._equal x.val.1 y.val.1 with
  | false => rfl
  | true => exact absurd (addr_inj m hwf x y hx hy (hkd x hx y hy he)) hne

theorem insert_all_spec (L : List (HashNode K V)) (m : UnorderedMap K V) (hwf : WF m)
    (hL : Lawful m._hash m._equal) (hkd : KeysDistinct m)
    (hd : L.Pairwise fun x y => m._equal x.val.1 y.val.1 = false)
    (habs : ∀ x ∈ L, m.lookup x.val.1 = none) :
    ∃ c, m.insert_all L = some c ∧ WF c ∧ KeysDistinct c ∧ c._hash = m._hash ∧
      c._equal = m._equal ∧ c._bucket_count = m._bucket_count ∧
      c._size = m._size + L.length ∧
      ∀ j w, c.lookup j = some w ↔
        (m.lookup j = some w ∨ ∃ x ∈ L, m._equal x.val.1 j = true ∧ x.val.2 = w) := by
  induction L generalizing m with
  | nil =>
    exact ⟨m, rfl, hwf, hkd, rfl, rfl, rfl, rfl, fun j w => by simp⟩
  | cons x rest ih =>
    have hf : m._find x.val.1 = none := by
      have h0 := lookup_isSome_iff m hwf x.val.1
      rw [habs x (List.mem_cons_self _ _)] at h0
      cases hf : m._find x.val.1 with
      | none => rfl
      | some a => rw [hf] at h0; cases h0
    rcases insert_cases m hwf x.val with ⟨-, he⟩ | ⟨a, hfa, -⟩
    · have hl := with_node_lookup m hwf hL hkd x.val hf
      have hd1 := List.pairwise_cons.mp hd
      have habs1 : ∀ y ∈ rest, (with_node m x.val).lookup y.val.1 = none := by
        intro y hy
        rw [hl, hd1.1 y hy]
        exact habs y (List.mem_cons_of_mem _ hy)
      rcases ih (with_node m x.val) (with_node_wf m hwf x.val) hL
          (with_node_kd m hwf hL hkd x.val hf) hd1.2 habs1 with
        ⟨c, hrun, hwfc, hkdc, hh, heq, hbc, hsz, hlk⟩
      refine ⟨c, ?_, hwfc, hkdc, hh, heq, hbc, ?_, ?_⟩
      · simp only [UnorderedMap.insert_all, he]
        exact hrun
      · rw [hsz]
        show m._size + 1 + rest.length = m._size + (rest.length + 1)
        omega
      · intro j w
        rw [hlk j w, hl]
        show _ ∨ (∃ y ∈ rest, m._equal y.val.1 j = true ∧ y.val.2 = w) ↔ _
        have hxnone := habs x (List.mem_cons_self _ _)
        constructor
        · rintro (h1 | ⟨y, hy, hyj, hyw⟩)
          · cases hxj : m._equal x.val.1 j with
            | true =>
              rw [hxj] at h1
              simp only [if_true, Option.some.injEq] at h1
              exact Or.inr ⟨x, List.mem_cons_self _ _, hxj, h1⟩
            | false =>
              rw [hxj] at h1
              exact Or.inl h1
          · exact Or.inr ⟨y, List.mem_cons_of_mem _ hy, hyj, hyw⟩
        · rintro (h1 | ⟨y, hy, hyj, hyw⟩)
          · cases hxj : m._equal x.val.1 j with
            | true =>
              exfalso
              rcases (lookup_some_iff m hwf hL hkd j w).mp h1 with ⟨n, hn, hnj, -⟩
              have h2 := (lookup_none_iff m hwf hL x.val.1).mp hxnone n hn
              rw [hL.trans _ _ _ hnj (hL.symm _ _ hxj)] at h2
              cases h2
            | false => exact Or.inl h1
          · rcases List.mem_cons.mp hy with rfl | hy1
            · left
              rw [hyj, if_pos rfl, hyw]
            · exact Or.inr ⟨y, hy1, hyj, hyw⟩
    · rw [hf] at hfa
      cases hfa

theorem blank_lookup (hash : K → Nat) (equal : K → K → Bool) (bc : Nat) (j : K) :
    (UnorderedMap.blank hash equal bc : UnorderedMap K V).lookup j = none := by
  have hf : (UnorderedMap.blank hash equal bc : UnorderedMap K V)._find j = none := by
    refine (find_walk_none _ j _).mpr fun x hx => ?_
    have := getD_subset_flatten _ _ x hx
    rw [blank_flatten] at this
    cases this
  simp [UnorderedMap.lookup, UnorderedMap.find, hf, UnorderedMap.value_at]

theorem copy_construct_ok (other : UnorderedMap K V) (hwf : WF other)
    (hL : Lawful other._hash other._equal) (hkd : KeysDistinct other) :
    ∃ c, other.copy_construct = some c ∧ WF c ∧ KeysDistinct c ∧
      c._bucket_count = other._bucket_count ∧ c._size = other._size ∧
      c._hash = other._hash ∧ c._equal = other._equal ∧
      ∀ k, c.lookup k = other.lookup k := by
  have hkd0 : KeysDistinct
      (UnorderedMap.blank other._hash other._equal other._bucket_count : UnorderedMap K V) := by
    intro x hx
    rw [blank_flatten] at hx
    cases hx
  rcases insert_all_spec other._buckets.flatten
      (UnorderedMap.blank other._hash other._equal other._bucket_count)
      (blank_wf _ _ _ hwf.pos) hL hkd0 (flatten_pairwise_keys other hwf hkd)
      (fun x _ => blank_lookup _ _ _ _) with
    ⟨c, hrun, hwfc, hkdc, hh, heq, hbc, hsz, hlk⟩
  refine ⟨c, ?_, hwfc, hkdc, hbc, ?_, hh, heq, fun k => ?_⟩
  · simp only [UnorderedMap.copy_construct, nodes_in_order_eq other hwf]
    exact hrun
  · rw [hsz, hwf.size_eq]
    show 0 + _ = _
    omega
  · apply option_eq_of_some_iff
    intro w
    rw [hlk k w, lookup_some_iff other hwf hL hkd k w, blank_lookup]
    constructor
    · rintro (h | h)
      · cases h
      · exact h
    · exact fun h => Or.inr h

theorem copy_assign_eq (Hash0 : K → Nat) (Pred0 : K → K → Bool) (fuel : Nat)
    (dst other : UnorderedMap K V) (hwf : WF dst) (hh : dst._hash = Hash0)
    (he : dst._equal = Pred0) (hoh : other._hash = Hash0) (hoe : other._equal = Pred0)
    (hf : dst._size ≤ fuel) :
    UnorderedMap.copy_assign Hash0 Pred0 fuel dst other = other.copy_construct := by
  have hd : ({ dst with _hash := Hash0, _equal := Pred0 } : UnorderedMap K V) = dst := by
    cases dst
    simp only at hh he
    simp only [UnorderedMap.mk.injEq]
    exact ⟨trivial, trivial, trivial, trivial, hh.symm, he.symm⟩
  rcases clear_total fuel dst hwf hf with ⟨m1, hc⟩
  rcases clear_sound fuel dst m1 hwf hc with ⟨hwf1, hfl1, -, hh1, he1⟩
  have hm1 := empty_eq m1 hwf1 hfl1
  simp only [UnorderedMap.copy_assign, hd, hc, UnorderedMap.copy_construct]
  congr 1
  rw [hm1]
  simp only [UnorderedMap.blank, UnorderedMap.mk.injEq]
  exact ⟨trivial, trivial, trivial, trivial, by rw [hh1, hh, hoh], by rw [he1, he, hoe]⟩

/-- C13. The copy constructor and copy assignment (between maps of one type, whose
strategy members are those of `Hash{}` and `key_equal{}`) run to the end on a reachable
source and produce a map with the source's `bucket_count()` and `size()` in which
`find(k)` yields the same value as in the source, for every key `k`, or `end()` in both.
The source is an argument that is only read. -/
theorem copy_same_contents [Inhabited V] (other : UnorderedMap K V) (hR : Reachable other)
    (hL : Lawful other._hash other._equal) :
    (∃ c, other.copy_construct = some c ∧ c.bucket_count = other.bucket_count ∧
      c.size = other.size ∧ ∀ k, c.lookup k = other.lookup k) ∧
    (∀ (dst : UnorderedMap K V) (fuel : Nat), Reachable dst → dst._hash = other._hash →
      dst._equal = other._equal → dst.size ≤ fuel →
      ∃ c, UnorderedMap.copy_assign other._hash other._equal fuel dst other = some c ∧
        c.bucket_count = other.bucket_count ∧ c.size = other.size ∧
        ∀ k, c.lookup k = other.lookup k) := by
  have hwf := reachable_wf other hR
  have hkd := reachable_inv other hR hL
  rcases copy_construct_ok other hwf hL hkd with ⟨c, hc, -, -, hbc, hsz, -, -, hlk⟩
  refine ⟨⟨c, hc, hbc, hsz, hlk⟩, fun dst fuel hRd hh he hf => ⟨c, ?_, hbc, hsz, hlk⟩⟩
  rw [copy_assign_eq other._hash other._equal fuel dst other (reachable_wf dst hRd) hh he
    rfl rfl hf]
  exact hc

theorem copy_same_contents_witness :
    Reachable scenario ∧ Lawful scenario._hash scenario._equal ∧
    (∃ c, scenario.copy_construct = some c ∧ c.bucket_count = scenario.bucket_count ∧
      c.size = scenario.size ∧ ∀ k, c.lookup k = scenario.lookup k) ∧
    Reachable ex_two ∧ ex_two._hash = scenario._hash ∧ ex_two._equal = scenario._equal ∧
    ex_two.size ≤ 2 ∧
    (∃ c, UnorderedMap.copy_assign scenario._hash scenario._equal 2 ex_two scenario =
        some c ∧
      c.bucket_count = scenario.bucket_count ∧ c.size = scenario.size ∧
      ∀ k, c.lookup k = scenario.lookup k) :=
  ⟨scenario_reachable, ex_lawful, (copy_same_contents scenario scenario_reachable ex_lawful).1,
    ex_two_reachable, rfl, rfl, by decide,
    (copy_same_contents scenario scenario_reachable ex_lawful).2 ex_two 2 ex_two_reachable
      rfl rfl (by decide)⟩

theorem blank_insert (hash : K → Nat) (equal : K → K → Bool) (bc : Nat) (hbc : 0 < bc)
    (value : K × V) :
    ∃ m it, (UnorderedMap.blank hash equal bc : UnorderedMap K V).insert value =
      some (m, it, true) ∧ m._size = 1 := by
  have hwf := blank_wf (V := V) hash equal bc hbc
  have hf : (UnorderedMap.blank hash equal bc : UnorderedMap K V)._find value.1 = none := by
    refine (find_walk_none _ _ _).mpr fun x hx => ?_
    have := getD_subset_flatten _ _ x hx
    rw [blank_flatten] at this
    cases this
  rcases insert_cases _ hwf value with ⟨-, he⟩ | ⟨a, hfa, -⟩
  · exact ⟨_, _, he, rfl⟩
  · rw [hf] at hfa
    cases hfa

/-- C14. Move construction from a reachable map `other`, and move assignment from it into
a different reachable map, hand the destination exactly the members `other` had (chains,
`_head`, `_size`, `_bucket_count`, strategies) and leave `other` empty and usable:
`size() == 0`, `_head` null, every chain empty, the bucket count it had before, and an
`insert` on it succeeds. -/
theorem move_transfers [Inhabited V] (other : UnorderedMap K V) (hR : Reachable other) :
    (∀ (Hash0 : K → Nat) (Pred0 : K → K → Bool),
      (UnorderedMap.move_construct Hash0 Pred0 other).1 = other ∧
      (UnorderedMap.move_construct Hash0 Pred0 other).2.size = 0 ∧
      (UnorderedMap.move_construct Hash0 Pred0 other).2._head = none ∧
      (∀ i : Nat, (UnorderedMap.move_construct Hash0 Pred0 other).2._buckets[i]?.getD [] = []) ∧
      (UnorderedMap.move_construct Hash0 Pred0 other).2.bucket_count = other.bucket_count ∧
      (∀ value : K × V, ∃ m it,
        (UnorderedMap.move_construct Hash0 Pred0 other).2.insert value = some (m, it, true) ∧
          m.size = 1)) ∧
    (∀ (dst : UnorderedMap K V) (fuel : Nat), Reachable dst → dst.size ≤ fuel →
      ∃ r, UnorderedMap.move_assign fuel dst other = some r ∧
        r.1 = other ∧ r.1._buckets = other._buckets ∧ r.1._head = other._head ∧
        r.1.size = other.size ∧ r.1.bucket_count = other.bucket_count ∧
        r.2.size = 0 ∧ r.2._head = none ∧ (∀ i : Nat, r.2._buckets[i]?.getD [] = []) ∧
        r.2.bucket_count = other.bucket_count ∧
        (∀ value : K × V, ∃ m it, r.2.insert value = some (m, it, true) ∧ m.size = 1)) := by
  have hwf := reachable_wf other hR
  constructor
  · intro Hash0 Pred0
    refine ⟨rfl, rfl, rfl, fun i => flatten_nil_chain _ (blank_flatten Hash0 Pred0 _) i, rfl,
      fun value => blank_insert Hash0 Pred0 _ hwf.pos value⟩
  · intro dst fuel hRd hf
    have hwfd := reachable_wf dst hRd
    rcases clear_total fuel dst hwfd hf with ⟨m1, hc⟩
    rcases clear_sound fuel dst m1 hwfd hc with ⟨hwf1, hfl1, -, -, -⟩
    have hm1 := empty_eq m1 hwf1 hfl1
    have hb : ({ m1 with _bucket_count := other._bucket_count,
                         _buckets := List.replicate other._bucket_count [] } :
        UnorderedMap K V) = UnorderedMap.blank m1._hash m1._equal other._bucket_count := by
      rw [hm1]
      rfl
    refine ⟨UnorderedMap._move_content
        (UnorderedMap.blank m1._hash m1._equal other._bucket_count) other,
      by simp only [UnorderedMap.move_assign, hc, hb], rfl, rfl, rfl, rfl, rfl, rfl,
      rfl, fun i => flatten_nil_chain _ (blank_flatten m1._hash m1._equal _) i, rfl,
      fun value => blank_insert m1._hash m1._equal _ hwf.pos value⟩

theorem move_transfers_witness :
    Reachable scenario ∧ Reachable ex_two ∧ ex_two.size ≤ 2 ∧
    (UnorderedMap.move_construct ex_hash ex_equal scenario).1 = scenario ∧
    (UnorderedMap.move_construct ex_hash ex_equal scenario).2.size = 0 ∧
    (∃ r, UnorderedMap.move_assign 2 ex_two scenario = some r ∧
        r.1 = scenario ∧ r.1._buckets = scenario._buckets ∧ r.1._head = scenario._head ∧
        r.1.size = scenario.size ∧ r.1.bucket_count = scenario.bucket_count ∧
        r.2.size = 0 ∧ r.2._head = none ∧ (∀ i : Nat, r.2._buckets[i]?.getD [] = []) ∧
        r.2.bucket_count = scenario.bucket_count ∧
        (∀ value : Nat × Nat, ∃ m it, r.2.insert value = some (m, it, true) ∧ m.size = 1)) :=
  ⟨scenario_reachable, ex_two_reachable, by decide,
    ((move_transfers scenario scenario_reachable).1 ex_hash ex_equal).1,
    ((move_transfers scenario scenario_reachable).1 ex_hash ex_equal).2.1,
    (move_transfers scenario scenario_reachable).2 ex_two 2 ex_two_reachable (by decide)⟩

/-! ## The strategies given to the constructor -/

/-- C15 fails on the code: the constructor never stores its `hash` and `equal` arguments.
Constructed with bucket count 5 and the strategies "every key hashes to 0" and "all keys
are equal", the map still has the default-constructed strategies: `bucket(1)` is 1 where
the supplied hash gives 0, and after `insert({1, 10})` the call `find(6)` is `end()`
although the supplied equality holds 6 and 1 equal and the supplied hash sends both to
bucket 0. -/
theorem construct_ignores_strategies :
    (UnorderedMap.construct ex_hash ex_equal 5 (fun _ => 0) (fun _ _ => true) :
      UnorderedMap Nat Nat).bucket 1 = 1 ∧
    _range_hash ((fun _ : Nat => 0) 1) 5 = 0 ∧
    (∃ m it, (UnorderedMap.construct ex_hash ex_equal 5 (fun _ => 0) (fun _ _ => true) :
        UnorderedMap Nat Nat).insert (1, 10) = some (m, it, true) ∧
      m.find 6 = none ∧ (fun _ _ : Nat => true) 1 6 = true) ∧
    (∀ (Hash0 : Nat → Nat) (Pred0 : Nat → Nat → Bool) (n : Nat) (hash : Nat → Nat)
      (equal : Nat → Nat → Bool),
      (UnorderedMap.construct Hash0 Pred0 n hash equal : UnorderedMap Nat Nat)._hash = Hash0 ∧
      (UnorderedMap.construct Hash0 Pred0 n hash equal : UnorderedMap Nat Nat)._equal =
        Pred0) :=
  ⟨rfl, rfl, ⟨_, _, rfl, rfl, rfl⟩, fun _ _ _ _ _ => ⟨rfl, rfl⟩⟩

/-! ## The prime bucket count -/

theorem is_prime_iff (n : Nat) : is_prime n = true ↔ Nat.Prime n := by
  rw [Nat.prime_def_lt']
  simp only [is_prime, Bool.and_eq_true, decide_eq_true_eq, List.all_eq_true, List.mem_range,
    Bool.or_eq_true, bne_iff_ne, ne_eq]
  constructor
  · rintro ⟨h2, h⟩
    refine ⟨h2, fun m hm hmn hdvd => ?_⟩
    rcases h m hmn with h1 | h1
    · omega
    · exact h1 (Nat.mod_eq_zero_of_dvd hdvd)
  · rintro ⟨h2, h⟩
    refine ⟨h2, fun d hd => ?_⟩
    by_cases hd2 : d < 2
    · exact Or.inl hd2
    · exact Or.inr fun h0 => h d (by omega) hd (Nat.dvd_of_mod_eq_zero h0)

theorem next_prime_from_spec (fuel c p : Nat) (hp : Nat.Prime p) (hc : c ≤ p)
    (hf : p < c + fuel) :
    Nat.Prime (next_prime_from fuel c) ∧ c ≤ next_prime_from fuel c ∧
      ∀ q, Nat.Prime q → c ≤ q → next_prime_from fuel c ≤ q := by
  induction fuel generalizing c with
  | zero => omega
  | succ f ih =>
    simp only [next_prime_from]
    by_cases hpc : is_prime c = true
    · rw [if_pos hpc]
      exact ⟨(is_prime_iff c).mp hpc, Nat.le_refl c, fun q _ hq => hq⟩
    · rw [if_neg hpc]
      have hne : ∀ q, Nat.Prime q → c ≤ q → c + 1 ≤ q := by
        intro q hq hcq
        have : q ≠ c := fun e => hpc ((is_prime_iff c).mpr (e ▸ hq))
        omega
      rcases ih (c + 1) (hne p hp hc) (by omega) with ⟨h1, h2, h3⟩
      exact ⟨h1, by omega, fun q hq hcq => h3 q hq (hne q hq hcq)⟩

theorem next_greater_prime_spec (n : Nat) :
    Nat.Prime (next_greater_prime n) ∧ n ≤ next_greater_prime n ∧
      (∀ q, Nat.Prime q → n ≤ q → next_greater_prime n ≤ q) ∧
      (n ≤ 2 → next_greater_prime n = 2) := by
  rcases Nat.exists_prime_lt_and_le_two_mul (max n 2) (by omega) with ⟨p, hp, h1, h2⟩
  rcases next_prime_from_spec (max n 2 + 1) (max n 2) p hp (Nat.le_of_lt h1) (by omega) with
    ⟨hprime, hge, hmin⟩
  refine ⟨hprime, ?_, ?_, ?_⟩
  · exact Nat.le_trans (Nat.le_max_left n 2) hge
  · intro q hq hnq
    exact hmin q hq (Nat.max_le.mpr ⟨hnq, hq.two_le⟩)
  · intro hn
    have h3 := hmin 2 Nat.prime_two (by omega)
    have h4 : 2 ≤ next_greater_prime n := Nat.le_trans (Nat.le_max_right n 2) hge
    exact Nat.le_antisymm h3 h4

/-- C16. For every requested count `n` the constructed map has as `bucket_count()` the
smallest prime that is at least `n`; for `n <= 2` that is 2, and a request of 5 gives 5.
(`next_greater_prime` is the function described in section 4.1 of the specification.) -/
theorem bucket_count_smallest_prime (Hash0 : K → Nat) (Pred0 : K → K → Bool) (n : Nat)
    (hash : K → Nat) (equal : K → K → Bool) :
    Nat.Prime (UnorderedMap.construct Hash0 Pred0 n hash equal : UnorderedMap K V).bucket_count ∧
    n ≤ (UnorderedMap.construct Hash0 Pred0 n hash equal : UnorderedMap K V).bucket_count ∧
    (∀ q, Nat.Prime q → n ≤ q →
      (UnorderedMap.construct Hash0 Pred0 n hash equal : UnorderedMap K V).bucket_count ≤ q) ∧
    (n ≤ 2 →
      (UnorderedMap.construct Hash0 Pred0 n hash equal : UnorderedMap K V).bucket_count = 2) ∧
    (UnorderedMap.construct Hash0 Pred0 5 hash equal : UnorderedMap K V).bucket_count = 5 :=
  ⟨(next_greater_prime_spec n).1, (next_greater_prime_spec n).2.1,
    (next_greater_prime_spec n).2.2.1, (next_greater_prime_spec n).2.2.2, rfl⟩

/-! ## Local iteration and bucket sizes -/

theorem mem_take_flatten {α : Type} (bs : List (List α)) (b : Nat) (x : α)
    (hx : x ∈ (bs.take b).flatten) : ∃ i, i < b ∧ x ∈ bs[i]?.getD [] := by
  rcases mem_flatten_getD _ x hx with ⟨i, hi, hxi⟩
  have hib : i < b := by
    rw [List.length_take] at hi
    omega
  refine ⟨i, hib, ?_⟩
  rw [List.getElem?_take_of_lt hib] at hxi
  exact hxi

theorem mem_drop_flatten {α : Type} (bs : List (List α)) (b : Nat) (x : α)
    (hx : x ∈ (bs.drop b).flatten) : ∃ i, b ≤ i ∧ x ∈ bs[i]?.getD [] := by
  rcases mem_flatten_getD _ x hx with ⟨i, -, hxi⟩
  rw [List.getElem?_drop] at hxi
  exact ⟨b + i, by omega, hxi⟩

theorem filter_flatten_chain (m : UnorderedMap K V) (hwf : WF m) (n : Nat) :
    (m._buckets.flatten.filter fun e => m._bucket e.val.1 == n) = m._buckets[n]?.getD [] := by
  by_cases hn : n < m._buckets.length
  · rw [flatten_split _ n hn, List.filter_append, List.filter_append]
    have h1 : ((m._buckets.take n).flatten.filter fun e => m._bucket e.val.1 == n) = [] := by
      rw [List.filter_eq_nil_iff]
      intro e he
      rcases mem_take_flatten _ _ e he with ⟨i, hi, hei⟩
      have := hwf.resid i e hei
      simp only [beq_iff_eq]
      omega
    have h2 : ((m._buckets.drop (n + 1)).flatten.filter fun e => m._bucket e.val.1 == n) =
        [] := by
      rw [List.filter_eq_nil_iff]
      intro e he
      rcases mem_drop_flatten _ _ e he with ⟨i, hi, hei⟩
      have := hwf.resid i e hei
      simp only [beq_iff_eq]
      omega
    have h3 : ((m._buckets[n]?.getD []).filter fun e => m._bucket e.val.1 == n) =
        m._buckets[n]?.getD [] := by
      rw [List.filter_eq_self]
      intro e he
      simp only [beq_iff_eq]
      exact hwf.resid n e he
    rw [h1, h2, h3]
    simp
  · have hc : m._buckets[n]?.getD [] = [] := by
      simp [List.getElem?_eq_none (Nat.le_of_not_lt hn)]
    rw [hc, List.filter_eq_nil_iff]
    intro e he
    rcases mem_flatten_getD _ e he with ⟨i, hi, hei⟩
    have := hwf.resid i e hei
    simp only [beq_iff_eq]
    omega

theorem to_size_t_cast (x : Int) : ((to_size_t x : Nat) : Int) = x % 2 ^ 64 := by
  unfold to_size_t
  exact Int.toNat_of_nonneg (Int.emod_nonneg _ (by norm_num))

theorem char_value_nonneg (char_is_signed : Bool) (byte : Nat)
    (h : char_is_signed = false ∨ byte % 256 < 128) :
    to_size_t (char_value char_is_signed byte) = byte % 256 := by
  have hv : char_value char_is_signed byte = ((byte % 256 : Nat) : Int) := by
    unfold char_value
    rcases h with h | h
    · simp [h]
    · have : ¬ (128 ≤ byte % 256) := by omega
      simp [this]
  have hlt : byte % 256 < 2 ^ 64 := Nat.lt_of_lt_of_le (Nat.mod_lt _ (by norm_num)) (by norm_num)
  apply Int.ofNat_inj.mp
  rw [to_size_t_cast, hv]
  exact Int.emod_eq_of_lt (Int.ofNat_nonneg _) (by exact_mod_cast hlt)

theorem fnv1a_loop_agree (char_is_signed : Bool) (str : List Nat) (hash : Nat)
    (h : char_is_signed = false ∨ ∀ b ∈ str, b % 256 < 128) :
    fnv1a_loop char_is_signed str hash =
      str.foldl (fun hash byte => ((hash ^^^ (byte % 256)) * 0x100000001B3) % 2 ^ 64) hash := by
  induction str generalizing hash with
  | nil => rfl
  | cons b rest ih =>
    have hb : to_size_t (char_value char_is_signed b) = b % 256 :=
      char_value_nonneg char_is_signed b (h.imp id fun h1 => h1 b (List.mem_cons_self _ _))
    simp only [fnv1a_loop, List.foldl_cons, hb]
    exact ih _ (h.imp id fun h1 x hx => h1 x (List.mem_cons_of_mem _ hx))

/-- Where plain `char` is unsigned, and on strings of bytes below `0x80` everywhere,
`fnv1a_hash` is the FNV-1a digest. -/
theorem fnv1a_agree (char_is_signed : Bool) (str : List Nat)
    (h : char_is_signed = false ∨ ∀ b ∈ str, b % 256 < 128) :
    fnv1a_hash char_is_signed str = fnv1a_digest str :=
  fnv1a_loop_agree char_is_signed str _ h

/-- C19, the code against the claim.  Where plain `char` is signed, the byte `0x80` is the
`char` value -128, which `hash ^ c` converts to `0xFFFFFFFFFFFFFF80`: the hash of the
one-byte string `"\x80"` is 5808531584386460767, the FNV-1a digest of that string is
12638293853183578463 (which the code returns where `char` is unsigned).  The hash of the
empty string is the basis. -/
theorem fnv1a_sign_extension :
    char_value true 0x80 = -128 ∧
    to_size_t (char_value true 0x80) = 0xFFFFFFFFFFFFFF80 ∧
    fnv1a_hash true [0x80] = 5808531584386460767 ∧
    fnv1a_digest [0x80] = 12638293853183578463 ∧
    fnv1a_hash false [0x80] = 12638293853183578463 ∧
    fnv1a_hash true [0x80] ≠ fnv1a_digest [0x80] ∧
    fnv1a_hash true [] = 0xCBF29CE484222325 ∧
    fnv1a_hash false [] = 0xCBF29CE484222325 := by
  decide

theorem polynomial_rolling_loop_spec (char_is_signed : Bool) (str : List Nat) (i p hash : Nat)
    (hp : p = 19 ^ i % 3298534883309) (hh : hash < 2 ^ 64) :
    (polynomial_rolling_loop char_is_signed str p hash).1 =
        19 ^ (i + str.length) % 3298534883309 ∧
    (((polynomial_rolling_loop char_is_signed str p hash).2 : Nat) : Int) =
        ((hash : Int) + polynomial_sum i (str.map (char_value char_is_signed))) % 2 ^ 64 := by
  induction str generalizing i p hash with
  | nil =>
    refine ⟨by simpa [polynomial_rolling_loop] using hp, ?_⟩
    simp only [polynomial_rolling_loop, List.map_nil, polynomial_sum, add_zero]
    exact (Int.emod_eq_of_lt (Int.ofNat_nonneg _) (by exact_mod_cast hh)).symm
  | cons b rest ih =>
    have hpm : p < 3298534883309 := by rw [hp]; exact Nat.mod_lt _ (by norm_num)
    have hp19 : p * 19 % 2 ^ 64 = p * 19 := Nat.mod_eq_of_lt (by omega)
    have hp1 : p * 19 % 2 ^ 64 % 3298534883309 = 19 ^ (i + 1) % 3298534883309 := by
      rw [hp19, hp, Nat.pow_succ, Nat.mod_mul_mod]
    have hh1 : (hash + to_size_t (char_value char_is_signed b) * p % 2 ^ 64) % 2 ^ 64 <
        2 ^ 64 := Nat.mod_lt _ (by norm_num)
    rcases ih (i + 1) _ _ hp1 hh1 with ⟨h1, h2⟩
    simp only [polynomial_rolling_loop, List.length_cons, List.map_cons, polynomial_sum]
    refine ⟨by rw [h1]; congr 2; omega, ?_⟩
    rw [h2]
    have hc := to_size_t_cast (char_value char_is_signed b)
    have key : Int.ModEq (2 ^ 64)
        (((hash + to_size_t (char_value char_is_signed b) * p % 2 ^ 64) % 2 ^ 64 : Nat) : Int)
        ((hash : Int) + char_value char_is_signed b * ((19 ^ i % 3298534883309 : Nat) : Int)) := by
      rw [← hp]
      push_cast
      rw [hc]
      refine (Int.mod_modEq _ _).trans ?_
      refine Int.ModEq.add_left _ ?_
      refine (Int.mod_modEq _ _).trans ?_
      exact Int.ModEq.mul_right _ (Int.mod_modEq _ _)
    have := Int.ModEq.add_right
      (polynomial_sum (i + 1) (rest.map (char_value char_is_signed))) key
    unfold Int.ModEq at this
    rw [this, add_assoc]

theorem char_value_eq (char_is_signed : Bool) (byte : Nat)
    (h : char_is_signed = false ∨ byte % 256 < 128) :
    char_value char_is_signed byte = ((byte % 256 : Nat) : Int) := by
  unfold char_value
  rcases h with h | h
  · simp [h]
  · have : ¬ (128 ≤ byte % 256) := by omega
    simp [this]

theorem polynomial_rolling_sum (char_is_signed : Bool) (str : List Nat) :
    ((polynomial_rolling_hash char_is_signed str : Nat) : Int) =
      polynomial_sum 0 (str.map (char_value char_is_signed)) % 2 ^ 64 ∧
    (polynomial_rolling_loop char_is_signed str 1 0).1 = 19 ^ str.length % 3298534883309 ∧
    (polynomial_rolling_loop char_is_signed str 1 0).1 < 3298534883309 ∧
    (polynomial_rolling_loop char_is_signed str 1 0).1 * 19 < 2 ^ 64 := by
  rcases polynomial_rolling_loop_spec char_is_signed str 0 1 0 (by norm_num) (by norm_num) with
    ⟨h1, h2⟩
  have h3 : (polynomial_rolling_loop char_is_signed str 1 0).1 =
      19 ^ str.length % 3298534883309 := by
    rw [h1, Nat.zero_add]
  have h4 : (polynomial_rolling_loop char_is_signed str 1 0).1 < 3298534883309 := by
    rw [h3]; exact Nat.mod_lt _ (by norm_num)
  refine ⟨?_, h3, h4, by omega⟩
  rw [show polynomial_rolling_hash char_is_signed str =
    (polynomial_rolling_loop char_is_signed str 1 0).2 from rfl, h2]
  simp

/-- C20, the code against the claim.  Where plain `char` is signed, the byte `0x80` is the
`char` value -128, which `c * p` converts to `2^64 - 128`: the hash of the one-byte string
`"\x80"` is 18446744073709551488, while the sum of `c_i * (19^i mod 3298534883309)` over
the character codes (values 0..255) is 128, which the code returns where `char` is
unsigned.  From the second character on such a product `c * p` itself passes `2^64`, so it
is not only the accumulated sum that wraps (`"a\x80"`).  Where plain `char` is unsigned,
and on strings of bytes below `0x80` everywhere, the hash is the claimed sum modulo `2^64`
and no product `c * p` wraps.  In every case the hash is the sum over the values of the
`char`s modulo `2^64`, the power accumulator `p` is `19^n mod 3298534883309` after `n`
characters, below the modulus, and `p * 19` is below `2^64`; the hash of the empty string
is 0. -/
theorem polynomial_rolling_sign_extension :
    char_value true 0x80 = -128 ∧
    to_size_t (char_value true 0x80) = 0xFFFFFFFFFFFFFF80 ∧
    polynomial_rolling_hash true [0x80] = 18446744073709551488 ∧
    polynomial_digest [0x80] = 128 ∧
    polynomial_rolling_hash false [0x80] = 128 ∧
    polynomial_rolling_hash true [0x80] ≠ polynomial_digest [0x80] ∧
    2 ^ 64 ≤ to_size_t (char_value true 0x80) * (19 ^ 1 % 3298534883309) ∧
    polynomial_rolling_hash true [0x61, 0x80] = 18446744073709549281 ∧
    polynomial_digest [0x61, 0x80] = 2529 ∧
    (∀ (char_is_signed : Bool) (str : List Nat),
      (char_is_signed = false ∨ ∀ b ∈ str, b % 256 < 128) →
      polynomial_rolling_hash char_is_signed str = polynomial_digest str) ∧
    (∀ (char_is_signed : Bool) (byte p : Nat),
      (char_is_signed = false ∨ byte % 256 < 128) → p < 3298534883309 →
      to_size_t (char_value char_is_signed byte) * p < 2 ^ 64) ∧
    (∀ (char_is_signed : Bool) (str : List Nat),
      ((polynomial_rolling_hash char_is_signed str : Nat) : Int) =
        polynomial_sum 0 (str.map (char_value char_is_signed)) % 2 ^ 64 ∧
      (polynomial_rolling_loop char_is_signed str 1 0).1 = 19 ^ str.length % 3298534883309 ∧
      (polynomial_rolling_loop char_is_signed str 1 0).1 < 3298534883309 ∧
      (polynomial_rolling_loop char_is_signed str 1 0).1 * 19 < 2 ^ 64) ∧
    polynomial_rolling_hash true [] = 0 ∧
    polynomial_rolling_hash false [] = 0 ∧
    polynomial_digest [] = 0 := by
  refine ⟨by decide, by decide, by decide, by decide, by decide, by decide, by decide,
    by decide, by decide, ?_, ?_, polynomial_rolling_sum, rfl, rfl, rfl⟩
  · intro char_is_signed str h
    have hmap : str.map (char_value char_is_signed) =
        str.map fun byte => ((byte % 256 : Nat) : Int) := by
      apply List.map_congr_left
      intro b hb
      exact char_value_eq char_is_signed b (h.imp id fun h1 => h1 b hb)
    apply Int.ofNat_inj.mp
    rw [(polynomial_rolling_sum char_is_signed str).1, hmap]
    unfold polynomial_digest
    exact (Int.toNat_of_nonneg (Int.emod_nonneg _ (by norm_num))).symm
  · intro char_is_signed byte p h hp
    rw [char_value_nonneg char_is_signed byte h]
    have hb : byte % 256 < 256 := Nat.mod_lt _ (by norm_num)
    calc byte % 256 * p ≤ 256 * 3298534883309 :=
          Nat.mul_le_mul (Nat.le_of_lt hb) (Nat.le_of_lt hp)
      _ < 2 ^ 64 := by norm_num

/-! ## Head and residence invariants -/

theorem head_first_nonempty (m : UnorderedMap K V) (hwf : WF m) (b : Nat) (n : HashNode K V)
    (rest : List (HashNode K V)) (hc : m._buckets[b]?.getD [] = n :: rest)
    (hlow : ∀ i : Nat, i < b → m._buckets[i]?.getD [] = []) : m._head = some n.addr := by
  have hb : b < m._buckets.length := by
    by_contra hnb
    have : m._buckets[b]?.getD [] = [] := by
      simp [List.getElem?_eq_none (Nat.le_of_not_lt hnb)]
    rw [this] at hc
    cases hc
  rw [hwf.head_eq, flatten_split _ b hb, (take_flatten_nil_iff _ _).mpr hlow, hc]
  rfl

theorem exists_first_nonempty {α : Type} (bs : List (List α)) (h : bs.flatten ≠ []) :
    ∃ (b : Nat) (n : α) (rest : List α), bs[b]?.getD [] = n :: rest ∧ ∀ i : Nat, i < b → bs[i]?.getD [] = [] := by
  cases hf : bs.flatten with
  | nil => exact absurd hf h
  | cons n post =>
    rcases locate bs [] post n (by simpa using hf) with ⟨b, c1, c2, -, hc, hpre, -⟩
    have h1 := List.append_eq_nil.mp hpre.symm
    rw [h1.2] at hc
    exact ⟨b, n, c2, by simpa using hc, (take_flatten_nil_iff _ _).mp h1.1⟩

theorem ex_sparse_reachable : Reachable ex_sparse :=
  Reachable.insert ex_one (3, 103) (ex_sparse, some 2, true) ex_one_reachable rfl

/-- C26. In every reachable map `_head` is null when the map is empty, and otherwise it
is the first node of the chain of the lowest-indexed non-empty bucket (and there is such
a bucket).  Erasing the head node makes `_head` the node behind it in its chain if there
is one, otherwise the first node of the next non-empty bucket of higher index, and null
if there is none.  With bucket count 5 and entries only in the buckets 0 and 3, erasing
the bucket-0 entry makes `begin()` the bucket-3 entry. -/
theorem head_invariant [Inhabited V] (m : UnorderedMap K V) (hR : Reachable m) :
    (m.size = 0 → m._head = none) ∧
    (m.size ≠ 0 → ∃ (b : Nat) (n : HashNode K V) (rest : List (HashNode K V)), m._buckets[b]?.getD [] = n :: rest ∧
      ∀ i : Nat, i < b → m._buckets[i]?.getD [] = []) ∧
    (∀ (b : Nat) (n : HashNode K V) (rest : List (HashNode K V)),
      m._buckets[b]?.getD [] = n :: rest → (∀ i : Nat, i < b → m._buckets[i]?.getD [] = []) →
      m._head = some n.addr ∧ m.entry_at m.begin = some n.val ∧
      ∃ m1 pos, m.erase_it m._head = some (m1, pos) ∧ m1._head = pos ∧ m1.begin = pos ∧
        (∀ x rest1, rest = x :: rest1 → pos = some x.addr) ∧
        (rest = [] → ∀ (b1 : Nat) (y : HashNode K V) (rest1 : List (HashNode K V)), b < b1 →
          m._buckets[b1]?.getD [] = y :: rest1 →
          (∀ i : Nat, b < i → i < b1 → m._buckets[i]?.getD [] = []) → pos = some y.addr) ∧
        (rest = [] → (∀ i : Nat, b < i → m._buckets[i]?.getD [] = []) → pos = none)) ∧
    (ex_sparse.bucket_count = 5 ∧ (List.range 5).map ex_sparse.bucket_size =
      [some 1, some 0, some 0, some 1, some 0] ∧
      ex_sparse.entry_at ex_sparse.begin = some (0, 100) ∧
      ∃ m1, ex_sparse.erase 0 = some (m1, 1) ∧ m1.entry_at m1.begin = some (3, 103) ∧
        m1.begin = (m1._buckets[3]?.getD []).head?.map HashNode.addr) := by
  have hwf := reachable_wf m hR
  refine ⟨fun h0 => ?_, fun h0 => ?_, fun b n rest hc hlow => ?_, rfl, rfl, rfl, _, rfl, rfl, rfl⟩
  · have hfl : m._buckets.flatten = [] :=
      List.length_eq_zero.mp (by rw [← hwf.size_eq]; exact h0)
    rw [hwf.head_eq, hfl]
    rfl
  · apply exists_first_nonempty
    intro hfl
    apply h0
    show m._size = 0
    rw [hwf.size_eq, hfl]
    rfl
  · have hhead := head_first_nonempty m hwf b n rest hc hlow
    have hn : n ∈ m._buckets.flatten := getD_subset_flatten _ b n (by rw [hc]; simp)
    rcases deref_mem m hwf n hn with ⟨nx, hd⟩
    have hb : b < m._buckets.length := by
      by_contra hnb
      have : m._buckets[b]?.getD [] = [] := by
        simp [List.getElem?_eq_none (Nat.le_of_not_lt hnb)]
      rw [this] at hc
      cases hc
    have hsplit : m._buckets.flatten = [] ++ n :: (rest ++ (m._buckets.drop (b + 1)).flatten) := by
      rw [flatten_split _ b hb, (take_flatten_nil_iff _ _).mpr hlow, hc]
      rfl
    rcases erase_it_spec m hwf [] _ n hsplit with ⟨m1, he, hwf1, hfl1, -, -, -, -, hchain⟩
    have hh1 : m1._head =
        ((rest ++ (m._buckets.drop (b + 1)).flatten).head?).map HashNode.addr := by
      rw [hwf1.head_eq, hfl1]
      rfl
    refine ⟨hhead, ?_, m1, _, by rw [hhead]; exact he, hh1, hh1, ?_, ?_, ?_⟩
    · simp only [UnorderedMap.entry_at, UnorderedMap.begin, hhead, hd, Option.map_some']
    · rintro x rest1 rfl
      rfl
    · rintro rfl b1 y rest1 hb1 hc1 hmid
      have hb1l : b1 < m._buckets.length := by
        by_contra hnb
        have : m._buckets[b1]?.getD [] = [] := by
          simp [List.getElem?_eq_none (Nat.le_of_not_lt hnb)]
        rw [this] at hc1
        cases hc1
      have hd1 : (m._buckets.drop (b + 1)).flatten =
          y :: (rest1 ++ ((m._buckets.drop (b + 1)).drop (b1 - (b + 1) + 1)).flatten) := by
        have hlen : b1 - (b + 1) < (m._buckets.drop (b + 1)).length := by
          rw [List.length_drop]; omega
        rw [flatten_split _ (b1 - (b + 1)) hlen]
        have hT : ((m._buckets.drop (b + 1)).take (b1 - (b + 1))).flatten = [] := by
          rw [take_flatten_nil_iff]
          intro i hi
          rw [List.getElem?_drop]
          exact hmid (b + 1 + i) (by omega) (by omega)
        have hC : (m._buckets.drop (b + 1))[b1 - (b + 1)]?.getD [] = y :: rest1 := by
          rw [List.getElem?_drop, show b + 1 + (b1 - (b + 1)) = b1 by omega]
          exact hc1
        rw [hT, hC]
        rfl
      rw [List.nil_append, hd1]
      rfl
    · rintro rfl hhigh
      have hD : (m._buckets.drop (b + 1)).flatten = [] := by
        rw [List.flatten_eq_nil_iff]
        intro l hl
        cases hl0 : l with
        | nil => rfl
        | cons x xs =>
          exfalso
          have hx : x ∈ (m._buckets.drop (b + 1)).flatten :=
            List.mem_flatten.mpr ⟨l, hl, by rw [hl0]; simp⟩
          rcases mem_drop_flatten _ _ x hx with ⟨i, hi, hxi⟩
          rw [hhigh i (by omega)] at hxi
          cases hxi
      rw [List.nil_append, hD]
      rfl

theorem head_invariant_witness :
    Reachable ex_sparse ∧ ex_sparse._buckets[0]?.getD [] = [⟨1, (0, 100)⟩] ∧
    ex_sparse._head = some 1 ∧
    (∃ m1 pos, ex_sparse.erase_it ex_sparse._head = some (m1, pos) ∧ m1._head = pos ∧
      pos = some 2) :=
  ⟨ex_sparse_reachable, rfl,
    ((head_invariant ex_sparse ex_sparse_reachable).2.2.1 0 ⟨1, (0, 100)⟩ [] rfl
      (fun i hi => absurd hi (Nat.not_lt_zero i))).1,
    ⟨_, _, rfl, rfl, rfl⟩⟩

/-- C27. In every reachable map each node of the chain of bucket `i` holds a key `k` with
`hash(k) mod bucket_count == i`, and `i` is below `bucket_count()`; so every stored
entry lies in the chain of the bucket its key hashes to. -/
theorem residence [Inhabited V] (m : UnorderedMap K V) (hR : Reachable m) :
    (∀ (i : Nat) (n : HashNode K V), n ∈ m._buckets[i]?.getD [] →
      i = _range_hash (m._hash n.val.1) m.bucket_count ∧ i < m.bucket_count ∧
      i = m.bucket n.val.1) ∧
    (∀ n ∈ m._buckets.flatten,
      n ∈ m._buckets[_range_hash (m._hash n.val.1) m.bucket_count]?.getD [] ∧
      _range_hash (m._hash n.val.1) m.bucket_count < m.bucket_count) := by
  have hwf := reachable_wf m hR
  have hlt : ∀ k : K, _range_hash (m._hash k) m.bucket_count < m.bucket_count :=
    fun k => Nat.mod_lt _ hwf.pos
  constructor
  · intro i n hn
    have h := (hwf.resid i n hn).symm
    exact ⟨h, by rw [h]; exact hlt _, h⟩
  · intro n hn
    rcases mem_flatten_getD _ n hn with ⟨i, -, hi⟩
    have h := hwf.resid i n hi
    refine ⟨?_, hlt _⟩
    rw [show _range_hash (m._hash n.val.1) m.bucket_count = i from h]
    exact hi

theorem residence_witness :
    Reachable scenario ∧
    ((∀ (i : Nat) (n : HashNode Nat Nat), n ∈ scenario._buckets[i]?.getD [] →
      i = _range_hash (scenario._hash n.val.1) scenario.bucket_count ∧
      i < scenario.bucket_count ∧ i = scenario.bucket n.val.1) ∧
    (∀ n ∈ scenario._buckets.flatten,
      n ∈ scenario._buckets[_range_hash (scenario._hash n.val.1)
        scenario.bucket_count]?.getD [] ∧
      _range_hash (scenario._hash n.val.1) scenario.bucket_count < scenario.bucket_count)) :=
  ⟨scenario_reachable, residence scenario scenario_reachable⟩

/-! ## The dump written by `print_map` -/

theorem print_chain_eq (showK : K → String) (showV : V → String) (c : List (HashNode K V))
    (os : String) :
    print_chain showK showV c os =
      os ++ concat_all (c.map fun node =>
        "(" ++ showK node.val.1 ++ ", " ++ showV node.val.2 ++ ") ") := by
  induction c generalizing os with
  | nil => simp [print_chain, concat_all]
  | cons x xs ih =>
    simp only [print_chain, List.map_cons, concat_all]
    rw [ih]
    simp only [String.append_assoc]

theorem print_buckets_eq (showK : K → String) (showV : V → String) (m : UnorderedMap K V)
    (variant bucket : Nat) (os : String) (hv : variant = m.bucket_count - bucket) :
    print_buckets showK showV m variant bucket os =
      os ++ concat_all ((List.range' bucket variant).map (dump_line showK showV m)) := by
  induction variant generalizing bucket os with
  | zero => simp [print_buckets, concat_all]
  | succ v ih =>
    have hb : bucket < m.bucket_count := by omega
    simp only [print_buckets, if_pos hb, List.range'_succ, List.map_cons, concat_all]
    rw [ih (bucket + 1) _ (by omega), print_chain_eq]
    simp only [dump_line, String.append_assoc]

/-- C21. `print_map` writes `bucket_count()` lines, for the bucket indices in ascending
order; line `i` is the decimal index `i`, the text `": "`, then `"(key, value) "` for
each entry of chain `i` in chain order, then a newline.  This holds for every map state.
For the reference scenario the dump is the five lines shown. -/
theorem print_map_lines (showK : K → String) (showV : V → String) (m : UnorderedMap K V)
    (os : String) :
    print_map showK showV m os =
      os ++ concat_all ((List.range m.bucket_count).map (dump_line showK showV m)) ∧
    ((List.range m.bucket_count).map (dump_line showK showV m)).length = m.bucket_count ∧
    (∀ i : Nat, dump_line showK showV m i =
      toString i ++ ": " ++
        concat_all ((m._buckets[i]?.getD []).map fun node =>
          "(" ++ showK node.val.1 ++ ", " ++ showV node.val.2 ++ ") ") ++ "\n") ∧
    print_map (toString : Nat → String) (toString : Nat → String) scenario "" =
      "0: (5, 105) (0, 100) \n1: (1, 101) \n2: \n3: (3, 103) \n4: \n" := by
  refine ⟨?_, by simp, fun _ => rfl, by decide⟩
  rw [List.range_eq_range']
  exact print_buckets_eq showK showV m _ 0 os rfl

/-! ## A copy has the chains reversed -/

theorem insert_all_chains (L : List (HashNode K V)) (m : UnorderedMap K V) (hwf : WF m)
    (hL : Lawful m._hash m._equal) (hkd : KeysDistinct m)
    (hd : L.Pairwise fun x y => m._equal x.val.1 y.val.1 = false)
    (habs : ∀ x ∈ L, m.lookup x.val.1 = none) (c : UnorderedMap K V)
    (hc : m.insert_all L = some c) (i : Nat) :
    (c._buckets[i]?.getD []).map HashNode.val =
      ((L.filter fun x => m._bucket x.val.1 == i).reverse.map HashNode.val) ++
        (m._buckets[i]?.getD []).map HashNode.val := by
  induction L generalizing m with
  | nil =>
    simp only [UnorderedMap.insert_all, Option.some.injEq] at hc
    rw [← hc]
    simp
  | cons x rest ih =>
    have hf : m._find x.val.1 = none := by
      have h0 := lookup_isSome_iff m hwf x.val.1
      rw [habs x (List.mem_cons_self _ _)] at h0
      cases hf : m._find x.val.1 with
      | none => rfl
      | some a => rw [hf] at h0; cases h0
    rcases insert_cases m hwf x.val with ⟨-, he⟩ | ⟨a, hfa, -⟩
    · have hl := with_node_lookup m hwf hL hkd x.val hf
      have hd1 := List.pairwise_cons.mp hd
      have habs1 : ∀ y ∈ rest, (with_node m x.val).lookup y.val.1 = none := by
        intro y hy
        rw [hl, hd1.1 y hy]
        exact habs y (List.mem_cons_of_mem _ hy)
      simp only [UnorderedMap.insert_all, he] at hc
      have h1 := ih (with_node m x.val) (with_node_wf m hwf x.val) hL
        (with_node_kd m hwf hL hkd x.val hf) hd1.2 habs1 hc
      rw [h1]
      have hbk : ∀ k : K, (with_node m x.val)._bucket k = m._bucket k := fun _ => rfl
      simp only [hbk]
      by_cases hi : i = m._bucket x.val.1
      · subst hi
        rw [with_node_chain_self m hwf x.val, List.filter_cons]
        simp
      · rw [with_node_chain_other m x.val i hi, List.filter_cons]
        have : (m._bucket x.val.1 == i) = false := by
          simp only [beq_eq_false_iff_ne, ne_eq]
          exact fun e => hi e.symm
        simp [this]
    · rw [hf] at hfa
      cases hfa

theorem copy_chains (other : UnorderedMap K V) (hwf : WF other)
    (hL : Lawful other._hash other._equal) (hkd : KeysDistinct other)
    (c : UnorderedMap K V) (hc : other.copy_construct = some c) (i : Nat) :
    (c._buckets[i]?.getD []).map HashNode.val =
      ((other._buckets[i]?.getD []).map HashNode.val).reverse := by
  have hkd0 : KeysDistinct
      (UnorderedMap.blank other._hash other._equal other._bucket_count : UnorderedMap K V) := by
    intro x hx
    rw [blank_flatten] at hx
    cases hx
  simp only [UnorderedMap.copy_construct, nodes_in_order_eq other hwf] at hc
  have h := insert_all_chains other._buckets.flatten
    (UnorderedMap.blank other._hash other._equal other._bucket_count)
    (blank_wf _ _ _ hwf.pos) hL hkd0 (flatten_pairwise_keys other hwf hkd)
    (fun x _ => blank_lookup _ _ _ _) c hc i
  rw [h, flatten_nil_chain _ (blank_flatten other._hash other._equal _) i]
  have hbk : ∀ k : K,
      (UnorderedMap.blank other._hash other._equal other._bucket_count :
        UnorderedMap K V)._bucket k = other._bucket k := fun _ => rfl
  simp only [hbk, filter_flatten_chain other hwf i, List.map_nil, List.append_nil,
    List.map_reverse]

theorem flatten_vals_eq (m1 m2 : UnorderedMap K V) (hwf1 : WF m1) (hwf2 : WF m2)
    (hbc : m1._bucket_count = m2._bucket_count)
    (h : ∀ i : Nat, (m1._buckets[i]?.getD []).map HashNode.val =
      (m2._buckets[i]?.getD []).map HashNode.val) :
    m1._buckets.flatten.map HashNode.val = m2._buckets.flatten.map HashNode.val := by
  have e1 := chains_eq_range m1._buckets
  have e2 := chains_eq_range m2._buckets
  rw [hwf1.len] at e1
  rw [hwf2.len, ← hbc] at e2
  rw [e1, e2]
  simp only [List.map_flatten, List.map_map]
  congr 1
  apply List.map_congr_left
  intro i _
  simp only [Function.comp]
  exact h i

/-- C28. A copy of a reachable map has, in every bucket, the entries of the source's chain
in reverse order; so a copy of the copy has every chain with the entries in the source's
order, and its global iteration visits the entries in the order of the source's. -/
theorem copy_reverses_chains [Inhabited V] (other : UnorderedMap K V) (hR : Reachable other)
    (hL : Lawful other._hash other._equal) :
    ∃ c c2, other.copy_construct = some c ∧ c.copy_construct = some c2 ∧
      (∀ i : Nat, (c._buckets[i]?.getD []).map HashNode.val =
        ((other._buckets[i]?.getD []).map HashNode.val).reverse) ∧
      (∀ i : Nat, (c2._buckets[i]?.getD []).map HashNode.val =
        (other._buckets[i]?.getD []).map HashNode.val) ∧
      c2.bucket_count = other.bucket_count ∧
      ∃ l l2, other.iterate (other.size + 1) other.begin = some l ∧
        c2.iterate (c2.size + 1) c2.begin = some l2 ∧
        l2.map HashNode.val = l.map HashNode.val := by
  have hwf := reachable_wf other hR
  have hkd := reachable_inv other hR hL
  rcases copy_construct_ok other hwf hL hkd with ⟨c, hc, hwfc, hkdc, hbc, -, hh, heq, -⟩
  have hLc : Lawful c._hash c._equal := by rw [hh, heq]; exact hL
  rcases copy_construct_ok c hwfc hLc hkdc with ⟨c2, hc2, hwfc2, -, hbc2, -, -, -, -⟩
  have h1 := copy_chains other hwf hL hkd c hc
  have h2 : ∀ i : Nat, (c2._buckets[i]?.getD []).map HashNode.val =
      (other._buckets[i]?.getD []).map HashNode.val := by
    intro i
    rw [copy_chains c hwfc hLc hkdc c2 hc2 i, h1 i, List.reverse_reverse]
  refine ⟨c, c2, hc, hc2, h1, h2, hbc2.trans hbc, other._buckets.flatten, c2._buckets.flatten,
    iterate_begin other hwf _ (Nat.lt_succ_self _),
    iterate_begin c2 hwfc2 _ (Nat.lt_succ_self _), ?_⟩
  exact flatten_vals_eq c2 other hwfc2 hwf (hbc2.trans hbc) h2

theorem copy_reverses_chains_witness :
    Reachable scenario ∧ Lawful scenario._hash scenario._equal ∧
    ∃ c c2, scenario.copy_construct = some c ∧ c.copy_construct = some c2 ∧
      (∀ i : Nat, (c._buckets[i]?.getD []).map HashNode.val =
        ((scenario._buckets[i]?.getD []).map HashNode.val).reverse) ∧
      (∀ i : Nat, (c2._buckets[i]?.getD []).map HashNode.val =
        (scenario._buckets[i]?.getD []).map HashNode.val) ∧
      c2.bucket_count = scenario.bucket_count ∧
      ∃ l l2, scenario.iterate (scenario.size + 1) scenario.begin = some l ∧
        c2.iterate (c2.size + 1) c2.begin = some l2 ∧
        l2.map HashNode.val = l.map HashNode.val :=
  ⟨scenario_reachable, ex_lawful, copy_reverses_chains scenario scenario_reachable ex_lawful⟩

end UMap

/-! ## PriorityQueue -/

namespace PQ

open PriorityQueue

variable {T : Type}

theorem parent_pos (i : Nat) (h : 0 < i) : parent i = (i - 1) / 2 := by
  unfold parent; rw [if_neg (by omega)]

theorem parent_lt (i : Nat) (h : 0 < i) : parent i < i := by
  rw [parent_pos i h]; omega

theorem parent_cases (j k : Nat) (hj : 0 < j) (h : parent j = k) :
    j = left_child k ∨ j = right_child k := by
  rw [parent_pos j hj] at h; unfold left_child right_child; omega

theorem parent_left (k : Nat) : parent (left_child k) = k := by
  rw [parent_pos _ (by unfold left_child; omega)]; unfold left_child; omega

theorem parent_right (k : Nat) : parent (right_child k) = k := by
  rw [parent_pos _ (by unfold right_child; omega)]; unfold right_child; omega

theorem set_perm_cons (xs : List T) (j : Nat) (x b : T) (h : xs[j]? = some b) :
    (b :: xs.set j x).Perm (x :: xs) := by
  induction xs generalizing j with
  | nil => simp at h
  | cons y ys ih =>
    cases j with
    | zero =>
      simp at h; subst h
      simpa using List.Perm.swap x y ys
    | succ j =>
      simp at h
      simp only [List.set_cons_succ]
      exact ((List.Perm.swap y b _).trans ((ih j h).cons y)).trans (List.Perm.swap x y ys)

theorem swap_perm (cont : List T) (i j : Nat) (a b : T) (hi : cont[i]? = some a)
    (hj : cont[j]? = some b) : ((cont.set i b).set j a).Perm cont := by
  induction cont generalizing i j with
  | nil => simp at hi
  | cons x xs ih =>
    cases i with
    | zero =>
      simp at hi; subst hi
      cases j with
      | zero => simp at hj; subst hj; simp
      | succ j =>
        simp at hj
        simpa using set_perm_cons xs j x b hj
    | succ i =>
      simp at hi
      cases j with
      | zero =>
        simp at hj; subst hj
        simpa using set_perm_cons xs i x a hi
      | succ j =>
        simp at hj
        simpa using ih i j hi hj

theorem swap_get (cont : List T) (i j : Nat) (a b : T) (hi : cont[i]? = some a)
    (hj : cont[j]? = some b) (n : Nat) :
    ((cont.set i b).set j a)[n]? =
      if n = j then some a else if n = i then some b else cont[n]? := by
  have hil : i < cont.length := by
    rcases Nat.lt_or_ge i cont.length with h | h
    · exact h
    · rw [List.getElem?_eq_none h] at hi; cases hi
  have hjl : j < cont.length := by
    rcases Nat.lt_or_ge j cont.length with h | h
    · exact h
    · rw [List.getElem?_eq_none h] at hj; cases hj
  rw [List.getElem?_set, List.getElem?_set]
  by_cases h1 : j = n
  · subst h1; simp [hjl]
  · have h1' : ¬ n = j := fun h => h1 h.symm
    rw [if_neg h1, if_neg h1']
    by_cases h2 : i = n
    · subst h2; simp [hil]
    · have h2' : ¬ n = i := fun h => h2 h.symm
      rw [if_neg h2, if_neg h2']

theorem strict_weak_asymm {comp : T → T → Bool} (hc : StrictWeak comp) (a b : T)
    (h : comp a b = true) : comp b a = false := by
  cases hba : comp b a with
  | false => rfl
  | true => have := hc.trans a b a h hba; rw [hc.irrefl a] at this; cases this

theorem strict_weak_neg_trans {comp : T → T → Bool} (hc : StrictWeak comp) (a b c0 : T)
    (hab : comp a b = false) (hbc : comp b c0 = false) : comp a c0 = false := by
  cases hac : comp a c0 with
  | false => rfl
  | true =>
    have hba : comp b a = false := by
      cases h : comp b a with
      | false => rfl
      | true => have := hc.trans b a c0 h hac; rw [hbc] at this; cases this
    have hcb : comp c0 b = false := by
      cases h : comp c0 b with
      | false => rfl
      | true => have := hc.trans a c0 b hac h; rw [hab] at this; cases this
    have := hc.incomp a b c0 hab hba hbc hcb
    rw [hac] at this; cases this

theorem upinv_base {comp : T → T → Bool} (cont : List T) (k : Nat) (h : UpInv comp cont k)
    (hk : k = 0 ∨ ∃ pv v, cont[parent k]? = some pv ∧ cont[k]? = some v ∧ comp pv v = false) :
    Heap comp cont := by
  intro i pv v hi hp hv
  by_cases hik : i = k
  · subst hik
    rcases hk with hk | ⟨pv1, v1, h1, h2, h3⟩
    · omega
    · rw [hp] at h1; rw [hv] at h2; cases h1; cases h2; exact h3
  · exact h.1 i pv v hi hik hp hv

theorem upinv_swap {comp : T → T → Bool} (hc : StrictWeak comp) (cont : List T) (k : Nat)
    (pv v : T) (h : UpInv comp cont k) (hk : 0 < k) (hp : cont[parent k]? = some pv)
    (hv : cont[k]? = some v) (hcomp : comp pv v = true) :
    UpInv comp ((cont.set (parent k) v).set k pv) (parent k) := by
  have hpk : parent k < k := parent_lt k hk
  have hget := swap_get cont (parent k) k pv v hp hv
  refine ⟨?_, ?_⟩
  · intro j x y hj hjp hx hy
    rw [hget] at hx hy
    have hpj : parent j < j := parent_lt j hj
    by_cases hjk : j = k
    · subst hjk
      rw [if_pos rfl] at hy
      rw [if_neg (by omega), if_pos rfl] at hx
      cases hx; cases hy
      exact strict_weak_asymm hc _ _ hcomp
    · rw [if_neg hjk, if_neg hjp] at hy
      by_cases h1 : parent j = k
      · rw [if_pos h1] at hx; cases hx
        exact h.2 j _ y hk hj h1 hp hy
      · rw [if_neg h1] at hx
        by_cases h2 : parent j = parent k
        · rw [if_pos h2] at hx; cases hx
          have h3 := h.1 j pv y hj hjk (h2 ▸ hp) hy
          cases h4 : comp v y with
          | false => rfl
          | true => have := hc.trans pv v y hcomp h4; rw [h3] at this; cases this
        · rw [if_neg h2] at hx
          exact h.1 j x y hj hjk hx hy
  · intro j g y hp0 hj hjp hg hy
    rw [hget] at hg hy
    have hpp : parent (parent k) < parent k := parent_lt _ hp0
    have hpj : parent j < j := parent_lt j hj
    rw [if_neg (by omega), if_neg (by omega)] at hg
    have hgp : comp g pv = false := h.1 (parent k) g pv hp0 (by omega) hg hp
    by_cases hjk : j = k
    · subst hjk
      rw [if_pos rfl] at hy; cases hy
      exact hgp
    · rw [if_neg hjk, if_neg (by omega)] at hy
      exact strict_weak_neg_trans hc g pv y hgp (h.1 j pv y hj hjk (hjp ▸ hp) hy)

theorem upheap_sound {comp : T → T → Bool} (hc : StrictWeak comp) (checked : Bool)
    (fuel : Nat) (cont : List T) (k : Nat) (res : List T) (h : UpInv comp cont k)
    (hres : upheap checked comp fuel cont k = some res) :
    Heap comp res ∧ res.Perm cont := by
  induction fuel generalizing cont k with
  | zero =>
    unfold upheap at hres
    split at hres
    · split at hres
      · rename_i hk
        split at hres
        · rename_i pv v hp hv
          split at hres
          · cases hres
          · rename_i hcomp
            cases hres
            exact ⟨upinv_base res k h (Or.inr ⟨pv, v, hp, hv, by simpa using hcomp⟩),
              List.Perm.refl _⟩
        · cases hres
      · rename_i hk
        cases hres
        exact ⟨upinv_base res k h (Or.inl (by omega)), List.Perm.refl _⟩
    · cases hres
  | succ fuel ih =>
    unfold upheap at hres
    split at hres
    · split at hres
      · rename_i hk
        split at hres
        · rename_i pv v hp hv
          split at hres
          · rename_i hcomp
            obtain ⟨h1, h2⟩ := ih _ _ (upinv_swap hc cont k pv v h hk hp hv hcomp) hres
            exact ⟨h1, h2.trans (swap_perm cont (parent k) k pv v hp hv)⟩
          · rename_i hcomp
            cases hres
            exact ⟨upinv_base res k h (Or.inr ⟨pv, v, hp, hv, by simpa using hcomp⟩),
              List.Perm.refl _⟩
        · cases hres
      · rename_i hk
        cases hres
        exact ⟨upinv_base res k h (Or.inl (by omega)), List.Perm.refl _⟩
    · cases hres

theorem upheap_total (comp : T → T → Bool) (fuel : Nat) (cont : List T) (k : Nat)
    (hk : k < cont.length) (hf : k ≤ fuel) :
    ∃ res, upheap false comp fuel cont k = some res := by
  induction fuel generalizing cont k with
  | zero =>
    have hk0 : k = 0 := by omega
    subst hk0
    exact ⟨cont, by simp [upheap, subscript_ok]⟩
  | succ fuel ih =>
    unfold upheap
    simp only [subscript_ok, Bool.not_false, Bool.true_or, Bool.and_self, if_true]
    by_cases hk0 : k > 0
    · rw [if_pos hk0]
      have hpk : parent k < k := parent_lt k hk0
      have hp : cont[parent k]? = some (cont.get ⟨parent k, by omega⟩) :=
        List.getElem?_eq_getElem _
      have hv : cont[k]? = some (cont.get ⟨k, hk⟩) := List.getElem?_eq_getElem _
      rw [hp, hv]
      simp only []
      by_cases hcomp : comp (cont.get ⟨parent k, by omega⟩) (cont.get ⟨k, hk⟩) = true
      · rw [if_pos hcomp]
        exact ih _ _ (by simp; omega) (by omega)
      · rw [if_neg hcomp]; exact ⟨cont, rfl⟩
    · rw [if_neg hk0]; exact ⟨cont, rfl⟩

theorem getElem?_some_lt (cont : List T) (i : Nat) (x : T) (h : cont[i]? = some x) :
    i < cont.length := by
  rcases Nat.lt_or_ge i cont.length with h1 | h1
  · exact h1
  · rw [List.getElem?_eq_none h1] at h; cases h

theorem max_child_spec {comp : T → T → Bool} (hc : StrictWeak comp) (cont : List T) (k : Nat)
    (hleaf : left_child k < cont.length) :
    ∃ (m : Nat) (cv : T), max_child_index comp cont k = some m ∧ cont[m]? = some cv ∧
      parent m = k ∧ k < m ∧
      ∀ (j : Nat) (y : T), 0 < j → parent j = k → j ≠ m → cont[j]? = some y →
        comp cv y = false := by
  have hl : cont[left_child k]? = some (cont.get ⟨left_child k, hleaf⟩) :=
    List.getElem?_eq_getElem _
  unfold max_child_index
  by_cases hr : right_child k < cont.length
  · have hrr : cont[right_child k]? = some (cont.get ⟨right_child k, hr⟩) :=
      List.getElem?_eq_getElem _
    rw [if_pos hr, hl, hrr]
    simp only []
    by_cases hcomp : comp (cont.get ⟨right_child k, hr⟩) (cont.get ⟨left_child k, hleaf⟩) = true
    · rw [if_pos hcomp]
      refine ⟨left_child k, _, rfl, hl, parent_left k, by unfold left_child; omega, ?_⟩
      intro j y hj hpj hjm hy
      rcases parent_cases j k hj hpj with h1 | h1
      · exact absurd h1 hjm
      · subst h1
        rw [hrr] at hy; cases hy
        exact strict_weak_asymm hc _ _ hcomp
    · rw [if_neg hcomp]
      refine ⟨right_child k, _, rfl, hrr, parent_right k, by unfold right_child; omega, ?_⟩
      intro j y hj hpj hjm hy
      rcases parent_cases j k hj hpj with h1 | h1
      · subst h1
        rw [hl] at hy; cases hy
        simpa using hcomp
      · exact absurd h1 hjm
  · rw [if_neg hr]
    refine ⟨left_child k, _, rfl, hl, parent_left k, by unfold left_child; omega, ?_⟩
    intro j y hj hpj hjm hy
    rcases parent_cases j k hj hpj with h1 | h1
    · exact absurd h1 hjm
    · subst h1
      exact absurd (getElem?_some_lt _ _ _ hy) hr

theorem downinv_leaf {comp : T → T → Bool} (cont : List T) (k : Nat) (h : DownInv comp cont k)
    (hleaf : left_child k ≥ cont.length) : Heap comp cont := by
  intro i pv v hi hp hv
  by_cases hik : parent i = k
  · have := getElem?_some_lt _ _ _ hv
    rcases parent_cases i k hi hik with h1 | h1
    · omega
    · unfold right_child at h1; unfold left_child at hleaf; omega
  · exact h.1 i pv v hi hik hp hv

theorem downinv_base {comp : T → T → Bool} (hc : StrictWeak comp) (cont : List T) (k m : Nat)
    (val cv : T) (h : DownInv comp cont k) (hval : cont[k]? = some val)
    (hcv : cont[m]? = some cv)
    (hsib : ∀ (j : Nat) (y : T), 0 < j → parent j = k → j ≠ m → cont[j]? = some y →
      comp cv y = false)
    (hcomp : comp val cv = false) : Heap comp cont := by
  intro i pv v hi hp hv
  by_cases hik : parent i = k
  · rw [hik, hval] at hp; cases hp
    by_cases him : i = m
    · subst him; rw [hcv] at hv; cases hv; exact hcomp
    · exact strict_weak_neg_trans hc _ _ _ hcomp (hsib i v hi hik him hv)
  · exact h.1 i pv v hi hik hp hv

theorem downinv_swap {comp : T → T → Bool} (hc : StrictWeak comp) (cont : List T) (k m : Nat)
    (val cv : T) (h : DownInv comp cont k) (hval : cont[k]? = some val)
    (hcv : cont[m]? = some cv) (hpm : parent m = k) (hkm : k < m)
    (hsib : ∀ (j : Nat) (y : T), 0 < j → parent j = k → j ≠ m → cont[j]? = some y →
      comp cv y = false)
    (hcomp : comp val cv = true) :
    DownInv comp ((cont.set k cv).set m val) m := by
  have hget := swap_get cont k m val cv hval hcv
  refine ⟨?_, ?_⟩
  · intro j x y hj hjp hx hy
    rw [hget] at hx hy
    rw [if_neg hjp] at hx
    have hpj : parent j < j := parent_lt j hj
    by_cases hjm : j = m
    · subst hjm
      rw [if_pos rfl] at hy
      rw [if_pos hpm] at hx
      cases hx; cases hy
      exact strict_weak_asymm hc _ _ hcomp
    · rw [if_neg hjm] at hy
      by_cases hjk : j = k
      · subst hjk
        rw [if_pos rfl] at hy; cases hy
        rw [if_neg (by omega)] at hx
        exact h.2 m x _ hj (by omega) hpm hx hcv
      · rw [if_neg hjk] at hy
        by_cases h1 : parent j = k
        · rw [if_pos h1] at hx; cases hx
          exact hsib j y hj h1 hjm hy
        · rw [if_neg h1] at hx
          exact h.1 j x y hj h1 hx hy
  · intro j g y hm0 hj hjp hg hy
    rw [hget] at hg hy
    have hpj : parent j < j := parent_lt j hj
    rw [if_neg (by omega), if_pos hpm] at hg
    rw [if_neg (by omega), if_neg (by omega)] at hy
    cases hg
    exact h.1 j _ y hj (by omega) (hjp ▸ hcv) hy

theorem downheap_sound {comp : T → T → Bool} (hc : StrictWeak comp) (fuel : Nat)
    (cont : List T) (k : Nat) (res : List T) (h : DownInv comp cont k)
    (hres : downheap comp fuel cont k = some res) : Heap comp res ∧ res.Perm cont := by
  induction fuel generalizing cont k with
  | zero =>
    unfold downheap at hres
    split at hres
    · rename_i hleaf
      cases hres
      exact ⟨downinv_leaf res k h hleaf, List.Perm.refl _⟩
    · cases hres
  | succ fuel ih =>
    unfold downheap at hres
    split at hres
    · rename_i hleaf
      cases hres
      exact ⟨downinv_leaf res k h hleaf, List.Perm.refl _⟩
    · rename_i hleaf
      obtain ⟨m, cv, hm, hcv, hpm, hkm, hsib⟩ := max_child_spec hc cont k (by omega)
      rw [hm] at hres
      simp only [] at hres
      split at hres
      · rename_i val cv1 hval hcv1
        rw [hcv] at hcv1; cases hcv1
        split at hres
        · rename_i hcomp
          obtain ⟨h1, h2⟩ := ih _ _ (downinv_swap hc cont k m val cv h hval hcv hpm hkm hsib hcomp)
            hres
          exact ⟨h1, h2.trans (swap_perm cont k m val cv hval hcv)⟩
        · rename_i hcomp
          cases hres
          exact ⟨downinv_base hc res k m val cv h hval hcv hsib (by simpa using hcomp),
            List.Perm.refl _⟩
      · cases hres

theorem max_child_total (comp : T → T → Bool) (cont : List T) (k : Nat)
    (hleaf : left_child k < cont.length) :
    ∃ (m : Nat), max_child_index comp cont k = some m ∧ m < cont.length ∧ k < m := by
  have hl : cont[left_child k]? = some (cont.get ⟨left_child k, hleaf⟩) :=
    List.getElem?_eq_getElem _
  unfold max_child_index
  by_cases hr : right_child k < cont.length
  · have hrr : cont[right_child k]? = some (cont.get ⟨right_child k, hr⟩) :=
      List.getElem?_eq_getElem _
    rw [if_pos hr, hl, hrr]
    simp only []
    by_cases hcomp : comp (cont.get ⟨right_child k, hr⟩) (cont.get ⟨left_child k, hleaf⟩) = true
    · rw [if_pos hcomp]
      exact ⟨_, rfl, hleaf, by unfold left_child; omega⟩
    · rw [if_neg hcomp]
      exact ⟨_, rfl, hr, by unfold right_child; omega⟩
  · rw [if_neg hr]
    exact ⟨_, rfl, hleaf, by unfold left_child; omega⟩

theorem downheap_total (comp : T → T → Bool) (fuel : Nat) (cont : List T) (k : Nat)
    (hf : cont.length ≤ fuel + k) : ∃ res, downheap comp fuel cont k = some res := by
  induction fuel generalizing cont k with
  | zero =>
    unfold downheap
    rw [if_pos (by unfold left_child; omega)]
    exact ⟨cont, rfl⟩
  | succ fuel ih =>
    unfold downheap
    by_cases hleaf : left_child k ≥ cont.length
    · rw [if_pos hleaf]; exact ⟨cont, rfl⟩
    · rw [if_neg hleaf]
      obtain ⟨m, hm, hml, hkm⟩ := max_child_total comp cont k (by omega)
      have hkl : k < cont.length := by omega
      have hval : cont[k]? = some (cont.get ⟨k, hkl⟩) := List.getElem?_eq_getElem _
      have hcv : cont[m]? = some (cont.get ⟨m, hml⟩) := List.getElem?_eq_getElem _
      rw [hm]
      simp only []
      rw [hval, hcv]
      simp only []
      by_cases hcomp : comp (cont.get ⟨k, hkl⟩) (cont.get ⟨m, hml⟩) = true
      · rw [if_pos hcomp]
        exact ih _ _ (by simp; omega)
      · rw [if_neg hcomp]; exact ⟨cont, rfl⟩

theorem pop_get (cont : List T) (back : T) (i : Nat) (x : T) (hi : i ≠ 0)
    (h : ((cont.set 0 back).dropLast)[i]? = some x) : cont[i]? = some x := by
  rw [List.dropLast_eq_take, List.getElem?_take] at h
  split at h
  · rw [List.getElem?_set] at h
    rw [if_neg (by omega)] at h
    exact h
  · cases h

theorem pop_perm (t : T) (xs : List T) (back : T) (h : (t :: xs).getLast? = some back) :
    (t :: ((t :: xs).set 0 back).dropLast).Perm (t :: xs) := by
  cases xs with
  | nil => simp at h; subst h; simp
  | cons y ys =>
    have h1 : (y :: ys).getLast? = some back := by simpa using h
    have h2 := List.dropLast_append_getLast? back h1
    simp only [List.set_cons_zero, List.dropLast_cons₂]
    refine List.Perm.cons t ?_
    conv_rhs => rw [← h2]
    exact (List.perm_append_singleton back _).symm

theorem pop_downinv {comp : T → T → Bool} (cont : List T) (back : T) (h : Heap comp cont) :
    DownInv comp ((cont.set 0 back).dropLast) 0 := by
  refine ⟨?_, ?_⟩
  · intro j x y hj hp hx hy
    exact h j x y hj (pop_get cont back _ x hp hx) (pop_get cont back _ y (by omega) hy)
  · intro j g y hk
    omega

theorem push_upinv {comp : T → T → Bool} (cont : List T) (value : T) (h : Heap comp cont) :
    UpInv comp (cont ++ [value]) cont.length := by
  refine ⟨?_, ?_⟩
  · intro j x y hj hjk hx hy
    have hjl := getElem?_some_lt _ _ _ hy
    simp at hjl
    have hpj := parent_lt j hj
    rw [List.getElem?_append_left (by omega)] at hx hy
    exact h j x y hj hx hy
  · intro j g y hk hj hjp hg hy
    have hjl := getElem?_some_lt _ _ _ hy
    simp at hjl
    have hpj := parent_lt j hj
    omega

theorem push_some (checked : Bool) (q q1 : PriorityQueue T) (value : T)
    (h : q.push checked value = some q1) :
    q1.comp = q.comp ∧
      upheap checked q.comp q.c.length (q.c ++ [value]) q.c.length = some q1.c := by
  unfold PriorityQueue.push at h
  simp only [List.length_append, List.length_singleton, Nat.add_sub_cancel] at h
  split at h
  · cases h
  · rename_i c1 hc1
    cases h
    exact ⟨rfl, hc1⟩

theorem pop_some (q q1 : PriorityQueue T) (h : q.pop = some q1) :
    ∃ back, q.c.getLast? = some back ∧ q1.comp = q.comp ∧
      downheap q.comp ((q.c.set 0 back).dropLast).length ((q.c.set 0 back).dropLast) 0
        = some q1.c := by
  unfold PriorityQueue.pop at h
  split at h
  · cases h
  · rename_i back hback
    split at h
    · cases h
    · rename_i c1 hc1
      cases h
      exact ⟨back, hback, rfl, hc1⟩

theorem reachable_heap (checked : Bool) (q : PriorityQueue T) (hR : Reachable checked q)
    (hc : StrictWeak q.comp) : Heap q.comp q.c := by
  induction hR with
  | empty comp =>
    intro i pv v _ _ hv
    simp [PriorityQueue.mk_empty] at hv
  | push q value q1 _ hpush ih =>
    obtain ⟨hcomp, hup⟩ := push_some checked q q1 value hpush
    rw [hcomp] at hc ⊢
    exact (upheap_sound hc checked _ _ _ _ (push_upinv q.c value (ih hc)) hup).1
  | pop q q1 _ hpop ih =>
    obtain ⟨back, _, hcomp, hdown⟩ := pop_some q q1 hpop
    rw [hcomp] at hc ⊢
    exact (downheap_sound hc _ _ _ _ (pop_downinv q.c back (ih hc)) hdown).1

theorem heap_top {comp : T → T → Bool} (hc : StrictWeak comp) (cont : List T) (t : T)
    (h : Heap comp cont) (ht : cont[0]? = some t) (i : Nat) (x : T) (hx : cont[i]? = some x) :
    comp t x = false := by
  induction i using Nat.strong_induction_on generalizing x with
  | _ i ih =>
    by_cases hi : i = 0
    · subst hi; rw [ht] at hx; cases hx; exact hc.irrefl _
    · have hpi := parent_lt i (by omega)
      have hil := getElem?_some_lt _ _ _ hx
      have hp : cont[parent i]? = some (cont.get ⟨parent i, by omega⟩) :=
        List.getElem?_eq_getElem _
      exact strict_weak_neg_trans hc _ _ _ (ih (parent i) hpi _ hp) (h i _ x (by omega) hp hx)

theorem less_strict_weak : StrictWeak less := by
  refine ⟨?_, ?_, ?_⟩
  · intro x; simp [less]
  · intro x y z; simp only [less, decide_eq_true_eq]; omega
  · intro x y z; simp only [less, decide_eq_false_iff_not]; omega

theorem ex_queue_reachable : Reachable false ex_queue :=
  Reachable.push ⟨[9, 3, 5], less⟩ 7 ex_queue
    (Reachable.push ⟨[9, 3], less⟩ 5 _
      (Reachable.push ⟨[3], less⟩ 9 _
        (Reachable.push _ 3 _ (Reachable.empty less) (by rfl)) (by rfl)) (by rfl)) (by rfl)

theorem push_spec (checked : Bool) (q q1 : PriorityQueue T) (value : T)
    (h : q.push checked value = some q1) :
    q1.size = q.size + 1 ∧ q1.c.Perm (value :: q.c) ∧ q1.comp = q.comp := by
  obtain ⟨hcomp, hup⟩ := push_some checked q q1 value h
  have hperm : ∀ (fuel : Nat) (cont : List T) (k : Nat) (res : List T),
      upheap checked q.comp fuel cont k = some res → res.Perm cont := by
    intro fuel
    induction fuel with
    | zero =>
      intro cont k res hres
      unfold upheap at hres
      split at hres
      · split at hres
        · split at hres
          · split at hres
            · cases hres
            · cases hres; exact List.Perm.refl _
          · cases hres
        · cases hres; exact List.Perm.refl _
      · cases hres
    | succ fuel ih =>
      intro cont k res hres
      unfold upheap at hres
      split at hres
      · split at hres
        · split at hres
          · rename_i pv v hp hv
            split at hres
            · exact (ih _ _ _ hres).trans (swap_perm cont (parent k) k pv v hp hv)
            · cases hres; exact List.Perm.refl _
          · cases hres
        · cases hres; exact List.Perm.refl _
      · cases hres
  have hp := (hperm _ _ _ _ hup).trans (List.perm_append_singleton value q.c)
  exact ⟨by simpa [PriorityQueue.size] using hp.length_eq, hp, hcomp⟩

theorem push_total (q : PriorityQueue T) (value : T) : ∃ q1, q.push false value = some q1 := by
  obtain ⟨res, hres⟩ := upheap_total q.comp q.c.length (q.c ++ [value]) q.c.length
    (by simp) (Nat.le_refl _)
  refine ⟨{ q with c := res }, ?_⟩
  unfold PriorityQueue.push
  simp only [List.length_append, List.length_singleton, Nat.add_sub_cancel]
  rw [hres]

theorem pop_spec (q : PriorityQueue T) (t : T) (xs : List T) (hq : q.c = t :: xs) :
    ∃ q1, q.pop = some q1 ∧ q1.size + 1 = q.size ∧ (t :: q1.c).Perm q.c ∧
      q1.comp = q.comp := by
  have hl : ∃ back, q.c.getLast? = some back := by
    rw [hq]; exact ⟨(t :: xs).getLast (by simp), List.getLast?_eq_getLast _ _⟩
  obtain ⟨back, hback⟩ := hl
  obtain ⟨res, hres⟩ := downheap_total q.comp ((q.c.set 0 back).dropLast).length
    ((q.c.set 0 back).dropLast) 0 (Nat.le_refl _)
  have hperm : ∀ (fuel : Nat) (cont : List T) (k : Nat) (res : List T),
      downheap q.comp fuel cont k = some res → res.Perm cont := by
    intro fuel
    induction fuel with
    | zero =>
      intro cont k res hres
      unfold downheap at hres
      split at hres
      · cases hres; exact List.Perm.refl _
      · cases hres
    | succ fuel ih =>
      intro cont k res hres
      unfold downheap at hres
      split at hres
      · cases hres; exact List.Perm.refl _
      · split at hres
        · cases hres
        · split at hres
          · rename_i val cv hval hcv
            split at hres
            · exact (ih _ _ _ hres).trans (swap_perm cont k _ val cv hval hcv)
            · cases hres; exact List.Perm.refl _
          · cases hres
  have hp : (t :: res).Perm q.c := by
    have h1 := (hperm _ _ _ _ hres).cons t
    rw [hq] at h1 hback ⊢
    exact h1.trans (pop_perm t xs back hback)
  refine ⟨{ q with c := res }, ?_, ?_, hp, rfl⟩
  · unfold PriorityQueue.pop
    rw [hback]
    simp only []
    rw [hres]
  · simpa [PriorityQueue.size] using hp.length_eq

/-- C22: every queue obtained from an empty one by `push` and `pop` (on a non-empty queue),
with `comp` a strict weak ordering, keeps the heap order: for every index `i >= 1`,
`comp(c[parent(i)], c[i])` is false, where `parent(i) = (i - 1) / 2`; and `top()` is a
greatest element: `comp(top(), x)` is false for every stored `x`. -/
theorem heap_order (checked : Bool) (q : PriorityQueue T) (hR : Reachable checked q)
    (hc : StrictWeak q.comp) :
    (∀ (i : Nat) (pv v : T), 1 ≤ i → q.c[parent i]? = some pv → q.c[i]? = some v →
      q.comp pv v = false) ∧
    (∀ i : Nat, 1 ≤ i → parent i = (i - 1) / 2) ∧
    ∀ t : T, q.top = some t → ∀ x ∈ q.c, q.comp t x = false := by
  have hH := reachable_heap checked q hR hc
  refine ⟨fun i pv v hi => hH i pv v hi, fun i hi => parent_pos i hi, ?_⟩
  intro t ht x hx
  obtain ⟨i, hi⟩ := List.mem_iff_getElem?.mp hx
  have ht0 : q.c[0]? = some t := by
    rw [← List.head?_eq_getElem?]; exact ht
  exact heap_top hc q.c t hH ht0 i x hi

theorem heap_order_witness :
    Reachable false ex_queue ∧ StrictWeak ex_queue.comp ∧ ex_queue.top = some 9 ∧
      ((∀ (i : Nat) (pv v : Int), 1 ≤ i → ex_queue.c[parent i]? = some pv →
        ex_queue.c[i]? = some v → ex_queue.comp pv v = false) ∧
      (∀ i : Nat, 1 ≤ i → parent i = (i - 1) / 2) ∧
      ∀ t : Int, ex_queue.top = some t → ∀ x ∈ ex_queue.c, ex_queue.comp t x = false) :=
  ⟨ex_queue_reachable, less_strict_weak, rfl,
    heap_order false ex_queue ex_queue_reachable less_strict_weak⟩

/-- C23: on a non-empty queue reachable by `push` and `pop`, `pop()` returns, the size is
one less, and the stored elements are the previous ones with exactly one occurrence of the
previous `top()` removed; the result is again reachable. -/
theorem pop_removes_top [DecidableEq T] (checked : Bool) (q : PriorityQueue T)
    (hR : Reachable checked q) (hne : q.empty = false) :
    ∃ (t : T) (q1 : PriorityQueue T), q.top = some t ∧ q.pop = some q1 ∧
      q1.size + 1 = q.size ∧ (t :: q1.c).Perm q.c ∧
      (↑q1.c : Multiset T) = (↑q.c : Multiset T).erase t ∧
      (∀ x : T, x ≠ t → q1.c.count x = q.c.count x) ∧ q1.c.count t + 1 = q.c.count t ∧
      Reachable checked q1 := by
  cases hq : q.c with
  | nil => simp [PriorityQueue.empty, hq] at hne
  | cons t xs =>
    obtain ⟨q1, hpop, hsize, hperm, _⟩ := pop_spec q t xs hq
    rw [hq] at hperm
    refine ⟨t, q1, by simp [PriorityQueue.top, hq], hpop, hsize, hperm, ?_, ?_, ?_,
      Reachable.pop q q1 hR hpop⟩
    · have h1 : (↑(t :: xs) : Multiset T) = ↑(t :: q1.c) := Quotient.sound hperm.symm
      rw [h1, ← Multiset.cons_coe, Multiset.erase_cons_head]
    · intro x hx
      have := hperm.count_eq x
      rw [List.count_cons] at this
      simp only [beq_iff_eq] at this
      rw [if_neg (fun h => hx h.symm)] at this
      simpa using this
    · have := hperm.count_eq t
      rw [List.count_cons] at this
      simpa using this

theorem pop_removes_top_witness :
    Reachable false ex_queue ∧ ex_queue.empty = false ∧
      ∃ (t : Int) (q1 : PriorityQueue Int), ex_queue.top = some t ∧ ex_queue.pop = some q1 ∧
        q1.size + 1 = ex_queue.size ∧ (t :: q1.c).Perm ex_queue.c ∧
        (↑q1.c : Multiset Int) = (↑ex_queue.c : Multiset Int).erase t ∧
        (∀ x : Int, x ≠ t → q1.c.count x = ex_queue.c.count x) ∧
        q1.c.count t + 1 = ex_queue.c.count t ∧ Reachable false q1 :=
  ⟨ex_queue_reachable, rfl, pop_removes_top false ex_queue ex_queue_reachable rfl⟩

/-- C24: `push(value)` on an empty queue calls `upheap(0)`, which forms the reference
`c[parent(0)]` with `parent(0) = (0 - 1) / 2 = 2^63 - 1`, outside the one-element
container: with a bounds-checked `operator[]` the first push stops the program.  Whenever
`push` has defined behaviour the size grows by one and the container is a permutation of
the old one with `value` added, and with an unchecked `operator[]` every push returns. -/
theorem push_subscript_out_of_range (comp : T → T → Bool) (value : T) :
    parent 0 = 2 ^ 63 - 1 ∧
    subscript_ok true ((PriorityQueue.mk_empty comp).c ++ [value]) (parent 0) = false ∧
    (PriorityQueue.mk_empty comp).push true value = none ∧
    PriorityQueue.push true (PriorityQueue.mk_empty less) 5 = none ∧
    (∀ (checked : Bool) (q q1 : PriorityQueue T) (v : T), q.push checked v = some q1 →
      q1.size = q.size + 1 ∧ q1.c.Perm (v :: q.c) ∧ q1.comp = q.comp) ∧
    ∀ (q : PriorityQueue T) (v : T), ∃ q1, q.push false v = some q1 ∧
      q1.size = q.size + 1 ∧ q1.c.Perm (v :: q.c) ∧ q1.comp = q.comp := by
  refine ⟨by decide, ?_, ?_, by rfl, ?_, ?_⟩
  · simp [subscript_ok, PriorityQueue.mk_empty, parent]
  · simp [PriorityQueue.push, PriorityQueue.mk_empty, upheap, subscript_ok, parent]
  · intro checked q q1 v h
    exact push_spec checked q q1 v h
  · intro q v
    obtain ⟨q1, h⟩ := push_total q v
    exact ⟨q1, h, push_spec false q q1 v h⟩

end PQ

/-! ## Sorting -/

namespace Sorting

theorem read_some (array : List Int) (i x : Int) (h : read array i = some x) :
    0 ≤ i ∧ i < array.length ∧ array[i.toNat]? = some x := by
  unfold read at h
  split at h
  · have := PQ.getElem?_some_lt _ _ _ h
    exact ⟨by assumption, by omega, h⟩
  · cases h

theorem read_total (array : List Int) (i : Int) (h0 : 0 ≤ i) (h1 : i < array.length) :
    ∃ x, read array i = some x := by
  unfold read
  rw [if_pos h0]
  exact ⟨array.get ⟨i.toNat, by omega⟩, List.getElem?_eq_getElem _⟩

theorem read_nat (array : List Int) (k : Nat) : read array (k : Int) = array[k]? := by
  unfold read
  rw [if_pos (by omega)]
  simp

theorem swap_spec (array res : List Int) (i j : Int) (h : swap array i j = some res) :
    ∃ x y, read array i = some x ∧ read array j = some y ∧ res.length = array.length ∧
      res.Perm array ∧
      ∀ k : Int, read res k = if k = j then some x else if k = i then some y else read array k := by
  unfold swap at h
  split at h
  · rename_i x y hx hy
    cases h
    obtain ⟨hi0, _, hxi⟩ := read_some _ _ _ hx
    obtain ⟨hj0, _, hyj⟩ := read_some _ _ _ hy
    refine ⟨x, y, hx, hy, by simp, PQ.swap_perm array _ _ x y hxi hyj, ?_⟩
    intro k
    by_cases hk : 0 ≤ k
    · have := PQ.swap_get array _ _ x y hxi hyj k.toNat
      unfold read
      rw [if_pos hk, if_pos hk, this]
      by_cases h1 : k = j
      · subst h1; simp
      · rw [if_neg (by omega), if_neg h1]
        by_cases h2 : k = i
        · subst h2; simp
        · rw [if_neg (by omega), if_neg h2]
    · rw [if_neg (by omega), if_neg (by omega)]
      unfold read
      rw [if_neg hk, if_neg hk]
  · cases h

theorem swap_total (array : List Int) (i j x y : Int) (hx : read array i = some x)
    (hy : read array j = some y) : ∃ res, swap array i j = some res := by
  unfold swap
  rw [hx, hy]
  exact ⟨_, rfl⟩

theorem int_val_ok (x : Int) (h0 : -2147483648 ≤ x) (h1 : x ≤ 2147483647) :
    int_val x = some x := by
  unfold int_val
  rw [if_pos ⟨h0, h1⟩]

theorem partition_loop_spec (a0 : List Int) (left right pv : Int) (h0 : 0 ≤ left)
    (hr : right < a0.length) (hmax : right ≤ 2147483647) (hpv : read a0 right = some pv)
    (variant : Nat) (cur : List Int) (i j : Int) (hv : (right - j).toNat ≤ variant)
    (hlj : left ≤ j) (inv : PartInv a0 left right pv cur i j) :
    ∃ res i1, partition_loop right variant cur i j = some (res, i1) ∧
      PartInv a0 left right pv res i1 right := by
  induction variant generalizing cur i j with
  | zero =>
    have := inv.hj
    have hjr : j = right := by omega
    subst hjr
    unfold partition_loop
    rw [if_neg (by omega)]
    exact ⟨cur, i, rfl, inv⟩
  | succ variant ih =>
    unfold partition_loop
    by_cases hjr : j ≤ right - 1
    · rw [if_pos hjr]
      have hpv1 : read cur right = some pv := by rw [inv.out right (Or.inr (Int.le_refl _))]; exact hpv
      obtain ⟨aj, haj⟩ := read_total cur j (by omega) (by rw [inv.len]; omega)
      rw [haj, hpv1]
      simp only []
      have hj1 : int_val (j + 1) = some (j + 1) := int_val_ok _ (by omega) (by omega)
      by_cases hlt : aj < pv
      · rw [if_pos hlt]
        have hinv := inv.hi
        have hinv2 := inv.hij
        rw [int_val_ok (i + 1) (by omega) (by omega)]
        simp only []
        by_cases hne : i + 1 ≠ j
        · rw [if_pos hne]
          obtain ⟨y, hy⟩ := read_total cur (i + 1) (by omega) (by rw [inv.len]; omega)
          obtain ⟨cur1, hcur1⟩ := swap_total cur (i + 1) j y aj hy haj
          obtain ⟨x1, y1, hx1, hy1, hlen, hperm, hget⟩ := swap_spec cur cur1 (i + 1) j hcur1
          rw [hy] at hx1; rw [haj] at hy1; cases hx1; cases hy1
          rw [hcur1, hj1]
          simp only []
          refine ih cur1 (i + 1) (j + 1) (by omega) (by omega) ?_
          refine ⟨hlen.trans inv.len, hperm.trans inv.perm, by omega, by omega, by omega, ?_, ?_, ?_⟩
          · intro k hk
            rw [hget, if_neg (by omega), if_neg (by omega)]
            exact inv.out k hk
          · intro k x hk1 hk2 hx
            rw [hget, if_neg (by omega)] at hx
            by_cases hki : k = i + 1
            · rw [if_pos hki] at hx; cases hx; exact hlt
            · rw [if_neg hki] at hx
              exact inv.lo k x hk1 (by omega) hx
          · intro k x hk1 hk2 hx
            rw [hget] at hx
            by_cases hkj : k = j
            · rw [if_pos hkj] at hx; cases hx
              exact inv.up (i + 1) _ (by omega) (by omega) hy
            · rw [if_neg hkj, if_neg (by omega)] at hx
              exact inv.up k x (by omega) (by omega) hx
        · rw [if_neg hne, hj1]
          simp only []
          have hij : i + 1 = j := by omega
          refine ih cur (i + 1) (j + 1) (by omega) (by omega) ?_
          refine ⟨inv.len, inv.perm, by omega, by omega, by omega, inv.out, ?_, ?_⟩
          · intro k x hk1 hk2 hx
            by_cases hki : k = j
            · subst hki; rw [haj] at hx; cases hx; exact hlt
            · exact inv.lo k x hk1 (by omega) hx
          · intro k x hk1 hk2 hx
            omega
      · rw [if_neg hlt, hj1]
        simp only []
        have hinv := inv.hi
        have hinv2 := inv.hij
        refine ih cur i (j + 1) (by omega) (by omega) ?_
        refine ⟨inv.len, inv.perm, by omega, by omega, by omega, inv.out, inv.lo, ?_⟩
        intro k x hk1 hk2 hx
        by_cases hkj : k = j
        · subst hkj; rw [haj] at hx; cases hx; omega
        · exact inv.up k x hk1 (by omega) hx
    · rw [if_neg hjr]
      have := inv.hj
      have hjr : j = right := by omega
      subst hjr
      exact ⟨cur, i, rfl, inv⟩

theorem partition_spec (array : List Int) (left right : Int) (h0 : 0 ≤ left)
    (hlr : left < right) (hr : right < array.length) (hmax : right ≤ 2147483647) :
    ∃ res p pv, partition array left right = some (res, p) ∧ left ≤ p ∧ p ≤ right ∧
      res.length = array.length ∧ res.Perm array ∧
      (∀ k : Int, k < left ∨ right < k → read res k = read array k) ∧
      read res p = some pv ∧
      (∀ k x : Int, left ≤ k → k < p → read res k = some x → x < pv) ∧
      (∀ k x : Int, p < k → k ≤ right → read res k = some x → pv ≤ x) := by
  obtain ⟨pv, hpv⟩ := read_total array right (by omega) hr
  have inv0 : PartInv array left right pv array (left - 1) left :=
    ⟨rfl, List.Perm.refl _, by omega, by omega, by omega, fun _ _ => rfl,
      fun k x h1 h2 _ => by omega, fun k x h1 h2 _ => by omega⟩
  obtain ⟨a1, i1, hloop, inv⟩ := partition_loop_spec array left right pv h0 hr hmax hpv
    (right - left).toNat array (left - 1) left (Nat.le_refl _) (Int.le_refl _) inv0
  have h1 := inv.hi
  have h2 := inv.hij
  have hpv1 : read a1 right = some pv := by rw [inv.out right (Or.inr (Int.le_refl _))]; exact hpv
  obtain ⟨y, hy⟩ := read_total a1 (i1 + 1) (by omega) (by rw [inv.len]; omega)
  obtain ⟨a2, ha2⟩ := swap_total a1 (i1 + 1) right y pv hy hpv1
  obtain ⟨x1, y1, hx1, hy1, hlen, hperm, hget⟩ := swap_spec a1 a2 (i1 + 1) right ha2
  rw [hy] at hx1; rw [hpv1] at hy1; cases hx1; cases hy1
  have hy_pv : pv ≤ y := by
    by_cases hir : i1 + 1 = right
    · rw [hir, hpv1] at hy; cases hy; exact Int.le_refl _
    · exact inv.up (i1 + 1) y (by omega) (by omega) hy
  refine ⟨a2, i1 + 1, pv, ?_, by omega, by omega, hlen.trans inv.len, hperm.trans inv.perm,
    ?_, ?_, ?_, ?_⟩
  · unfold partition
    rw [int_val_ok (left - 1) (by omega) (by omega), int_val_ok (right - 1) (by omega) (by omega)]
    simp only []
    rw [hloop]
    simp only []
    rw [int_val_ok (i1 + 1) (by omega) (by omega)]
    simp only []
    rw [ha2]
  · intro k hk
    rw [hget, if_neg (by omega), if_neg (by omega)]
    exact inv.out k (by omega)
  · rw [hget]
    by_cases hir : i1 + 1 = right
    · rw [if_pos hir]
      rw [hir, hpv1] at hy; cases hy; rfl
    · rw [if_neg hir, if_pos rfl]
  · intro k x hk1 hk2 hx
    rw [hget, if_neg (by omega), if_neg (by omega)] at hx
    exact inv.lo k x hk1 (by omega) hx
  · intro k x hk1 hk2 hx
    rw [hget] at hx
    by_cases hkr : k = right
    · rw [if_pos hkr] at hx; cases hx; exact hy_pv
    · rw [if_neg hkr, if_neg (by omega)] at hx
      exact inv.up k x (by omega) (by omega) hx

theorem seg_perm (a res : List Int) (L n : Nat) (hperm : res.Perm a)
    (hout : ∀ k : Nat, k < L ∨ L + n ≤ k → res[k]? = a[k]?) :
    ((res.drop L).take n).Perm ((a.drop L).take n) := by
  have hpre : res.take L = a.take L := by
    apply List.ext_getElem?
    intro k
    rw [List.getElem?_take, List.getElem?_take]
    split
    · exact hout k (Or.inl (by assumption))
    · rfl
  have hpost : (res.drop L).drop n = (a.drop L).drop n := by
    apply List.ext_getElem?
    intro k
    rw [List.getElem?_drop, List.getElem?_drop, List.getElem?_drop, List.getElem?_drop]
    exact hout _ (Or.inr (by omega))
  have hres : res = res.take L ++ ((res.drop L).take n ++ (res.drop L).drop n) := by
    rw [List.take_append_drop, List.take_append_drop]
  have ha : a = a.take L ++ ((a.drop L).take n ++ (a.drop L).drop n) := by
    rw [List.take_append_drop, List.take_append_drop]
  rw [hres, ha, hpre, hpost] at hperm
  exact (List.perm_append_right_iff _).mp ((List.perm_append_left_iff _).mp hperm)

theorem region_mem (a res : List Int) (l r : Int) (h0 : 0 ≤ l) (hperm : res.Perm a)
    (hout : ∀ k : Int, k < l ∨ r < k → read res k = read a k) (k x : Int) (hlk : l ≤ k)
    (hkr : k ≤ r) (hx : read res k = some x) :
    ∃ k1 : Int, l ≤ k1 ∧ k1 ≤ r ∧ read a k1 = some x := by
  have hseg := seg_perm a res l.toNat (r + 1 - l).toNat hperm (by
    intro m hm
    rw [← read_nat, ← read_nat]
    exact hout m (by omega))
  obtain ⟨_, _, hxk⟩ := read_some _ _ _ hx
  have hmem : x ∈ (res.drop l.toNat).take (r + 1 - l).toNat := by
    apply List.mem_iff_getElem?.mpr
    refine ⟨(k - l).toNat, ?_⟩
    rw [List.getElem?_take, if_pos (by omega), List.getElem?_drop]
    have : l.toNat + (k - l).toNat = k.toNat := by omega
    rw [this]; exact hxk
  obtain ⟨m, hm⟩ := List.mem_iff_getElem?.mp (hseg.mem_iff.mp hmem)
  rw [List.getElem?_take] at hm
  split at hm
  · rw [List.getElem?_drop] at hm
    refine ⟨l + m, by omega, by omega, ?_⟩
    unfold read
    rw [if_pos (by omega)]
    have : (l + (m : Int)).toNat = l.toNat + m := by omega
    rw [this]; exact hm
  · cases hm

theorem quick_sort_spec (fuel : Nat) (array : List Int) (left right : Int) (h0 : 0 ≤ left)
    (hr : right < array.length) (hmax : right < 2147483647)
    (hf : (right - left).toNat ≤ fuel) :
    ∃ res, quick_sort fuel array left right = some res ∧ res.length = array.length ∧
      res.Perm array ∧
      (∀ k : Int, k < left ∨ right < k → read res k = read array k) ∧
      (∀ i j x y : Int, left ≤ i → i ≤ j → j ≤ right → read res i = some x →
        read res j = some y → x ≤ y) := by
  induction fuel generalizing array left right with
  | zero =>
    refine ⟨array, ?_, rfl, List.Perm.refl _, fun _ _ => rfl, ?_⟩
    · unfold quick_sort; rw [if_pos (by omega)]
    · intro i j x y h1 h2 h3 hx hy
      have : i = j := by omega
      subst this; rw [hx] at hy; cases hy; exact Int.le_refl _
  | succ fuel ih =>
    by_cases hlr : left ≥ right
    · refine ⟨array, ?_, rfl, List.Perm.refl _, fun _ _ => rfl, ?_⟩
      · unfold quick_sort; rw [if_pos hlr]
      · intro i j x y h1 h2 h3 hx hy
        have : i = j := by omega
        subst this; rw [hx] at hy; cases hy; exact Int.le_refl _
    · obtain ⟨a1, p, pv, hpart, hlp, hpr, hlen1, hperm1, hout1, hpv, hlo, hup⟩ :=
        partition_spec array left right h0 (by omega) hr (by omega)
      obtain ⟨a2, hq2, hlen2, hperm2, hout2, hsort2⟩ :=
        ih a1 left (p - 1) h0 (by rw [hlen1]; omega) (by omega) (by omega)
      obtain ⟨a3, hq3, hlen3, hperm3, hout3, hsort3⟩ :=
        ih a2 (p + 1) right (by omega) (by rw [hlen2, hlen1]; omega) hmax (by omega)
      have hlo2 : ∀ k x : Int, left ≤ k → k < p → read a2 k = some x → x < pv := by
        intro k x h1 h2 hx
        obtain ⟨k1, h3, h4, h5⟩ := region_mem a1 a2 left (p - 1) h0 hperm2 hout2 k x h1
          (by omega) hx
        exact hlo k1 x h3 (by omega) h5
      have hup3 : ∀ k x : Int, p < k → k ≤ right → read a3 k = some x → pv ≤ x := by
        intro k x h1 h2 hx
        obtain ⟨k1, h3, h4, h5⟩ := region_mem a2 a3 (p + 1) right (by omega) hperm3 hout3 k x
          (by omega) h2 hx
        rw [hout2 k1 (by omega)] at h5
        exact hup k1 x (by omega) h4 h5
      have hpv3 : read a3 p = some pv := by
        rw [hout3 p (by omega), hout2 p (by omega)]; exact hpv
      refine ⟨a3, ?_, by rw [hlen3, hlen2, hlen1], (hperm3.trans hperm2).trans hperm1, ?_, ?_⟩
      · unfold quick_sort
        rw [if_neg hlr, hpart]
        simp only []
        rw [int_val_ok (p - 1) (by omega) (by omega)]
        simp only []
        rw [hq2]
        simp only []
        rw [int_val_ok (p + 1) (by omega) (by omega)]
        simp only []
        exact hq3
      · intro k hk
        rw [hout3 k (by omega), hout2 k (by omega)]
        exact hout1 k hk
      · intro i j x y h1 h2 h3 hx hy
        by_cases hip : i < p
        · have hx2 : read a2 i = some x := by rw [← hout3 i (by omega)]; exact hx
          have hxlt := hlo2 i x h1 hip hx2
          by_cases hjp : j < p
          · have hy2 : read a2 j = some y := by rw [← hout3 j (by omega)]; exact hy
            exact hsort2 i j x y h1 h2 (by omega) hx2 hy2
          · by_cases hjp2 : j = p
            · subst hjp2; rw [hpv3] at hy; cases hy; omega
            · have := hup3 j y (by omega) h3 hy
              omega
        · by_cases hip2 : i = p
          · subst hip2
            rw [hpv3] at hx; cases hx
            by_cases hjp2 : j = i
            · subst hjp2; rw [hpv3] at hy; cases hy; exact Int.le_refl _
            · exact hup3 j y (by omega) h3 hy
          · exact hsort3 i j x y (by omega) h2 h3 hx hy

theorem quick_sort_mono (fuel : Nat) (array : List Int) (left right : Int) (res : List Int)
    (h : quick_sort fuel array left right = some res) :
    quick_sort (fuel + 1) array left right = some res := by
  induction fuel generalizing array left right res with
  | zero =>
    unfold quick_sort at h ⊢
    split at h
    · rename_i hlr; rw [if_pos hlr]; exact h
    · cases h
  | succ fuel ih =>
    unfold quick_sort at h
    unfold quick_sort
    by_cases hlr : left ≥ right
    · rw [if_pos hlr] at h ⊢; exact h
    · rw [if_neg hlr] at h ⊢
      cases hpart : partition array left right with
      | none => rw [hpart] at h; simp at h
      | some pr =>
        obtain ⟨a1, p⟩ := pr
        rw [hpart] at h
        simp only [] at h ⊢
        cases hr1 : int_val (p - 1) with
        | none => rw [hr1] at h; simp at h
        | some r1 =>
          rw [hr1] at h
          simp only [] at h ⊢
          cases hq2 : quick_sort fuel a1 left r1 with
          | none => rw [hq2] at h; simp at h
          | some a2 =>
            rw [hq2] at h
            rw [ih _ _ _ _ hq2]
            simp only [] at h ⊢
            cases hl2 : int_val (p + 1) with
            | none => rw [hl2] at h; simp at h
            | some l2 =>
              rw [hl2] at h
              simp only [] at h ⊢
              exact ih _ _ _ _ h

theorem quick_sort_mono_le (fuel fuel1 : Nat) (array : List Int) (left right : Int)
    (res : List Int) (h : quick_sort fuel array left right = some res) (hle : fuel ≤ fuel1) :
    quick_sort fuel1 array left right = some res := by
  induction fuel1 with
  | zero =>
    have : fuel = 0 := by omega
    subst this; exact h
  | succ fuel1 ih =>
    by_cases h1 : fuel = fuel1 + 1
    · subst h1; exact h
    · exact quick_sort_mono _ _ _ _ _ (ih (by omega))

theorem set_same (array : List Int) (n : Nat) (b : Int) (h : array[n]? = some b) :
    array.set n b = array := by
  apply List.ext_getElem?
  intro k
  rw [List.getElem?_set]
  split
  · rename_i hnk
    subst hnk
    rw [if_pos (PQ.getElem?_some_lt _ _ _ h), h]
  · rfl

theorem partition_int_max (array : List Int) (a b : Int)
    (ha : read array 2147483646 = some a) (hb : read array 2147483647 = some b)
    (hab : a < b) : partition array 2147483646 2147483647 = some (array, 2147483647) := by
  unfold partition
  rw [int_val_ok _ (by omega) (by omega), int_val_ok _ (by omega) (by omega)]
  simp only []
  have h1 : ((2147483647 : Int) - 2147483646).toNat = 1 := by decide
  have hloop : partition_loop 2147483647 1 array (2147483646 - 1) 2147483646
      = some (array, 2147483646) := by
    unfold partition_loop
    rw [if_pos (by omega), ha, hb]
    simp only []
    rw [if_pos hab, int_val_ok _ (by omega) (by omega)]
    simp only []
    rw [if_neg (by omega), int_val_ok _ (by omega) (by omega)]
    simp only []
    unfold partition_loop
    rw [if_neg (by omega)]
    norm_num
  rw [h1, hloop]
  simp only []
  rw [int_val_ok _ (by omega) (by omega)]
  simp only []
  have hs : swap array (2147483646 + 1) 2147483647 = some array := by
    unfold swap
    have : (2147483646 : Int) + 1 = 2147483647 := by norm_num
    rw [this, hb]
    simp only []
    obtain ⟨_, _, hb1⟩ := read_some _ _ _ hb
    rw [set_same _ _ _ hb1, set_same _ _ _ hb1]
  rw [hs]
  norm_num

theorem quick_sort_overflow (array : List Int) (a b : Int)
    (ha : read array 2147483646 = some a) (hb : read array 2147483647 = some b)
    (hab : a < b) (fuel : Nat) : quick_sort fuel array 2147483646 2147483647 = none := by
  have hpart := partition_int_max array a b ha hb hab
  cases fuel with
  | zero => unfold quick_sort; rw [if_neg (by omega)]
  | succ fuel =>
    unfold quick_sort
    rw [if_neg (by omega), hpart]
    simp only []
    rw [int_val_ok _ (by omega) (by omega)]
    simp only []
    have hq : quick_sort fuel array 2147483646 (2147483647 - 1) = some array := by
      cases fuel with
      | zero => unfold quick_sort; rw [if_pos (by omega)]
      | succ fuel => unfold quick_sort; rw [if_pos (by omega)]
    rw [hq]
    simp only []
    have : int_val (2147483647 + 1) = none := by decide
    rw [this]

theorem huge_array_reads :
    read huge_array 2147483646 = some 0 ∧ read huge_array 2147483647 = some 1 := by
  unfold huge_array read
  refine ⟨?_, ?_⟩
  · rw [if_pos (by omega)]
    have : (2147483646 : Int).toNat = 2147483646 := by decide
    rw [this, List.getElem?_append_left (by rw [List.length_replicate]; omega),
      List.getElem?_replicate, if_pos (by omega)]
  · rw [if_pos (by omega)]
    have : (2147483647 : Int).toNat = 2147483647 := by decide
    rw [this, List.getElem?_append_right (by rw [List.length_replicate]),
      List.length_replicate]
    simp

/-- C25 (as stated, `right` may be `INT_MAX`): on an array of `2^31` elements whose last
two are `0, 1`, the call `quick_sort(array, 2^31 - 2, 2^31 - 1)` has indices within the
array, `partition` returns `p = 2^31 - 1`, and the argument `p + 1` of the second recursive
call overflows `int`: the call has undefined behaviour whatever the recursion bound. -/
theorem quick_sort_int_max_counterexample :
    huge_array.length = 2147483648 ∧ (0 : Int) ≤ 2147483646 ∧ (2147483646 : Int) ≤ 2147483647 ∧
    (2147483647 : Int) < huge_array.length ∧
    partition huge_array 2147483646 2147483647 = some (huge_array, 2147483647) ∧
    int_val (2147483647 + 1) = none ∧
    ∀ fuel : Nat, quick_sort fuel huge_array 2147483646 2147483647 = none := by
  have hlen : huge_array.length = 2147483648 := by
    unfold huge_array
    rw [List.length_append, List.length_replicate, List.length_singleton]
  refine ⟨hlen, by decide, by decide, by rw [hlen]; decide, ?_, by decide, ?_⟩
  · exact partition_int_max huge_array 0 1 huge_array_reads.1 huge_array_reads.2 (by decide)
  · intro fuel
    exact quick_sort_overflow huge_array 0 1 huge_array_reads.1 huge_array_reads.2 (by decide) fuel

/-- C25 (amended with `right < INT_MAX`): for `0 <= left` and `right < n`, `right` below
`2^31 - 1`, `quick_sort(array, left, right)` returns (every recursion bound from
`right - left` on gives the same array), the elements at `left..right` are in
non-decreasing order and a permutation of the previous ones, and the positions outside
`left..right` are unchanged. -/
theorem quick_sort_sorts (array : List Int) (left right : Int) (h0 : 0 ≤ left)
    (hr : right < array.length) (hmax : right < 2147483647) :
    ∃ res : List Int,
      (∀ fuel : Nat, (right - left).toNat ≤ fuel →
        quick_sort fuel array left right = some res) ∧
      res.length = array.length ∧
      (∀ (i j : Nat) (x y : Int), left ≤ i → i ≤ j → (j : Int) ≤ right →
        res[i]? = some x → res[j]? = some y → x ≤ y) ∧
      ((res.drop left.toNat).take (right - left + 1).toNat).Perm
        ((array.drop left.toNat).take (right - left + 1).toNat) ∧
      (∀ k : Nat, (k : Int) < left ∨ right < k → res[k]? = array[k]?) ∧
      res.Perm array := by
  obtain ⟨res, hq, hlen, hperm, hout, hsort⟩ :=
    quick_sort_spec (right - left).toNat array left right h0 hr hmax (Nat.le_refl _)
  have hout1 : ∀ k : Nat, (k : Int) < left ∨ right < k → res[k]? = array[k]? := by
    intro k hk
    rw [← read_nat, ← read_nat]
    exact hout k hk
  refine ⟨res, fun fuel hf => quick_sort_mono_le _ fuel _ _ _ _ hq hf, hlen, ?_, ?_, hout1,
    hperm⟩
  · intro i j x y h1 h2 h3 hx hy
    rw [← read_nat] at hx hy
    exact hsort i j x y h1 (by omega) h3 hx hy
  · exact seg_perm array res _ _ hperm (fun k hk => hout1 k (by omega))

theorem quick_sort_sorts_witness :
    (0 : Int) ≤ 0 ∧ (9 : Int) < main_array.length ∧ (9 : Int) < 2147483647 ∧
    quick_sort 9 main_array 0 9 = some [0, 1, 2, 3, 4, 5, 6, 7, 8, 9] ∧
    ∃ res : List Int,
      (∀ fuel : Nat, ((9 : Int) - 0).toNat ≤ fuel → quick_sort fuel main_array 0 9 = some res) ∧
      res.length = main_array.length ∧
      (∀ (i j : Nat) (x y : Int), (0 : Int) ≤ i → i ≤ j → (j : Int) ≤ 9 →
        res[i]? = some x → res[j]? = some y → x ≤ y) ∧
      ((res.drop (0 : Int).toNat).take ((9 : Int) - 0 + 1).toNat).Perm
        ((main_array.drop (0 : Int).toNat).take ((9 : Int) - 0 + 1).toNat) ∧
      (∀ k : Nat, (k : Int) < 0 ∨ (9 : Int) < k → res[k]? = main_array[k]?) ∧
      res.Perm main_array :=
  ⟨by decide, by decide, by decide, by decide,
    quick_sort_sorts main_array 0 9 (by decide) (by decide) (by decide)⟩

/-! ## `bubble_sort` -/

theorem size_sub_eq (a b : Nat) (hb : b ≤ a) :
    size_sub a b = a - b := by
  unfold size_sub; rw [if_pos hb]

theorem size_sub_zero_one : size_sub 0 1 = 18446744073709551615 := by decide

theorem bubble_inner_spec (a0 : List Int) (n i : Nat) (hi : i + 1 < n) (variant : Nat)
    (cur : List Int) (j : Nat) (swapped : Bool)
    (hj : j + i + 1 ≤ n) (hv : n - i - 1 - j ≤ variant) (inv : BubbleInv a0 n i cur j swapped) :
    ∃ res sw, bubble_inner n i variant cur j swapped = some (res, sw) ∧
      BubbleInv a0 n i res (n - i - 1) sw := by
  have hB : size_sub (size_sub n i) 1 = n - i - 1 := by
    rw [size_sub_eq n i (by omega), size_sub_eq _ 1 (by omega)]
  induction variant generalizing cur j swapped with
  | zero =>
    have hjB : j = n - i - 1 := by omega
    unfold bubble_inner
    rw [hB, if_neg (by omega)]
    exact ⟨cur, swapped, rfl, hjB ▸ inv⟩
  | succ variant ih =>
    unfold bubble_inner
    rw [hB]
    by_cases hjB : j < n - i - 1
    · rw [if_pos hjB]
      obtain ⟨a, ha⟩ := read_total cur j (by omega) (by rw [inv.len]; omega)
      obtain ⟨b, hb⟩ := read_total cur ((j + 1 : Nat) : Int) (by omega) (by rw [inv.len]; omega)
      rw [ha, hb]
      simp only []
      by_cases hc : compare a b = true
      · rw [if_pos hc]
        have hab : b < a := by simpa [compare] using hc
        obtain ⟨cur1, hcur1⟩ := swap_total cur j ((j + 1 : Nat) : Int) a b ha hb
        obtain ⟨x1, y1, hx1, hy1, hlen, hperm, hget⟩ := swap_spec cur cur1 _ _ hcur1
        rw [ha] at hx1; rw [hb] at hy1; cases hx1; cases hy1
        rw [hcur1]
        simp only []
        refine ih cur1 (j + 1) true (by omega) (by omega) ?_
        refine ⟨hlen.trans inv.len, hperm.trans inv.perm, ?_, ?_, ?_⟩
        · intro p q x y hpq hq hx hy
          rw [hget, if_neg (by omega), if_neg (by omega)] at hy
          rw [hget] at hx
          by_cases h1 : p = ((j + 1 : Nat) : Int)
          · rw [if_pos h1] at hx; cases hx
            exact inv.tail j q _ y (by omega) hq ha hy
          · rw [if_neg h1] at hx
            by_cases h2 : p = (j : Int)
            · rw [if_pos h2] at hx; cases hx
              exact inv.tail ((j + 1 : Nat) : Int) q _ y (by omega) hq hb hy
            · rw [if_neg h2] at hx
              exact inv.tail p q x y hpq hq hx hy
        · intro p x y hp hx hy
          rw [hget, if_pos rfl] at hy
          cases hy
          rw [hget] at hx
          by_cases h1 : p = ((j + 1 : Nat) : Int)
          · rw [if_pos h1] at hx; cases hx; exact Int.le_refl _
          · rw [if_neg h1] at hx
            by_cases h2 : p = (j : Int)
            · rw [if_pos h2] at hx; cases hx; omega
            · rw [if_neg h2] at hx
              exact inv.top p x _ (by omega) hx ha
        · intro h; cases h
      · rw [if_neg hc]
        have hab : a ≤ b := by
          have : ¬ (b < a) := by simpa [compare] using hc
          omega
        refine ih cur (j + 1) swapped (by omega) (by omega) ?_
        refine ⟨inv.len, inv.perm, inv.tail, ?_, ?_⟩
        · intro p x y hp hx hy
          rw [hb] at hy; cases hy
          by_cases h1 : p = ((j + 1 : Nat) : Int)
          · rw [h1, hb] at hx; cases hx; exact Int.le_refl _
          · have := inv.top p x a (by omega) hx ha
            omega
        · intro hs p q x y hpq hq hx hy
          by_cases h1 : q = ((j + 1 : Nat) : Int)
          · rw [h1, hb] at hy; cases hy
            have := inv.top p x a (by omega) hx ha
            omega
          · exact inv.sorted hs p q x y hpq (by omega) hx hy
    · rw [if_neg hjB]
      have hjB : j = n - i - 1 := by omega
      exact ⟨cur, swapped, rfl, hjB ▸ inv⟩

theorem bubble_outer_spec (a0 : List Int) (n : Nat) (hn1 : 1 ≤ n) (variant : Nat)
    (cur : List Int) (i : Nat) (swapped : Bool)
    (hi : i + 1 ≤ n) (hv : n - 1 - i ≤ variant) (inv : BubbleOuterInv a0 n cur i swapped) :
    ∃ res, bubble_outer n variant cur i swapped = some res ∧ res.length = n ∧ res.Perm a0 ∧
      ∀ p q x y : Int, p < q → read res p = some x → read res q = some y → x ≤ y := by
  have hB : size_sub n 1 = n - 1 := size_sub_eq n 1 hn1
  have hdone : ∀ (c : List Int) (k : Nat) (sw : Bool), BubbleOuterInv a0 n c k sw →
      ¬ (k < n - 1 ∧ sw = true) → k + 1 ≤ n →
      ∀ p q x y : Int, p < q → read c p = some x → read c q = some y → x ≤ y := by
    intro c k sw hinv hcond hk p q x y hpq hx hy
    by_cases hsw : sw = true
    · have hk1 : ¬ k < n - 1 := fun h => hcond ⟨h, hsw⟩
      obtain ⟨hp0, _, _⟩ := read_some _ _ _ hx
      exact hinv.tail p q x y hpq (by omega) hx hy
    · exact hinv.full (by simpa using hsw) p q x y hpq hx hy
  induction variant generalizing cur i swapped with
  | zero =>
    refine ⟨cur, ?_, inv.len, inv.perm, hdone cur i swapped inv (by omega) hi⟩
    unfold bubble_outer
    rw [hB]
    have : ¬ i < n - 1 := by omega
    simp [this]
  | succ variant ih =>
    unfold bubble_outer
    rw [hB]
    by_cases hcond : i < n - 1 ∧ swapped = true
    · have hc : (decide (i < n - 1) && swapped) = true := by simp [hcond.1, hcond.2]
      rw [if_pos hc]
      have inv0 : BubbleInv a0 n i cur 0 false := by
        refine ⟨inv.len, inv.perm, inv.tail, ?_, ?_⟩
        · intro p x y hp hx hy
          obtain ⟨hp0, _, _⟩ := read_some _ _ _ hx
          have : p = ((0 : Nat) : Int) := by omega
          rw [this, hy] at hx; cases hx; exact Int.le_refl _
        · intro _ p q x y hpq hq hx hy
          obtain ⟨hp0, _, _⟩ := read_some _ _ _ hx
          omega
      obtain ⟨res, sw, hres, hinv⟩ := bubble_inner_spec a0 n i (by omega) (n + 1) cur 0 false
        (by omega) (by omega) inv0
      rw [hres]
      simp only []
      refine ih res (i + 1) sw (by omega) (by omega) ?_
      refine ⟨hinv.len, hinv.perm, ?_, ?_⟩
      · intro p q x y hpq hq hx hy
        by_cases h1 : q = ((n - i - 1 : Nat) : Int)
        · rw [h1] at hy
          exact hinv.top p x y (by omega) hx hy
        · exact hinv.tail p q x y hpq (by omega) hx hy
      · intro hs p q x y hpq hx hy
        by_cases h1 : q ≤ ((n - i - 1 : Nat) : Int)
        · exact hinv.sorted hs p q x y hpq h1 hx hy
        · exact hinv.tail p q x y hpq (by omega) hx hy
    · have hc : ¬ (decide (i < n - 1) && swapped) = true := by
        simpa using hcond
      rw [if_neg hc]
      exact ⟨cur, rfl, inv.len, inv.perm, hdone cur i swapped inv hcond hi⟩

theorem bubble_sort_spec (array : List Int) (hn1 : 1 ≤ array.length) :
    ∃ res, bubble_sort array array.length = some res ∧ res.length = array.length ∧
      res.Perm array ∧
      ∀ p q x y : Int, p < q → read res p = some x → read res q = some y → x ≤ y := by
  unfold bubble_sort
  refine bubble_outer_spec array array.length hn1 _ array 0 true (by omega) (by omega) ?_
  refine ⟨rfl, List.Perm.refl _, ?_, ?_⟩
  · intro p q x y hpq hq hx hy
    obtain ⟨_, hql, _⟩ := read_some _ _ _ hy
    omega
  · intro h; cases h

theorem bubble_inner_empty (variant : Nat) (swapped : Bool) :
    bubble_inner 0 0 (variant + 1) [] 0 swapped = none := by
  have h0 : size_sub 0 0 = 0 := by decide
  have hr : read [] ((0 : Nat) : Int) = none := by simp [read]
  unfold bubble_inner
  rw [h0, size_sub_zero_one, if_pos (by omega), hr]

theorem bubble_outer_empty (variant : Nat) : bubble_outer 0 variant [] 0 true = none := by
  cases variant with
  | zero =>
    unfold bubble_outer
    rw [size_sub_zero_one]
    simp
  | succ variant =>
    unfold bubble_outer
    rw [size_sub_zero_one, bubble_inner_empty]
    simp

/-! ## `insertion_sort` -/

theorem size_add_eq (a b : Nat) (h : a + b < 18446744073709551616) : size_add a b = a + b := by
  unfold size_add; rw [if_pos h]

theorem insertion_inv_done (a0 : List Int) (n i : Nat) (cur : List Int) (j : Nat)
    (inv : InsertionInv a0 n i cur j) (a b : Int) (ha : read cur j = some a)
    (hb : read cur ((j + 1 : Nat) : Int) = some b) (hab : a ≤ b) :
    InsertionOuterInv a0 n cur (i + 1) := by
  refine ⟨inv.len, inv.perm, inv.first, fun k hk => inv.rest k (by omega), ?_⟩
  intro p q x y hpq hq hx hy
  by_cases h1 : q ≤ (j : Int)
  · exact inv.lo p q x y hpq h1 hx hy
  · by_cases h2 : (j : Int) + 1 ≤ p
    · exact inv.hi p q x y h2 hpq (by omega) hx hy
    · by_cases h3 : q = (j : Int) + 1
      · have hq1 : q = ((j + 1 : Nat) : Int) := by omega
        rw [hq1, hb] at hy; cases hy
        by_cases h4 : p = (j : Int)
        · rw [h4, ha] at hx; cases hx; exact hab
        · have := inv.lo p j x a (by omega) (Int.le_refl _) hx ha
          omega
      · exact inv.cross p q x y (by omega) (by omega) (by omega) hx hy

theorem insertion_inv_swap (a0 : List Int) (n i : Nat) (cur cur1 : List Int) (j : Nat)
    (hj1 : 1 ≤ j) (hj : j ≤ i) (inv : InsertionInv a0 n i cur j) (a b : Int)
    (ha : read cur j = some a) (hb : read cur ((j + 1 : Nat) : Int) = some b) (hab : b < a)
    (hcur1 : swap cur j ((j + 1 : Nat) : Int) = some cur1) :
    InsertionInv a0 n i cur1 (j - 1) := by
  obtain ⟨x1, y1, hx1, hy1, hlen, hperm, hget⟩ := swap_spec cur cur1 _ _ hcur1
  rw [ha] at hx1; rw [hb] at hy1; cases hx1; cases hy1
  have hfirst1 : read cur1 0 = read cur 0 := by
    rw [hget, if_neg (by omega), if_neg (by omega)]
  refine ⟨hlen.trans inv.len, hperm.trans inv.perm, hfirst1.trans inv.first, ?_, ?_, ?_,
    ?_, ?_⟩
  · intro k hk
    rw [hget, if_neg (by omega), if_neg (by omega)]
    exact inv.rest k hk
  · intro k x y hk hx hy
    rw [hfirst1] at hx
    rw [hget] at hy
    by_cases h1 : k = ((j + 1 : Nat) : Int)
    · rw [if_pos h1] at hy; cases hy
      exact inv.least j x _ (by omega) hx ha
    · rw [if_neg h1] at hy
      by_cases h2 : k = (j : Int)
      · rw [if_pos h2] at hy; cases hy
        exact inv.least ((j + 1 : Nat) : Int) x _ (by omega) hx hb
      · rw [if_neg h2] at hy
        exact inv.least k x y hk hx hy
  · intro p q x y hpq hq hx hy
    rw [hget, if_neg (by omega), if_neg (by omega)] at hx hy
    exact inv.lo p q x y hpq (by omega) hx hy
  · intro p q x y hp hpq hq hx hy
    rw [hget] at hx hy
    by_cases hq1 : q = ((j + 1 : Nat) : Int)
    · rw [if_pos hq1] at hy; cases hy
      have hpj : p = (j : Int) := by omega
      rw [if_neg (by omega), if_pos hpj] at hx; cases hx
      omega
    · rw [if_neg hq1, if_neg (by omega)] at hy
      by_cases hp1 : p = ((j + 1 : Nat) : Int)
      · rw [if_pos hp1] at hx; cases hx
        exact inv.cross j q _ y (Int.le_refl _) (by omega) hq ha hy
      · rw [if_neg hp1] at hx
        by_cases hp2 : p = (j : Int)
        · rw [if_pos hp2] at hx; cases hx
          exact inv.hi ((j + 1 : Nat) : Int) q _ y (by omega) (by omega) hq hb hy
        · rw [if_neg hp2] at hx
          exact inv.hi p q x y (by omega) hpq hq hx hy
  · intro p q x y hp hq1 hq2 hx hy
    rw [hget, if_neg (by omega), if_neg (by omega)] at hx
    rw [hget] at hy
    by_cases h1 : q = ((j + 1 : Nat) : Int)
    · rw [if_pos h1] at hy; cases hy
      exact inv.lo p j x _ (by omega) (Int.le_refl _) hx ha
    · rw [if_neg h1, if_neg (by omega)] at hy
      exact inv.cross p q x y (by omega) (by omega) hq2 hx hy

theorem insertion_loop_ok (a0 : List Int) (n i : Nat) (hn : n < 18446744073709551616)
    (hi : i + 1 < n) (variant : Nat) (cur : List Int) (j : Nat) (hj : j ≤ i)
    (hv : j ≤ variant) (inv : InsertionInv a0 n i cur j) :
    ∃ res, insertion_loop variant cur j = some res ∧ InsertionOuterInv a0 n res (i + 1) := by
  induction variant generalizing cur j with
  | zero =>
    have hj0 : j = 0 := by omega
    subst hj0
    obtain ⟨a, ha⟩ := read_total cur (0 : Nat) (by omega) (by rw [inv.len]; omega)
    obtain ⟨b, hb⟩ := read_total cur ((0 + 1 : Nat) : Int) (by omega) (by rw [inv.len]; omega)
    have hab : a ≤ b := inv.least ((0 + 1 : Nat) : Int) a b (by omega) ha hb
    refine ⟨cur, ?_, insertion_inv_done a0 n i cur 0 inv a b ha hb hab⟩
    unfold insertion_loop
    rw [if_pos (by omega), size_add_eq 0 1 (by omega), ha, hb]
    simp only []
    rw [if_neg (by simp [compare]; omega)]
  | succ variant ih =>
    obtain ⟨a, ha⟩ := read_total cur j (by omega) (by rw [inv.len]; omega)
    obtain ⟨b, hb⟩ := read_total cur ((j + 1 : Nat) : Int) (by omega) (by rw [inv.len]; omega)
    unfold insertion_loop
    rw [if_pos (by omega), size_add_eq j 1 (by omega), ha, hb]
    simp only []
    by_cases hc : compare a b = true
    · rw [if_pos hc]
      have hab : b < a := by simpa [compare] using hc
      have hj1 : 1 ≤ j := by
        by_contra h0
        have hj0 : j = 0 := by omega
        subst hj0
        have := inv.least ((0 + 1 : Nat) : Int) a b (by omega) ha hb
        omega
      obtain ⟨cur1, hcur1⟩ := swap_total cur j ((j + 1 : Nat) : Int) a b ha hb
      rw [hcur1]
      simp only []
      rw [size_sub_eq j 1 hj1]
      exact ih cur1 (j - 1) (by omega) (by omega)
        (insertion_inv_swap a0 n i cur cur1 j hj1 hj inv a b ha hb hab hcur1)
    · rw [if_neg hc]
      have hab : a ≤ b := by
        have : ¬ (b < a) := by simpa [compare] using hc
        omega
      exact ⟨cur, rfl, insertion_inv_done a0 n i cur j inv a b ha hb hab⟩

theorem insertion_loop_wraps (n : Nat) (hn : n < 18446744073709551616) (variant : Nat)
    (cur : List Int) (j : Nat) (v : Int) (hlen : cur.length = n) (hjn : j + 1 < n)
    (hv : read cur ((j + 1 : Nat) : Int) = some v)
    (hgt : ∀ p x : Int, p ≤ j → read cur p = some x → v < x) :
    insertion_loop variant cur j = none := by
  obtain ⟨a, ha⟩ := read_total cur j (by omega) (by rw [hlen]; omega)
  have hva : v < a := hgt j a (Int.le_refl _) ha
  have hc : compare a v = true := by simp [compare]; exact hva
  induction variant generalizing cur j a with
  | zero =>
    unfold insertion_loop
    rw [if_pos (by omega), size_add_eq j 1 (by omega), ha, hv]
    simp only []
    rw [if_pos hc]
  | succ variant ih =>
    unfold insertion_loop
    rw [if_pos (by omega), size_add_eq j 1 (by omega), ha, hv]
    simp only []
    rw [if_pos hc]
    obtain ⟨cur1, hcur1⟩ := swap_total cur j ((j + 1 : Nat) : Int) a v ha hv
    obtain ⟨x1, y1, hx1, hy1, hlen1, _, hget⟩ := swap_spec cur cur1 _ _ hcur1
    rw [ha] at hx1; rw [hv] at hy1; cases hx1; cases hy1
    rw [hcur1]
    simp only []
    by_cases hj0 : j = 0
    · subst hj0
      have hw : size_sub 0 1 = 18446744073709551615 := by decide
      have hr : read cur1 ((18446744073709551615 : Nat) : Int) = none := by
        cases h : read cur1 ((18446744073709551615 : Nat) : Int) with
        | none => rfl
        | some x =>
          obtain ⟨_, hlt, _⟩ := read_some _ _ _ h
          omega
      rw [hw]
      cases variant with
      | zero => unfold insertion_loop; rw [if_pos (by omega), hr]
      | succ variant => unfold insertion_loop; rw [if_pos (by omega), hr]
    · rw [size_sub_eq j 1 (by omega)]
      have hj1 : ((j - 1 + 1 : Nat) : Int) = (j : Int) := by omega
      obtain ⟨a1, ha1⟩ := read_total cur1 ((j - 1 : Nat) : Int) (by omega)
        (by rw [hlen1, hlen]; omega)
      have ha1' := ha1
      rw [hget, if_neg (by omega), if_neg (by omega)] at ha1'
      refine ih cur1 (j - 1) (hlen1.trans hlen) (by omega) ?_ ?_ a1 ha1
        (hgt _ a1 (by omega) ha1') (by simp [compare]; exact hgt _ a1 (by omega) ha1')
      · rw [hj1, hget, if_neg (by omega), if_pos rfl]
      · intro p x hp hx
        rw [hget, if_neg (by omega), if_neg (by omega)] at hx
        exact hgt p x (by omega) hx

theorem insertion_outer_inv_start (a0 : List Int) (n i : Nat) (cur : List Int)
    (inv : InsertionOuterInv a0 n cur i) (x0 v : Int) (h0 : read a0 0 = some x0)
    (hv : read a0 ((i + 1 : Nat) : Int) = some v) (hle : x0 ≤ v) :
    InsertionInv a0 n i cur i := by
  refine ⟨inv.len, inv.perm, inv.first, fun k hk => inv.rest k (by omega), ?_, inv.sorted, ?_, ?_⟩
  · intro k x y hk hx hy
    by_cases h1 : k = (i : Int) + 1
    · have hk1 : k = ((i + 1 : Nat) : Int) := by omega
      rw [inv.first, h0] at hx
      rw [hk1, inv.rest _ (by omega), hv] at hy
      cases hx; cases hy; exact hle
    · obtain ⟨hk0, _, _⟩ := read_some _ _ _ hy
      by_cases h2 : k = 0
      · rw [h2, hx] at hy; cases hy; exact Int.le_refl _
      · exact inv.sorted 0 k x y (by omega) (by omega) hx hy
  · intro p q x y hp hpq hq hx hy
    omega
  · intro p q x y hp hq1 hq2 hx hy
    omega

theorem insertion_outer_ok (a0 : List Int) (n : Nat) (hn : n < 18446744073709551616)
    (hn1 : 1 ≤ n) (hmin : ∀ (k : Int) (x y : Int), read a0 0 = some x → read a0 k = some y → x ≤ y)
    (variant : Nat) (cur : List Int) (i : Nat) (hi : i + 1 ≤ n) (hv : n - 1 - i ≤ variant)
    (inv : InsertionOuterInv a0 n cur i) :
    ∃ res, insertion_outer n variant cur i = some res ∧ InsertionOuterInv a0 n res (n - 1) := by
  have hB : size_sub n 1 = n - 1 := size_sub_eq n 1 hn1
  have hlen0 : a0.length = n := by rw [← inv.perm.length_eq]; exact inv.len
  induction variant generalizing cur i with
  | zero =>
    have hi1 : i = n - 1 := by omega
    refine ⟨cur, ?_, hi1 ▸ inv⟩
    unfold insertion_outer
    rw [hB, if_neg (by omega)]
  | succ variant ih =>
    unfold insertion_outer
    rw [hB]
    by_cases hc : i < n - 1
    · rw [if_pos hc]
      obtain ⟨x0, h0⟩ := read_total a0 0 (by omega) (by rw [hlen0]; omega)
      obtain ⟨v, hv1⟩ := read_total a0 ((i + 1 : Nat) : Int) (by omega) (by rw [hlen0]; omega)
      obtain ⟨res, hres, hinv⟩ := insertion_loop_ok a0 n i hn (by omega) (i + 1) cur i
        (Nat.le_refl _) (by omega)
        (insertion_outer_inv_start a0 n i cur inv x0 v h0 hv1 (hmin _ x0 v h0 hv1))
      rw [hres]
      simp only []
      exact ih res (i + 1) (by omega) (by omega) hinv
    · rw [if_neg hc]
      have hi1 : i = n - 1 := by omega
      exact ⟨cur, rfl, hi1 ▸ inv⟩

theorem insertion_outer_wraps (a0 : List Int) (n : Nat) (hn : n < 18446744073709551616)
    (x0 : Int) (h0 : read a0 0 = some x0) (variant : Nat) (cur : List Int) (i : Nat)
    (inv : InsertionOuterInv a0 n cur i)
    (hbad : ∃ (k : Int) (y : Int), (i : Int) < k ∧ read a0 k = some y ∧ y < x0) :
    insertion_outer n variant cur i = none := by
  have hlen0 : a0.length = n := by rw [← inv.perm.length_eq]; exact inv.len
  obtain ⟨k, y, hik, hy, hyx⟩ := hbad
  obtain ⟨_, hkn, _⟩ := read_some _ _ _ hy
  have hB : size_sub n 1 = n - 1 := size_sub_eq n 1 (by omega)
  induction variant generalizing cur i with
  | zero =>
    unfold insertion_outer
    rw [hB, if_pos (by omega)]
  | succ variant ih =>
    unfold insertion_outer
    rw [hB, if_pos (by omega)]
    obtain ⟨v, hv1⟩ := read_total a0 ((i + 1 : Nat) : Int) (by omega) (by omega)
    by_cases hle : x0 ≤ v
    · obtain ⟨res, hres, hinv⟩ := insertion_loop_ok a0 n i hn (by omega) (i + 1) cur i
        (Nat.le_refl _) (by omega) (insertion_outer_inv_start a0 n i cur inv x0 v h0 hv1 hle)
      rw [hres]
      simp only []
      have hk1 : k ≠ ((i + 1 : Nat) : Int) := by
        intro h
        rw [h, hv1] at hy; cases hy; omega
      exact ih res (i + 1) hinv (by omega)
    · have hcv : read cur ((i + 1 : Nat) : Int) = some v := by
        rw [inv.rest _ (by omega)]; exact hv1
      have := insertion_loop_wraps n hn (i + 1) cur i v inv.len (by omega) hcv (by
        intro p x hp hx
        obtain ⟨hp0, _, _⟩ := read_some _ _ _ hx
        have hx0 : read cur 0 = some x0 := by rw [inv.first]; exact h0
        by_cases hp1 : p = 0
        · rw [hp1, hx0] at hx; cases hx; omega
        · have := inv.sorted 0 p x0 x (by omega) hp hx0 hx
          omega)
      rw [this]

theorem insertion_outer_inv_init (array : List Int) :
    InsertionOuterInv array array.length array 0 := by
  refine ⟨rfl, List.Perm.refl _, rfl, fun _ _ => rfl, ?_⟩
  intro p q x y hpq hq hx hy
  obtain ⟨hp0, _, _⟩ := read_some _ _ _ hx
  omega

/-- C32: the inner index of `insertion_sort` wraps.  For the array `{2, 1}` the first
comparison swaps at `j == 0`, `j--` gives `2^64 - 1`, and the next evaluation of the loop
test reads `array[2^64 - 1]`, outside the array.  For every array of `n >= 1` elements
the same happens as soon as some element is smaller than the first one; the function
stays within `[0, n)`, and then sorts, exactly when the first element is a least one. -/
theorem insertion_sort_index_wraps :
    (insertion_sort [2, 1] 2 = none ∧ swap [2, 1] (0 : Nat) (size_add 0 1) = some [1, 2] ∧
      size_sub 0 1 = 18446744073709551615 ∧
      read [1, 2] ((18446744073709551615 : Nat) : Int) = none ∧
      ∀ variant : Nat, insertion_loop variant [2, 1] 0 = none) ∧
    (∀ array : List Int, 1 ≤ array.length → array.length < 18446744073709551616 →
      (∃ (k : Nat) (x y : Int), array[0]? = some x ∧ array[k]? = some y ∧ y < x) →
      insertion_sort array array.length = none) ∧
    (∀ array : List Int, 1 ≤ array.length → array.length < 18446744073709551616 →
      (∀ (k : Nat) (x y : Int), array[0]? = some x → array[k]? = some y → x ≤ y) →
      ∃ res, insertion_sort array array.length = some res ∧ res.length = array.length ∧
        res.Perm array ∧
        ∀ (p q : Nat) (x y : Int), p < q → res[p]? = some x → res[q]? = some y → x ≤ y) ∧
    insertion_sort [1, 3, 2, 5, 4] 5 = some [1, 2, 3, 4, 5] := by
  refine ⟨⟨by decide, by decide, by decide, by decide, ?_⟩, ?_, ?_, by decide⟩
  · intro variant
    exact insertion_loop_wraps 2 (by omega) variant [2, 1] 0 1 rfl (by omega) (by decide) (by
      intro p x hp hx
      obtain ⟨hp0, _, _⟩ := read_some _ _ _ hx
      have : p = 0 := by omega
      subst this
      have h2 : read [2, 1] 0 = some 2 := by decide
      rw [h2] at hx; cases hx; omega)
  · intro array h1 hn ⟨k, x, y, hx, hy, hyx⟩
    have hk0 : k ≠ 0 := by
      intro h; subst h; rw [hx] at hy; cases hy; omega
    unfold insertion_sort
    refine insertion_outer_wraps array array.length hn x (by rw [← hx]; exact read_nat array 0) _
      array 0 (insertion_outer_inv_init array) ⟨(k : Int), y, by omega, ?_, hyx⟩
    rw [read_nat]; exact hy
  · intro array h1 hn hmin
    unfold insertion_sort
    obtain ⟨res, hres, hinv⟩ := insertion_outer_ok array array.length hn h1 (by
      intro k x y hx hy
      obtain ⟨hk0, _, hyk⟩ := read_some _ _ _ hy
      exact hmin k.toNat x y (by rw [← hx]; exact (read_nat array 0).symm) hyk)
      array.length array 0 (by omega) (by omega) (insertion_outer_inv_init array)
    refine ⟨res, hres, hinv.len, hinv.perm, ?_⟩
    intro p q x y hpq hx hy
    have hq := PQ.getElem?_some_lt _ _ _ hy
    rw [← read_nat] at hx hy
    exact hinv.sorted p q x y (by omega) (by rw [hinv.len] at hq; omega) hx hy

/-- C33: `bubble_sort` on the empty array.  With `size == 0` the bound `size - 1` of the
outer loop is `2^64 - 1`, as is the bound `size - i - 1` of the first pass, whose first
comparison reads `array[0]` and `array[1]` of an array with no element.  For every array
of `n >= 1` elements the function stays within `[0, n)` and leaves the array in
non-decreasing order and a permutation of its input; on an array already in order the
outer loop stops after one pass. -/
theorem bubble_sort_empty_array :
    (bubble_sort [] 0 = none ∧ size_sub 0 1 = 18446744073709551615 ∧
      size_sub (size_sub 0 0) 1 = 18446744073709551615 ∧
      read [] ((0 : Nat) : Int) = none ∧
      (∀ (variant : Nat) (swapped : Bool), bubble_inner 0 0 (variant + 1) [] 0 swapped = none) ∧
      ∀ variant : Nat, bubble_outer 0 variant [] 0 true = none) ∧
    (∀ array : List Int, 1 ≤ array.length →
      ∃ res, bubble_sort array array.length = some res ∧ res.length = array.length ∧
        res.Perm array ∧
        ∀ (p q : Nat) (x y : Int), p < q → res[p]? = some x → res[q]? = some y → x ≤ y) ∧
    bubble_sort main_array 10 = some [0, 1, 2, 3, 4, 5, 6, 7, 8, 9] ∧
    bubble_sort [1, 2, 3] 3 = some [1, 2, 3] ∧
    bubble_outer 3 1 [1, 2, 3] 0 true = some [1, 2, 3] := by
  refine ⟨⟨by decide, by decide, by decide, by decide, bubble_inner_empty, bubble_outer_empty⟩,
    ?_, by decide, by decide, by decide⟩
  intro array h1
  obtain ⟨res, hres, hlen, hperm, hsort⟩ := bubble_sort_spec array h1
  refine ⟨res, hres, hlen, hperm, ?_⟩
  intro p q x y hpq hx hy
  rw [← read_nat] at hx hy
  exact hsort p q x y (by omega) hx hy

/-! ## `merge` and `merge_sort` -/

section MergeProofs

variable {T : Type}

theorem load_nat (array : List T) (k : Nat) : load array (k : Int) = array[k]? := by
  unfold load
  rw [if_pos (by omega)]
  simp

theorem store_ok (array : List T) (i : Nat) (x : T) (h : i < array.length) :
    store array (i : Int) x = some (array.set i x) := by
  unfold store
  rw [if_pos ⟨by omega, by omega⟩]
  simp

theorem cell_map (L : List T) (k : Nat) : cell (L.map some) (k : Int) = L[k]? := by
  unfold cell
  rw [if_pos (by omega)]
  simp only [Int.toNat_ofNat, List.getElem?_map]
  cases L[k]? <;> rfl

theorem drop_cons (M : List T) (k : Nat) (x : T) (rest : List T) (h : M.drop k = x :: rest) :
    M[k]? = some x ∧ M.drop (k + 1) = rest := by
  refine ⟨?_, ?_⟩
  · rw [← List.head?_drop, h]; rfl
  · rw [← List.tail_drop, h]; rfl

theorem copy_loop_spec (array : List T) (s c : Nat) (hsc : s + c ≤ array.length)
    (variant i : Nat) (temp : List (Option T)) (hi : i ≤ c) (hv : c - i ≤ variant)
    (hlen : temp.length = c) (hpre : ∀ k : Nat, k < i → temp[k]? = (array[s + k]?).map some) :
    ∃ res, copy_loop array (some (s : Int)) (c : Int) variant i temp = some res ∧
      res.length = c ∧
      ∀ k : Nat, k < c → res[k]? = (array[s + k]?).map some := by
  induction variant generalizing i temp with
  | zero =>
    have hic : i = c := by omega
    subst hic
    refine ⟨temp, ?_, hlen, hpre⟩
    unfold copy_loop
    rw [if_neg (by omega)]
  | succ variant ih =>
    unfold copy_loop
    by_cases hic : i < c
    · rw [if_pos (by omega)]
      have hx : load array ((s : Int) + (i : Int)) = array[s + i]? := by
        have : (s : Int) + (i : Int) = ((s + i : Nat) : Int) := by omega
        rw [this, load_nat]
      have hsi : s + i < array.length := by omega
      rw [Option.some_bind, hx, List.getElem?_eq_getElem hsi]
      simp only []
      rw [if_pos (by omega)]
      refine ih (i + 1) _ (by omega) (by omega) (by simp [hlen]) ?_
      intro k hk
      rw [List.getElem?_set]
      by_cases hki : i = k
      · subst hki
        rw [if_pos rfl, if_pos (by omega), List.getElem?_eq_getElem hsi]; rfl
      · rw [if_neg hki]
        exact hpre k (by omega)
    · rw [if_neg (by omega)]
      have hic : i = c := by omega
      subst hic
      exact ⟨temp, rfl, hlen, hpre⟩

theorem copy_loop_eq (array : List T) (s c : Nat) (hsc : s + c ≤ array.length) :
    copy_loop array (some (s : Int)) (c : Int) c 0 (List.replicate c none)
      = some (((array.drop s).take c).map some) := by
  obtain ⟨res, hres, hlen, hget⟩ := copy_loop_spec array s c hsc c 0 (List.replicate c none)
    (by omega) (by omega) (by simp) (by intro k hk; omega)
  rw [hres]
  congr 1
  apply List.ext_getElem?
  intro k
  rw [List.getElem?_map, List.getElem?_take]
  by_cases hk : k < c
  · rw [if_pos hk, List.getElem?_drop]
    exact hget k hk
  · rw [if_neg hk, List.getElem?_eq_none (by omega)]; rfl

theorem merge_inv_store (a0 : List T) (left : Nat) (M cur : List T) (k : Nat) (x : T)
    (inv : MergeInv a0 left M cur k) (hx : M[k]? = some x)
    (hfit : left + M.length ≤ a0.length) :
    store cur ((left + k : Nat) : Int) x = some (cur.set (left + k) x) ∧
      MergeInv a0 left M (cur.set (left + k) x) (k + 1) := by
  have hk := PQ.getElem?_some_lt _ _ _ hx
  have hlt : left + k < cur.length := by rw [inv.len]; omega
  refine ⟨store_ok cur _ x hlt, ⟨by simp [inv.len], ?_, ?_⟩⟩
  · intro t ht
    rw [List.getElem?_set]
    by_cases htk : t = k
    · subst htk
      rw [if_pos rfl, if_pos hlt, hx]
    · rw [if_neg (by omega)]
      exact inv.done t (by omega)
  · intro t ht
    rw [List.getElem?_set, if_neg (by omega)]
    exact inv.out t ht

theorem merge_both_spec (le : T → T → Bool) (a0 : List T) (left : Nat) (L R : List T)
    (hfit : left + (L.merge R le).length ≤ a0.length)
    (hmax : left + (L.merge R le).length ≤ 2147483647)
    (variant : Nat) (cur : List T) (l r index : Int) (ln rn : Nat) (hl : l = ln) (hr : r = rn)
    (hidx : index = ((left + (ln + rn) : Nat) : Int))
    (hln : ln ≤ L.length) (hrn : rn ≤ R.length)
    (hv : (L.length - ln) + (R.length - rn) ≤ variant)
    (inv : MergeInv a0 left (L.merge R le) cur (ln + rn))
    (hM : (L.merge R le).drop (ln + rn) = (L.drop ln).merge (R.drop rn) le) :
    ∃ (res : List T) (ln1 rn1 : Nat),
      merge_both le (L.map some) (R.map some) L.length R.length variant cur l r index
        = some (res, (ln1 : Int), (rn1 : Int), ((left + (ln1 + rn1) : Nat) : Int)) ∧
      (ln1 = L.length ∨ rn1 = R.length) ∧ ln1 ≤ L.length ∧ rn1 ≤ R.length ∧
      MergeInv a0 left (L.merge R le) res (ln1 + rn1) ∧
      (L.merge R le).drop (ln1 + rn1) = (L.drop ln1).merge (R.drop rn1) le := by
  have hMlen : (L.merge R le).length = L.length + R.length := List.length_merge le L R
  induction variant generalizing cur l r index ln rn with
  | zero =>
    subst hl hr hidx
    refine ⟨cur, ln, rn, ?_, by omega, hln, hrn, inv, hM⟩
    rw [merge_both]
    rw [if_neg (by omega)]
  | succ variant ih =>
    subst hl hr hidx
    rw [merge_both]
    by_cases hc : ln < L.length ∧ rn < R.length
    · rw [if_pos (by omega), cell_map, cell_map, List.getElem?_eq_getElem hc.1,
        List.getElem?_eq_getElem hc.2]
      simp only []
      rw [List.drop_eq_getElem_cons hc.1, List.drop_eq_getElem_cons hc.2,
        List.cons_merge_cons] at hM
      by_cases hle : le L[ln] R[rn] = true
      · rw [if_pos hle] at hM ⊢
        obtain ⟨hx, hM1⟩ := drop_cons _ _ _ _ hM
        obtain ⟨hst, inv1⟩ := merge_inv_store a0 left _ cur (ln + rn) _ inv hx hfit
        rw [hst, int_val_ok _ (by omega) (by omega), int_val_ok _ (by omega) (by omega)]
        simp only []
        rw [← List.drop_eq_getElem_cons hc.2] at hM1
        exact ih _ _ _ _ (ln + 1) rn (by omega) rfl (by omega) (by omega) hrn (by omega)
          (by rw [show ln + 1 + rn = ln + rn + 1 by omega]; exact inv1)
          (by rw [show ln + 1 + rn = ln + rn + 1 by omega]; exact hM1)
      · rw [if_neg hle] at hM ⊢
        obtain ⟨hx, hM1⟩ := drop_cons _ _ _ _ hM
        obtain ⟨hst, inv1⟩ := merge_inv_store a0 left _ cur (ln + rn) _ inv hx hfit
        rw [hst, int_val_ok _ (by omega) (by omega), int_val_ok _ (by omega) (by omega)]
        simp only []
        rw [← List.drop_eq_getElem_cons hc.1] at hM1
        exact ih _ _ _ _ ln (rn + 1) rfl (by omega) (by omega) hln (by omega) (by omega)
          (by rw [show ln + (rn + 1) = ln + rn + 1 by omega]; exact inv1)
          (by rw [show ln + (rn + 1) = ln + rn + 1 by omega]; exact hM1)
    · rw [if_neg (by omega)]
      exact ⟨cur, ln, rn, rfl, by omega, hln, hrn, inv, hM⟩

theorem merge_rest_spec (a0 : List T) (left : Nat) (M X : List T)
    (hfit : left + M.length ≤ a0.length) (hmax : left + M.length ≤ 2147483647)
    (hX : X.length ≤ 2147483647)
    (variant : Nat) (cur : List T) (l index : Int) (ln k : Nat) (hl : l = ln)
    (hidx : index = ((left + k : Nat) : Int)) (hln : ln ≤ X.length)
    (hv : X.length - ln ≤ variant) (inv : MergeInv a0 left M cur k)
    (hM : ∃ Y, M.drop k = X.drop ln ++ Y) :
    ∃ res, merge_rest (X.map some) X.length variant cur l index
        = some (res, ((left + (k + (X.length - ln)) : Nat) : Int)) ∧
      MergeInv a0 left M res (k + (X.length - ln)) := by
  induction variant generalizing cur l index ln k with
  | zero =>
    subst hl hidx
    have : X.length - ln = 0 := by omega
    rw [this]
    refine ⟨cur, ?_, inv⟩
    rw [merge_rest]
    rw [if_neg (by omega)]
    rfl
  | succ variant ih =>
    subst hl hidx
    rw [merge_rest]
    by_cases hc : ln < X.length
    · rw [if_pos (by omega), cell_map, List.getElem?_eq_getElem hc]
      simp only []
      obtain ⟨Y, hY⟩ := hM
      rw [List.drop_eq_getElem_cons hc, List.cons_append] at hY
      obtain ⟨hx, hM1⟩ := drop_cons _ _ _ _ hY
      have hk := PQ.getElem?_some_lt _ _ _ hx
      obtain ⟨hst, inv1⟩ := merge_inv_store a0 left M cur k _ inv hx hfit
      rw [hst, int_val_ok _ (by omega) (by omega), int_val_ok _ (by omega) (by omega)]
      simp only []
      obtain ⟨res, hres, hinv⟩ := ih (cur.set (left + k) X[ln]) ((ln : Int) + 1)
        (((left + k : Nat) : Int) + 1) (ln + 1) (k + 1) (by omega) (by omega) (by omega)
        (by omega) inv1 ⟨Y, hM1⟩
      have he : k + 1 + (X.length - (ln + 1)) = k + (X.length - ln) := by omega
      rw [he] at hres hinv
      exact ⟨res, hres, hinv⟩
    · rw [if_neg (by omega)]
      have : X.length - ln = 0 := by omega
      rw [this]
      exact ⟨cur, rfl, inv⟩

theorem merge_inv_final (a0 : List T) (left : Nat) (M res pre S post : List T)
    (inv : MergeInv a0 left M res M.length) (ha0 : a0 = pre ++ S ++ post)
    (hpre : pre.length = left) (hS : S.length = M.length) : res = pre ++ M ++ post := by
  apply List.ext_getElem?
  intro t
  by_cases h1 : t < left
  · rw [inv.out t (Or.inl h1), ha0, List.append_assoc, List.append_assoc,
      List.getElem?_append_left (by omega), List.getElem?_append_left (by omega)]
  · by_cases h2 : t < left + M.length
    · have := inv.done (t - left) (by omega)
      rw [show left + (t - left) = t by omega] at this
      rw [this, List.append_assoc, List.getElem?_append_right (by omega),
        List.getElem?_append_left (by omega), hpre]
    · rw [inv.out t (Or.inr (by omega)), ha0, List.getElem?_append_right (by simp; omega),
        List.getElem?_append_right (by simp; omega)]
      simp only [List.length_append]
      rw [hS]

theorem merge_spec (le : T → T → Bool) (pre L R post : List T) (left mid right : Nat)
    (hpre : pre.length = left) (hL : L.length = mid - left + 1) (hlm : left ≤ mid)
    (hR : R.length = right - mid) (hmr : mid ≤ right) (hmax : right < 2147483647) :
    merge le (pre ++ L ++ R ++ post) (left : Int) (mid : Int) (right : Int)
      = some (pre ++ L.merge R le ++ post) := by
  have hMlen : (L.merge R le).length = L.length + R.length := List.length_merge le L R
  have h1 : (int_val ((mid : Int) - (left : Int))).bind (fun d => int_val (d + 1))
      = some ((L.length : Nat) : Int) := by
    rw [int_val_ok _ (by omega) (by omega), Option.some_bind,
      int_val_ok _ (by omega) (by omega)]
    have : (mid : Int) - (left : Int) + 1 = ((L.length : Nat) : Int) := by omega
    rw [this]
  have h2 : int_val ((right : Int) - (mid : Int)) = some ((R.length : Nat) : Int) := by
    rw [int_val_ok _ (by omega) (by omega)]
    have : (right : Int) - (mid : Int) = ((R.length : Nat) : Int) := by omega
    rw [this]
  have h3 : ∀ n : Nat, new_array ((n : Nat) : Int) = some (List.replicate n (none : Option T)) := by
    intro n
    unfold new_array
    rw [if_pos (by omega)]
    simp
  have hcl : copy_loop (pre ++ L ++ R ++ post) (some (left : Int)) ((L.length : Nat) : Int)
      ((L.length : Nat) : Int).toNat 0 (List.replicate L.length none) = some (L.map some) := by
    rw [Int.toNat_ofNat, copy_loop_eq _ left L.length (by simp; omega)]
    congr 2
    rw [List.append_assoc, List.append_assoc, ← hpre, List.drop_left, List.take_left]
  have hcr : copy_loop (pre ++ L ++ R ++ post) (int_val ((mid : Int) + 1))
      ((R.length : Nat) : Int) ((R.length : Nat) : Int).toNat 0 (List.replicate R.length none)
      = some (R.map some) := by
    rw [int_val_ok _ (by omega) (by omega)]
    have : (mid : Int) + 1 = ((mid + 1 : Nat) : Int) := by omega
    rw [this, Int.toNat_ofNat, copy_loop_eq _ (mid + 1) R.length (by simp; omega)]
    congr 2
    have hm : mid + 1 = (pre ++ L).length := by simp; omega
    rw [List.append_assoc (pre ++ L), hm, List.drop_left, List.take_left]
  have hfit : left + (L.merge R le).length ≤ (pre ++ L ++ R ++ post).length := by
    simp; omega
  obtain ⟨res1, ln1, rn1, hb, hor, hln1, hrn1, inv1, hM1⟩ :=
    merge_both_spec le (pre ++ L ++ R ++ post) left L R hfit (by omega)
      (((L.length : Nat) : Int) + ((R.length : Nat) : Int)).toNat (pre ++ L ++ R ++ post)
      0 0 (left : Int) 0 0 rfl rfl rfl (by omega) (by omega) (by omega)
      ⟨rfl, fun t ht => by omega, fun _ _ => rfl⟩ (by simp)
  obtain ⟨res2, hr2, inv2⟩ := merge_rest_spec (pre ++ L ++ R ++ post) left (L.merge R le) L hfit
    (by omega) (by omega) ((L.length : Nat) : Int).toNat res1 (ln1 : Int)
    ((left + (ln1 + rn1) : Nat) : Int) ln1 (ln1 + rn1) rfl rfl hln1 (by omega) inv1 (by
      rcases hor with h | h
      · exact ⟨(L.merge R le).drop (ln1 + rn1), by rw [h, List.drop_length]; rfl⟩
      · refine ⟨[], ?_⟩
        rw [hM1, h, List.drop_length, List.merge_right, List.append_nil])
  obtain ⟨res3, hr3, inv3⟩ := merge_rest_spec (pre ++ L ++ R ++ post) left (L.merge R le) R hfit
    (by omega) (by omega) ((R.length : Nat) : Int).toNat res2 (rn1 : Int)
    ((left + (ln1 + rn1 + (L.length - ln1)) : Nat) : Int) rn1 (ln1 + rn1 + (L.length - ln1))
    rfl rfl hrn1 (by omega) inv2 (by
      refine ⟨[], ?_⟩
      rw [List.append_nil]
      rcases hor with h | h
      · rw [h, Nat.sub_self, Nat.add_zero, ← h, hM1, h, List.drop_length, List.nil_merge]
      · rw [h, List.drop_length, List.drop_eq_nil_of_le (by omega)])
  have hk3 : ln1 + rn1 + (L.length - ln1) + (R.length - rn1) = (L.merge R le).length := by omega
  rw [hk3] at inv3
  have hfin := merge_inv_final (pre ++ L ++ R ++ post) left (L.merge R le) res3 pre (L ++ R) post
    inv3 (by simp) hpre (by simp)
  rw [merge, h1, h2]
  simp only []
  rw [h3, h3]
  simp only []
  rw [hcl, hcr]
  simp only []
  rw [hb]
  simp only []
  rw [hr2]
  simp only []
  rw [hr3, hfin]
  rfl

theorem merge_filter (le : T → T → Bool) (hle : TotalPreorder le) (a : T) (L R : List T)
    (hL : L.Pairwise (fun x y => le x y = true)) :
    (L.merge R le).filter (fun x => le x a && le a x)
      = L.filter (fun x => le x a && le a x) ++ R.filter (fun x => le x a && le a x) := by
  have fpos : ∀ (z : T) (l : List T), (le z a && le a z) = true →
      (z :: l).filter (fun x => le x a && le a x)
        = z :: l.filter (fun x => le x a && le a x) := by
    intro z l h; simp [List.filter_cons, h]
  have fneg : ∀ (z : T) (l : List T), ¬ (le z a && le a z) = true →
      (z :: l).filter (fun x => le x a && le a x)
        = l.filter (fun x => le x a && le a x) := by
    intro z l h; simp [List.filter_cons, h]
  induction L generalizing R with
  | nil => simp [List.nil_merge]
  | cons x L1 ihL =>
    induction R with
    | nil => simp [List.merge_right]
    | cons y R1 ihR =>
      rw [List.cons_merge_cons]
      by_cases hxy : le x y = true
      · rw [if_pos hxy]
        by_cases hx : (le x a && le a x) = true
        · rw [fpos x _ hx, fpos x L1 hx, ihL (y :: R1) (List.Pairwise.of_cons hL)]
          rfl
        · rw [fneg x _ hx, fneg x L1 hx, ihL (y :: R1) (List.Pairwise.of_cons hL)]
      · rw [if_neg hxy]
        by_cases hy : (le y a && le a y) = true
        · have hnone : (x :: L1).filter (fun z => le z a && le a z) = [] := by
            rw [List.filter_eq_nil_iff]
            intro z hz hpz
            simp only [Bool.and_eq_true] at hpz hy
            have hzy : le z y = true := hle.trans z a y hpz.1 hy.2
            have hxz : le x z = true := by
              rcases List.mem_cons.mp hz with h | h
              · rw [h]
                have := hle.total x x
                simpa using this
              · exact (List.pairwise_cons.mp hL).1 z h
            exact hxy (hle.trans x z y hxz hzy)
          rw [fpos y _ hy, fpos y R1 hy, ihR, hnone]
          rfl
        · rw [fneg y _ hy, fneg y R1 hy, ihR]

theorem merge_sort_spec (le : T → T → Bool) (hle : TotalPreorder le) (fuel : Nat)
    (pre S post : List T) (left right : Nat) (hpre : pre.length = left)
    (hS : S.length = right - left + 1) (hlr : left ≤ right) (hmax : right ≤ 1073741824)
    (hf : right - left ≤ fuel) :
    ∃ S1, merge_sort le fuel (pre ++ S ++ post) (left : Int) (right : Int)
        = some (pre ++ S1 ++ post) ∧
      S1.Perm S ∧ S1.Pairwise (fun x y => le x y = true) ∧
      ∀ a : T, S1.filter (fun x => le x a && le a x) = S.filter (fun x => le x a && le a x) := by
  have hbase : ∀ S : List T, S.length = 1 → S.Pairwise (fun x y => le x y = true) := by
    intro S h
    obtain ⟨x, rfl⟩ := List.length_eq_one.mp h
    exact List.pairwise_singleton _ _
  induction fuel generalizing pre S post left right with
  | zero =>
    have hlr1 : left = right := by omega
    refine ⟨S, ?_, List.Perm.refl _, hbase S (by omega), fun _ => rfl⟩
    rw [merge_sort, if_pos (by omega)]
  | succ fuel ih =>
    by_cases hge : left ≥ right
    · refine ⟨S, ?_, List.Perm.refl _, hbase S (by omega), fun _ => rfl⟩
      rw [merge_sort, if_pos (by omega)]
    · have hsum : Int.tdiv ((left : Int) + (right : Int)) 2
          = (((left + right) / 2 : Nat) : Int) := by
        rw [Int.tdiv_eq_ediv (by omega) (by omega)]
        omega
      have hmid1 : (((left + right) / 2 : Nat) : Int) + 1
          = (((left + right) / 2 + 1 : Nat) : Int) := by
        omega
      obtain ⟨S1, h1, hp1, hs1, hf1⟩ := ih pre (S.take ((left + right) / 2 - left + 1))
        (S.drop ((left + right) / 2 - left + 1) ++ post) left ((left + right) / 2) hpre
        (by rw [List.length_take]; omega) (by omega) (by omega) (by omega)
      obtain ⟨S2, h2, hp2, hs2, hf2⟩ := ih (pre ++ S1) (S.drop ((left + right) / 2 - left + 1))
        post ((left + right) / 2 + 1) right
        (by rw [List.length_append, hp1.length_eq, List.length_take]; omega)
        (by rw [List.length_drop]; omega) (by omega) hmax (by omega)
      have h3 := merge_spec le pre S1 S2 post left ((left + right) / 2) right hpre
        (by rw [hp1.length_eq, List.length_take]; omega) (by omega)
        (by rw [hp2.length_eq, List.length_drop]; omega) (by omega) (by omega)
      have hsplit : pre ++ S ++ post = pre ++ S.take ((left + right) / 2 - left + 1)
          ++ (S.drop ((left + right) / 2 - left + 1) ++ post) := by
        conv_lhs => rw [← List.take_append_drop ((left + right) / 2 - left + 1) S]
        simp only [List.append_assoc]
      have hre : pre ++ S1 ++ (S.drop ((left + right) / 2 - left + 1) ++ post)
          = pre ++ S1 ++ S.drop ((left + right) / 2 - left + 1) ++ post := by
        rw [List.append_assoc (pre ++ S1)]
      have hre2 : pre ++ S1 ++ S2 ++ post = pre ++ S1 ++ S2 ++ post := rfl
      refine ⟨S1.merge S2 le, ?_, ?_, ?_, ?_⟩
      · rw [merge_sort, if_neg (by omega), int_val_ok _ (by omega) (by omega)]
        simp only []
        rw [hsum, hsplit, h1]
        simp only []
        rw [hmid1, hre, h2]
        simp only []
        exact h3
      · refine (List.merge_perm_append le).trans ?_
        refine (List.Perm.append hp1 hp2).trans ?_
        rw [List.take_append_drop]
      · exact List.sorted_merge hle.trans hle.total S1 S2 hs1 hs2
      · intro a
        rw [merge_filter le hle a S1 S2 hs1, hf1, hf2, ← List.filter_append,
          List.take_append_drop]

theorem merge_sort_mono (le : T → T → Bool) (fuel : Nat) (array : List T) (left right : Int)
    (res : List T) (h : merge_sort le fuel array left right = some res) :
    merge_sort le (fuel + 1) array left right = some res := by
  induction fuel generalizing array left right res with
  | zero =>
    rw [merge_sort] at h
    rw [merge_sort]
    split at h
    · rename_i hlr; rw [if_pos hlr]; exact h
    · cases h
  | succ fuel ih =>
    rw [merge_sort] at h
    rw [merge_sort]
    by_cases hlr : left ≥ right
    · rw [if_pos hlr] at h ⊢; exact h
    · rw [if_neg hlr] at h ⊢
      cases hs : int_val (left + right) with
      | none => rw [hs] at h; simp at h
      | some sum =>
        rw [hs] at h
        simp only [] at h ⊢
        cases h1 : merge_sort le fuel array left (Int.tdiv sum 2) with
        | none => rw [h1] at h; simp at h
        | some a1 =>
          rw [h1] at h
          rw [ih _ _ _ _ h1]
          simp only [] at h ⊢
          cases h2 : merge_sort le fuel a1 (Int.tdiv sum 2 + 1) right with
          | none => rw [h2] at h; simp at h
          | some a2 =>
            rw [h2] at h
            rw [ih _ _ _ _ h2]
            simp only [] at h ⊢
            exact h

theorem merge_sort_mono_le (le : T → T → Bool) (fuel fuel1 : Nat) (array : List T)
    (left right : Int) (res : List T) (h : merge_sort le fuel array left right = some res)
    (hle : fuel ≤ fuel1) : merge_sort le fuel1 array left right = some res := by
  induction fuel1 with
  | zero =>
    have : fuel = 0 := by omega
    subst this; exact h
  | succ fuel1 ih =>
    by_cases h1 : fuel = fuel1 + 1
    · subst h1; exact h
    · exact merge_sort_mono le _ _ _ _ _ (ih (by omega))

theorem merge_sort_overflow (le : T → T → Bool) (array : List T) (fuel : Nat) :
    merge_sort le fuel array 1073741824 1073741825 = none := by
  cases fuel with
  | zero => rw [merge_sort, if_neg (by omega)]
  | succ fuel =>
    have h : int_val (1073741824 + 1073741825) = none := by decide
    rw [merge_sort, if_neg (by omega), h]

end MergeProofs

theorem key_le_preorder : TotalPreorder key_le := by
  refine ⟨?_, ?_⟩
  · intro x y z; simp only [key_le, decide_eq_true_eq]; omega
  · intro x y; simp only [key_le, Bool.or_eq_true, decide_eq_true_eq]; omega

theorem segment_split {T : Type} (array : List T) (ln rn : Nat) (hlr : ln ≤ rn) :
    array = array.take ln ++ (array.drop ln).take (rn - ln + 1) ++ array.drop (rn + 1) := by
  have h1 : array.drop (rn + 1) = (array.drop ln).drop (rn - ln + 1) := by
    rw [List.drop_drop]; congr 1; omega
  rw [h1, List.append_assoc, List.take_append_drop, List.take_append_drop]

/-- C34 (as stated, for every array): with `left = 2^30` and `right = 2^30 + 1`, indices
within an array of `2^30 + 2` elements, the sum `left + right` in
`size_t mid = (left + right) / 2` exceeds `INT_MAX`: the `int` addition overflows, which is
undefined behaviour, whatever the recursion bound. -/
theorem merge_sort_midpoint_counterexample :
    long_array.length = 1073741826 ∧ (0 : Int) ≤ 1073741824 ∧
    (1073741824 : Int) ≤ 1073741825 ∧ (1073741825 : Int) < long_array.length ∧
    (1073741824 : Int) + 1073741825 = 2147483649 ∧
    int_val (1073741824 + 1073741825) = none ∧
    ∀ fuel : Nat, merge_sort int_le fuel long_array 1073741824 1073741825 = none := by
  have hlen : long_array.length = 1073741826 := by
    unfold long_array
    rw [List.length_replicate]
  refine ⟨hlen, by decide, by decide, by rw [hlen]; decide, by decide, by decide, ?_⟩
  intro fuel
  exact merge_sort_overflow int_le long_array fuel

/-- C34 (amended with `right <= 2^30`): for a total preorder `le`, `0 <= left <= right`
within the array and `right` at most `2^30`, `merge_sort(array, left, right)` returns
(every recursion bound from `right - left` on gives the same array); the result is the
array with the elements at `left..right` replaced by a sequence `S1` that is in
non-decreasing order, a permutation of the previous elements, and has, for every element
`a`, the elements equivalent to `a` in their previous order; the positions outside
`left..right` are unchanged. -/
theorem merge_sort_sorts {T : Type} (le : T → T → Bool) (hle : TotalPreorder le)
    (array : List T) (left right : Int) (h0 : 0 ≤ left) (hlr : left ≤ right)
    (hr : right < array.length) (hmax : right ≤ 1073741824) :
    ∃ res S1 : List T,
      (∀ fuel : Nat, (right - left).toNat ≤ fuel →
        merge_sort le fuel array left right = some res) ∧
      res = array.take left.toNat ++ S1 ++ array.drop (right.toNat + 1) ∧
      res.length = array.length ∧
      (res.drop left.toNat).take (right - left + 1).toNat = S1 ∧
      S1.Perm ((array.drop left.toNat).take (right - left + 1).toNat) ∧
      S1.Pairwise (fun x y => le x y = true) ∧
      (∀ a : T, S1.filter (fun x => le x a && le a x)
        = ((array.drop left.toNat).take (right - left + 1).toNat).filter
            (fun x => le x a && le a x)) ∧
      ∀ k : Nat, (k : Int) < left ∨ right < k → res[k]? = array[k]? := by
  obtain ⟨ln, rfl⟩ := Int.eq_ofNat_of_zero_le h0
  obtain ⟨rn, rfl⟩ := Int.eq_ofNat_of_zero_le (Int.le_trans h0 hlr)
  have hn : ((rn : Int) - (ln : Int) + 1).toNat = rn - ln + 1 := by omega
  have hd : ((rn : Int) - (ln : Int)).toNat = rn - ln := by omega
  simp only [Int.toNat_ofNat, hn, hd]
  have harr := segment_split array ln rn (by omega)
  have hprelen : (array.take ln).length = ln := by rw [List.length_take]; omega
  have hSlen : ((array.drop ln).take (rn - ln + 1)).length = rn - ln + 1 := by
    rw [List.length_take, List.length_drop]; omega
  obtain ⟨S1, hms, hperm, hsorted, hstable⟩ := merge_sort_spec le hle (rn - ln)
    (array.take ln) ((array.drop ln).take (rn - ln + 1)) (array.drop (rn + 1)) ln rn hprelen
    hSlen (by omega) (by omega) (Nat.le_refl _)
  rw [← harr] at hms
  have hS1len : S1.length = rn - ln + 1 := by rw [hperm.length_eq, hSlen]
  have hreslen : (array.take ln ++ S1 ++ array.drop (rn + 1)).length = array.length := by
    conv_rhs => rw [harr]
    simp only [List.length_append, hS1len, hSlen]
  refine ⟨array.take ln ++ S1 ++ array.drop (rn + 1), S1,
    fun fuel hfuel => merge_sort_mono_le le _ fuel _ _ _ _ hms hfuel, rfl, hreslen, ?_, hperm,
    hsorted, hstable, ?_⟩
  · rw [List.append_assoc, List.drop_left' hprelen, List.take_left' hS1len]
  · intro k hk
    conv_rhs => rw [harr]
    by_cases h1 : k < ln
    · rw [List.append_assoc, List.append_assoc, List.getElem?_append_left (by omega),
        List.getElem?_append_left (by omega)]
    · have hk2 : rn < k := by omega
      rw [List.getElem?_append_right (by simp only [List.length_append, hS1len, hprelen]; omega),
        List.getElem?_append_right (by simp only [List.length_append, hSlen, hprelen]; omega)]
      simp only [List.length_append, hS1len, hSlen]

theorem merge_sort_sorts_witness :
    TotalPreorder key_le ∧ (0 : Int) ≤ 0 ∧ (0 : Int) ≤ 5 ∧ (5 : Int) < tagged_array.length ∧
    (5 : Int) ≤ 1073741824 ∧
    merge_sort key_le 5 tagged_array 0 5
      = some [(0, 4), (1, 1), (1, 3), (2, 0), (2, 2), (2, 5)] ∧
    merge_sort int_le 9 main_array 0 9 = some [0, 1, 2, 3, 4, 5, 6, 7, 8, 9] ∧
    ∃ res S1 : List (Int × Nat),
      (∀ fuel : Nat, ((5 : Int) - 0).toNat ≤ fuel →
        merge_sort key_le fuel tagged_array 0 5 = some res) ∧
      res = tagged_array.take (0 : Int).toNat ++ S1 ++ tagged_array.drop ((5 : Int).toNat + 1) ∧
      res.length = tagged_array.length ∧
      (res.drop (0 : Int).toNat).take ((5 : Int) - 0 + 1).toNat = S1 ∧
      S1.Perm ((tagged_array.drop (0 : Int).toNat).take ((5 : Int) - 0 + 1).toNat) ∧
      S1.Pairwise (fun x y => key_le x y = true) ∧
      (∀ a : Int × Nat, S1.filter (fun x => key_le x a && key_le a x)
        = ((tagged_array.drop (0 : Int).toNat).take ((5 : Int) - 0 + 1).toNat).filter
            (fun x => key_le x a && key_le a x)) ∧
      ∀ k : Nat, (k : Int) < 0 ∨ (5 : Int) < k → res[k]? = tagged_array[k]? :=
  ⟨key_le_preorder, by decide, by decide, by decide, by decide, by decide, by decide,
    merge_sort_sorts key_le key_le_preorder tagged_array 0 5 (by decide) (by decide) (by decide)
      (by decide)⟩

end Sorting

/-! ## BinarySearchTree -/

namespace BST

open BinarySearchTree

variable {K V : Type}

theorem is_null_iff (t : Node K V) : t.is_null = true ↔ t = Node.null := by
  cases t <;> simp [Node.is_null]

theorem is_null_false (t : Node K V) (h : t.is_null = false) :
    ∃ element left right, t = Node.mk element left right := by
  cases t with
  | null => simp [Node.is_null] at h
  | mk element left right => exact ⟨element, left, right, rfl⟩

theorem strict_total_ne {comp : K → K → Bool} (hc : StrictTotal comp) (a b : K)
    (h : comp a b = true) : a ≠ b := by
  intro hab; subst hab; rw [hc.irrefl a] at h; cases h

theorem find_iff {comp : K → K → Bool} (hc : StrictTotal comp) (t : Node K V)
    (ho : Node.Ordered comp t) (j : K) (e : K × V) :
    t.find comp j = some e ↔ e ∈ t.elements ∧ e.1 = j := by
  induction t with
  | null => simp [Node.find, Node.elements]
  | mk element left right ihl ihr =>
    obtain ⟨hol, hor, hl, hr⟩ := ho
    unfold Node.find
    simp only [Node.elements, List.mem_append, List.mem_cons]
    by_cases h1 : comp j element.1 = true
    · rw [if_pos h1, ihl hol]
      constructor
      · rintro ⟨h2, h3⟩; exact ⟨Or.inl h2, h3⟩
      · rintro ⟨h2 | h2 | h2, h3⟩
        · exact ⟨h2, h3⟩
        · subst h2; rw [h3, hc.irrefl] at h1; cases h1
        · have := hc.trans _ _ _ h1 (hr e h2)
          rw [h3, hc.irrefl] at this; cases this
    · rw [if_neg h1]
      by_cases h2 : comp element.1 j = true
      · rw [if_pos h2, ihr hor]
        constructor
        · rintro ⟨h3, h4⟩; exact ⟨Or.inr (Or.inr h3), h4⟩
        · rintro ⟨h3 | h3 | h3, h4⟩
          · have := hc.trans _ _ _ (hl e h3) h2
            rw [h4, hc.irrefl] at this; cases this
          · subst h3; rw [h4, hc.irrefl] at h2; cases h2
          · exact ⟨h3, h4⟩
      · rw [if_neg h2]
        have hj : j = element.1 := hc.total _ _ (by simpa using h1) (by simpa using h2)
        constructor
        · intro h3; cases h3; exact ⟨Or.inr (Or.inl rfl), hj.symm⟩
        · rintro ⟨h3 | h3 | h3, h4⟩
          · have := hl e h3
            rw [h4, hj, hc.irrefl] at this; cases this
          · rw [h3]
          · have := hr e h3
            rw [h4, hj, hc.irrefl] at this; cases this

theorem contains_eq_find (comp : K → K → Bool) (t : Node K V) (j : K) :
    t.contains comp j = (t.find comp j).isSome := by
  induction t with
  | null => rfl
  | mk element left right ihl ihr =>
    unfold Node.contains Node.find
    by_cases h1 : comp j element.1 = true
    · rw [if_pos h1, if_pos h1, ihl]
    · rw [if_neg h1, if_neg h1]
      by_cases h2 : comp element.1 j = true
      · rw [if_pos h2, if_pos h2, ihr]
      · rw [if_neg h2, if_neg h2]; rfl

theorem contains_iff {comp : K → K → Bool} (hc : StrictTotal comp) (t : Node K V)
    (ho : Node.Ordered comp t) (j : K) :
    t.contains comp j = true ↔ ∃ e ∈ t.elements, e.1 = j := by
  rw [contains_eq_find, Option.isSome_iff_exists]
  constructor
  · rintro ⟨e, he⟩; exact ⟨e, (find_iff hc t ho j e).mp he⟩
  · rintro ⟨e, he⟩; exact ⟨e, (find_iff hc t ho j e).mpr he⟩

theorem elements_key_unique {comp : K → K → Bool} (hc : StrictTotal comp) (t : Node K V)
    (ho : Node.Ordered comp t) (e1 e2 : K × V) (h1 : e1 ∈ t.elements) (h2 : e2 ∈ t.elements)
    (h : e1.1 = e2.1) : e1 = e2 := by
  have a := (find_iff hc t ho e2.1 e1).mpr ⟨h1, h⟩
  have b := (find_iff hc t ho e2.1 e2).mpr ⟨h2, rfl⟩
  rw [a] at b; cases b; rfl

theorem min_spec {comp : K → K → Bool} (hc : StrictTotal comp) (t : Node K V)
    (ho : Node.Ordered comp t) (hn : t.is_null = false) :
    ∃ s, t.min = some s ∧ s ∈ t.elements ∧ ∀ e ∈ t.elements, e = s ∨ comp s.1 e.1 = true := by
  induction t with
  | null => simp [Node.is_null] at hn
  | mk element left right ihl _ =>
    obtain ⟨hol, _, hl, hr⟩ := ho
    unfold Node.min
    simp only [Node.elements, List.mem_append, List.mem_cons]
    by_cases h1 : left.is_null = true
    · rw [if_pos h1]
      have hnull := (is_null_iff left).mp h1
      subst hnull
      refine ⟨element, rfl, Or.inr (Or.inl rfl), ?_⟩
      rintro e (h2 | h2 | h2)
      · simp [Node.elements] at h2
      · exact Or.inl h2
      · exact Or.inr (hr e h2)
    · rw [if_neg h1]
      obtain ⟨s, hs, hsm, hmin⟩ := ihl hol (by simpa using h1)
      refine ⟨s, hs, Or.inl hsm, ?_⟩
      rintro e (h2 | h2 | h2)
      · exact hmin e h2
      · subst h2; exact Or.inr (hl s hsm)
      · exact Or.inr (hc.trans _ _ _ (hl s hsm) (hr e h2))

theorem erase_spec {comp : K → K → Bool} (hc : StrictTotal comp) (t : Node K V)
    (ho : Node.Ordered comp t) (key : K) (size : Nat) :
    ∃ t1 s1, t.erase comp key size = some (t1, s1) ∧ Node.Ordered comp t1 ∧
      (∀ e, e ∈ t1.elements ↔ e ∈ t.elements ∧ e.1 ≠ key) ∧
      ((∃ e ∈ t.elements, e.1 = key) → s1 = decrement size ∧ t1.count + 1 = t.count) ∧
      ((¬ ∃ e ∈ t.elements, e.1 = key) → s1 = size ∧ t1.count = t.count) := by
  induction t generalizing key with
  | null =>
    refine ⟨Node.null, size, rfl, trivial, ?_, ?_, ?_⟩
    · intro e; simp [Node.elements]
    · rintro ⟨e, he, _⟩; simp [Node.elements] at he
    · intro _; exact ⟨rfl, rfl⟩
  | mk element left right ihl ihr =>
    obtain ⟨hol, hor, hl, hr⟩ := ho
    unfold Node.erase
    by_cases h1 : comp key element.1 = true
    · rw [if_pos h1]
      obtain ⟨l1, s1, he, ho1, hel, hp, ha⟩ := ihl hol key
      rw [he]
      have hkr : ∀ e ∈ right.elements, e.1 ≠ key := fun e h2 h3 => by
        have := hc.trans _ _ _ h1 (hr e h2)
        rw [h3, hc.irrefl] at this; cases this
      have hke : element.1 ≠ key := fun h3 => by rw [h3, hc.irrefl] at h1; cases h1
      have hiff : (∃ e ∈ (Node.mk element left right).elements, e.1 = key) ↔
          ∃ e ∈ left.elements, e.1 = key := by
        simp only [Node.elements, List.mem_append, List.mem_cons]
        constructor
        · rintro ⟨e, h2 | h2 | h2, h3⟩
          · exact ⟨e, h2, h3⟩
          · subst h2; exact absurd h3 hke
          · exact absurd h3 (hkr e h2)
        · rintro ⟨e, h2, h3⟩; exact ⟨e, Or.inl h2, h3⟩
      refine ⟨Node.mk element l1 right, s1, rfl, ⟨ho1, hor, fun e h2 => hl e ((hel e).mp h2).1, hr⟩,
        ?_, ?_, ?_⟩
      · intro e
        simp only [Node.elements, List.mem_append, List.mem_cons, hel]
        constructor
        · rintro (⟨h2, h3⟩ | h2 | h2)
          · exact ⟨Or.inl h2, h3⟩
          · subst h2; exact ⟨Or.inr (Or.inl rfl), hke⟩
          · exact ⟨Or.inr (Or.inr h2), hkr e h2⟩
        · rintro ⟨h2 | h2 | h2, h3⟩
          · exact Or.inl ⟨h2, h3⟩
          · exact Or.inr (Or.inl h2)
          · exact Or.inr (Or.inr h2)
      · intro h2
        obtain ⟨h3, h4⟩ := hp (hiff.mp h2)
        exact ⟨h3, by simp only [Node.count]; omega⟩
      · intro h2
        obtain ⟨h3, h4⟩ := ha (fun h => h2 (hiff.mpr h))
        exact ⟨h3, by simp only [Node.count]; omega⟩
    · rw [if_neg h1]
      by_cases h2 : comp element.1 key = true
      · rw [if_pos h2]
        obtain ⟨r1, s1, he, ho1, hel, hp, ha⟩ := ihr hor key
        rw [he]
        have hkl : ∀ e ∈ left.elements, e.1 ≠ key := fun e h3 h4 => by
          have := hc.trans _ _ _ (hl e h3) h2
          rw [h4, hc.irrefl] at this; cases this
        have hke : element.1 ≠ key := fun h3 => by rw [h3, hc.irrefl] at h2; cases h2
        have hiff : (∃ e ∈ (Node.mk element left right).elements, e.1 = key) ↔
            ∃ e ∈ right.elements, e.1 = key := by
          simp only [Node.elements, List.mem_append, List.mem_cons]
          constructor
          · rintro ⟨e, h3 | h3 | h3, h4⟩
            · exact absurd h4 (hkl e h3)
            · subst h3; exact absurd h4 hke
            · exact ⟨e, h3, h4⟩
          · rintro ⟨e, h3, h4⟩; exact ⟨e, Or.inr (Or.inr h3), h4⟩
        refine ⟨Node.mk element left r1, s1, rfl,
          ⟨hol, ho1, hl, fun e h3 => hr e ((hel e).mp h3).1⟩, ?_, ?_, ?_⟩
        · intro e
          simp only [Node.elements, List.mem_append, List.mem_cons, hel]
          constructor
          · rintro (h3 | h3 | ⟨h3, h4⟩)
            · exact ⟨Or.inl h3, hkl e h3⟩
            · subst h3; exact ⟨Or.inr (Or.inl rfl), hke⟩
            · exact ⟨Or.inr (Or.inr h3), h4⟩
          · rintro ⟨h3 | h3 | h3, h4⟩
            · exact Or.inl h3
            · exact Or.inr (Or.inl h3)
            · exact Or.inr (Or.inr ⟨h3, h4⟩)
        · intro h3
          obtain ⟨h4, h5⟩ := hp (hiff.mp h3)
          exact ⟨h4, by simp only [Node.count]; omega⟩
        · intro h3
          obtain ⟨h4, h5⟩ := ha (fun h => h3 (hiff.mpr h))
          exact ⟨h4, by simp only [Node.count]; omega⟩
      · rw [if_neg h2]
        have hk : key = element.1 := hc.total _ _ (by simpa using h1) (by simpa using h2)
        have hkl : ∀ e ∈ left.elements, e.1 ≠ key := fun e h3 h4 => by
          have := hl e h3
          rw [h4, hk, hc.irrefl] at this; cases this
        have hkr : ∀ e ∈ right.elements, e.1 ≠ key := fun e h3 h4 => by
          have := hr e h3
          rw [h4, hk, hc.irrefl] at this; cases this
        have hpres : ∃ e ∈ (Node.mk element left right).elements, e.1 = key :=
          ⟨element, by simp [Node.elements], hk.symm⟩
        have hmem : ∀ e, (e ∈ (Node.mk element left right).elements ∧ e.1 ≠ key) ↔
            (e ∈ left.elements ∨ e ∈ right.elements) := by
          intro e
          simp only [Node.elements, List.mem_append, List.mem_cons]
          constructor
          · rintro ⟨h3 | h3 | h3, h4⟩
            · exact Or.inl h3
            · subst h3; exact absurd hk.symm h4
            · exact Or.inr h3
          · rintro (h3 | h3)
            · exact ⟨Or.inl h3, hkl e h3⟩
            · exact ⟨Or.inr (Or.inr h3), hkr e h3⟩
        by_cases hln : left.is_null = true
        · have hlnull := (is_null_iff left).mp hln
          by_cases hrn : right.is_null = true
          · have hrnull := (is_null_iff right).mp hrn
            refine ⟨Node.null, decrement size, by simp [hln, hrn], trivial, ?_, ?_, ?_⟩
            · intro e; rw [hmem, hlnull, hrnull]; simp [Node.elements]
            · intro _; exact ⟨rfl, by rw [hlnull, hrnull]; simp [Node.count]⟩
            · intro h; exact absurd hpres h
          · refine ⟨right, decrement size, by simp [hln, hrn], hor, ?_, ?_, ?_⟩
            · intro e; rw [hmem, hlnull]; simp [Node.elements]
            · intro _; exact ⟨rfl, by rw [hlnull]; simp [Node.count]; omega⟩
            · intro h; exact absurd hpres h
        · by_cases hrn : right.is_null = true
          · have hrnull := (is_null_iff right).mp hrn
            refine ⟨left, decrement size, by simp [hln, hrn], hol, ?_, ?_, ?_⟩
            · intro e; rw [hmem, hrnull]; simp [Node.elements]
            · intro _; exact ⟨rfl, by rw [hrnull]; simp [Node.count]⟩
            · intro h; exact absurd hpres h
          · obtain ⟨s, hs, hsm, hmin⟩ := min_spec hc right hor (by simpa using hrn)
            obtain ⟨r1, s1, he, ho1, hel, hp, _⟩ := ihr hor s.1
            obtain ⟨h4, h5⟩ := hp ⟨s, hsm, rfl⟩
            refine ⟨Node.mk s left r1, s1, ?_, ⟨hol, ho1, ?_, ?_⟩, ?_, ?_, ?_⟩
            · simp only [hln, hrn, Bool.false_and, Bool.and_false, Bool.not_false,
                Bool.false_eq_true, if_false, hs, he, Option.map_some']
            · intro e h3
              exact hc.trans _ _ _ (hl e h3) (hr s hsm)
            · intro e h3
              obtain ⟨h6, h7⟩ := (hel e).mp h3
              rcases hmin e h6 with h8 | h8
              · exact absurd (by rw [h8]) h7
              · exact h8
            · intro e
              rw [hmem]
              simp only [Node.elements, List.mem_append, List.mem_cons, hel]
              constructor
              · rintro (h3 | h3 | ⟨h3, _⟩)
                · exact Or.inl h3
                · subst h3; exact Or.inr hsm
                · exact Or.inr h3
              · rintro (h3 | h3)
                · exact Or.inl h3
                · by_cases h6 : e.1 = s.1
                  · exact Or.inr (Or.inl (elements_key_unique hc right hor e s h3 hsm h6))
                  · exact Or.inr (Or.inr ⟨h3, h6⟩)
            · intro _; exact ⟨h4, by simp only [Node.count]; omega⟩
            · intro h; exact absurd hpres h

theorem insert_spec {comp : K → K → Bool} (hc : StrictTotal comp) (t : Node K V)
    (ho : Node.Ordered comp t) (x : K × V) (size : Nat) :
    Node.Ordered comp (t.insert comp x size).1 ∧
      (∀ e, e ∈ (t.insert comp x size).1.elements ↔ e = x ∨ (e ∈ t.elements ∧ e.1 ≠ x.1)) ∧
      ((∃ e ∈ t.elements, e.1 = x.1) →
        (t.insert comp x size).2 = size ∧ (t.insert comp x size).1.count = t.count) ∧
      ((¬ ∃ e ∈ t.elements, e.1 = x.1) →
        (t.insert comp x size).2 = size + 1 ∧ (t.insert comp x size).1.count = t.count + 1) := by
  induction t with
  | null =>
    refine ⟨⟨trivial, trivial, by simp [Node.elements], by simp [Node.elements]⟩, ?_, ?_, ?_⟩
    · intro e; simp [Node.insert, Node.elements]
    · rintro ⟨e, he, _⟩; simp [Node.elements] at he
    · intro _; exact ⟨rfl, by simp [Node.insert, Node.count]⟩
  | mk element left right ihl ihr =>
    obtain ⟨hol, hor, hl, hr⟩ := ho
    unfold Node.insert
    by_cases h1 : comp x.1 element.1 = true
    · rw [if_pos h1]
      obtain ⟨ho1, hel, hp, ha⟩ := ihl hol
      have hkr : ∀ e ∈ right.elements, e.1 ≠ x.1 := fun e h2 h3 => by
        have := hc.trans _ _ _ h1 (hr e h2)
        rw [h3, hc.irrefl] at this; cases this
      have hke : element.1 ≠ x.1 := fun h3 => by rw [h3, hc.irrefl] at h1; cases h1
      have hiff : (∃ e ∈ (Node.mk element left right).elements, e.1 = x.1) ↔
          ∃ e ∈ left.elements, e.1 = x.1 := by
        simp only [Node.elements, List.mem_append, List.mem_cons]
        constructor
        · rintro ⟨e, h2 | h2 | h2, h3⟩
          · exact ⟨e, h2, h3⟩
          · subst h2; exact absurd h3 hke
          · exact absurd h3 (hkr e h2)
        · rintro ⟨e, h2, h3⟩; exact ⟨e, Or.inl h2, h3⟩
      refine ⟨⟨ho1, hor, ?_, hr⟩, ?_, ?_, ?_⟩
      · intro e h2
        rcases (hel e).mp h2 with h3 | ⟨h3, _⟩
        · rw [h3]; exact h1
        · exact hl e h3
      · intro e
        simp only [Node.elements, List.mem_append, List.mem_cons, hel]
        constructor
        · rintro ((h2 | ⟨h2, h3⟩) | h2 | h2)
          · exact Or.inl h2
          · exact Or.inr ⟨Or.inl h2, h3⟩
          · subst h2; exact Or.inr ⟨Or.inr (Or.inl rfl), hke⟩
          · exact Or.inr ⟨Or.inr (Or.inr h2), hkr e h2⟩
        · rintro (h2 | ⟨h2 | h2 | h2, h3⟩)
          · exact Or.inl (Or.inl h2)
          · exact Or.inl (Or.inr ⟨h2, h3⟩)
          · exact Or.inr (Or.inl h2)
          · exact Or.inr (Or.inr h2)
      · intro h2
        obtain ⟨h3, h4⟩ := hp (hiff.mp h2)
        exact ⟨h3, by simp only [Node.count]; omega⟩
      · intro h2
        obtain ⟨h3, h4⟩ := ha (fun h => h2 (hiff.mpr h))
        exact ⟨h3, by simp only [Node.count]; omega⟩
    · rw [if_neg h1]
      by_cases h2 : comp element.1 x.1 = true
      · rw [if_pos h2]
        obtain ⟨ho1, hel, hp, ha⟩ := ihr hor
        have hkl : ∀ e ∈ left.elements, e.1 ≠ x.1 := fun e h3 h4 => by
          have := hc.trans _ _ _ (hl e h3) h2
          rw [h4, hc.irrefl] at this; cases this
        have hke : element.1 ≠ x.1 := fun h3 => by rw [h3, hc.irrefl] at h2; cases h2
        have hiff : (∃ e ∈ (Node.mk element left right).elements, e.1 = x.1) ↔
            ∃ e ∈ right.elements, e.1 = x.1 := by
          simp only [Node.elements, List.mem_append, List.mem_cons]
          constructor
          · rintro ⟨e, h3 | h3 | h3, h4⟩
            · exact absurd h4 (hkl e h3)
            · subst h3; exact absurd h4 hke
            · exact ⟨e, h3, h4⟩
          · rintro ⟨e, h3, h4⟩; exact ⟨e, Or.inr (Or.inr h3), h4⟩
        refine ⟨⟨hol, ho1, hl, ?_⟩, ?_, ?_, ?_⟩
        · intro e h3
          rcases (hel e).mp h3 with h4 | ⟨h4, _⟩
          · rw [h4]; exact h2
          · exact hr e h4
        · intro e
          simp only [Node.elements, List.mem_append, List.mem_cons, hel]
          constructor
          · rintro (h3 | h3 | h3 | ⟨h3, h4⟩)
            · exact Or.inr ⟨Or.inl h3, hkl e h3⟩
            · subst h3; exact Or.inr ⟨Or.inr (Or.inl rfl), hke⟩
            · exact Or.inl h3
            · exact Or.inr ⟨Or.inr (Or.inr h3), h4⟩
          · rintro (h3 | ⟨h3 | h3 | h3, h4⟩)
            · exact Or.inr (Or.inr (Or.inl h3))
            · exact Or.inl h3
            · exact Or.inr (Or.inl h3)
            · exact Or.inr (Or.inr (Or.inr ⟨h3, h4⟩))
        · intro h3
          obtain ⟨h4, h5⟩ := hp (hiff.mp h3)
          exact ⟨h4, by simp only [Node.count]; omega⟩
        · intro h3
          obtain ⟨h4, h5⟩ := ha (fun h => h3 (hiff.mpr h))
          exact ⟨h4, by simp only [Node.count]; omega⟩
      · rw [if_neg h2]
        have hk : x.1 = element.1 := hc.total _ _ (by simpa using h1) (by simpa using h2)
        have hkl : ∀ e ∈ left.elements, e.1 ≠ x.1 := fun e h3 h4 => by
          have := hl e h3
          rw [h4, hk, hc.irrefl] at this; cases this
        have hkr : ∀ e ∈ right.elements, e.1 ≠ x.1 := fun e h3 h4 => by
          have := hr e h3
          rw [h4, hk, hc.irrefl] at this; cases this
        have hx : (element.1, x.2) = x := by rw [← hk]
        refine ⟨⟨hol, hor, hl, hr⟩, ?_, ?_, ?_⟩
        · intro e
          simp only [Node.elements, List.mem_append, List.mem_cons, hx]
          constructor
          · rintro (h3 | h3 | h3)
            · exact Or.inr ⟨Or.inl h3, hkl e h3⟩
            · exact Or.inl h3
            · exact Or.inr ⟨Or.inr (Or.inr h3), hkr e h3⟩
          · rintro (h3 | ⟨h3 | h3 | h3, h4⟩)
            · exact Or.inr (Or.inl h3)
            · exact Or.inl h3
            · subst h3; exact absurd hk.symm h4
            · exact Or.inr (Or.inr h3)
        · intro _; exact ⟨rfl, by simp [Node.count]⟩
        · intro h
          exact absurd ⟨element, by simp [Node.elements], hk.symm⟩ h

theorem insert_comp (t : BinarySearchTree K V) (x : K × V) : (t.insert x).comp = t.comp := rfl

theorem erase_some (t t1 : BinarySearchTree K V) (key : K) (h : t.erase key = some t1) :
    t1.comp = t.comp ∧ t._root.erase t.comp key t._size = some (t1._root, t1._size) := by
  unfold BinarySearchTree.erase at h
  cases hr : t._root.erase t.comp key t._size with
  | none => rw [hr] at h; simp at h
  | some r =>
    rw [hr] at h
    simp only [Option.map_some', Option.some.injEq] at h
    subst h
    exact ⟨rfl, rfl⟩

theorem decrement_pos (size : Nat) (h : 0 < size) : decrement size + 1 = size := by
  unfold decrement
  rw [if_neg (by omega)]
  omega

theorem reachable_ordered (t : BinarySearchTree K V) (hR : Reachable t)
    (hc : StrictTotal t.comp) : Node.Ordered t.comp t._root ∧ t._size = t._root.count := by
  induction hR with
  | empty comp => exact ⟨trivial, rfl⟩
  | insert t x _ ih =>
    have hc1 : StrictTotal t.comp := hc
    obtain ⟨ho, hs⟩ := ih hc1
    obtain ⟨ho1, _, hp, ha⟩ := insert_spec hc1 t._root ho x t._size
    refine ⟨ho1, ?_⟩
    show (t._root.insert t.comp x t._size).2 = (t._root.insert t.comp x t._size).1.count
    by_cases h : ∃ e ∈ t._root.elements, e.1 = x.1
    · obtain ⟨h1, h2⟩ := hp h; rw [h1, h2]; exact hs
    · obtain ⟨h1, h2⟩ := ha h; rw [h1, h2, hs]
  | erase t t1 key _ he ih =>
    obtain ⟨hcomp, he1⟩ := erase_some t t1 key he
    rw [hcomp] at hc ⊢
    obtain ⟨ho, hs⟩ := ih hc
    obtain ⟨r1, s1, he2, ho1, _, hp, ha⟩ := erase_spec hc t._root ho key t._size
    rw [he1] at he2
    simp only [Option.some.injEq, Prod.mk.injEq] at he2
    obtain ⟨h1, h2⟩ := he2
    rw [h1, h2]
    refine ⟨ho1, ?_⟩
    by_cases h : ∃ e ∈ t._root.elements, e.1 = key
    · obtain ⟨h3, h4⟩ := hp h
      have := decrement_pos t._size (by omega)
      omega
    · obtain ⟨h3, h4⟩ := ha h
      omega

theorem ordered_pairwise {comp : K → K → Bool} (hc : StrictTotal comp) (t : Node K V)
    (ho : Node.Ordered comp t) :
    t.elements.Pairwise (fun a b => comp a.1 b.1 = true) := by
  induction t with
  | null => exact List.Pairwise.nil
  | mk element left right ihl ihr =>
    obtain ⟨hol, hor, hl, hr⟩ := ho
    simp only [Node.elements]
    rw [List.pairwise_append]
    refine ⟨ihl hol, List.pairwise_cons.mpr ⟨hr, ihr hor⟩, ?_⟩
    intro a ha b hb
    rcases List.mem_cons.mp hb with h | h
    · rw [h]; exact hl a ha
    · exact hc.trans _ _ _ (hl a ha) (hr b h)

theorem less_strict_total : StrictTotal less := by
  refine ⟨?_, ?_, ?_⟩
  · intro x; simp [less]
  · intro x y z; simp only [less, decide_eq_true_eq]; omega
  · intro x y; simp only [less, decide_eq_false_iff_not]; omega

theorem ex_tree_eq :
    (((((BinarySearchTree.mk_empty less).insert (5, 50)).insert (3, 30)).insert (8, 80)).insert
      (7, 70)).insert (9, 90) = ex_tree := by
  rfl

theorem ex_tree_reachable : Reachable ex_tree := by
  rw [← ex_tree_eq]
  exact Reachable.insert _ (9, 90) (Reachable.insert _ (7, 70) (Reachable.insert _ (8, 80)
    (Reachable.insert _ (3, 30) (Reachable.insert _ (5, 50) (Reachable.empty less)))))

/-- C29: every tree obtained from an empty one by `insert` and `erase`, with `comp` a
strict total order, is a binary search tree (every key in a node's left subtree is
`comp`-below the node's key, every key in its right subtree `comp`-above), its keys in
order are strictly increasing, so unique, and `size()` is the number of nodes. -/
theorem search_tree_invariant (t : BinarySearchTree K V) (hR : Reachable t)
    (hc : StrictTotal t.comp) :
    Node.Ordered t.comp t._root ∧
    (t._root.elements.map Prod.fst).Pairwise (fun a b => t.comp a b = true) ∧
    (t._root.elements.map Prod.fst).Nodup ∧
    t.size = t._root.count ∧ t.size = t._root.elements.length := by
  obtain ⟨ho, hs⟩ := reachable_ordered t hR hc
  have hp := ordered_pairwise hc t._root ho
  have hcount : ∀ n : Node K V, n.count = n.elements.length := by
    intro n
    induction n with
    | null => rfl
    | mk element left right ihl ihr => simp [Node.count, Node.elements, ihl, ihr]; omega
  refine ⟨ho, List.pairwise_map.mpr hp, ?_, hs, by rw [← hcount]; exact hs⟩
  exact List.pairwise_map.mpr (hp.imp (fun h => strict_total_ne hc _ _ h))

theorem search_tree_invariant_witness :
    Reachable ex_tree ∧ StrictTotal ex_tree.comp ∧ ex_tree.size = 5 ∧
    (Node.Ordered ex_tree.comp ex_tree._root ∧
    (ex_tree._root.elements.map Prod.fst).Pairwise (fun a b => ex_tree.comp a b = true) ∧
    (ex_tree._root.elements.map Prod.fst).Nodup ∧
    ex_tree.size = ex_tree._root.count ∧ ex_tree.size = ex_tree._root.elements.length) :=
  ⟨ex_tree_reachable, less_strict_total, rfl,
    search_tree_invariant ex_tree ex_tree_reachable less_strict_total⟩

/-- C30: on a tree reachable by `insert` and `erase`, with `comp` a strict total order,
`erase(k)` returns; afterwards `contains(k)` is false, `contains(j)` and the value found
for `j` are unchanged for every other key `j`, and `size()` is one less if `k` was
present (also when its node had two children) and unchanged if `k` was absent. -/
theorem erase_removes_key (t : BinarySearchTree K V) (hR : Reachable t)
    (hc : StrictTotal t.comp) (k : K) :
    ∃ t1 : BinarySearchTree K V, t.erase k = some t1 ∧ t1.contains k = false ∧
      (∀ j : K, j ≠ k → t1.contains j = t.contains j ∧ t1.find j = t.find j) ∧
      (t.contains k = true → t1.size + 1 = t.size) ∧
      (t.contains k = false → t1.size = t.size) ∧
      t1.comp = t.comp ∧ Reachable t1 := by
  obtain ⟨ho, hs⟩ := reachable_ordered t hR hc
  obtain ⟨r1, s1, he, ho1, hel, hp, ha⟩ := erase_spec hc t._root ho k t._size
  have het : t.erase k = some { t with _root := r1, _size := s1 } := by
    unfold BinarySearchTree.erase
    rw [he]; rfl
  have hfind : ∀ j : K, j ≠ k → r1.find t.comp j = t._root.find t.comp j := by
    intro j hj
    apply Option.ext
    intro e
    rw [Option.mem_def, Option.mem_def, find_iff hc r1 ho1, find_iff hc t._root ho, hel]
    constructor
    · rintro ⟨⟨h1, _⟩, h2⟩; exact ⟨h1, h2⟩
    · rintro ⟨h1, h2⟩; exact ⟨⟨h1, by rw [h2]; exact hj⟩, h2⟩
  refine ⟨{ t with _root := r1, _size := s1 }, het, ?_, ?_, ?_, ?_, rfl,
    Reachable.erase t _ k hR het⟩
  · show r1.contains t.comp k = false
    cases hcn : r1.contains t.comp k with
    | false => rfl
    | true =>
      obtain ⟨e, h1, h2⟩ := (contains_iff hc r1 ho1 k).mp hcn
      exact absurd h2 ((hel e).mp h1).2
  · intro j hj
    refine ⟨?_, ?_⟩
    · show r1.contains t.comp j = t._root.contains t.comp j
      rw [contains_eq_find, contains_eq_find, hfind j hj]
    · show (r1.find t.comp j).map Prod.snd = (t._root.find t.comp j).map Prod.snd
      rw [hfind j hj]
  · intro hck
    obtain ⟨h1, h2⟩ := hp ((contains_iff hc t._root ho k).mp hck)
    show s1 + 1 = t._size
    rw [h1]
    exact decrement_pos t._size (by omega)
  · intro hck
    have : ¬ ∃ e ∈ t._root.elements, e.1 = k := by
      intro h
      have h1 : t.contains k = true := (contains_iff hc t._root ho k).mpr h
      rw [hck] at h1
      cases h1
    exact (ha this).1

theorem erase_removes_key_witness :
    Reachable ex_tree ∧ StrictTotal ex_tree.comp ∧ ex_tree.contains 5 = true ∧
    (ex_tree.erase 5).map (fun t => (t._root.elements, t._size))
      = some ([(3, 30), (7, 70), (8, 80), (9, 90)], 4) ∧
    (ex_tree.erase 5).map (fun t => t._root)
      = some (Node.mk (7, 70) (Node.mk (3, 30) Node.null Node.null)
          (Node.mk (8, 80) Node.null (Node.mk (9, 90) Node.null Node.null))) ∧
    ∃ t1 : BinarySearchTree Int Int, ex_tree.erase 5 = some t1 ∧ t1.contains 5 = false ∧
      (∀ j : Int, j ≠ 5 → t1.contains j = ex_tree.contains j ∧ t1.find j = ex_tree.find j) ∧
      (ex_tree.contains 5 = true → t1.size + 1 = ex_tree.size) ∧
      (ex_tree.contains 5 = false → t1.size = ex_tree.size) ∧
      t1.comp = ex_tree.comp ∧ Reachable t1 :=
  ⟨ex_tree_reachable, less_strict_total, by rfl, by rfl, by rfl,
    erase_removes_key ex_tree ex_tree_reachable less_strict_total 5⟩

/-! ## The move constructor -/

/-- C31: after move construction the new tree holds the former root and size of the
source, and the source has no root, but its `_size` is still the former size (the
member initialiser copies `rhs._size` and `swap` exchanges two equal values): `size()`
is the old size and `empty()` is false unless the source was empty.  For the five-node
example the moved-from tree reports size 5, and 6 after one insertion into it, which gives
it a single node. -/
theorem move_construct_keeps_source_size (default_comp : K → K → Bool)
    (rhs : BinarySearchTree K V) :
    (move_construct default_comp rhs).1._root = rhs._root ∧
    (move_construct default_comp rhs).1.size = rhs.size ∧
    (move_construct default_comp rhs).1.comp = default_comp ∧
    (move_construct default_comp rhs).2._root = Node.null ∧
    (move_construct default_comp rhs).2.size = rhs.size ∧
    ((move_construct default_comp rhs).2.empty = true ↔ rhs.size = 0) ∧
    (Reachable ex_tree ∧ ex_tree.size = 5 ∧
      (move_construct less ex_tree).2.size = 5 ∧
      (move_construct less ex_tree).2.empty = false ∧
      (move_construct less ex_tree).2._root.count = 0 ∧
      ((move_construct less ex_tree).2.insert (1, 10)).size = 6 ∧
      ((move_construct less ex_tree).2.insert (1, 10))._root.count = 1) := by
  refine ⟨rfl, rfl, rfl, rfl, rfl, ?_, ex_tree_reachable, rfl, rfl, rfl, rfl, rfl, rfl⟩
  simp [move_construct, BinarySearchTree.swap, BinarySearchTree.empty, BinarySearchTree.size]

end BST
